import Mathlib

/-! # AutomationGraph: node state machine, graph walks, executor, scheduler queue, controller lock

A shallow embedding of the execution engine of the AutomationGraph plugin
(`AutomationGraphNode.cpp`, `AutomationGraph.cpp`, `AutomationGraphExecutor.cpp`,
`AutomationGraphSubsystem.cpp`), of the nodes of `ClearLandscapeLayers.cpp` and
`RunTests.cpp`, and of the connection check of `EdGraph_AutomationGraph.cpp`.

* Objects live in a heap. Node objects are addressed by `Fin n`, so a strong
  pointer (`TObjectPtr`, raw pointer) always designates a node record; a weak
  pointer additionally consults the liveness flag `Heap.Valid`.
* `float` quantities are exact rationals.
* `TSet` is a duplicate-free list in insertion order; `TArray` used as a stack
  (`Add`/`Pop`) is a list whose head is the top of the stack.
* Virtual member functions of a node are the fields of `NodeClass`; they act on
  the node's own members (`NodeMembers`).
* `Heap.Trace` is a ghost log of the member-function calls made on nodes.
-/

namespace AutomationGraph

/-! ## Enumerations -/

/-- Modelled from the spec: the declaration of `EAutomationGraphNodeState`
(`AutomationGraphTypes.h`) is not among the sources. The enumerators are the ones
the sources name; their order is the one the spec gives
(`Uninitialized → Standby → Active → {Finished | Expired | Error | Cancelled}`). -/
inductive EAutomationGraphNodeState where
  | Uninitialized
  | Standby
  | Active
  | Finished
  | Expired
  | Error
  | Cancelled
  deriving DecidableEq, Repr

/-- Modelled from the spec: underlying value of the enumerators, used by the
comparisons `NodeState < Finished` and `NodeState < Active` of the sources. -/
def EAutomationGraphNodeState.toNat : EAutomationGraphNodeState → Nat
  | .Uninitialized => 0
  | .Standby => 1
  | .Active => 2
  | .Finished => 3
  | .Expired => 4
  | .Error => 5
  | .Cancelled => 6

/-- Modelled from the spec: the declaration of `EAutomationGraphNodeTrigger`
(`AutomationGraphTypes.h`) is not among the sources; these are the enumerators
the sources use. -/
inductive EAutomationGraphNodeTrigger where
  | Unknown
  | OnPlay
  | OnStartup
  deriving DecidableEq, Repr

/-- Handle of a `UWorld`; the engine does not look inside it. -/
abbrev UWorld := Nat

/-! ## TSet -/

/-- `TSet::Add`: insert unless already present. -/
def TSet.Add {α : Type} [DecidableEq α] (s : List α) (x : α) : List α :=
  if x ∈ s then s else s ++ [x]

/-- `TSet::Append`: add every element of the other container. -/
def TSet.Append {α : Type} [DecidableEq α] (s t : List α) : List α :=
  t.foldl TSet.Add s

/-- `TSet::Remove`: remove the element if present. -/
def TSet.Remove {α : Type} [DecidableEq α] (s : List α) (x : α) : List α :=
  s.filter (fun y => decide (y ≠ x))

/-! ## Node -/

/-- The data members of `UAutomationGraphNode` that node code writes
(`AutomationGraphNode.h`): `NodeState`, `TimeElapsedSec`, `NodeTimeoutSec`. -/
structure NodeMembers where
  NodeState : EAutomationGraphNodeState := .Uninitialized
  TimeElapsedSec : Rat := 0
  NodeTimeoutSec : Rat := 300

/-- `UAutomationGraphNode::SetState`. -/
def UAutomationGraphNode.SetState (m : NodeMembers) (NewState : EAutomationGraphNodeState) :
    NodeMembers × EAutomationGraphNodeState :=
  let m1 : NodeMembers := { m with NodeState := NewState }
  match NewState with
  | .Uninitialized => ({ m1 with TimeElapsedSec := 0 }, m1.NodeState)
  | .Standby => ({ m1 with TimeElapsedSec := 0 }, m1.NodeState)
  | _ => (m1, m1.NodeState)

/-- `UAutomationGraphNode::Initialize` (the base implementation). -/
def UAutomationGraphNode.Initialize (m : NodeMembers) (_World : UWorld) : NodeMembers × Bool :=
  if m.NodeState = .Active then (m, false)
  else ((UAutomationGraphNode.SetState m .Standby).1, true)

/-- `UAutomationGraphNode::ActivateInternal` (the base implementation). -/
def UAutomationGraphNode.ActivateInternal (m : NodeMembers) (_DeltaSeconds : Rat) :
    NodeMembers × EAutomationGraphNodeState :=
  if m.NodeState = .Standby then UAutomationGraphNode.SetState m .Active
  else if m.NodeState = .Active then UAutomationGraphNode.SetState m .Finished
  else (m, m.NodeState)

/-- `UAutomationGraphNode::CancelInternal` (the base implementation, empty). -/
def UAutomationGraphNode.CancelInternal (m : NodeMembers) : NodeMembers := m

/-- The virtual member functions of a node class. `Cleanup` is virtual too; by
its contract in `AutomationGraphNode.h` it releases resources and does not
change the node state, so it has no effect on `NodeMembers` and only appears in
the call trace. -/
structure NodeClass where
  Initialize : NodeMembers → UWorld → NodeMembers × Bool
  ActivateInternal : NodeMembers → Rat → NodeMembers × EAutomationGraphNodeState
  CancelInternal : NodeMembers → NodeMembers
  GetTriggers : List EAutomationGraphNodeTrigger

/-- The class `UAutomationGraphNode` itself: no member function overridden. -/
def UAutomationGraphNode.StaticClass : NodeClass where
  Initialize := UAutomationGraphNode.Initialize
  ActivateInternal := UAutomationGraphNode.ActivateInternal
  CancelInternal := UAutomationGraphNode.CancelInternal
  GetTriggers := [.OnPlay]

/-- `UAutomationGraphNode::CanActivate`. -/
def UAutomationGraphNode.CanActivate (m : NodeMembers) : Bool :=
  decide (m.NodeState = .Standby) || decide (m.NodeState = .Active)

/-- `UAutomationGraphNode::Activate`. -/
def UAutomationGraphNode.Activate (cls : NodeClass) (m : NodeMembers) (DeltaSeconds : Rat) :
    NodeMembers × EAutomationGraphNodeState :=
  let m1 : NodeMembers :=
    if m.NodeState = .Active then { m with TimeElapsedSec := m.TimeElapsedSec + DeltaSeconds }
    else m
  if m1.TimeElapsedSec ≥ m1.NodeTimeoutSec then UAutomationGraphNode.SetState m1 .Expired
  else cls.ActivateInternal m1 DeltaSeconds

/-- `UAutomationGraphNode::Cancel`, effect on the members (the `Cleanup` call
that ends it is recorded by `Heap.Cancel`). -/
def UAutomationGraphNode.Cancel (cls : NodeClass) (m : NodeMembers) : NodeMembers :=
  if m.NodeState.toNat < EAutomationGraphNodeState.Finished.toNat then
    (UAutomationGraphNode.SetState (cls.CancelInternal m) .Cancelled).1
  else m

/-- `UAutomationGraphNode::Uninitialize`, effect on the members. -/
def UAutomationGraphNode.Uninitialize (m : NodeMembers) : NodeMembers :=
  (UAutomationGraphNode.SetState m .Uninitialized).1

/-- A node object: its members, its links and its dynamic class. -/
structure UAutomationGraphNode (n : Nat) extends NodeMembers where
  ParentNodes : List (Fin n) := []
  ChildNodes : List (Fin n) := []
  Class : NodeClass := UAutomationGraphNode.StaticClass

/-- `UAutomationGraph`: the member the engine reads is `RootNodes`. -/
structure UAutomationGraph (n : Nat) where
  RootNodes : List (Fin n)

/-! ## Heap and call trace -/

/-- A member-function call on a node. `Activate` also records what the
call found: the node's state and whether every entry of its `ParentNodes` was
`Finished` at that moment. -/
inductive Call (n : Nat) where
  | Initialize (Node : Fin n)
  | Uninitialize (Node : Fin n)
  | Activate (Node : Fin n) (DeltaSeconds : Rat) (StateAtCall : EAutomationGraphNodeState)
      (ParentsFinishedAtCall : Bool)
  | Cancel (Node : Fin n)
  | CancelInternal (Node : Fin n)
  | Cleanup (Node : Fin n)
  deriving DecidableEq

/-- The object store: node objects, which of them are still alive (what a
`TWeakObjectPtr` to the node observes), the live graph objects by identity, and
the ghost trace of calls. -/
structure Heap (n : Nat) where
  Node : Fin n → UAutomationGraphNode n
  Valid : Fin n → Bool
  Graph : Nat → Option (UAutomationGraph n)
  Trace : List (Call n) := []

/-- `GetState()` of node `v`. -/
def Heap.GetState {n : Nat} (h : Heap n) (v : Fin n) : EAutomationGraphNodeState :=
  (h.Node v).NodeState

/-- Write the members of node `v`. -/
def Heap.setMembers {n : Nat} (h : Heap n) (v : Fin n) (m : NodeMembers) : Heap n :=
  { h with Node := Function.update h.Node v { h.Node v with toNodeMembers := m } }

/-- Append a call to the trace. -/
def Heap.log {n : Nat} (h : Heap n) (c : Call n) : Heap n :=
  { h with Trace := h.Trace ++ [c] }

/-- Whether every entry of `ParentNodes` of `v` is `Finished`. -/
def Heap.ParentsFinished {n : Nat} (h : Heap n) (v : Fin n) : Bool :=
  (h.Node v).ParentNodes.all (fun p => decide (h.GetState p = .Finished))

/-- `UAutomationGraphNode::CanStartActivation` of node `v`. -/
def Heap.CanStartActivation {n : Nat} (h : Heap n) (v : Fin n) : Bool :=
  if h.GetState v ≠ .Standby then false
  else if (h.Node v).ParentNodes.isEmpty then true
  else (h.Node v).ParentNodes.all (fun p => decide (h.GetState p = .Finished))

/-- Call `Initialize(World)` on node `v` (virtual dispatch). -/
def Heap.Initialize {n : Nat} (h : Heap n) (v : Fin n) (World : UWorld) : Heap n × Bool :=
  let r := (h.Node v).Class.Initialize (h.Node v).toNodeMembers World
  ((h.log (.Initialize v)).setMembers v r.1, r.2)

/-- Call `Activate(DeltaSeconds)` on node `v`. -/
def Heap.Activate {n : Nat} (h : Heap n) (v : Fin n) (DeltaSeconds : Rat) :
    Heap n × EAutomationGraphNodeState :=
  let r := UAutomationGraphNode.Activate (h.Node v).Class (h.Node v).toNodeMembers DeltaSeconds
  ((h.log (.Activate v DeltaSeconds (h.GetState v) (h.ParentsFinished v))).setMembers v r.1, r.2)

/-- Call `Cleanup()` on node `v`. -/
def Heap.Cleanup {n : Nat} (h : Heap n) (v : Fin n) : Heap n :=
  h.log (.Cleanup v)

/-- Call `Cancel()` on node `v`. -/
def Heap.Cancel {n : Nat} (h : Heap n) (v : Fin n) : Heap n :=
  let h0 := h.log (.Cancel v)
  let h1 :=
    if (h0.GetState v).toNat < EAutomationGraphNodeState.Finished.toNat then
      (h0.log (.CancelInternal v)).setMembers v
        (UAutomationGraphNode.Cancel (h0.Node v).Class (h0.Node v).toNodeMembers)
    else h0
  h1.Cleanup v

/-- Call `Uninitialize()` on node `v`. -/
def Heap.Uninitialize {n : Nat} (h : Heap n) (v : Fin n) : Heap n :=
  let c : Call n := Call.Uninitialize v
  let h0 := (h.log c).Cleanup v
  let m := UAutomationGraphNode.Uninitialize (h0.Node v).toNodeMembers
  h0.setMembers v m

/-! ## Graph walks -/

/-- Total length of all `ChildNodes` arrays; bounds the work of a walk. -/
def Heap.EdgeCount {n : Nat} (h : Heap n) : Nat :=
  ((List.finRange n).map (fun v => (h.Node v).ChildNodes.length)).sum

/-- The `while (!NodeStack.IsEmpty())` loop shared by
`UAutomationGraph::CancelNodes` and `UAutomationGraph::UninitializeNodes`
(`AutomationGraph.cpp`); `op` is the member function applied to each node
(`Cancel`, respectively `Uninitialize`). The first argument bounds the number
of iterations; `none` means the bound was reached with the stack non-empty. -/
def UAutomationGraph.walkLoop {n : Nat} (op : Heap n → Fin n → Heap n) :
    Nat → Heap n → List (Fin n) → List (Fin n) → Option (Heap n)
  | _, h, [], _ => some h
  | 0, _, _ :: _, _ => none
  | fuel + 1, h, AutomationNode :: NodeStack, Visited =>
    if AutomationNode ∈ Visited then
      UAutomationGraph.walkLoop op fuel h NodeStack Visited
    else
      let h1 := op h AutomationNode
      UAutomationGraph.walkLoop op fuel h1
        ((h1.Node AutomationNode).ChildNodes.reverse ++ NodeStack)
        (TSet.Add Visited AutomationNode)

/-- `UAutomationGraph::CancelNodes`. -/
def UAutomationGraph.CancelNodes {n : Nat} (g : UAutomationGraph n) (h : Heap n) : Heap n :=
  (UAutomationGraph.walkLoop Heap.Cancel (g.RootNodes.length + h.EdgeCount) h
    g.RootNodes.reverse []).getD h

/-- `UAutomationGraph::UninitializeNodes`. -/
def UAutomationGraph.UninitializeNodes {n : Nat} (g : UAutomationGraph n) (h : Heap n) : Heap n :=
  (UAutomationGraph.walkLoop Heap.Uninitialize (g.RootNodes.length + h.EdgeCount) h
    g.RootNodes.reverse []).getD h

/-! ## Executor -/

/-- Modelled from the spec: `FGraphExecutionTask` (`AutomationGraphTypes.h`, not
among the sources) is a value record of a weak graph reference, a weak world
reference and a trigger. A graph reference is the identity of the graph object
(`none` is the null pointer) and resolves through `Heap.Graph`; a world
reference is `none` when it does not resolve. -/
structure FGraphExecutionTask where
  TargetGraph : Option Nat
  TargetWorld : Option UWorld
  Trigger : EAutomationGraphNodeTrigger
  deriving DecidableEq

/-- The data members of `UAutomationGraphExecutor`. -/
structure UAutomationGraphExecutor (n : Nat) where
  TargetGraph : Option Nat := none
  ActiveNodes : List (Fin n) := []
  TickRateSec : Rat := 0
  ExecutionTimer : Rat := 0

/-- `TWeakObjectPtr<UAutomationGraph>::Get`. -/
def Heap.GetGraph {n : Nat} (h : Heap n) (p : Option Nat) : Option (UAutomationGraph n) :=
  p.bind h.Graph

/-- `UAutomationGraphExecutor::Reset`. -/
def UAutomationGraphExecutor.Reset {n : Nat} (h : Heap n) (ex : UAutomationGraphExecutor n) :
    Heap n × UAutomationGraphExecutor n :=
  let h1 :=
    match h.GetGraph ex.TargetGraph with
    | some CurrentGraph => CurrentGraph.CancelNodes h
    | none => h
  (h1, { ex with TargetGraph := none, ActiveNodes := [], ExecutionTimer := 0 })

/-- `UAutomationGraphExecutor::InitializeNode`. -/
def UAutomationGraphExecutor.InitializeNode {n : Nat} (h : Heap n) (Node : Fin n)
    (World : UWorld) : Heap n × Bool :=
  h.Initialize Node World

/-- Outcome of the cycle-checking walk of `StartExecution`. -/
inductive CycleCheckResult (n : Nat) where
  | Completed (h : Heap n) (Visited : List (Fin n))
  | CycleFound (h : Heap n)
  | OutOfFuel

/-- The `for (ChildNode : GraphNode->ChildNodes)` loop of `StartExecution`:
`none` when a child is among the ancestors, else the stack with every child
pushed together with the ancestor set. -/
def UAutomationGraphExecutor.StartExecution.pushChildren {n : Nat} (Ancestors : List (Fin n)) :
    List (Fin n) → List (Fin n × List (Fin n)) → Option (List (Fin n × List (Fin n)))
  | [], NodeStack => some NodeStack
  | ChildNode :: rest, NodeStack =>
    if ChildNode ∈ Ancestors then none
    else UAutomationGraphExecutor.StartExecution.pushChildren Ancestors rest
      ((ChildNode, Ancestors) :: NodeStack)

/-- The `while (!NodeStack.IsEmpty())` loop of `StartExecution`. The first
argument bounds the number of iterations. -/
def UAutomationGraphExecutor.StartExecution.walk {n : Nat} (World : UWorld) :
    Nat → Heap n → List (Fin n × List (Fin n)) → List (Fin n) → CycleCheckResult n
  | _, h, [], Visited => .Completed h Visited
  | 0, _, _ :: _, _ => .OutOfFuel
  | fuel + 1, h, (GraphNode, Ancestors) :: NodeStack, Visited =>
    if GraphNode ∈ Visited then
      UAutomationGraphExecutor.StartExecution.walk World fuel h NodeStack Visited
    else
      let h1 := (UAutomationGraphExecutor.InitializeNode h GraphNode World).1
      let Visited1 := TSet.Add Visited GraphNode
      let Ancestors1 := TSet.Add Ancestors GraphNode
      match UAutomationGraphExecutor.StartExecution.pushChildren Ancestors1
          (h1.Node GraphNode).ChildNodes NodeStack with
      | none => .CycleFound h1
      | some NodeStack1 =>
        UAutomationGraphExecutor.StartExecution.walk World fuel h1 NodeStack1 Visited1

/-- The root nodes whose `GetTriggers()` contains the trigger. -/
def UAutomationGraph.TriggeredRoots {n : Nat} (g : UAutomationGraph n) (h : Heap n)
    (Trigger : EAutomationGraphNodeTrigger) : List (Fin n) :=
  g.RootNodes.filter (fun Node => decide (Trigger ∈ (h.Node Node).Class.GetTriggers))

/-- Which `return` of `StartExecution` was taken (ghost): one of the three
early returns, the return inside the loop after a cycle was found, or the end of
the function. `OutOfFuel` is the iteration bound of `StartExecution.walk` being
reached; `StartExecution_walk_fuel` shows it never is. -/
inductive StartOutcome where
  | Skipped
  | Started
  | CycleAbort
  | OutOfFuel
  deriving DecidableEq, Repr

/-- `UAutomationGraphExecutor::StartExecution`: the heap and executor
afterwards, and the ghost outcome. `PreInitializeNodes` and
`PostInitializeNodes` are empty in this class. -/
def UAutomationGraphExecutor.StartExecution {n : Nat} (h : Heap n)
    (ex : UAutomationGraphExecutor n) (ExecutionTask : FGraphExecutionTask) :
    (Heap n × UAutomationGraphExecutor n) × StartOutcome :=
  match h.GetGraph ExecutionTask.TargetGraph with
  | none => ((h, ex), .Skipped)
  | some g =>
    match ExecutionTask.TargetWorld with
    | none => ((h, ex), .Skipped)
    | some World =>
      if ExecutionTask.Trigger = .Unknown then ((h, ex), .Skipped)
      else
        let r := UAutomationGraphExecutor.Reset h ex
        let h1 := r.1
        let ex1 : UAutomationGraphExecutor n :=
          { r.2 with TargetGraph := ExecutionTask.TargetGraph }
        let roots := g.TriggeredRoots h1 ExecutionTask.Trigger
        let ex2 : UAutomationGraphExecutor n :=
          { ex1 with ActiveNodes := TSet.Append ex1.ActiveNodes roots }
        let NodeStack := (roots.map (fun Node => (Node, ([] : List (Fin n))))).reverse
        match UAutomationGraphExecutor.StartExecution.walk World
            (roots.length + h1.EdgeCount) h1 NodeStack [] with
        | .Completed h2 _ => ((h2, ex2), .Started)
        | .CycleFound h2 => (UAutomationGraphExecutor.Reset h2 ex2, .CycleAbort)
        | .OutOfFuel => ((h1, ex2), .OutOfFuel)

/-- Outcome of the `for (WeakNode : ActiveNodes)` loop of `Execute`. -/
inductive PassResult (n : Nat) where
  | Completed (h : Heap n) (ToAdd ToRemove : List (Fin n))
  | InvalidNode (h : Heap n)

/-- The `for (ChildNode : CurrentNode->ChildNodes)` loop of the `Finished` case
of `Execute`. -/
def UAutomationGraphExecutor.Execute.activateChildren {n : Nat} (DeltaSeconds : Rat) :
    List (Fin n) → Heap n → List (Fin n) → Heap n × List (Fin n)
  | [], h, ToAdd => (h, ToAdd)
  | ChildNode :: rest, h, ToAdd =>
    if h.CanStartActivation ChildNode then
      UAutomationGraphExecutor.Execute.activateChildren DeltaSeconds rest
        (h.Activate ChildNode DeltaSeconds).1 (TSet.Add ToAdd ChildNode)
    else UAutomationGraphExecutor.Execute.activateChildren DeltaSeconds rest h ToAdd

/-- The `for (WeakNode : ActiveNodes)` loop of `Execute`, over the tracked
references still to be visited. -/
def UAutomationGraphExecutor.Execute.pass {n : Nat} (DeltaSeconds : Rat) :
    List (Fin n) → Heap n → List (Fin n) → List (Fin n) → PassResult n
  | [], h, ToAdd, ToRemove => .Completed h ToAdd ToRemove
  | CurrentNode :: rest, h, ToAdd, ToRemove =>
    if h.Valid CurrentNode = false then .InvalidNode h
    else
      match h.GetState CurrentNode with
      | .Standby | .Active =>
        let h1 :=
          if UAutomationGraphNode.CanActivate (h.Node CurrentNode).toNodeMembers then
            (h.Activate CurrentNode DeltaSeconds).1
          else h
        UAutomationGraphExecutor.Execute.pass DeltaSeconds rest h1 ToAdd ToRemove
      | .Finished =>
        let r := UAutomationGraphExecutor.Execute.activateChildren DeltaSeconds
          (h.Node CurrentNode).ChildNodes h ToAdd
        UAutomationGraphExecutor.Execute.pass DeltaSeconds rest r.1 r.2
          (TSet.Add ToRemove CurrentNode)
      | .Expired | .Cancelled | .Error =>
        UAutomationGraphExecutor.Execute.pass DeltaSeconds rest h ToAdd
          (TSet.Add ToRemove CurrentNode)
      | .Uninitialized =>
        UAutomationGraphExecutor.Execute.pass DeltaSeconds rest h ToAdd
          (TSet.Add ToRemove CurrentNode)

/-- The `for (RemoveNode : ToRemove)` loop of `Execute`. -/
def UAutomationGraphExecutor.Execute.removeNodes {n : Nat} :
    List (Fin n) → Heap n → List (Fin n) → Heap n × List (Fin n)
  | [], h, ActiveNodes => (h, ActiveNodes)
  | RemoveNode :: rest, h, ActiveNodes =>
    let h1 := if h.Valid RemoveNode then h.Cleanup RemoveNode else h
    UAutomationGraphExecutor.Execute.removeNodes rest h1 (TSet.Remove ActiveNodes RemoveNode)

/-- `UAutomationGraphExecutor::Execute`: the heap and executor afterwards, and
the returned flag. -/
def UAutomationGraphExecutor.Execute {n : Nat} (h : Heap n) (ex : UAutomationGraphExecutor n)
    (DeltaSeconds : Rat) : (Heap n × UAutomationGraphExecutor n) × Bool :=
  if ex.ActiveNodes.isEmpty then ((h, ex), false)
  else
    let ex1 : UAutomationGraphExecutor n :=
      { ex with ExecutionTimer := ex.ExecutionTimer - DeltaSeconds }
    if ex1.ExecutionTimer > 0 then ((h, ex1), true)
    else
      let ex2 : UAutomationGraphExecutor n := { ex1 with ExecutionTimer := ex1.TickRateSec }
      match UAutomationGraphExecutor.Execute.pass DeltaSeconds ex2.ActiveNodes h [] [] with
      | .InvalidNode h1 => (UAutomationGraphExecutor.Reset h1 ex2, false)
      | .Completed h1 ToAdd ToRemove =>
        let r := UAutomationGraphExecutor.Execute.removeNodes ToRemove h1
          (TSet.Append ex2.ActiveNodes ToAdd)
        let ex3 : UAutomationGraphExecutor n := { ex2 with ActiveNodes := r.2 }
        ((r.1, ex3), !ex3.ActiveNodes.isEmpty)

/-- `UAutomationGraphExecutor::Cancel`. -/
def UAutomationGraphExecutor.Cancel {n : Nat} (h : Heap n) (ex : UAutomationGraphExecutor n)
    (Graph : Option Nat) : Heap n × UAutomationGraphExecutor n :=
  match h.GetGraph ex.TargetGraph with
  | some CurrentGraph =>
    if Graph = ex.TargetGraph then (CurrentGraph.CancelNodes h, { ex with ActiveNodes := [] })
    else (h, ex)
  | none => (h, ex)

/-! ## Subsystem: the task queue -/

/-- The data members of `UAutomationGraphSubsystem` that the task queue and
the controller lock use.
`UAutomationGraph::GetExecutorType` returns `UAutomationGraphExecutor::StaticClass()`,
so the map `Executors` has at most the entry for that class, held in
`Executors`; `CurrentExecutor` tells whether the pointer of that name designates
that entry (`true`) or is null. `World` is what `GetWorld()` returns.
`AutomationController` is the shared pointer to the controller (a handle, `none`
when the pointer is not valid); `AutomationControllerOwner` is the weak pointer
to the node that holds the lock. -/
structure UAutomationGraphSubsystem (n : Nat) where
  TaskQueue : List FGraphExecutionTask := []
  Executors : Option (UAutomationGraphExecutor n) := none
  CurrentExecutor : Bool := false
  World : Option UWorld := none
  AutomationController : Option Nat := none
  AutomationControllerOwner : Option (Fin n) := none

/-- `UAutomationGraphSubsystem::StartExecution`. -/
def UAutomationGraphSubsystem.StartExecution {n : Nat} (h : Heap n)
    (sub : UAutomationGraphSubsystem n) (ExecutionTask : FGraphExecutionTask) :
    Heap n × UAutomationGraphSubsystem n :=
  let executor : UAutomationGraphExecutor n :=
    match sub.Executors with
    | some FindResult => FindResult
    | none => {}
  let task : FGraphExecutionTask := { ExecutionTask with TargetWorld := sub.World }
  let r := (UAutomationGraphExecutor.StartExecution h executor task).1
  (r.1, { sub with Executors := some r.2, CurrentExecutor := true })

/-- The `while (TaskQueue.Num() > 0)` loop of `Tick`, over the queue content. -/
def UAutomationGraphSubsystem.Tick.drain {n : Nat} :
    List FGraphExecutionTask → Heap n → UAutomationGraphSubsystem n →
    Heap n × UAutomationGraphSubsystem n
  | [], h, sub => (h, { sub with TaskQueue := [] })
  | task :: rest, h, sub =>
    let r :=
      if (h.GetGraph task.TargetGraph).isSome then
        UAutomationGraphSubsystem.StartExecution h sub task
      else (h, sub)
    UAutomationGraphSubsystem.Tick.drain rest r.1 { r.2 with TaskQueue := rest }

/-- `UAutomationGraphSubsystem::Tick`. -/
def UAutomationGraphSubsystem.Tick {n : Nat} (h : Heap n) (sub : UAutomationGraphSubsystem n)
    (DeltaSeconds : Rat) : Heap n × UAutomationGraphSubsystem n :=
  match (if sub.CurrentExecutor then sub.Executors else none) with
  | some executor =>
    let r := UAutomationGraphExecutor.Execute h executor DeltaSeconds
    let sub1 : UAutomationGraphSubsystem n := { sub with Executors := some r.1.2 }
    if r.2 then (r.1.1, sub1)
    else
      UAutomationGraphSubsystem.Tick.drain sub1.TaskQueue r.1.1
        { sub1 with CurrentExecutor := false }
  | none =>
    UAutomationGraphSubsystem.Tick.drain sub.TaskQueue h { sub with CurrentExecutor := false }

/-- `TWeakObjectPtr<UAutomationGraph>::Get` as a pointer: the identity of the
graph when the reference is set and the graph object is still alive, else
null. -/
def Heap.GetGraphPtr {n : Nat} (h : Heap n) (p : Option Nat) : Option Nat :=
  p.bind (fun g => if (h.Graph g).isSome then some g else none)

/-- `TWeakObjectPtr<UAutomationGraphNode>::Get`: the node when the reference is
set and the node object is still alive, else null. -/
def Heap.GetNodePtr {n : Nat} (h : Heap n) (p : Option (Fin n)) : Option (Fin n) :=
  p.bind (fun v => if h.Valid v then some v else none)

/-- `UAutomationGraphSubsystem::EnqueueAutomationGraph`. The new task is
`FGraphExecutionTask(NewGraph, nullptr, EnqueueReason)`. -/
def UAutomationGraphSubsystem.EnqueueAutomationGraph {n : Nat} (h : Heap n)
    (sub : UAutomationGraphSubsystem n) (NewGraph : Option Nat)
    (EnqueueReason : EAutomationGraphNodeTrigger) : UAutomationGraphSubsystem n :=
  match NewGraph with
  | none => sub
  | some _ =>
    if sub.TaskQueue.any (fun GraphTask => decide (h.GetGraphPtr GraphTask.TargetGraph = NewGraph))
    then sub
    else
      { sub with TaskQueue := sub.TaskQueue ++
          [{ TargetGraph := NewGraph, TargetWorld := none, Trigger := EnqueueReason }] }

/-- `UAutomationGraphSubsystem::ClearTaskQueue`. -/
def UAutomationGraphSubsystem.ClearTaskQueue {n : Nat} (sub : UAutomationGraphSubsystem n) :
    UAutomationGraphSubsystem n :=
  { sub with TaskQueue := [] }

/-- `UAutomationGraphSubsystem::LockAutomationController`: the subsystem
afterwards and the returned controller pointer. -/
def UAutomationGraphSubsystem.LockAutomationController {n : Nat} (h : Heap n)
    (sub : UAutomationGraphSubsystem n) (NewOwner : Option (Fin n)) :
    UAutomationGraphSubsystem n × Option Nat :=
  if NewOwner = none ∨ sub.AutomationController = none then (sub, none)
  else
    let CurrentOwner := h.GetNodePtr sub.AutomationControllerOwner
    if CurrentOwner ≠ none ∧ NewOwner ≠ CurrentOwner then (sub, none)
    else ({ sub with AutomationControllerOwner := NewOwner }, sub.AutomationController)

/-- `UAutomationGraphSubsystem::ReleaseAutomationController`: the subsystem
afterwards and the returned flag. -/
def UAutomationGraphSubsystem.ReleaseAutomationController {n : Nat} (h : Heap n)
    (sub : UAutomationGraphSubsystem n) (Owner : Option (Fin n)) :
    UAutomationGraphSubsystem n × Bool :=
  let CurrentOwner := h.GetNodePtr sub.AutomationControllerOwner
  if CurrentOwner ≠ none ∧ Owner ≠ CurrentOwner then (sub, false)
  else ({ sub with AutomationControllerOwner := none }, true)

/-! ## Vocabulary of the properties -/

/-- There is a child edge from `u` to `c`. -/
def Heap.Edge {n : Nat} (h : Heap n) (u c : Fin n) : Prop :=
  c ∈ (h.Node u).ChildNodes

/-- Node `v` is reachable from `u` by child edges (zero or more). -/
def Heap.Reaches {n : Nat} (h : Heap n) (u v : Fin n) : Prop :=
  Relation.ReflTransGen h.Edge u v

/-- Node `v` lies on a child-edge cycle (a self-loop included). -/
def Heap.OnCycle {n : Nat} (h : Heap n) (v : Fin n) : Prop :=
  Relation.TransGen h.Edge v v

/-- Node `v` is reachable by child edges from a root of `g` whose
`GetTriggers()` contains `Trigger`. -/
def UAutomationGraph.ReachableFromTriggered {n : Nat} (g : UAutomationGraph n) (h : Heap n)
    (Trigger : EAutomationGraphNodeTrigger) (v : Fin n) : Prop :=
  ∃ r ∈ g.TriggeredRoots h Trigger, h.Reaches r v

/-- Node `v` is reachable by child edges from a root of `g`. -/
def UAutomationGraph.ReachableFromRoots {n : Nat} (g : UAutomationGraph n) (h : Heap n)
    (v : Fin n) : Prop :=
  ∃ r ∈ g.RootNodes, h.Reaches r v

/-- The calls made since the heap `h0`: the part of the trace of `h` after the
trace of `h0`. -/
def Heap.CallsSince {n : Nat} (h h0 : Heap n) : List (Call n) :=
  h.Trace.drop h0.Trace.length

/-- The call is an `Activate`. -/
def Call.isActivate {n : Nat} : Call n → Bool
  | .Activate _ _ _ _ => true
  | _ => false

/-- The call is an `Activate` on node `v`. -/
def Call.isActivateOn {n : Nat} (v : Fin n) : Call n → Bool
  | .Activate u _ _ _ => decide (u = v)
  | _ => false

/-- The call is an `Activate` on node `v` that found it in `Standby`. -/
def Call.isStartOn {n : Nat} (v : Fin n) : Call n → Bool
  | .Activate u _ s _ => decide (u = v) && decide (s = .Standby)
  | _ => false

/-- A sequence of `Execute` calls with the given deltas. -/
def UAutomationGraphExecutor.ExecuteAll {n : Nat} :
    List Rat → Heap n × UAutomationGraphExecutor n → Heap n × UAutomationGraphExecutor n
  | [], s => s
  | DeltaSeconds :: rest, s =>
    UAutomationGraphExecutor.ExecuteAll rest
      (UAutomationGraphExecutor.Execute s.1 s.2 DeltaSeconds).1

/-- The activation pattern every node class of the sources follows: the
node-specific step never leaves a node in `Standby`, and `Initialize` never
leaves it `Finished`. -/
structure NodeClass.Standard (cls : NodeClass) : Prop where
  activate_ne_standby : ∀ m dt, (cls.ActivateInternal m dt).1.NodeState ≠ .Standby
  initialize_ne_finished : ∀ m w, (cls.Initialize m w).1.NodeState ≠ .Finished

/-- States of an executor that the public member functions produce, starting
from a newly constructed executor. -/
inductive UAutomationGraphExecutor.Reachable {n : Nat} :
    Heap n → UAutomationGraphExecutor n → Prop where
  | fresh (h : Heap n) (TickRateSec : Rat) :
    UAutomationGraphExecutor.Reachable h { TickRateSec := TickRateSec }
  | start {h : Heap n} {ex : UAutomationGraphExecutor n} (task : FGraphExecutionTask) :
    UAutomationGraphExecutor.Reachable h ex →
    UAutomationGraphExecutor.Reachable
      (UAutomationGraphExecutor.StartExecution h ex task).1.1
      (UAutomationGraphExecutor.StartExecution h ex task).1.2
  | execute {h : Heap n} {ex : UAutomationGraphExecutor n} (DeltaSeconds : Rat) :
    UAutomationGraphExecutor.Reachable h ex →
    UAutomationGraphExecutor.Reachable
      (UAutomationGraphExecutor.Execute h ex DeltaSeconds).1.1
      (UAutomationGraphExecutor.Execute h ex DeltaSeconds).1.2
  | cancel {h : Heap n} {ex : UAutomationGraphExecutor n} (Graph : Option Nat) :
    UAutomationGraphExecutor.Reachable h ex →
    UAutomationGraphExecutor.Reachable
      (UAutomationGraphExecutor.Cancel h ex Graph).1
      (UAutomationGraphExecutor.Cancel h ex Graph).2

/-! ## Example graphs -/

/-- A live graph object `0` with root node `0`; every node valid. -/
def exHeap {n : Nat} (nodes : Fin n → UAutomationGraphNode n) (roots : List (Fin n)) : Heap n where
  Node := nodes
  Valid := fun _ => true
  Graph := fun g => if g = 0 then some { RootNodes := roots } else none

/-- The task "run graph `0` on world `0`, trigger `OnPlay`". -/
def exTask : FGraphExecutionTask :=
  { TargetGraph := some 0, TargetWorld := some 0, Trigger := .OnPlay }

/-- The chain `A → B` of two base nodes (`A = 0`, `B = 1`). -/
def exChain : Heap 2 :=
  exHeap ![{ ChildNodes := [1] }, { ParentNodes := [0] }] [0]

/-- A root `0` leading into the cycle `1 → 2 → 1`, base nodes. -/
def exCycle : Heap 3 :=
  exHeap ![{ ChildNodes := [1] }, { ParentNodes := [0, 2], ChildNodes := [2] },
    { ParentNodes := [1], ChildNodes := [1] }] [0]

/-- A node class whose node-specific step, once `Active`, finishes only when
two seconds of activity have accumulated. -/
def exSlowClass : NodeClass where
  Initialize := UAutomationGraphNode.Initialize
  ActivateInternal := fun m _ =>
    if m.NodeState = .Standby then UAutomationGraphNode.SetState m .Active
    else if m.NodeState = .Active then
      (if m.TimeElapsedSec ≥ 2 then UAutomationGraphNode.SetState m .Finished
       else (m, m.NodeState))
    else (m, m.NodeState)
  CancelInternal := UAutomationGraphNode.CancelInternal
  GetTriggers := [.OnPlay]

/-- The diamond `A → B, A → C, B → D, C → D` (`A = 0`, `B = 1`, `C = 2`,
`D = 3`); `C` is of the slow class, the others are base nodes. -/
def exDiamond : Heap 4 :=
  exHeap ![{ ChildNodes := [1, 2] }, { ParentNodes := [0], ChildNodes := [3] },
    { ParentNodes := [0], ChildNodes := [3], Class := exSlowClass },
    { ParentNodes := [1, 2] }] [0]

/-- Two live graph objects `0` and `1`, with roots `0` and `1`, base nodes. -/
def exTwoGraphs : Heap 2 where
  Node := ![{}, {}]
  Valid := fun _ => true
  Graph := fun g =>
    if g = 0 then some { RootNodes := [0] }
    else if g = 1 then some { RootNodes := [1] } else none

/-- An idle subsystem whose queue holds a task for graph `0` and then one for
graph `1`. -/
def exQueued : UAutomationGraphSubsystem 2 :=
  { TaskQueue := [{ TargetGraph := some 0, TargetWorld := none, Trigger := .OnPlay },
      { TargetGraph := some 1, TargetWorld := none, Trigger := .OnPlay }],
    World := some 0 }

/-- A node class whose node-specific step leaves the members as they are. -/
def exIdleClass : NodeClass where
  Initialize := UAutomationGraphNode.Initialize
  ActivateInternal := fun m _ => (m, m.NodeState)
  CancelInternal := UAutomationGraphNode.CancelInternal
  GetTriggers := [.OnPlay]

/-! ## Frame and potential -/

/-- The heap `k` has the same objects as `h`, with the same links, classes and
liveness: the two differ at most in node members and in the trace. -/
structure Heap.SameShape {n : Nat} (h k : Heap n) : Prop where
  child : ∀ u, (k.Node u).ChildNodes = (h.Node u).ChildNodes
  parent : ∀ u, (k.Node u).ParentNodes = (h.Node u).ParentNodes
  cls : ∀ u, (k.Node u).Class = (h.Node u).Class
  valid : k.Valid = h.Valid
  graph : k.Graph = h.Graph

/-- Work left for a walk with visited set `V`: the total length of the
`ChildNodes` arrays of the nodes not yet visited. -/
def Heap.UnvisitedEdges {n : Nat} (h : Heap n) (V : List (Fin n)) : Nat :=
  ((List.finRange n).map
    (fun u => if u ∈ V then 0 else (h.Node u).ChildNodes.length)).sum

/-! ## Invariant of the cycle-checking walk -/

/-- The elements of a list after the first occurrence of `u`. -/
def afterIn {α : Type} [DecidableEq α] (u : α) : List α → List α
  | [] => []
  | x :: l => if x = u then l else afterIn u l

/-- The ancestor set of the entry on top of the stack (empty for an empty
stack): the nodes whose subtree is being explored. -/
def topAncestors {n : Nat} : List (Fin n × List (Fin n)) → List (Fin n)
  | [] => []
  | e :: _ => e.2

/-- The invariant of the loop of `StartExecution` for a graph with child lists
`ch`, start nodes `X0`, stack `S` and visited set `V`:
every ancestor list is duplicate-free, made of visited nodes and does not
contain its entry's node; ancestor lists grow from the bottom to the top of the
stack; every child of a visited node is either finished with, or waiting on the
stack below that node, or further down the path being explored; every visited
node that is not on the path being explored has no cycle below it; and every
start node is visited or on the stack. -/
structure WalkInv {n : Nat} (ch : Fin n → List (Fin n)) (X0 : List (Fin n))
    (S : List (Fin n × List (Fin n))) (V : List (Fin n)) : Prop where
  entries : ∀ e ∈ S, e.1 ∉ e.2 ∧ e.2.Nodup ∧ ∀ x ∈ e.2, x ∈ V
  nested : S.Pairwise (fun e1 e2 => e2.2 <+: e1.2)
  children : ∀ u ∈ V, ∀ c ∈ ch u,
    (c ∈ V ∧ c ∉ topAncestors S) ∨ (∃ A, (c, A) ∈ S ∧ u ∈ A) ∨
    (u ∈ topAncestors S ∧ c ∈ afterIn u (topAncestors S))
  finished : ∀ b ∈ V, b ∉ topAncestors S → Acc (fun c u => c ∈ ch u) b
  starts : ∀ x ∈ X0, x ∈ V ∨ ∃ A, (x, A) ∈ S

/-- The call is one of those `Cancel` makes: `Cancel` itself, `CancelInternal`
or `Cleanup`. -/
def Call.isCancelPart {n : Nat} : Call n → Bool
  | .Cancel _ => true
  | .CancelInternal _ => true
  | .Cleanup _ => true
  | _ => false

/-! ## Vocabulary for scheduling passes -/

/-- From `h` to `k`, the nodes that are neither `Standby` nor `Active` in `h`
are untouched. -/
def Heap.Frozen {n : Nat} (h k : Heap n) : Prop :=
  ∀ u, h.GetState u ≠ .Standby → h.GetState u ≠ .Active → k.Node u = h.Node u

/-- An `Activate` call found every parent of its node `Finished`; true of any
other call. -/
def Call.parentsOk {n : Nat} : Call n → Bool
  | .Activate _ _ _ pf => pf
  | _ => true

/-- What holds of the run state between the calls of a run: `ActiveNodes` has
no duplicates, and either no tracked node is `Finished` (as after
`StartExecution`) or no tracked node is in `Standby` (as after a scheduling
pass). -/
def UAutomationGraphExecutor.RunInv {n : Nat} (h : Heap n) (ex : UAutomationGraphExecutor n) :
    Prop :=
  ex.ActiveNodes.Nodup ∧
  ((∀ v ∈ ex.ActiveNodes, h.GetState v ≠ .Finished) ∨
   (∀ v ∈ ex.ActiveNodes, h.GetState v ≠ .Standby))

/-- A stretch of a scheduling pass from heap `h` to heap `k`: same objects,
nodes that were neither `Standby` nor `Active` untouched, and every call made
is one that found the parents of its node `Finished`. -/
structure Heap.PassSegment {n : Nat} (h k : Heap n) : Prop where
  shape : h.SameShape k
  frozen : h.Frozen k
  trace : ∃ ev : List (Call n), k.Trace = h.Trace ++ ev ∧ ∀ e ∈ ev, e.parentsOk = true

/-- A stretch of a scheduling pass over tracked nodes `L`, from heap `h` to
heap `k`, for node classes that follow the standard activation pattern: same
objects, nodes that were neither `Standby` nor `Active` untouched, no node has
entered `Standby`, and every call made is an `Activate` with the delta of the
pass, on a node that is not in `Standby` afterwards and that was tracked or was
in `Standby` at the start. -/
structure Heap.StdSegment {n : Nat} (dt : Rat) (L : List (Fin n)) (h k : Heap n) : Prop where
  shape : h.SameShape k
  frozen : h.Frozen k
  keep : ∀ u, h.GetState u ≠ .Standby → k.GetState u ≠ .Standby
  trace : ∃ ev : List (Call n), k.Trace = h.Trace ++ ev ∧
    ∀ e ∈ ev, ∃ u s pf, e = Call.Activate u dt s pf ∧ k.GetState u ≠ .Standby ∧
      (u ∈ L ∨ h.GetState u = .Standby)

/-- The chain `A → B` after `StartExecution` and `k` calls `Execute(1)`. -/
def exChainAfter (k : Nat) : Heap 2 × UAutomationGraphExecutor 2 :=
  UAutomationGraphExecutor.ExecuteAll (List.replicate k 1)
    (UAutomationGraphExecutor.StartExecution exChain {} exTask).1

/-! ## Vocabulary for the task queue and the controller lock -/

/-- The number of queued tasks whose target is the graph `g`. -/
def UAutomationGraphSubsystem.PendingFor {n : Nat} (sub : UAutomationGraphSubsystem n)
    (g : Nat) : Nat :=
  sub.TaskQueue.countP (fun t => decide (t.TargetGraph = some g))

/-- States of the heap and the subsystem that the queue operations produce,
starting from a newly constructed subsystem: `EnqueueAutomationGraph` with a
null pointer or a pointer to a live graph, `Tick`, and `ClearTaskQueue`. -/
inductive UAutomationGraphSubsystem.Reachable {n : Nat} :
    Heap n → UAutomationGraphSubsystem n → Prop where
  | fresh (h : Heap n) (World : Option UWorld) (Controller : Option Nat) :
    UAutomationGraphSubsystem.Reachable h { World := World, AutomationController := Controller }
  | enqueue {h : Heap n} {sub : UAutomationGraphSubsystem n} (NewGraph : Option Nat)
      (EnqueueReason : EAutomationGraphNodeTrigger) :
    UAutomationGraphSubsystem.Reachable h sub →
    (∀ g, NewGraph = some g → (h.Graph g).isSome = true) →
    UAutomationGraphSubsystem.Reachable h
      (UAutomationGraphSubsystem.EnqueueAutomationGraph h sub NewGraph EnqueueReason)
  | tick {h : Heap n} {sub : UAutomationGraphSubsystem n} (DeltaSeconds : Rat) :
    UAutomationGraphSubsystem.Reachable h sub →
    UAutomationGraphSubsystem.Reachable
      (UAutomationGraphSubsystem.Tick h sub DeltaSeconds).1
      (UAutomationGraphSubsystem.Tick h sub DeltaSeconds).2
  | clear {h : Heap n} {sub : UAutomationGraphSubsystem n} :
    UAutomationGraphSubsystem.Reachable h sub →
    UAutomationGraphSubsystem.Reachable h (UAutomationGraphSubsystem.ClearTaskQueue sub)

/-- A call on the controller lock of the subsystem. -/
inductive LockCall (n : Nat) where
  | Lock (NewOwner : Option (Fin n))
  | Release (Owner : Option (Fin n))
  deriving DecidableEq

/-- The subsystem after one call on the controller lock. -/
def UAutomationGraphSubsystem.applyLockCall {n : Nat} (h : Heap n)
    (sub : UAutomationGraphSubsystem n) : LockCall n → UAutomationGraphSubsystem n
  | .Lock NewOwner => (UAutomationGraphSubsystem.LockAutomationController h sub NewOwner).1
  | .Release Owner => (UAutomationGraphSubsystem.ReleaseAutomationController h sub Owner).1

/-- The subsystem after a sequence of calls on the controller lock. -/
def UAutomationGraphSubsystem.applyLockCalls {n : Nat} (h : Heap n)
    (calls : List (LockCall n)) (sub : UAutomationGraphSubsystem n) :
    UAutomationGraphSubsystem n :=
  calls.foldl (UAutomationGraphSubsystem.applyLockCall h) sub

/-- The node that holds the controller lock: what the weak owner pointer
resolves to (`none` when nobody owns the lock or the owner is gone). -/
def UAutomationGraphSubsystem.LiveOwner {n : Nat} (h : Heap n)
    (sub : UAutomationGraphSubsystem n) : Option (Fin n) :=
  h.GetNodePtr sub.AutomationControllerOwner

/-- The call is a lock attempt by a non-null requester. -/
def LockCall.isLockAttempt {n : Nat} : LockCall n → Bool
  | .Lock (some _) => true
  | _ => false

/-- Two live base nodes, no graph. -/
def exTwoNodes : Heap 2 where
  Node := ![{}, {}]
  Valid := fun _ => true
  Graph := fun _ => none

/-- A call of a public member function of a node that acts on its members. -/
inductive NodeCall where
  | Initialize (World : UWorld)
  | Uninitialize
  | Activate (DeltaSeconds : Rat)
  | Cancel

/-- The members of a node of class `cls` after one call. -/
def UAutomationGraphNode.applyCall (cls : NodeClass) (m : NodeMembers) :
    NodeCall → NodeMembers
  | NodeCall.Initialize World => (cls.Initialize m World).1
  | NodeCall.Uninitialize => UAutomationGraphNode.Uninitialize m
  | NodeCall.Activate DeltaSeconds => (UAutomationGraphNode.Activate cls m DeltaSeconds).1
  | NodeCall.Cancel => UAutomationGraphNode.Cancel cls m

/-- The members of a node of class `cls` after a sequence of calls. -/
def UAutomationGraphNode.applyCalls (cls : NodeClass) (calls : List NodeCall)
    (m : NodeMembers) : NodeMembers :=
  calls.foldl (UAutomationGraphNode.applyCall cls) m


/-! ## The node `UAGN_RunTests` and its use of the controller lock -/

/-- `UAGN_RunTests::ETestState` (`RunTests.h`). -/
inductive ETestState where
  | Idle
  | WaitForController
  | WaitForTestsReady
  | RunningTests
  | Complete
  deriving DecidableEq, Repr

/-- The data members that `UAGN_RunTests` adds to those of a node (`RunTests.h`).
`AutomationController` is the shared pointer to the controller that the node
holds (a handle, `none` when the pointer is not valid). -/
structure UAGN_RunTests where
  Tests : List String := []
  FindWorkersTimeoutSec : Rat := 10
  MaxFindWorkersAttempts : Int := 6
  TestState : ETestState := .Idle
  FindWorkersTimerSec : Rat := 0
  FindWorkersAttemtps : Int := 0
  AutomationController : Option Nat := none
  deriving DecidableEq

/-- What the member functions of `UAGN_RunTests` reach outside the node: the
subsystem that `GEditor->GetEditorSubsystem<UAutomationGraphSubsystem>()`
returns (`none` when it returns null), and the objects bound to the delegate
`OnTestsRefreshed` of the controller. `ReleaseCalls` is a ghost counter of the
calls of `ReleaseAutomationController`, `WorkerRequests` one of the calls of
`RequestAvailableWorkers` on the controller. -/
structure RunTestsEnv (n : Nat) where
  AGSubsystem : Option (UAutomationGraphSubsystem n)
  OnTestsRefreshed : List (Fin n) := []
  ReleaseCalls : Nat := 0
  WorkerRequests : Nat := 0

/-- `UAGN_RunTests::Cleanup` on the node object `this`. -/
def UAGN_RunTests.Cleanup {n : Nat} (h : Heap n) (this : Fin n) (node : UAGN_RunTests)
    (env : RunTestsEnv n) : UAGN_RunTests × RunTestsEnv n :=
  if node.AutomationController.isSome then
    match env.AGSubsystem with
    | some AGSubsystem =>
      let r := UAutomationGraphSubsystem.ReleaseAutomationController h AGSubsystem (some this)
      ({ node with AutomationController := none },
        { env with
          AGSubsystem := some r.1,
          OnTestsRefreshed := env.OnTestsRefreshed.filter (fun o => decide (o ≠ this)),
          ReleaseCalls := env.ReleaseCalls + 1 })
    | none => (node, env)
  else (node, env)

/-- `UAutomationGraphNode::Cancel` on a `UAGN_RunTests` node (`CancelInternal`
is not overridden): the node members, the members of `UAGN_RunTests` and the
surroundings afterwards. -/
def UAGN_RunTests.Cancel {n : Nat} (h : Heap n) (this : Fin n) (m : NodeMembers)
    (node : UAGN_RunTests) (env : RunTestsEnv n) :
    NodeMembers × UAGN_RunTests × RunTestsEnv n :=
  let m1 :=
    if m.NodeState.toNat < EAutomationGraphNodeState.Finished.toNat then
      (UAutomationGraphNode.SetState (UAutomationGraphNode.CancelInternal m) .Cancelled).1
    else m
  let r := UAGN_RunTests.Cleanup h this node env
  (m1, r.1, r.2)

/-- `UAutomationGraphNode::Uninitialize` on a `UAGN_RunTests` node. -/
def UAGN_RunTests.Uninitialize {n : Nat} (h : Heap n) (this : Fin n) (m : NodeMembers)
    (node : UAGN_RunTests) (env : RunTestsEnv n) :
    NodeMembers × UAGN_RunTests × RunTestsEnv n :=
  let r := UAGN_RunTests.Cleanup h this node env
  ((UAutomationGraphNode.SetState m .Uninitialized).1, r.1, r.2)

/-- The node that holds the controller lock of the subsystem of `env`, if
there is a subsystem and a live owner. -/
def RunTestsEnv.LockHolder {n : Nat} (h : Heap n) (env : RunTestsEnv n) : Option (Fin n) :=
  env.AGSubsystem.bind (fun sub => sub.LiveOwner h)

/-- Surroundings in which the subsystem exists, its controller is the handle
`7` and node `0` holds the lock. -/
def exEnvHeld : RunTestsEnv 2 :=
  { AGSubsystem := some { AutomationController := some 7, AutomationControllerOwner := some 0 } }

/-- The surroundings after the lock was released once and node `1` took it. -/
def exEnvTaken : RunTestsEnv 2 :=
  { AGSubsystem := some { AutomationController := some 7, AutomationControllerOwner := some 1 },
    ReleaseCalls := 1 }

/-- A `UAGN_RunTests` node that holds the controller handle `7`. -/
def exRunTests : UAGN_RunTests :=
  { AutomationController := some 7 }

/-! ## Vocabulary for the Cleanup calls of a run -/

/-- A stretch of a scheduling pass from heap `h` to heap `k`, whatever the node
classes are: same objects, nodes that were neither `Standby` nor `Active`
untouched, and every call made is an `Activate`. -/
structure Heap.ActSegment {n : Nat} (h k : Heap n) : Prop where
  shape : h.SameShape k
  frozen : h.Frozen k
  trace : ∃ ev : List (Call n), k.Trace = h.Trace ++ ev ∧ ∀ e ∈ ev, e.isActivate = true

/-- The run attempt started by `StartExecution` on `task`, after `Execute`
calls with the given deltas. -/
def UAutomationGraphExecutor.RunAfter {n : Nat} (h : Heap n) (ex : UAutomationGraphExecutor n)
    (task : FGraphExecutionTask) (deltas : List Rat) : Heap n × UAutomationGraphExecutor n :=
  UAutomationGraphExecutor.ExecuteAll deltas
    (UAutomationGraphExecutor.StartExecution h ex task).1

/-- Counting the calls since heap `b`: node `v` has received exactly one
`Cleanup`, is not tracked, and is neither in `Standby` nor `Active`. -/
def UAutomationGraphExecutor.HasLeft {n : Nat} (b : Heap n)
    (s : Heap n × UAutomationGraphExecutor n) (v : Fin n) : Prop :=
  (s.1.CallsSince b).count (Call.Cleanup v) = 1 ∧ v ∉ s.2.ActiveNodes ∧
  s.1.GetState v ≠ .Standby ∧ s.1.GetState v ≠ .Active

/-- What holds between the `Execute` calls of a run, counting the calls since
heap `b`: every node is live, and every node has either received no `Cleanup`
or has left `ActiveNodes` with exactly one. -/
def UAutomationGraphExecutor.CleanupInv {n : Nat} (b : Heap n)
    (s : Heap n × UAutomationGraphExecutor n) : Prop :=
  (∀ u, s.1.Valid u = true) ∧ (∃ ev : List (Call n), s.1.Trace = b.Trace ++ ev) ∧
  ∀ v, (s.1.CallsSince b).count (Call.Cleanup v) = 0 ∨ UAutomationGraphExecutor.HasLeft b s v

/-- The executor runs the graph `g`, referenced by `p`, and every tracked node
is reachable by child edges from the roots of `g`. -/
def UAutomationGraphExecutor.TracksGraph {n : Nat} (g : UAutomationGraph n) (p : Option Nat)
    (s : Heap n × UAutomationGraphExecutor n) : Prop :=
  s.2.TargetGraph = p ∧ s.1.GetGraph p = some g ∧
  ∀ v ∈ s.2.ActiveNodes, g.ReachableFromRoots s.1 v

/-- From heap `h` to heap `k` only `Activate` calls with the delta `dt` were
made, and a node on which none was made is as it was. -/
def Heap.OnlyActivated {n : Nat} (dt : Rat) (h k : Heap n) : Prop :=
  ∃ ev : List (Call n), k.Trace = h.Trace ++ ev ∧
    (∀ e ∈ ev, ∃ u s pf, e = Call.Activate u dt s pf) ∧
    ∀ v, ev.countP (Call.isActivateOn v) = 0 → k.Node v = h.Node v

/-- The chain `A → B` in the middle of a run, `A` being `Active` and `B` in
`Standby`, after the node object `B` was destroyed: the weak references to it
are stale. -/
def exStale : Heap 2 where
  Node := ![{ NodeState := .Active, ChildNodes := [1] },
    { NodeState := .Standby, ParentNodes := [0] }]
  Valid := fun v => decide (v = 0)
  Graph := fun g => if g = 0 then some { RootNodes := [0] } else none

/-- An executor that runs graph `0` and tracks both nodes of `exStale`. -/
def exStaleExecutor : UAutomationGraphExecutor 2 :=
  { TargetGraph := some 0, ActiveNodes := [0, 1] }

/-- From heap `h` to heap `k`, every node on which an `Activate` call was made
has all its parents `Finished` in `k`. -/
def Heap.ActivatedPF {n : Nat} (h k : Heap n) : Prop :=
  ∃ ev : List (Call n), k.Trace = h.Trace ++ ev ∧
    ∀ v, ev.countP (Call.isActivateOn v) ≠ 0 → k.ParentsFinished v = true

/-- Counting the calls since heap `b`: node `v` is not tracked, is as it was in
`b`, and has received neither an `Activate` nor a `Cleanup` call. -/
def UAutomationGraphExecutor.Untouched {n : Nat} (b : Heap n)
    (s : Heap n × UAutomationGraphExecutor n) (v : Fin n) : Prop :=
  v ∉ s.2.ActiveNodes ∧ s.1.Node v = b.Node v ∧
  (s.1.CallsSince b).countP (Call.isActivateOn v) = 0 ∧
  (s.1.CallsSince b).count (Call.Cleanup v) = 0

/-- What holds between the `Execute` calls of a run on a graph whose roots
have no parents, counting the calls since heap `b`: every node is live, every
tracked node has all its parents `Finished`, and every node is untouched or has
all its parents `Finished`. -/
def UAutomationGraphExecutor.ChildInv {n : Nat} (b : Heap n)
    (s : Heap n × UAutomationGraphExecutor n) : Prop :=
  (∀ u, s.1.Valid u = true) ∧ (∃ ev : List (Call n), s.1.Trace = b.Trace ++ ev) ∧
  (∀ v ∈ s.2.ActiveNodes, s.1.ParentsFinished v = true) ∧
  ∀ v, UAutomationGraphExecutor.Untouched b s v ∨ s.1.ParentsFinished v = true

/-- The chain `A → B` of base nodes in which `A` has a timeout of one
second. -/
def exExpiring : Heap 2 :=
  exHeap ![{ ChildNodes := [1], NodeTimeoutSec := 1 }, { ParentNodes := [0] }] [0]

/-- Three base nodes in the middle of a run: the root `0` is in `Error` and has
the child `2`, still in `Standby`; the root `1` is `Active`. -/
def exFailed : Heap 3 :=
  exHeap ![{ NodeState := .Error, ChildNodes := [2] }, { NodeState := .Active },
    { NodeState := .Standby, ParentNodes := [0] }] [0, 1]

/-- An executor that runs graph `0` and tracks the two roots of `exFailed`. -/
def exFailedExecutor : UAutomationGraphExecutor 3 :=
  { TargetGraph := some 0, ActiveNodes := [0, 1] }

/-! ## The node `UAGN_ClearLandscapeLayers` -/

/-- A layer name (`FName`). -/
abbrev FName := String

/-- The part of the engine class `ALandscape` that `UAGN_ClearLandscapeLayers`
uses. `LandscapeInfo` is what `GetLandscapeInfo()` returns: null, or the info
object, given by the paint layer names for which `GetLayerInfoByName` returns a
layer info. `EditLayers` are the edit layers by index: `GetLayerIndex(name)` is
the position of the name, `INDEX_NONE` when absent. `Cleared` is a ghost log of
the calls `ClearPaintLayer(EditLayerIndex, LayerInfo)`. -/
structure ALandscape where
  LandscapeInfo : Option (List FName)
  EditLayers : List FName
  Cleared : List (Nat × FName) := []
  deriving DecidableEq

/-- `ALandscape::GetLayerIndex`; `none` is `INDEX_NONE`. -/
def ALandscape.GetLayerIndex (l : ALandscape) (Name : FName) : Option Nat :=
  if Name ∈ l.EditLayers then some (l.EditLayers.indexOf Name) else none

/-- The data members that `UAGN_ClearLandscapeLayers` adds to those of a node
(`ClearLandscapeLayers.h`); a `TSet<FName>` is a duplicate-free list and
`TargetLandscape` is a weak reference to a landscape actor. -/
structure UAGN_ClearLandscapeLayers where
  EditLayers : List FName := []
  PaintLayers : List FName := []
  TargetLandscape : Option Nat := none

/-- The landscape actors of the world by identity (`none`: no such actor, or
destroyed). -/
abbrev LandscapeWorld := Nat → Option ALandscape

/-- The `for (FName EditLayerName : EditLayers)` loop of
`UAGN_ClearLandscapeLayers::ActivateInternal`: the landscape afterwards, and
whether the loop ran to its end (`false`: it returned at an unknown edit
layer). -/
def UAGN_ClearLandscapeLayers.clearLayers (PaintLayers : List FName) :
    List FName → ALandscape → ALandscape × Bool
  | [], l => (l, true)
  | EditLayerName :: rest, l =>
    match l.GetLayerIndex EditLayerName with
    | none => (l, false)
    | some EditLayerIndex =>
      UAGN_ClearLandscapeLayers.clearLayers PaintLayers rest
        { l with Cleared := l.Cleared ++ PaintLayers.map (fun p => (EditLayerIndex, p)) }

/-- `UAGN_ClearLandscapeLayers::ActivateInternal`: the node members and the
world afterwards, and the returned state. -/
def UAGN_ClearLandscapeLayers.ActivateInternal (m : NodeMembers)
    (node : UAGN_ClearLandscapeLayers) (world : LandscapeWorld) (_DeltaSeconds : Rat) :
    (NodeMembers × LandscapeWorld) × EAutomationGraphNodeState :=
  match node.TargetLandscape, node.TargetLandscape.bind world with
  | some id, some LandscapePtr =>
    if node.EditLayers.isEmpty || node.PaintLayers.isEmpty then
      (((UAutomationGraphNode.SetState m .Error).1, world), .Error)
    else if m.NodeState = .Standby then
      (((UAutomationGraphNode.SetState m .Active).1, world), .Active)
    else if m.NodeState ≠ .Active then ((m, world), m.NodeState)
    else
      match LandscapePtr.LandscapeInfo with
      | none => (((UAutomationGraphNode.SetState m .Error).1, world), .Error)
      | some LandscapeInfo =>
        if node.PaintLayers.all (fun PaintLayerName => decide (PaintLayerName ∈ LandscapeInfo))
        then
          let r := UAGN_ClearLandscapeLayers.clearLayers node.PaintLayers node.EditLayers
            LandscapePtr
          if r.2 then
            (((UAutomationGraphNode.SetState m .Finished).1,
              Function.update world id (some r.1)), .Finished)
          else
            (((UAutomationGraphNode.SetState m .Error).1,
              Function.update world id (some r.1)), .Error)
        else (((UAutomationGraphNode.SetState m .Error).1, world), .Error)
  | _, _ => (((UAutomationGraphNode.SetState m .Error).1, world), .Error)

/-- `UAutomationGraphNode::Activate` on a `UAGN_ClearLandscapeLayers` node. -/
def UAGN_ClearLandscapeLayers.Activate (m : NodeMembers) (node : UAGN_ClearLandscapeLayers)
    (world : LandscapeWorld) (DeltaSeconds : Rat) :
    (NodeMembers × LandscapeWorld) × EAutomationGraphNodeState :=
  let m1 : NodeMembers :=
    if m.NodeState = .Active then { m with TimeElapsedSec := m.TimeElapsedSec + DeltaSeconds }
    else m
  if m1.TimeElapsedSec ≥ m1.NodeTimeoutSec then
    (((UAutomationGraphNode.SetState m1 .Expired).1, world), .Expired)
  else UAGN_ClearLandscapeLayers.ActivateInternal m1 node world DeltaSeconds

/-- A world with the one landscape `0`, which has the edit layers `Base` and
`Procedural` and layer infos for the paint layers `Grass` and `Rock`. -/
def exWorld : LandscapeWorld := fun id =>
  if id = 0 then
    some { LandscapeInfo := some ["Grass", "Rock"], EditLayers := ["Base", "Procedural"] }
  else none

/-- A node set up to clear `Grass` and `Rock` on the edit layer `Procedural` of
landscape `0`. -/
def exClearNode : UAGN_ClearLandscapeLayers :=
  { EditLayers := ["Procedural"], PaintLayers := ["Grass", "Rock"], TargetLandscape := some 0 }

/-! ## The editor's connection check -/

/-- The two values of the engine enumeration `ECanCreateConnectionResponse`
that the schema returns. -/
inductive ECanCreateConnectionResponse where
  | CONNECT_RESPONSE_MAKE_WITH_CONVERSION_NODE
  | CONNECT_RESPONSE_DISALLOW
  deriving DecidableEq, Repr

/-- The engine type `FPinConnectionResponse`; the message is given by the key of
its `LOCTEXT`. -/
structure FPinConnectionResponse where
  Response : ECanCreateConnectionResponse
  Message : String
  deriving DecidableEq, Repr

/-- Total length of all `ParentNodes` arrays; bounds the work of the ancestor
walk. -/
def Heap.ParentEdgeCount {n : Nat} (h : Heap n) : Nat :=
  ((List.finRange n).map (fun v => (h.Node v).ParentNodes.length)).sum

/-- The `while (!NodeStack.IsEmpty())` loop of
`UEdGraphSchema_AutomationGraph::CanCreateConnection`: the set `Visited` when
the stack is empty. The head of the list is the top of the stack. The first
argument bounds the number of iterations; `none` means the bound was reached
with the stack non-empty. -/
def UEdGraphSchema_AutomationGraph.ancestorLoop {n : Nat} (h : Heap n) :
    Nat → List (Fin n) → List (Fin n) → Option (List (Fin n))
  | _, [], Visited => some Visited
  | 0, _ :: _, _ => none
  | fuel + 1, AncestorNode :: NodeStack, Visited =>
    if AncestorNode ∈ Visited then
      UEdGraphSchema_AutomationGraph.ancestorLoop h fuel NodeStack Visited
    else
      UEdGraphSchema_AutomationGraph.ancestorLoop h fuel
        ((h.Node AncestorNode).ParentNodes.reverse ++ NodeStack)
        (TSet.Add Visited AncestorNode)

/-- `UEdGraphSchema_AutomationGraph::CanCreateConnection`. An editor node is
given by the automation node it wraps; `none` is a pin whose owning node is not
a `UEdNode_AutomationGraphNode`. -/
def UEdGraphSchema_AutomationGraph.CanCreateConnection {n : Nat} (h : Heap n)
    (FromEdNode ToEdNode : Option (Fin n)) : FPinConnectionResponse :=
  match FromEdNode, ToEdNode with
  | some FromNode, some ToNode =>
    if FromNode = ToNode then ⟨.CONNECT_RESPONSE_DISALLOW, "ConnectionSameNode"⟩
    else if ToNode ∈ (h.Node FromNode).ChildNodes ∨ FromNode ∈ (h.Node ToNode).ChildNodes then
      ⟨.CONNECT_RESPONSE_DISALLOW, "PinError_AlreadyConnected"⟩
    else
      let Visited := (UEdGraphSchema_AutomationGraph.ancestorLoop h
        ((h.Node FromNode).ParentNodes.length + h.ParentEdgeCount)
        (h.Node FromNode).ParentNodes.reverse []).getD []
      if ToNode ∈ Visited then ⟨.CONNECT_RESPONSE_DISALLOW, "PinError_Cycle"⟩
      else ⟨.CONNECT_RESPONSE_MAKE_WITH_CONVERSION_NODE, "PinConnect"⟩
  | _, _ => ⟨.CONNECT_RESPONSE_DISALLOW, "PinError_InvalidEdNode"⟩

/-- There is a parent edge from `u` to `p`. -/
def Heap.ParentEdge {n : Nat} (h : Heap n) (u p : Fin n) : Prop :=
  p ∈ (h.Node u).ParentNodes

/-- No node lies on a child-edge cycle. -/
def Heap.Acyclic {n : Nat} (h : Heap n) : Prop :=
  ∀ v, ¬ h.OnCycle v

/-- The `ParentNodes` and `ChildNodes` lists are inverse of each other. -/
def Heap.InverseLists {n : Nat} (h : Heap n) : Prop :=
  ∀ u c, c ∈ (h.Node u).ChildNodes ↔ u ∈ (h.Node c).ParentNodes

/-- The lists of heap `k` are those of `h` with `To` added to the children of
`From` and `From` added to the parents of `To` (in any position). -/
structure Heap.AddsConnection {n : Nat} (h k : Heap n) (From To : Fin n) : Prop where
  child : ∀ u c, c ∈ (k.Node u).ChildNodes ↔ c ∈ (h.Node u).ChildNodes ∨ (u = From ∧ c = To)
  parent : ∀ u p, p ∈ (k.Node u).ParentNodes ↔ p ∈ (h.Node u).ParentNodes ∨ (u = To ∧ p = From)

/-- Work left for the ancestor walk with visited set `V`: the total length of
the `ParentNodes` arrays of the nodes not yet visited. -/
def Heap.UnvisitedParentEdges {n : Nat} (h : Heap n) (V : List (Fin n)) : Nat :=
  ((List.finRange n).map
    (fun u => if u ∈ V then 0 else (h.Node u).ParentNodes.length)).sum

/-- The diamond `exDiamond` with the connection `B → C` added. -/
def exDiamondConnected : Heap 4 :=
  exHeap ![{ ChildNodes := [1, 2] }, { ParentNodes := [0], ChildNodes := [3, 2] },
    { ParentNodes := [0, 1], ChildNodes := [3], Class := exSlowClass },
    { ParentNodes := [1, 2] }] [0]

/-! ## The node `UAGN_RunTests`: initialisation and activation -/

/-- The value an `int32` holds after an arithmetic result `x` (two's complement
wrap-around). -/
def int32 (x : Int) : Int :=
  (x + 2147483648) % 4294967296 - 2147483648

/-- `UAGN_RunTests::Initialize`: the node members and the members of
`UAGN_RunTests` afterwards, and the returned flag. The session identifier is
not part of the model. -/
def UAGN_RunTests.Initialize (m : NodeMembers) (node : UAGN_RunTests) (World : UWorld) :
    (NodeMembers × UAGN_RunTests) × Bool :=
  let r := UAutomationGraphNode.Initialize m World
  if r.2 = false then ((r.1, node), false)
  else
    ((r.1, { node with
              TestState := .Idle
              FindWorkersTimerSec := 0
              FindWorkersAttemtps := 0
              AutomationController := none }), true)

/-- `UAGN_RunTests::TestsReady`. `NumDeviceClusters` is what
`GetNumDeviceClusters()` returns and `FilteredTestNames` what
`GenerateTestNames` produces. `none`: the call dereferences a null
`AutomationController`. -/
def UAGN_RunTests.TestsReady (node : UAGN_RunTests) (NumDeviceClusters : Nat)
    (FilteredTestNames : List String) : Option UAGN_RunTests :=
  match node.AutomationController with
  | none => none
  | some _ =>
    if NumDeviceClusters = 0 ∨ node.TestState ≠ .WaitForTestsReady then some node
    else if FilteredTestNames.length ≠ 0 then some { node with TestState := .RunningTests }
    else some { node with TestState := .Complete }

/-- The state of a `UAGN_RunTests` node and of its surroundings: the node
members, the members of `UAGN_RunTests`, and what the node reaches outside. -/
abbrev RunTestsState (n : Nat) := NodeMembers × UAGN_RunTests × RunTestsEnv n

/-- The end of `UAGN_RunTests::ActivateInternal`:
`if (UpdatedNodeState != GetState()) SetState(UpdatedNodeState); return UpdatedNodeState`. -/
def UAGN_RunTests.ActivateInternal.finish {n : Nat} (m : NodeMembers) (node : UAGN_RunTests)
    (env : RunTestsEnv n) (UpdatedNodeState : EAutomationGraphNodeState) :
    RunTestsState n × EAutomationGraphNodeState :=
  ((if UpdatedNodeState ≠ m.NodeState then (UAutomationGraphNode.SetState m UpdatedNodeState).1
    else m, node, env), UpdatedNodeState)

/-- `UAGN_RunTests::ActivateInternal` on the node object `this`.
`ControllerRunning` is whether `AutomationController->GetTestState()` is
`Running` at this call. `none`: the call dereferences a null
`AutomationController`. -/
def UAGN_RunTests.ActivateInternal {n : Nat} (h : Heap n) (this : Fin n) (m : NodeMembers)
    (node : UAGN_RunTests) (env : RunTestsEnv n) (DeltaSeconds : Rat)
    (ControllerRunning : Bool) : Option (RunTestsState n × EAutomationGraphNodeState) :=
  if m.NodeState = .Standby then
    some (((UAutomationGraphNode.SetState m .Active).1, node, env), .Active)
  else if m.NodeState ≠ .Active then some ((m, node, env), m.NodeState)
  else
    match node.TestState with
    | .Idle =>
      if node.Tests.isEmpty then
        some (UAGN_RunTests.ActivateInternal.finish m { node with TestState := .Complete } env
          .Finished)
      else
        some (UAGN_RunTests.ActivateInternal.finish m
          { node with TestState := .WaitForController } env .Active)
    | .WaitForController =>
      let r : UAGN_RunTests × RunTestsEnv n :=
        match env.AGSubsystem with
        | some AGSubsystem =>
          let l := UAutomationGraphSubsystem.LockAutomationController h AGSubsystem (some this)
          ({ node with AutomationController := l.2 }, { env with AGSubsystem := some l.1 })
        | none => (node, env)
      if r.1.AutomationController.isSome then
        some (UAGN_RunTests.ActivateInternal.finish m
          { r.1 with TestState := .WaitForTestsReady } r.2 .Active)
      else some (UAGN_RunTests.ActivateInternal.finish m r.1 r.2 .Active)
    | .WaitForTestsReady =>
      match node.AutomationController with
      | none => none
      | some _ =>
        let env1 : RunTestsEnv n :=
          if this ∈ env.OnTestsRefreshed then env
          else { env with OnTestsRefreshed := env.OnTestsRefreshed ++ [this] }
        let node1 : UAGN_RunTests :=
          { node with FindWorkersTimerSec := node.FindWorkersTimerSec + DeltaSeconds }
        if node1.FindWorkersAttemtps = 0 ∨
            node1.FindWorkersTimerSec ≥ node1.FindWorkersTimeoutSec then
          let node2 : UAGN_RunTests :=
            { node1 with FindWorkersAttemtps := int32 (node1.FindWorkersAttemtps + 1) }
          if node2.FindWorkersAttemtps > node2.MaxFindWorkersAttempts then
            some (((UAutomationGraphNode.SetState m .Expired).1, node2, env1), .Expired)
          else
            some (UAGN_RunTests.ActivateInternal.finish m { node2 with FindWorkersTimerSec := 0 }
              { env1 with WorkerRequests := env1.WorkerRequests + 1 } .Active)
        else some (UAGN_RunTests.ActivateInternal.finish m node1 env1 .Active)
    | .RunningTests =>
      match node.AutomationController with
      | none => none
      | some _ =>
        if ControllerRunning = false then
          some (UAGN_RunTests.ActivateInternal.finish m { node with TestState := .Complete } env
            .Finished)
        else some (UAGN_RunTests.ActivateInternal.finish m node env .Active)
    | .Complete => some (UAGN_RunTests.ActivateInternal.finish m node env .Finished)

/-- `UAutomationGraphNode::Activate` on a `UAGN_RunTests` node. -/
def UAGN_RunTests.Activate {n : Nat} (h : Heap n) (this : Fin n) (m : NodeMembers)
    (node : UAGN_RunTests) (env : RunTestsEnv n) (DeltaSeconds : Rat)
    (ControllerRunning : Bool) : Option (RunTestsState n × EAutomationGraphNodeState) :=
  let m1 : NodeMembers :=
    if m.NodeState = .Active then { m with TimeElapsedSec := m.TimeElapsedSec + DeltaSeconds }
    else m
  if m1.TimeElapsedSec ≥ m1.NodeTimeoutSec then
    some (((UAutomationGraphNode.SetState m1 .Expired).1, node, env), .Expired)
  else UAGN_RunTests.ActivateInternal h this m1 node env DeltaSeconds ControllerRunning

/-- What can happen to a `UAGN_RunTests` node: a call of one of its public
member functions, a broadcast of the delegate `OnTestsRefreshed` by the
controller (which calls `TestsReady` on the node when it is bound), or a call
on the controller lock made by someone else. -/
inductive RunTestsCall (n : Nat) where
  | Initialize (World : UWorld)
  | Activate (DeltaSeconds : Rat) (ControllerRunning : Bool)
  | Cancel
  | Cleanup
  | Uninitialize
  | TestsRefreshed (NumDeviceClusters : Nat) (FilteredTestNames : List String)
  | Other (c : LockCall n)

/-- The state after one call on the node object `this`; `none`: the call
dereferences a null `AutomationController`. -/
def UAGN_RunTests.applyCall {n : Nat} (h : Heap n) (this : Fin n) (s : RunTestsState n) :
    RunTestsCall n → Option (RunTestsState n)
  | .Initialize World =>
    some ((UAGN_RunTests.Initialize s.1 s.2.1 World).1.1,
      (UAGN_RunTests.Initialize s.1 s.2.1 World).1.2, s.2.2)
  | .Activate DeltaSeconds ControllerRunning =>
    (UAGN_RunTests.Activate h this s.1 s.2.1 s.2.2 DeltaSeconds ControllerRunning).map
      (fun r => r.1)
  | .Cancel => some (UAGN_RunTests.Cancel h this s.1 s.2.1 s.2.2)
  | .Cleanup =>
    some (s.1, (UAGN_RunTests.Cleanup h this s.2.1 s.2.2).1,
      (UAGN_RunTests.Cleanup h this s.2.1 s.2.2).2)
  | RunTestsCall.Uninitialize => some ( UAGN_RunTests.Uninitialize h this s.1 s.2.1 s.2.2)
  | .TestsRefreshed NumDeviceClusters FilteredTestNames =>
    if this ∈ s.2.2.OnTestsRefreshed then
      (UAGN_RunTests.TestsReady s.2.1 NumDeviceClusters FilteredTestNames).map
        (fun node => (s.1, node, s.2.2))
    else some s
  | .Other c =>
    some (s.1, s.2.1,
      { s.2.2 with
        AGSubsystem := s.2.2.AGSubsystem.map
          (fun sub => UAutomationGraphSubsystem.applyLockCall h sub c) })

/-- The state after a sequence of calls; `none` as soon as one of them
dereferences a null `AutomationController`. -/
def UAGN_RunTests.applyCalls {n : Nat} (h : Heap n) (this : Fin n) :
    List (RunTestsCall n) → RunTestsState n → Option (RunTestsState n)
  | [], s => some s
  | c :: rest, s =>
    match UAGN_RunTests.applyCall h this s c with
    | none => none
    | some s1 => UAGN_RunTests.applyCalls h this rest s1

/-- Invariant of a run of the `UAGN_RunTests` node `this` that started with
`R0` worker requests counted and the attempt limit `Max0`: the attempt counter
stays between `0` and `Max0 + 1`, the requests issued in the run are the
attempts made, capped at `Max0`; when the counter has passed the limit the
node is `Expired`; before the sub-state `WaitForTestsReady` the counter and
the timer are zero and the node is not bound to the delegate; from that
sub-state on, and whenever the node is bound, it holds a controller. -/
structure UAGN_RunTests.RunInv {n : Nat} (this : Fin n) (R0 : Nat) (Max0 : Int)
    (s : RunTestsState n) : Prop where
  max : s.2.1.MaxFindWorkersAttempts = Max0
  lo : 0 ≤ s.2.1.FindWorkersAttemtps
  hi : s.2.1.FindWorkersAttemtps ≤ Max0 + 1
  requests : (s.2.2.WorkerRequests : Int) = (R0 : Int) + min s.2.1.FindWorkersAttemtps Max0
  exhausted : s.2.1.FindWorkersAttemtps = Max0 + 1 → s.1.NodeState = .Expired
  early : s.2.1.TestState = .Idle ∨ s.2.1.TestState = .WaitForController →
    s.2.1.FindWorkersAttemtps = 0 ∧ s.2.1.FindWorkersTimerSec = 0 ∧
      this ∉ s.2.2.OnTestsRefreshed ∧ s.2.1.AutomationController = none
  held : s.2.1.TestState = .WaitForTestsReady ∨ s.2.1.TestState = .RunningTests →
    s.2.1.AutomationController ≠ none
  bound : this ∈ s.2.2.OnTestsRefreshed → s.2.1.AutomationController ≠ none

/-- A `UAGN_RunTests` node with one test filter, as constructed. -/
def exRunTestsFresh : UAGN_RunTests :=
  { Tests := ["Project."] }

/-- Surroundings in which the subsystem exists, its controller is the handle
`7` and nobody holds the lock. -/
def exEnvFree : RunTestsEnv 2 :=
  { AGSubsystem := some { AutomationController := some 7 } }

/-! ## The node `UAGN_RunTests` as owner of the controller lock -/

/-- The call keeps to the protocol of the executor, which cleans a node up
before it initialises it again: `Initialize` is not called while the node
holds a controller in a state other than `Active`; and a call on the lock that
stands for another requester does not name the node `this`. -/
def RunTestsCall.Allowed {n : Nat} (this : Fin n) (s : RunTestsState n) :
    RunTestsCall n → Bool
  | .Initialize _ => s.2.1.AutomationController.isNone || decide (s.1.NodeState = .Active)
  | .Other (.Lock NewOwner) => decide (NewOwner ≠ some this)
  | .Other (.Release Owner) => decide (Owner ≠ some this)
  | _ => true

/-- Every call of the sequence is allowed in the state in which it is made. -/
def UAGN_RunTests.Admissible {n : Nat} (h : Heap n) (this : Fin n) :
    List (RunTestsCall n) → RunTestsState n → Bool
  | [], _ => true
  | c :: rest, s =>
    c.Allowed this s &&
      match UAGN_RunTests.applyCall h this s c with
      | none => true
      | some s1 => UAGN_RunTests.Admissible h this rest s1

/-- The node recorded as owner of the controller lock in the subsystem of the
surroundings (the weak pointer as stored), if there is a subsystem. -/
def RunTestsEnv.RecordedOwner {n : Nat} (env : RunTestsEnv n) : Option (Fin n) :=
  env.AGSubsystem.bind (fun sub => sub.AutomationControllerOwner)

/-- Invariant of the node `this` as a client of the controller lock: when the
subsystem records it as the owner it holds a controller, and before the
sub-state `WaitForTestsReady` it holds none. -/
structure UAGN_RunTests.LockInv {n : Nat} (this : Fin n) (s : RunTestsState n) : Prop where
  owner : s.2.2.RecordedOwner = some this → s.2.1.AutomationController ≠ none
  early : s.2.1.TestState = .Idle ∨ s.2.1.TestState = .WaitForController →
    s.2.1.AutomationController = none

/-- The diamond `A → B, A → C, B → D, C → D` (`A = 0`, `B = 1`, `C = 2`,
`D = 3`) in which `D` is of the class `exIdleClass`, whose `Activate` leaves a
node in `Standby`; the others are base nodes. -/
def exIdleDiamond : Heap 4 :=
  exHeap ![{ ChildNodes := [1, 2] }, { ParentNodes := [0], ChildNodes := [3] },
    { ParentNodes := [0], ChildNodes := [3] },
    { ParentNodes := [1, 2], Class := exIdleClass }] [0]

/-- The diamond `A → B, A → C, B → D, C → D` (`A = 0`, `B = 1`, `C = 2`,
`D = 3`) in which `B` is of the slow class and the others are base nodes. -/
def exDiamondSlowB : Heap 4 :=
  exHeap ![{ ChildNodes := [1, 2] },
    { ParentNodes := [0], ChildNodes := [3], Class := exSlowClass },
    { ParentNodes := [0], ChildNodes := [3] },
    { ParentNodes := [1, 2] }] [0]

/-- The diamond `exDiamondSlowB` after `StartExecution` and four calls
`Execute(1)`: `B` and `C` are tracked, `B` is `Active` and `C` is `Finished`. -/
def exDiamondSlowBAfter4 : Heap 4 × UAutomationGraphExecutor 4 :=
  UAutomationGraphExecutor.ExecuteAll [1, 1, 1, 1]
    (UAutomationGraphExecutor.StartExecution exDiamondSlowB {} exTask).1

/-! # Theorems -/

/-! ## Node state machine -/

/-- C5: `CanStartActivation` is true exactly when the node is in `Standby` and
every entry of its `ParentNodes` is `Finished`; with no parents it is true
exactly in `Standby`; and a node without parents whose `Initialize` is the base
one can start right after a successful `Initialize`. -/
theorem CanStartActivation_iff_standby_and_parents_finished {n : Nat} (h : Heap n) (v : Fin n) :
    (h.CanStartActivation v = true ↔
      h.GetState v = .Standby ∧ ∀ p ∈ (h.Node v).ParentNodes, h.GetState p = .Finished) ∧
    ((h.Node v).ParentNodes = [] →
      (h.CanStartActivation v = true ↔ h.GetState v = .Standby)) ∧
    (∀ World : UWorld, (h.Node v).Class.Initialize = UAutomationGraphNode.Initialize →
      (h.Initialize v World).2 = true →
      (h.Initialize v World).1.GetState v = .Standby ∧
      ((h.Node v).ParentNodes = [] → (h.Initialize v World).1.CanStartActivation v = true)) := by
  have key : ∀ (k : Heap n), (k.CanStartActivation v = true ↔
      k.GetState v = .Standby ∧ ∀ p ∈ (k.Node v).ParentNodes, k.GetState p = .Finished) := by
    intro k
    unfold Heap.CanStartActivation
    by_cases hs : k.GetState v = .Standby
    · by_cases he : (k.Node v).ParentNodes.isEmpty = true
      · have : (k.Node v).ParentNodes = [] := List.isEmpty_iff.mp he
        simp [hs, this]
      · simp [hs, he]
    · simp [hs]
  refine ⟨key h, ?_, ?_⟩
  · intro hp
    rw [key h, hp]
    simp
  · intro World hc hok
    have hst : (h.Initialize v World).1.GetState v = .Standby := by
      unfold Heap.Initialize at *
      simp only [hc] at *
      unfold UAutomationGraphNode.Initialize at *
      by_cases ha : (h.Node v).NodeState = .Active
      · simp [ha] at hok
      · simp [ha, Heap.GetState, Heap.setMembers, Heap.log, UAutomationGraphNode.SetState]
    refine ⟨hst, ?_⟩
    intro hp
    rw [key]
    refine ⟨hst, ?_⟩
    have : ((h.Initialize v World).1.Node v).ParentNodes = [] := by
      simp [Heap.Initialize, Heap.setMembers, Heap.log, hp]
    rw [this]
    simp

/-- C5, at the root of the chain `A → B`. -/
theorem CanStartActivation_iff_standby_and_parents_finished_witness :
    (exChain.Initialize 0 0).1.GetState 0 = .Standby ∧
    ((exChain.Node 0).ParentNodes = [] → (exChain.Initialize 0 0).1.CanStartActivation 0 = true) :=
  (CanStartActivation_iff_standby_and_parents_finished exChain 0).2.2 0 rfl (by decide)

/-- C9: `Activate` adds the delta to `TimeElapsedSec` exactly when the node is
`Active` at the call; if the time is then at least `NodeTimeoutSec` the node
becomes `Expired` whatever the node-specific step is, otherwise the result is
that of the node-specific step. With a timeout of one second, an `Active` node
whose step keeps it `Active` is not expired by `Activate(0.6)` and is expired by
a second `Activate(0.6)`. -/
theorem Activate_accumulates_and_expires (cls : NodeClass) (m : NodeMembers) (dt : Rat) :
    (∀ t : Rat, t = (if m.NodeState = .Active then m.TimeElapsedSec + dt else m.TimeElapsedSec) →
      (t ≥ m.NodeTimeoutSec → UAutomationGraphNode.Activate cls m dt =
        ({ m with NodeState := .Expired, TimeElapsedSec := t }, .Expired)) ∧
      (¬ t ≥ m.NodeTimeoutSec → UAutomationGraphNode.Activate cls m dt =
        cls.ActivateInternal { m with TimeElapsedSec := t } dt)) ∧
    ((∀ (k : NodeMembers) (d : Rat), k.NodeState = .Active → cls.ActivateInternal k d = (k, .Active)) →
      ∀ m0 : NodeMembers, m0 = { NodeState := .Active, TimeElapsedSec := 0, NodeTimeoutSec := 1 } →
        (UAutomationGraphNode.Activate cls m0 0.6).2 = .Active ∧
        (UAutomationGraphNode.Activate cls m0 0.6).1.NodeState = .Active ∧
        (UAutomationGraphNode.Activate cls m0 0.6).1.TimeElapsedSec = 0.6 ∧
        (UAutomationGraphNode.Activate cls (UAutomationGraphNode.Activate cls m0 0.6).1 0.6).2
          = .Expired ∧
        (UAutomationGraphNode.Activate cls (UAutomationGraphNode.Activate cls m0 0.6).1
          0.6).1.NodeState = .Expired) := by
  constructor
  · intro t ht
    subst ht
    unfold UAutomationGraphNode.Activate
    by_cases ha : m.NodeState = .Active
    · simp only [ha, if_true]
      constructor
      · intro hge
        simp [hge, UAutomationGraphNode.SetState]
      · intro hlt
        simp [hlt]
    · simp only [ha, if_false]
      constructor
      · intro hge
        simp [hge, UAutomationGraphNode.SetState]
      · intro hlt
        simp [hlt]
  · intro hkeep m0 hm0
    subst hm0
    have h1 : UAutomationGraphNode.Activate cls
        { NodeState := .Active, TimeElapsedSec := 0, NodeTimeoutSec := 1 } 0.6 =
        ({ NodeState := .Active, TimeElapsedSec := 0.6, NodeTimeoutSec := 1 }, .Active) := by
      unfold UAutomationGraphNode.Activate
      norm_num
      exact hkeep _ _ rfl
    have h2 : UAutomationGraphNode.Activate cls
        { NodeState := .Active, TimeElapsedSec := 0.6, NodeTimeoutSec := 1 } 0.6 =
        ({ NodeState := .Expired, TimeElapsedSec := 0.6 + 0.6, NodeTimeoutSec := 1 }, .Expired) := by
      unfold UAutomationGraphNode.Activate
      norm_num [UAutomationGraphNode.SetState]
    rw [h1]
    simp only [h2]
    simp

/-- C9, for the class whose node-specific step does nothing. -/
theorem Activate_accumulates_and_expires_witness :
    (UAutomationGraphNode.Activate exIdleClass
      { NodeState := .Active, TimeElapsedSec := 0, NodeTimeoutSec := 1 } 0.6).1.NodeState = .Active ∧
    (UAutomationGraphNode.Activate exIdleClass (UAutomationGraphNode.Activate exIdleClass
      { NodeState := .Active, TimeElapsedSec := 0, NodeTimeoutSec := 1 } 0.6).1 0.6).1.NodeState
        = .Expired :=
  have hkeep : ∀ (k : NodeMembers) (d : Rat), k.NodeState = .Active →
      exIdleClass.ActivateInternal k d = (k, .Active) := by
    intro k d hk
    simp [exIdleClass, hk]
  have h := (Activate_accumulates_and_expires exIdleClass {} 0).2 hkeep _ rfl
  ⟨h.2.1, h.2.2.2.2⟩

/-! ## Execute: the returned flag -/

/-- C6: `Execute` returns `false` exactly when `ActiveNodes` is empty on
return. -/
theorem Execute_false_iff_ActiveNodes_empty {n : Nat} (h : Heap n)
    (ex : UAutomationGraphExecutor n) (dt : Rat) :
    (UAutomationGraphExecutor.Execute h ex dt).2 = false ↔
      (UAutomationGraphExecutor.Execute h ex dt).1.2.ActiveNodes = [] := by
  unfold UAutomationGraphExecutor.Execute
  by_cases he : ex.ActiveNodes.isEmpty = true
  · have : ex.ActiveNodes = [] := List.isEmpty_iff.mp he
    simp [this]
  · have hne : ex.ActiveNodes ≠ [] := fun hx => he (by simp [hx])
    simp only [he, if_false, Bool.false_eq_true]
    by_cases ht : ex.ExecutionTimer - dt > 0
    · simp [ht, hne]
    · simp only [ht, if_false]
      split
      · simp [UAutomationGraphExecutor.Reset]
      · simp [List.isEmpty_iff]

/-! ## Concrete runs -/

/-- C3, counterexample: on the graph `0 → 1 → 2 → 1` the walk aborts on the
cycle, and the nodes it initialized are not `Uninitialized` on return (they are
`Cancelled`). -/
theorem StartExecution_cycle_abort_not_uninitialized :
    (UAutomationGraphExecutor.StartExecution exCycle {} exTask).2 = .CycleAbort ∧
    ¬ (∀ v : Fin 3,
        Call.Initialize v ∈
          (UAutomationGraphExecutor.StartExecution exCycle {} exTask).1.1.CallsSince exCycle →
        (UAutomationGraphExecutor.StartExecution exCycle {} exTask).1.1.GetState v
          = .Uninitialized) := by
  decide!

/-- C8, counterexample: in the chain `A → B`, the second `Execute` is the one in
which `Activate` on `A` returns `Finished` and makes `B` eligible, yet no
`Activate` on `B` has been made when that call returns; the third `Execute`
makes it. -/
theorem Execute_child_not_activated_in_finishing_pass :
    ((UAutomationGraphExecutor.ExecuteAll [1]
      (UAutomationGraphExecutor.StartExecution exChain {} exTask).1).1.GetState 0 = .Active) ∧
    ((UAutomationGraphExecutor.ExecuteAll [1, 1]
      (UAutomationGraphExecutor.StartExecution exChain {} exTask).1).1.GetState 0 = .Finished) ∧
    ((UAutomationGraphExecutor.ExecuteAll [1, 1]
      (UAutomationGraphExecutor.StartExecution exChain {} exTask).1).1.CanStartActivation 1
        = true) ∧
    (((UAutomationGraphExecutor.ExecuteAll [1, 1]
      (UAutomationGraphExecutor.StartExecution exChain {} exTask).1).1.CallsSince exChain).countP
        (Call.isActivateOn 1) = 0) ∧
    (((UAutomationGraphExecutor.ExecuteAll [1, 1, 1]
      (UAutomationGraphExecutor.StartExecution exChain {} exTask).1).1.CallsSince exChain).countP
        (Call.isActivateOn 1) = 1) := by
  decide!

/-- C10, the code at the failing input: with two live graphs queued and no run
active, one `Tick` starts graph `0`, then starts graph `1` on the same executor
(which cancels the root of graph `0`), and leaves the queue empty. -/
theorem Tick_drains_whole_queue :
    (UAutomationGraphSubsystem.Tick exTwoGraphs exQueued 1).2.TaskQueue = [] ∧
    ((UAutomationGraphSubsystem.Tick exTwoGraphs exQueued 1).2.Executors.map
      (fun e => (e.TargetGraph, e.ActiveNodes))) = some (some 1, [1]) ∧
    (UAutomationGraphSubsystem.Tick exTwoGraphs exQueued 1).1.Trace =
      [.Initialize 0, .Cancel 0, .CancelInternal 0, .Cleanup 0, .Initialize 1] ∧
    (UAutomationGraphSubsystem.Tick exTwoGraphs exQueued 1).1.GetState 0 = .Cancelled := by
  decide!

/-! ## Frame lemmas -/

theorem Heap.SameShape.refl {n : Nat} (h : Heap n) : h.SameShape h :=
  ⟨fun _ => rfl, fun _ => rfl, fun _ => rfl, rfl, rfl⟩

theorem Heap.SameShape.trans {n : Nat} {h k l : Heap n} (a : h.SameShape k) (b : k.SameShape l) :
    h.SameShape l :=
  ⟨fun u => (b.child u).trans (a.child u), fun u => (b.parent u).trans (a.parent u),
    fun u => (b.cls u).trans (a.cls u), b.valid.trans a.valid, b.graph.trans a.graph⟩

theorem Heap.SameShape.log {n : Nat} (h : Heap n) (c : Call n) : h.SameShape (h.log c) :=
  ⟨fun _ => rfl, fun _ => rfl, fun _ => rfl, rfl, rfl⟩

theorem Heap.SameShape.setMembers {n : Nat} (h : Heap n) (v : Fin n) (m : NodeMembers) :
    h.SameShape (h.setMembers v m) := by
  refine ⟨fun u => ?_, fun u => ?_, fun u => ?_, rfl, rfl⟩ <;>
  · unfold Heap.setMembers
    by_cases hu : u = v
    · subst hu; simp
    · simp [Function.update_noteq hu]

theorem Heap.SameShape.Initialize {n : Nat} (h : Heap n) (v : Fin n) (w : UWorld) :
    h.SameShape (h.Initialize v w).1 :=
  (Heap.SameShape.log h _).trans (Heap.SameShape.setMembers _ v _)

theorem Heap.SameShape.Activate {n : Nat} (h : Heap n) (v : Fin n) (dt : Rat) :
    h.SameShape (h.Activate v dt).1 :=
  (Heap.SameShape.log h _).trans (Heap.SameShape.setMembers _ v _)

theorem Heap.SameShape.Cleanup {n : Nat} (h : Heap n) (v : Fin n) : h.SameShape (h.Cleanup v) :=
  Heap.SameShape.log h _

theorem Heap.SameShape.Cancel {n : Nat} (h : Heap n) (v : Fin n) : h.SameShape (h.Cancel v) := by
  unfold Heap.Cancel
  refine Heap.SameShape.trans ?_ (Heap.SameShape.Cleanup _ v)
  refine Heap.SameShape.trans (Heap.SameShape.log h (Call.Cancel v)) ?_
  split
  · exact (Heap.SameShape.log _ _).trans (Heap.SameShape.setMembers _ v _)
  · exact Heap.SameShape.refl _

theorem Heap.SameShape.Uninit {n : Nat} (h : Heap n) (v : Fin n) : h.SameShape (Heap.Uninitialize h v) :=
  ((Heap.SameShape.log h _).trans (Heap.SameShape.Cleanup _ v)).trans (Heap.SameShape.setMembers _ v _)

theorem Heap.SameShape.edge_iff {n : Nat} {h k : Heap n} (a : h.SameShape k) (u c : Fin n) :
    k.Edge u c ↔ h.Edge u c := by
  unfold Heap.Edge
  rw [a.child u]

theorem Heap.SameShape.edge_eq {n : Nat} {h k : Heap n} (a : h.SameShape k) : k.Edge = h.Edge := by
  funext u c
  exact propext (a.edge_iff u c)

theorem Heap.SameShape.unvisited {n : Nat} {h k : Heap n} (a : h.SameShape k) (V : List (Fin n)) :
    k.UnvisitedEdges V = h.UnvisitedEdges V := by
  unfold Heap.UnvisitedEdges
  simp only [a.child]

/-! ## Set operations -/

theorem TSet.mem_Add {α : Type} [DecidableEq α] (s : List α) (x y : α) :
    y ∈ TSet.Add s x ↔ y ∈ s ∨ y = x := by
  unfold TSet.Add
  split
  · constructor
    · exact Or.inl
    · rintro (h | h)
      · exact h
      · subst h; assumption
  · simp

theorem TSet.nodup_Add {α : Type} [DecidableEq α] (s : List α) (x : α) (hs : s.Nodup) :
    (TSet.Add s x).Nodup := by
  unfold TSet.Add
  split
  · exact hs
  · rename_i hx
    exact List.Nodup.append hs (List.nodup_singleton x) (by simpa using hx)

theorem TSet.mem_Append {α : Type} [DecidableEq α] (t : List α) :
    ∀ (s : List α) (y : α), y ∈ TSet.Append s t ↔ y ∈ s ∨ y ∈ t := by
  induction t with
  | nil => intro s y; simp [TSet.Append]
  | cons a t ih =>
    intro s y
    have := ih (TSet.Add s a) y
    unfold TSet.Append at this ⊢
    rw [List.foldl_cons, this, TSet.mem_Add]
    simp only [List.mem_cons]
    tauto

theorem TSet.nodup_Append {α : Type} [DecidableEq α] (t : List α) :
    ∀ (s : List α), s.Nodup → (TSet.Append s t).Nodup := by
  induction t with
  | nil => intro s hs; simpa [TSet.Append] using hs
  | cons a t ih =>
    intro s hs
    have := ih (TSet.Add s a) (TSet.nodup_Add s a hs)
    unfold TSet.Append at this ⊢
    simpa using this

theorem TSet.mem_Remove {α : Type} [DecidableEq α] (s : List α) (x y : α) :
    y ∈ TSet.Remove s x ↔ y ∈ s ∧ y ≠ x := by
  simp [TSet.Remove]

theorem TSet.nodup_Remove {α : Type} [DecidableEq α] (s : List α) (x : α) (hs : s.Nodup) :
    (TSet.Remove s x).Nodup :=
  hs.filter _

/-! ## The potential of a walk -/

theorem UnvisitedEdges_nil {n : Nat} (h : Heap n) : h.UnvisitedEdges [] = h.EdgeCount := by
  simp [Heap.UnvisitedEdges, Heap.EdgeCount]

theorem UnvisitedEdges_visit {n : Nat} (h : Heap n) (V : List (Fin n)) (v : Fin n)
    (hv : v ∉ V) :
    h.UnvisitedEdges (TSet.Add V v) + (h.Node v).ChildNodes.length = h.UnvisitedEdges V := by
  unfold Heap.UnvisitedEdges
  have hmem : v ∈ List.finRange n := List.mem_finRange v
  have hnd : (List.finRange n).Nodup := List.nodup_finRange n
  generalize List.finRange n = l at hmem hnd
  induction l with
  | nil => simp at hmem
  | cons a l ih =>
    simp only [List.map_cons, List.sum_cons]
    rw [List.nodup_cons] at hnd
    by_cases hav : a = v
    · subst hav
      have hrest : (l.map (fun u => if u ∈ TSet.Add V a then 0 else (h.Node u).ChildNodes.length))
          = l.map (fun u => if u ∈ V then 0 else (h.Node u).ChildNodes.length) := by
        apply List.map_congr_left
        intro u hu
        have : u ≠ a := fun e => hnd.1 (e ▸ hu)
        simp [TSet.mem_Add, this]
      rw [hrest]
      simp [TSet.mem_Add, hv]
      omega
    · have hvl : v ∈ l := by
        rcases List.mem_cons.mp hmem with e | e
        · exact absurd e.symm hav
        · exact e
      have := ih hvl hnd.2
      have ha : (a ∈ TSet.Add V v) ↔ a ∈ V := by simp [TSet.mem_Add, hav]
      simp only [ha]
      omega

/-! ## The walk of `CancelNodes` and `UninitializeNodes` -/

theorem Heap.SameShape.foldl {n : Nat} (op : Heap n → Fin n → Heap n)
    (hop : ∀ (h : Heap n) (v : Fin n), h.SameShape (op h v)) (L : List (Fin n)) :
    ∀ h : Heap n, h.SameShape (L.foldl op h) := by
  induction L with
  | nil => intro h; exact Heap.SameShape.refl h
  | cons a L ih => intro h; exact (hop h a).trans (ih (op h a))

theorem Heap.SameShape.reaches_iff {n : Nat} {h k : Heap n} (a : h.SameShape k) (u v : Fin n) :
    k.Reaches u v ↔ h.Reaches u v := by
  unfold Heap.Reaches
  rw [a.edge_eq]

/-- The walk loop never reaches its iteration bound, and applies the operation
once to each node of a duplicate-free list `L` that consists of unvisited
nodes, covers the stack, is closed under children (up to visited nodes) and
contains only nodes reachable from the stack. -/
theorem walkLoop_spec {n : Nat} (op : Heap n → Fin n → Heap n)
    (hop : ∀ (h : Heap n) (v : Fin n), h.SameShape (op h v)) :
    ∀ (fuel : Nat) (h : Heap n) (stack V : List (Fin n)),
      stack.length + h.UnvisitedEdges V ≤ fuel →
      ∃ L : List (Fin n),
        UAutomationGraph.walkLoop op fuel h stack V = some (L.foldl op h) ∧
        L.Nodup ∧ (∀ x ∈ L, x ∉ V) ∧
        (∀ x ∈ stack, x ∈ V ∨ x ∈ L) ∧
        (∀ u ∈ L, ∀ c ∈ (h.Node u).ChildNodes, c ∈ V ∨ c ∈ L) ∧
        (∀ u ∈ L, ∃ s ∈ stack, h.Reaches s u) := by
  intro fuel
  induction fuel with
  | zero =>
    intro h stack V hf
    cases stack with
    | nil => exact ⟨[], by simp [UAutomationGraph.walkLoop]⟩
    | cons a s => simp at hf
  | succ fuel ih =>
    intro h stack V hf
    cases stack with
    | nil => exact ⟨[], by simp [UAutomationGraph.walkLoop]⟩
    | cons v rest =>
      by_cases hv : v ∈ V
      · obtain ⟨L, hL, hnd, hdis, hstack, hclos, hreach⟩ :=
          ih h rest V (by simp at hf; omega)
        refine ⟨L, ?_, hnd, hdis, ?_, hclos, ?_⟩
        · simp [UAutomationGraph.walkLoop, hv, hL]
        · intro x hx
          rcases List.mem_cons.mp hx with e | e
          · subst e; exact Or.inl hv
          · exact hstack x e
        · intro u hu
          obtain ⟨s, hs, hr⟩ := hreach u hu
          exact ⟨s, List.mem_cons_of_mem _ hs, hr⟩
      · have hsh : h.SameShape (op h v) := hop h v
        have hpot := UnvisitedEdges_visit h V v hv
        obtain ⟨L, hL, hnd, hdis, hstack, hclos, hreach⟩ :=
          ih (op h v) (((op h v).Node v).ChildNodes.reverse ++ rest) (TSet.Add V v) (by
            rw [hsh.unvisited, hsh.child]
            simp at hf ⊢
            omega)
        have hvL : v ∉ L := fun hx => hdis v hx (by simp [TSet.mem_Add])
        refine ⟨v :: L, ?_, ?_, ?_, ?_, ?_, ?_⟩
        · simp [UAutomationGraph.walkLoop, hv, hL]
        · exact List.nodup_cons.mpr ⟨hvL, hnd⟩
        · intro x hx
          rcases List.mem_cons.mp hx with e | e
          · subst e; exact hv
          · exact fun hxV => hdis x e (by simp [TSet.mem_Add, hxV])
        · intro x hx
          rcases List.mem_cons.mp hx with e | e
          · subst e; exact Or.inr (List.mem_cons_self _ _)
          · rcases hstack x (List.mem_append_right _ e) with hm | hm
            · rcases (TSet.mem_Add V v x).mp hm with hm | hm
              · exact Or.inl hm
              · subst hm; exact Or.inr (List.mem_cons_self _ _)
            · exact Or.inr (List.mem_cons_of_mem _ hm)
        · intro u hu c hc
          have hcase : c ∈ TSet.Add V v ∨ c ∈ L := by
            rcases List.mem_cons.mp hu with e | e
            · subst e
              apply hstack
              apply List.mem_append_left
              rw [List.mem_reverse, hsh.child]
              exact hc
            · apply hclos u e
              rw [hsh.child]
              exact hc
          rcases hcase with hm | hm
          · rcases (TSet.mem_Add V v c).mp hm with hm | hm
            · exact Or.inl hm
            · subst hm; exact Or.inr (List.mem_cons_self _ _)
          · exact Or.inr (List.mem_cons_of_mem _ hm)
        · intro u hu
          rcases List.mem_cons.mp hu with e | e
          · subst e
            exact ⟨u, List.mem_cons_self _ _, Relation.ReflTransGen.refl⟩
          · obtain ⟨s, hs, hr⟩ := hreach u e
            have hr2 : h.Reaches s u := (hsh.reaches_iff s u).mp hr
            rcases List.mem_append.mp hs with hs | hs
            · rw [List.mem_reverse, hsh.child] at hs
              exact ⟨v, List.mem_cons_self _ _, Relation.ReflTransGen.head hs hr2⟩
            · exact ⟨s, List.mem_cons_of_mem _ hs, hr2⟩

/-- A set that contains `s` and is closed under children contains everything
reachable from `s`. -/
theorem Reaches.mem_of_closed {n : Nat} (h : Heap n) (P : Fin n → Prop)
    (hclos : ∀ u, P u → ∀ c ∈ (h.Node u).ChildNodes, P c) {s v : Fin n}
    (hr : h.Reaches s v) (hs : P s) : P v := by
  induction hr with
  | refl => exact hs
  | tail _ hbc ih => exact hclos _ ih _ hbc

/-- `CancelNodes` and `UninitializeNodes` terminate within their bound and
apply their operation once to each node of a duplicate-free list that consists
of exactly the nodes reachable by child edges from `RootNodes`. -/
theorem walkLoop_roots {n : Nat} (op : Heap n → Fin n → Heap n)
    (hop : ∀ (h : Heap n) (v : Fin n), h.SameShape (op h v)) (g : UAutomationGraph n) (h : Heap n) :
    ∃ L : List (Fin n),
      UAutomationGraph.walkLoop op (g.RootNodes.length + h.EdgeCount) h g.RootNodes.reverse []
        = some (L.foldl op h) ∧
      L.Nodup ∧ ∀ v, v ∈ L ↔ g.ReachableFromRoots h v := by
  obtain ⟨L, hL, hnd, _, hstack, hclos, hreach⟩ :=
    walkLoop_spec op hop (g.RootNodes.length + h.EdgeCount) h g.RootNodes.reverse [] (by
      rw [UnvisitedEdges_nil]; simp)
  refine ⟨L, hL, hnd, fun v => ⟨fun hv => ?_, fun hv => ?_⟩⟩
  · obtain ⟨s, hs, hr⟩ := hreach v hv
    exact ⟨s, List.mem_reverse.mp hs, hr⟩
  · obtain ⟨r, hr, hrv⟩ := hv
    refine Reaches.mem_of_closed h (fun x => x ∈ L) ?_ hrv ?_
    · intro u hu c hc
      rcases hclos u hu c hc with hm | hm
      · simp at hm
      · exact hm
    · rcases hstack r (List.mem_reverse.mpr hr) with hm | hm
      · simp at hm
      · exact hm

theorem CancelNodes_eq {n : Nat} (g : UAutomationGraph n) (h : Heap n) :
    ∃ L : List (Fin n), g.CancelNodes h = L.foldl Heap.Cancel h ∧
      L.Nodup ∧ ∀ v, v ∈ L ↔ g.ReachableFromRoots h v := by
  obtain ⟨L, hL, hnd, hmem⟩ := walkLoop_roots Heap.Cancel Heap.SameShape.Cancel g h
  exact ⟨L, by simp [UAutomationGraph.CancelNodes, hL], hnd, hmem⟩

/-! ## The cycle-checking walk of `StartExecution` -/

theorem afterIn_subset {α : Type} [DecidableEq α] (u : α) :
    ∀ (l : List α) (c : α), c ∈ afterIn u l → c ∈ l := by
  intro l
  induction l with
  | nil => intro c hc; simp [afterIn] at hc
  | cons x l ih =>
    intro c hc
    unfold afterIn at hc
    split at hc
    · exact List.mem_cons_of_mem _ hc
    · exact List.mem_cons_of_mem _ (ih c hc)

theorem afterIn_append_of_mem {α : Type} [DecidableEq α] (u : α) (N : List α) :
    ∀ (P : List α), u ∈ P → afterIn u (P ++ N) = afterIn u P ++ N := by
  intro P
  induction P with
  | nil => intro h; simp at h
  | cons x P ih =>
    intro h
    by_cases hx : x = u
    · simp [afterIn, hx]
    · have : u ∈ P := by
        rcases List.mem_cons.mp h with e | e
        · exact absurd e.symm hx
        · exact e
      simp [afterIn, hx, ih this]

theorem afterIn_append_of_not_mem {α : Type} [DecidableEq α] (u : α) (N : List α) :
    ∀ (P : List α), u ∉ P → afterIn u (P ++ N) = afterIn u N := by
  intro P
  induction P with
  | nil => intro _; rfl
  | cons x P ih =>
    intro h
    have hx : x ≠ u := fun e => h (e ▸ List.mem_cons_self _ _)
    have hP : u ∉ P := fun e => h (List.mem_cons_of_mem _ e)
    simp [afterIn, hx, ih hP]

theorem pushChildren_eq {n : Nat} (A : List (Fin n)) :
    ∀ (cs : List (Fin n)) (S : List (Fin n × List (Fin n))),
      UAutomationGraphExecutor.StartExecution.pushChildren A cs S =
        if ∃ c ∈ cs, c ∈ A then none
        else some ((cs.map (fun c => (c, A))).reverse ++ S) := by
  intro cs
  induction cs with
  | nil => intro S; simp [UAutomationGraphExecutor.StartExecution.pushChildren]
  | cons c cs ih =>
    intro S
    unfold UAutomationGraphExecutor.StartExecution.pushChildren
    by_cases hc : c ∈ A
    · simp [hc]
    · rw [if_neg hc, ih]
      by_cases hex : ∃ c ∈ cs, c ∈ A
      · have : ∃ x ∈ c :: cs, x ∈ A := by
          obtain ⟨x, hx, hxA⟩ := hex
          exact ⟨x, List.mem_cons_of_mem _ hx, hxA⟩
        rw [if_pos hex, if_pos this]
      · have : ¬ ∃ x ∈ c :: cs, x ∈ A := by
          rintro ⟨x, hx, hxA⟩
          rcases List.mem_cons.mp hx with e | e
          · exact hc (e ▸ hxA)
          · exact hex ⟨x, e, hxA⟩
        rw [if_neg hex, if_neg this]
        simp

/-- Loop rule for the walk of `StartExecution`: a property of stack and visited
set that survives skipping a visited node and expanding an unvisited one holds
with an empty stack when the walk completes, and held at the expanded node when
a cycle is reported. -/
theorem walk_rule {n : Nat} (World : UWorld) (ch : Fin n → List (Fin n))
    (Inv : List (Fin n × List (Fin n)) → List (Fin n) → Prop)
    (hskip : ∀ v A S V, Inv ((v, A) :: S) V → v ∈ V → Inv S V)
    (hvisit : ∀ v A S V, Inv ((v, A) :: S) V → v ∉ V →
      (∀ c ∈ ch v, c ∉ TSet.Add A v) →
      Inv (((ch v).map (fun c => (c, TSet.Add A v))).reverse ++ S) (TSet.Add V v)) :
    ∀ (fuel : Nat) (h : Heap n) (S : List (Fin n × List (Fin n))) (V : List (Fin n)),
      (∀ u, (h.Node u).ChildNodes = ch u) → Inv S V →
      match UAutomationGraphExecutor.StartExecution.walk World fuel h S V with
      | .Completed _ V1 => Inv [] V1
      | .CycleFound _ => ∃ v A S1 V1, Inv ((v, A) :: S1) V1 ∧ v ∉ V1 ∧
          ∃ c ∈ ch v, c ∈ TSet.Add A v
      | .OutOfFuel => True := by
  intro fuel
  induction fuel with
  | zero =>
    intro h S V _ hinv
    cases S with
    | nil => simpa [UAutomationGraphExecutor.StartExecution.walk] using hinv
    | cons e S => simp [UAutomationGraphExecutor.StartExecution.walk]
  | succ fuel ih =>
    intro h S V hch hinv
    cases S with
    | nil => simpa [UAutomationGraphExecutor.StartExecution.walk] using hinv
    | cons e S =>
      obtain ⟨v, A⟩ := e
      unfold UAutomationGraphExecutor.StartExecution.walk
      by_cases hv : v ∈ V
      · simp only [hv, if_true]
        exact ih h S V hch (hskip v A S V hinv hv)
      · simp only [hv, if_false]
        have hsh : h.SameShape (UAutomationGraphExecutor.InitializeNode h v World).1 :=
          Heap.SameShape.Initialize h v World
        have hch1 : ∀ u, ((UAutomationGraphExecutor.InitializeNode h v World).1.Node u).ChildNodes
            = ch u := fun u => (hsh.child u).trans (hch u)
        rw [pushChildren_eq, hch1 v]
        by_cases hex : ∃ c ∈ ch v, c ∈ TSet.Add A v
        · rw [if_pos hex]
          exact ⟨v, A, S, V, hinv, hv, hex⟩
        · rw [if_neg hex]
          refine ih _ _ _ hch1 (hvisit v A S V hinv hv ?_)
          intro c hc hcA
          exact hex ⟨c, hc, hcA⟩

theorem topAncestors_prefix {n : Nat} {S : List (Fin n × List (Fin n))} {e : Fin n × List (Fin n)}
    (hn : (e :: S).Pairwise (fun e1 e2 => e2.2 <+: e1.2)) : topAncestors S <+: e.2 := by
  cases S with
  | nil => exact List.nil_prefix
  | cons e0 S => exact (List.pairwise_cons.mp hn).1 e0 (List.mem_cons_self _ _)

theorem prefix_topAncestors {n : Nat} {S : List (Fin n × List (Fin n))}
    (hn : S.Pairwise (fun e1 e2 => e2.2 <+: e1.2)) :
    ∀ e ∈ S, e.2 <+: topAncestors S := by
  intro e he
  cases S with
  | nil => simp at he
  | cons e0 S =>
    rcases List.mem_cons.mp he with h | h
    · subst h; exact List.prefix_refl _
    · exact (List.pairwise_cons.mp hn).1 e h

/-- The nodes of the end of a duplicate-free path have no cycle below them
when each of their children has none or lies further down the path. -/
theorem acc_suffix {n : Nat} (ch : Fin n → List (Fin n)) :
    ∀ (N P : List (Fin n)), (P ++ N).Nodup →
      (∀ u ∈ N, ∀ c ∈ ch u, Acc (fun c u => c ∈ ch u) c ∨ c ∈ afterIn u (P ++ N)) →
      ∀ u ∈ N, Acc (fun c u => c ∈ ch u) u := by
  intro N
  induction N with
  | nil => intro P _ _ u hu; simp at hu
  | cons u0 N ih =>
    intro P hnd hyp
    have hassoc : P ++ [u0] ++ N = P ++ u0 :: N := by simp
    have htail : ∀ u ∈ N, Acc (fun c u => c ∈ ch u) u := by
      apply ih (P ++ [u0])
      · rw [hassoc]; exact hnd
      · intro u hu c hc
        rw [hassoc]
        exact hyp u (List.mem_cons_of_mem _ hu) c hc
    intro u hu
    rcases List.mem_cons.mp hu with e | e
    · subst e
      refine Acc.intro _ (fun c hc => ?_)
      rcases hyp u (List.mem_cons_self _ _) c hc with hacc | haft
      · exact hacc
      · have hP : u ∉ P := by
          intro hx
          have := List.disjoint_of_nodup_append hnd hx
          exact this (List.mem_cons_self _ _)
        rw [afterIn_append_of_not_mem u _ P hP] at haft
        simp [afterIn] at haft
        exact htail c haft
    · exact htail u e

theorem WalkInv.pop {n : Nat} {ch : Fin n → List (Fin n)} {X0 : List (Fin n)} {v : Fin n}
    {A : List (Fin n)} {S : List (Fin n × List (Fin n))} {V V1 : List (Fin n)}
    (inv : WalkInv ch X0 ((v, A) :: S) V) (hV : ∀ x, x ∈ V1 ↔ x ∈ V ∨ x = v)
    (hacc : Acc (fun c u => c ∈ ch u) v) (hvd : v ∈ V ∨ ch v = []) :
    WalkInv ch X0 S V1 := by
  obtain ⟨hvA, hAnd, hAV⟩ := inv.entries (v, A) (List.mem_cons_self _ _)
  simp only at hvA hAnd hAV
  obtain ⟨N, hN⟩ := topAncestors_prefix inv.nested
  simp only at hN
  have hnd2 : (topAncestors S ++ N).Nodup := by rw [hN]; exact hAnd
  have hTA : ∀ x, x ∈ topAncestors S → x ∈ A := by
    intro x hx; rw [← hN]; exact List.mem_append_left _ hx
  have hNT : ∀ x, x ∈ N → x ∉ topAncestors S := by
    intro x hx hx2
    exact List.disjoint_of_nodup_append hnd2 hx2 hx
  have hsplit : ∀ x, x ∈ A → x ∉ topAncestors S → x ∈ N := by
    intro x hx hx2
    rw [← hN] at hx
    rcases List.mem_append.mp hx with h | h
    · exact absurd h hx2
    · exact h
  -- the third alternative of `children`, relative to the new top
  have hthird : ∀ u c, u ∈ A → c ∈ afterIn u A →
      (c ∈ A ∧ c ∉ topAncestors S) ∨
      (u ∈ topAncestors S ∧ c ∈ afterIn u (topAncestors S)) := by
    intro u c _ hc
    have hcA : c ∈ A := afterIn_subset u A c hc
    rw [← hN] at hc
    by_cases huT : u ∈ topAncestors S
    · rw [afterIn_append_of_mem u N _ huT] at hc
      rcases List.mem_append.mp hc with h | h
      · exact Or.inr ⟨huT, h⟩
      · exact Or.inl ⟨hcA, hNT c h⟩
    · rw [afterIn_append_of_not_mem u N _ huT] at hc
      exact Or.inl ⟨hcA, hNT c (afterIn_subset u N c hc)⟩
  refine ⟨?_, ?_, ?_, ?_, ?_⟩
  · intro e he
    obtain ⟨h1, h2, h3⟩ := inv.entries e (List.mem_cons_of_mem _ he)
    exact ⟨h1, h2, fun x hx => (hV x).mpr (Or.inl (h3 x hx))⟩
  · exact (List.pairwise_cons.mp inv.nested).2
  · intro u hu c hc
    have huV : u ∈ V := by
      rcases (hV u).mp hu with h | h
      · exact h
      · subst h
        rcases hvd with h | h
        · exact h
        · rw [h] at hc; simp at hc
    rcases inv.children u huV c hc with ⟨hcV, hcA⟩ | ⟨A1, hmem, huA⟩ | ⟨huA, hcaft⟩
    · exact Or.inl ⟨(hV c).mpr (Or.inl hcV), fun hx => hcA (hTA c hx)⟩
    · rcases List.mem_cons.mp hmem with h | h
      · have hcv : c = v := congrArg Prod.fst h
        exact Or.inl ⟨(hV c).mpr (Or.inr hcv), fun hx => hvA (hTA v (hcv ▸ hx))⟩
      · exact Or.inr (Or.inl ⟨A1, h, huA⟩)
    · simp only [topAncestors] at huA hcaft
      rcases hthird u c huA hcaft with ⟨h1, h2⟩ | h
      · exact Or.inl ⟨(hV c).mpr (Or.inl (hAV c h1)), h2⟩
      · exact Or.inr (Or.inr h)
  · intro b hb hbT
    rcases (hV b).mp hb with hbV | hbv
    · by_cases hbA : b ∈ A
      · refine acc_suffix ch N (topAncestors S) hnd2 ?_ b (hsplit b hbA hbT)
        intro u hu c hc
        have huA : u ∈ A := by rw [← hN]; exact List.mem_append_right _ hu
        rcases inv.children u (hAV u huA) c hc with ⟨hcV, hcA⟩ | ⟨A1, hmem, huA1⟩ | ⟨_, hcaft⟩
        · exact Or.inl (inv.finished c hcV hcA)
        · rcases List.mem_cons.mp hmem with h | h
          · have hcv : c = v := congrArg Prod.fst h
            exact Or.inl (hcv ▸ hacc)
          · exfalso
            have hpre := prefix_topAncestors (List.pairwise_cons.mp inv.nested).2 (c, A1) h
            exact hNT u hu (hpre.subset huA1)
        · right
          rw [hN]
          exact hcaft
      · exact inv.finished b hbV hbA
    · exact hbv ▸ hacc
  · intro x hx
    rcases inv.starts x hx with h | ⟨A1, h⟩
    · exact Or.inl ((hV x).mpr (Or.inl h))
    · rcases List.mem_cons.mp h with h2 | h2
      · exact Or.inl ((hV x).mpr (Or.inr (congrArg Prod.fst h2)))
      · exact Or.inr ⟨A1, h2⟩

theorem topAncestors_push {n : Nat} (A1 : List (Fin n)) (cs : List (Fin n)) (hcs : cs ≠ [])
    (S : List (Fin n × List (Fin n))) :
    topAncestors ((cs.map (fun c => (c, A1))).reverse ++ S) = A1 := by
  have hne : (cs.map (fun c => (c, A1))).reverse ≠ [] := by simpa using hcs
  have hall : ∀ e ∈ (cs.map (fun c => (c, A1))).reverse, e.2 = A1 := by
    intro e he
    simp only [List.mem_reverse, List.mem_map] at he
    obtain ⟨c, _, hc⟩ := he
    rw [← hc]
  cases hl : (cs.map (fun c => (c, A1))).reverse with
  | nil => exact absurd hl hne
  | cons e l =>
    have := hall e (by rw [hl]; exact List.mem_cons_self _ _)
    simpa [topAncestors] using this

theorem WalkInv.push {n : Nat} {ch : Fin n → List (Fin n)} {X0 : List (Fin n)} {v : Fin n}
    {A : List (Fin n)} {S : List (Fin n × List (Fin n))} {V : List (Fin n)}
    (inv : WalkInv ch X0 ((v, A) :: S) V) (hv : v ∉ V) (hne : ch v ≠ [])
    (hcheck : ∀ c ∈ ch v, c ∉ TSet.Add A v) :
    WalkInv ch X0 (((ch v).map (fun c => (c, TSet.Add A v))).reverse ++ S) (TSet.Add V v) := by
  obtain ⟨hvA, hAnd, hAV⟩ := inv.entries (v, A) (List.mem_cons_self _ _)
  simp only at hvA hAnd hAV
  have hA1 : TSet.Add A v = A ++ [v] := by simp [TSet.Add, hvA]
  have htop := topAncestors_push (TSet.Add A v) (ch v) hne S
  have hnew : ∀ e ∈ ((ch v).map (fun c => (c, TSet.Add A v))).reverse,
      e.1 ∈ ch v ∧ e.2 = TSet.Add A v := by
    intro e he
    simp only [List.mem_reverse, List.mem_map] at he
    obtain ⟨c, hc, hce⟩ := he
    rw [← hce]
    exact ⟨hc, rfl⟩
  refine ⟨?_, ?_, ?_, ?_, ?_⟩
  · intro e he
    rcases List.mem_append.mp he with h | h
    · obtain ⟨h1, h2⟩ := hnew e h
      refine ⟨?_, ?_, ?_⟩
      · rw [h2]; exact hcheck e.1 h1
      · rw [h2]; exact TSet.nodup_Add A v hAnd
      · intro x hx
        rw [h2] at hx
        rcases (TSet.mem_Add A v x).mp hx with h3 | h3
        · exact (TSet.mem_Add V v x).mpr (Or.inl (hAV x h3))
        · exact (TSet.mem_Add V v x).mpr (Or.inr h3)
    · obtain ⟨h1, h2, h3⟩ := inv.entries e (List.mem_cons_of_mem _ h)
      exact ⟨h1, h2, fun x hx => (TSet.mem_Add V v x).mpr (Or.inl (h3 x hx))⟩
  · rw [List.pairwise_append]
    refine ⟨?_, (List.pairwise_cons.mp inv.nested).2, ?_⟩
    · rw [List.pairwise_iff_forall_sublist]
      intro a b hab
      have ha := (hnew a (hab.subset (List.mem_cons_self _ _))).2
      have hb := (hnew b (hab.subset (by simp))).2
      rw [ha, hb]
    · intro a ha b hb
      rw [(hnew a ha).2, hA1]
      exact ((List.pairwise_cons.mp inv.nested).1 b hb).trans (List.prefix_append _ _)
  · intro u hu c hc
    rw [htop]
    rcases (TSet.mem_Add V v u).mp hu with huV | huv
    · rcases inv.children u huV c hc with ⟨hcV, hcA⟩ | ⟨A2, hmem, huA⟩ | ⟨huA, hcaft⟩
      · left
        refine ⟨(TSet.mem_Add V v c).mpr (Or.inl hcV), ?_⟩
        intro hx
        rcases (TSet.mem_Add A v c).mp hx with h | h
        · exact hcA h
        · exact hv (h ▸ hcV)
      · rcases List.mem_cons.mp hmem with h | h
        · have hcv : c = v := congrArg Prod.fst h
          have hA2 : A2 = A := congrArg Prod.snd h
          right; right
          rw [hA2] at huA
          refine ⟨(TSet.mem_Add A v u).mpr (Or.inl huA), ?_⟩
          rw [hA1, afterIn_append_of_mem u [v] A huA, hcv]
          simp
        · exact Or.inr (Or.inl ⟨A2, List.mem_append_right _ h, huA⟩)
      · simp only [topAncestors] at huA hcaft
        right; right
        refine ⟨(TSet.mem_Add A v u).mpr (Or.inl huA), ?_⟩
        rw [hA1, afterIn_append_of_mem u [v] A huA]
        exact List.mem_append_left _ hcaft
    · right; left
      refine ⟨TSet.Add A v, ?_, (TSet.mem_Add A v u).mpr (Or.inr huv)⟩
      apply List.mem_append_left
      simp only [List.mem_reverse, List.mem_map]
      exact ⟨c, huv ▸ hc, rfl⟩
  · intro b hb hbT
    rw [htop] at hbT
    have hbA : b ∉ A := fun hx => hbT ((TSet.mem_Add A v b).mpr (Or.inl hx))
    have hbv : b ≠ v := fun hx => hbT ((TSet.mem_Add A v b).mpr (Or.inr hx))
    rcases (TSet.mem_Add V v b).mp hb with h | h
    · exact inv.finished b h hbA
    · exact absurd h hbv
  · intro x hx
    rcases inv.starts x hx with h | ⟨A2, h⟩
    · exact Or.inl ((TSet.mem_Add V v x).mpr (Or.inl h))
    · rcases List.mem_cons.mp h with h2 | h2
      · exact Or.inl ((TSet.mem_Add V v x).mpr (Or.inr (congrArg Prod.fst h2)))
      · exact Or.inr ⟨A2, List.mem_append_right _ h2⟩

theorem WalkInv.skip {n : Nat} {ch : Fin n → List (Fin n)} {X0 : List (Fin n)} {v : Fin n}
    {A : List (Fin n)} {S : List (Fin n × List (Fin n))} {V : List (Fin n)}
    (inv : WalkInv ch X0 ((v, A) :: S) V) (hv : v ∈ V) : WalkInv ch X0 S V := by
  have hvA := (inv.entries (v, A) (List.mem_cons_self _ _)).1
  refine inv.pop (fun x => ⟨Or.inl, ?_⟩) (inv.finished v hv hvA) (Or.inl hv)
  rintro (h | h)
  · exact h
  · exact h ▸ hv

theorem WalkInv.visit {n : Nat} {ch : Fin n → List (Fin n)} {X0 : List (Fin n)} {v : Fin n}
    {A : List (Fin n)} {S : List (Fin n × List (Fin n))} {V : List (Fin n)}
    (inv : WalkInv ch X0 ((v, A) :: S) V) (hv : v ∉ V)
    (hcheck : ∀ c ∈ ch v, c ∉ TSet.Add A v) :
    WalkInv ch X0 (((ch v).map (fun c => (c, TSet.Add A v))).reverse ++ S) (TSet.Add V v) := by
  by_cases hne : ch v = []
  · rw [hne]
    simp only [List.map_nil, List.reverse_nil, List.nil_append]
    refine inv.pop (TSet.mem_Add V v) (Acc.intro _ (fun c hc => ?_)) (Or.inr hne)
    rw [hne] at hc
    simp at hc
  · exact inv.push hv hne hcheck

theorem WalkInv.init {n : Nat} (ch : Fin n → List (Fin n)) (X0 : List (Fin n)) :
    WalkInv ch X0 ((X0.map (fun x => (x, ([] : List (Fin n))))).reverse) [] := by
  have hall : ∀ e ∈ (X0.map (fun x => (x, ([] : List (Fin n))))).reverse, e.2 = [] := by
    intro e he
    simp only [List.mem_reverse, List.mem_map] at he
    obtain ⟨c, _, hc⟩ := he
    rw [← hc]
  refine ⟨?_, ?_, ?_, ?_, ?_⟩
  · intro e he
    rw [hall e he]
    simp
  · rw [List.pairwise_iff_forall_sublist]
    intro a b hab
    rw [hall a (hab.subset (List.mem_cons_self _ _)), hall b (hab.subset (by simp))]
  · intro u hu; simp at hu
  · intro b hb; simp at hb
  · intro x hx
    right
    refine ⟨[], ?_⟩
    simp only [List.mem_reverse, List.mem_map]
    exact ⟨x, hx, rfl⟩

/-- The walk of `StartExecution` never reaches its iteration bound; it calls
`InitializeNode` once on each node of a duplicate-free list `L` of unvisited
nodes reachable from the stack, and either completes with `L` added to the
visited set or reports a cycle. -/
theorem StartExecution_walk_fuel {n : Nat} (World : UWorld) :
    ∀ (fuel : Nat) (h : Heap n) (S : List (Fin n × List (Fin n))) (V : List (Fin n)),
      S.length + h.UnvisitedEdges V ≤ fuel →
      ∃ L : List (Fin n), L.Nodup ∧ (∀ x ∈ L, x ∉ V) ∧
        (∀ u ∈ L, ∃ e ∈ S, h.Reaches e.1 u) ∧
        (UAutomationGraphExecutor.StartExecution.walk World fuel h S V =
            .Completed
              (L.foldl (fun k v => (UAutomationGraphExecutor.InitializeNode k v World).1) h)
              (V ++ L) ∨
         UAutomationGraphExecutor.StartExecution.walk World fuel h S V =
            .CycleFound
              (L.foldl (fun k v => (UAutomationGraphExecutor.InitializeNode k v World).1) h)) := by
  intro fuel
  induction fuel with
  | zero =>
    intro h S V hf
    cases S with
    | nil => exact ⟨[], by simp [UAutomationGraphExecutor.StartExecution.walk]⟩
    | cons a s => simp at hf
  | succ fuel ih =>
    intro h S V hf
    cases S with
    | nil => exact ⟨[], by simp [UAutomationGraphExecutor.StartExecution.walk]⟩
    | cons e rest =>
      obtain ⟨v, A⟩ := e
      by_cases hv : v ∈ V
      · obtain ⟨L, hnd, hdis, hreach, hres⟩ := ih h rest V (by simp at hf; omega)
        refine ⟨L, hnd, hdis, ?_, ?_⟩
        · intro u hu
          obtain ⟨s, hs, hr⟩ := hreach u hu
          exact ⟨s, List.mem_cons_of_mem _ hs, hr⟩
        · simpa [UAutomationGraphExecutor.StartExecution.walk, hv] using hres
      · have hsh : h.SameShape (UAutomationGraphExecutor.InitializeNode h v World).1 :=
          Heap.SameShape.Initialize h v World
        generalize hh1 : (UAutomationGraphExecutor.InitializeNode h v World).1 = h1 at hsh
        by_cases hex : ∃ c ∈ (h1.Node v).ChildNodes, c ∈ TSet.Add A v
        · refine ⟨[v], by simp, by simpa using hv, ?_, ?_⟩
          · intro u hu
            simp only [List.mem_singleton] at hu
            subst hu
            exact ⟨(u, A), List.mem_cons_self _ _, Relation.ReflTransGen.refl⟩
          · right
            unfold UAutomationGraphExecutor.StartExecution.walk
            simp only [hv, if_false, hh1, pushChildren_eq, if_pos hex, List.foldl_cons,
              List.foldl_nil]
        · have hpot := UnvisitedEdges_visit h V v hv
          obtain ⟨L, hnd, hdis, hreach, hres⟩ :=
            ih h1 ((((h1.Node v).ChildNodes).map (fun c => (c, TSet.Add A v))).reverse ++ rest)
              (TSet.Add V v) (by
                rw [hsh.unvisited, hsh.child]
                simp at hf ⊢
                omega)
          have hvL : v ∉ L := fun hx => hdis v hx (by simp [TSet.mem_Add])
          have hVv : TSet.Add V v = V ++ [v] := by simp [TSet.Add, hv]
          refine ⟨v :: L, List.nodup_cons.mpr ⟨hvL, hnd⟩, ?_, ?_, ?_⟩
          · intro x hx
            rcases List.mem_cons.mp hx with e | e
            · subst e; exact hv
            · exact fun hxV => hdis x e (by simp [TSet.mem_Add, hxV])
          · intro u hu
            rcases List.mem_cons.mp hu with e | e
            · subst e
              exact ⟨(u, A), List.mem_cons_self _ _, Relation.ReflTransGen.refl⟩
            · obtain ⟨s, hs, hr⟩ := hreach u e
              have hr2 : h.Reaches s.1 u := (hsh.reaches_iff s.1 u).mp hr
              rcases List.mem_append.mp hs with hs | hs
              · simp only [List.mem_reverse, List.mem_map] at hs
                obtain ⟨c, hc, hcs⟩ := hs
                rw [hsh.child] at hc
                refine ⟨(v, A), List.mem_cons_self _ _, Relation.ReflTransGen.head ?_ hr2⟩
                rw [← hcs]
                exact hc
              · exact ⟨s, List.mem_cons_of_mem _ hs, hr2⟩
          · unfold UAutomationGraphExecutor.StartExecution.walk
            simp only [hv, if_false, hh1, pushChildren_eq, if_neg hex, List.foldl_cons]
            rw [hVv] at hres ⊢
            simpa using hres

theorem Acc.not_onCycle {n : Nat} (h : Heap n) (ch : Fin n → List (Fin n))
    (hch : ∀ u, (h.Node u).ChildNodes = ch u) (b : Fin n)
    (hacc : Acc (fun c u => c ∈ ch u) b) : ¬ h.OnCycle b := by
  have hrel : (fun c u => c ∈ ch u) = Function.swap h.Edge := by
    funext c u
    simp [Function.swap, Heap.Edge, hch]
  rw [hrel] at hacc
  have hacc2 := hacc.transGen
  intro hcyc
  have hc2 : Relation.TransGen (Function.swap h.Edge) b b := Relation.transGen_swap.mpr hcyc
  have key : ∀ x, Acc (Relation.TransGen (Function.swap h.Edge)) x →
      ¬ Relation.TransGen (Function.swap h.Edge) x x := by
    intro x hx
    induction hx with
    | intro x _ ih => exact fun hxx => ih x hxx hxx
  exact key b hacc2 hc2

/-- When the walk of `StartExecution` completes from its initial state, it has
visited every node reachable from the start nodes, and none of these lies on a
cycle. -/
theorem StartExecution_walk_completed {n : Nat} (World : UWorld) (fuel : Nat) (h h2 : Heap n)
    (X0 V1 : List (Fin n))
    (hres : UAutomationGraphExecutor.StartExecution.walk World fuel h
      ((X0.map (fun x => (x, ([] : List (Fin n))))).reverse) [] = .Completed h2 V1) :
    ∀ v, (∃ s ∈ X0, h.Reaches s v) → v ∈ V1 ∧ ¬ h.OnCycle v := by
  have hrule := walk_rule World (fun u => (h.Node u).ChildNodes)
    (WalkInv (fun u => (h.Node u).ChildNodes) X0)
    (fun v A S V inv hv => inv.skip hv)
    (fun v A S V inv hv hc => inv.visit hv hc)
    fuel h ((X0.map (fun x => (x, ([] : List (Fin n))))).reverse) [] (fun _ => rfl)
    (WalkInv.init _ X0)
  rw [hres] at hrule
  simp only at hrule
  have hclosed : ∀ u, u ∈ V1 → ∀ c ∈ (h.Node u).ChildNodes, c ∈ V1 := by
    intro u hu c hc
    rcases hrule.children u hu c hc with ⟨hcV, _⟩ | ⟨A, hmem, _⟩ | ⟨huT, _⟩
    · exact hcV
    · simp at hmem
    · simp [topAncestors] at huT
  intro v ⟨s, hs, hr⟩
  have hsV : s ∈ V1 := by
    rcases hrule.starts s hs with h1 | ⟨A, h1⟩
    · exact h1
    · simp at h1
  have hvV : v ∈ V1 := Reaches.mem_of_closed h (fun x => x ∈ V1) hclosed hr hsV
  exact ⟨hvV, Acc.not_onCycle h _ (fun _ => rfl) v (hrule.finished v hvV (by simp [topAncestors]))⟩

/-- The walk of `StartExecution` reports a cycle only when a node reachable from
the start nodes lies on one. -/
theorem StartExecution_walk_cycle_sound {n : Nat} (World : UWorld) (fuel : Nat) (h h2 : Heap n)
    (X0 : List (Fin n))
    (hres : UAutomationGraphExecutor.StartExecution.walk World fuel h
      ((X0.map (fun x => (x, ([] : List (Fin n))))).reverse) [] = .CycleFound h2) :
    ∃ v, (∃ s ∈ X0, h.Reaches s v) ∧ h.OnCycle v := by
  have hrule := walk_rule World (fun u => (h.Node u).ChildNodes)
    (fun S _ => ∀ e ∈ S, (∃ s ∈ X0, h.Reaches s e.1) ∧
      ∀ a ∈ e.2, Relation.TransGen h.Edge a e.1)
    (fun v A S V inv _ e he => inv e (List.mem_cons_of_mem _ he))
    (fun v A S V inv _ _ e he => by
      obtain ⟨⟨s, hs, hsv⟩, hanc⟩ := inv (v, A) (List.mem_cons_self _ _)
      rcases List.mem_append.mp he with h1 | h1
      · simp only [List.mem_reverse, List.mem_map] at h1
        obtain ⟨c, hc, hce⟩ := h1
        rw [← hce]
        refine ⟨⟨s, hs, Relation.ReflTransGen.tail hsv hc⟩, ?_⟩
        intro a ha
        rcases (TSet.mem_Add A v a).mp ha with h2 | h2
        · exact Relation.TransGen.tail (hanc a h2) hc
        · subst h2
          exact Relation.TransGen.single hc
      · exact inv e (List.mem_cons_of_mem _ h1))
    fuel h ((X0.map (fun x => (x, ([] : List (Fin n))))).reverse) [] (fun _ => rfl) (by
      intro e he
      simp only [List.mem_reverse, List.mem_map] at he
      obtain ⟨x, hx, hxe⟩ := he
      rw [← hxe]
      exact ⟨⟨x, hx, Relation.ReflTransGen.refl⟩, by simp⟩)
  rw [hres] at hrule
  simp only at hrule
  obtain ⟨v, A, S1, V1, inv, _, c, hc, hcA⟩ := hrule
  obtain ⟨⟨s, hs, hsv⟩, hanc⟩ := inv (v, A) (List.mem_cons_self _ _)
  refine ⟨v, ⟨s, hs, hsv⟩, ?_⟩
  rcases (TSet.mem_Add A v c).mp hcA with h1 | h1
  · exact Relation.TransGen.head hc (hanc c h1)
  · exact Relation.TransGen.single (h1 ▸ hc)

/-! ## Effect of the member functions on the heap -/

theorem setMembers_node_self {n : Nat} (h : Heap n) (v : Fin n) (m : NodeMembers) :
    ((h.setMembers v m).Node v).toNodeMembers = m := by
  simp [Heap.setMembers]

theorem setMembers_node_ne {n : Nat} (h : Heap n) (v u : Fin n) (m : NodeMembers) (hu : u ≠ v) :
    (h.setMembers v m).Node u = h.Node u := by
  simp [Heap.setMembers, Function.update_noteq hu]

theorem Initialize_node_ne {n : Nat} (h : Heap n) (v u : Fin n) (w : UWorld) (hu : u ≠ v) :
    (h.Initialize v w).1.Node u = h.Node u := by
  unfold Heap.Initialize
  rw [setMembers_node_ne _ _ _ _ hu]
  rfl

theorem Initialize_members {n : Nat} (h : Heap n) (v : Fin n) (w : UWorld) :
    ((h.Initialize v w).1.Node v).toNodeMembers =
      ((h.Node v).Class.Initialize (h.Node v).toNodeMembers w).1 := by
  unfold Heap.Initialize
  rw [setMembers_node_self]

theorem Initialize_trace {n : Nat} (h : Heap n) (v : Fin n) (w : UWorld) :
    (h.Initialize v w).1.Trace = h.Trace ++ [Call.Initialize v] := by
  simp [Heap.Initialize, Heap.setMembers, Heap.log]

theorem Activate_node_ne {n : Nat} (h : Heap n) (v u : Fin n) (dt : Rat) (hu : u ≠ v) :
    (h.Activate v dt).1.Node u = h.Node u := by
  unfold Heap.Activate
  rw [setMembers_node_ne _ _ _ _ hu]
  rfl

theorem Activate_members {n : Nat} (h : Heap n) (v : Fin n) (dt : Rat) :
    ((h.Activate v dt).1.Node v).toNodeMembers =
      (UAutomationGraphNode.Activate (h.Node v).Class (h.Node v).toNodeMembers dt).1 := by
  unfold Heap.Activate
  rw [setMembers_node_self]

theorem Activate_trace {n : Nat} (h : Heap n) (v : Fin n) (dt : Rat) :
    (h.Activate v dt).1.Trace =
      h.Trace ++ [Call.Activate v dt (h.GetState v) (h.ParentsFinished v)] := by
  simp [Heap.Activate, Heap.setMembers, Heap.log]

theorem Cleanup_node {n : Nat} (h : Heap n) (v : Fin n) : (h.Cleanup v).Node = h.Node := rfl

theorem Cleanup_trace {n : Nat} (h : Heap n) (v : Fin n) :
    (h.Cleanup v).Trace = h.Trace ++ [Call.Cleanup v] := rfl

theorem Cancel_node_ne {n : Nat} (h : Heap n) (v u : Fin n) (hu : u ≠ v) :
    (h.Cancel v).Node u = h.Node u := by
  unfold Heap.Cancel
  simp only [Cleanup_node]
  split
  · rw [setMembers_node_ne _ _ _ _ hu]
    rfl
  · rfl

theorem Cancel_state {n : Nat} (h : Heap n) (v : Fin n) :
    (h.Cancel v).GetState v =
      if (h.GetState v).toNat < EAutomationGraphNodeState.Finished.toNat then .Cancelled
      else h.GetState v := by
  unfold Heap.Cancel
  simp only [Heap.GetState, Cleanup_node]
  have hlog : (h.log (Call.Cancel v)).Node = h.Node := rfl
  simp only [hlog]
  split
  · rename_i hlt
    rw [setMembers_node_self]
    simp [UAutomationGraphNode.Cancel, hlt, UAutomationGraphNode.SetState]
  · rfl

theorem Cancel_trace {n : Nat} (h : Heap n) (v : Fin n) :
    ∃ ev : List (Call n), (h.Cancel v).Trace = h.Trace ++ ev ∧
      (∀ c ∈ ev, c.isCancelPart = true) ∧ Call.Cancel v ∈ ev := by
  unfold Heap.Cancel
  simp only [Cleanup_trace]
  split
  · exact ⟨[Call.Cancel v, Call.CancelInternal v, Call.Cleanup v],
      by simp [Heap.setMembers, Heap.log], by simp [Call.isCancelPart], by simp⟩
  · exact ⟨[Call.Cancel v, Call.Cleanup v], by simp [Heap.log], by simp [Call.isCancelPart],
      by simp⟩

theorem foldl_Cancel_state {n : Nat} (v : Fin n) :
    ∀ (L : List (Fin n)) (h : Heap n),
      (L.foldl Heap.Cancel h).GetState v =
        if v ∈ L ∧ (h.GetState v).toNat < EAutomationGraphNodeState.Finished.toNat
        then .Cancelled else h.GetState v := by
  intro L
  induction L with
  | nil => intro h; simp
  | cons a L ih =>
    intro h
    rw [List.foldl_cons, ih]
    by_cases hav : v = a
    · subst hav
      rw [Cancel_state]
      by_cases hlt : (h.GetState v).toNat < EAutomationGraphNodeState.Finished.toNat
      · have hr : (if v ∈ v :: L ∧
            (h.GetState v).toNat < EAutomationGraphNodeState.Finished.toNat
            then EAutomationGraphNodeState.Cancelled else h.GetState v) = .Cancelled :=
          if_pos ⟨List.mem_cons_self _ _, hlt⟩
        rw [hr]
        simp only [if_pos hlt]
        split <;> rfl
      · have hr : (if v ∈ v :: L ∧
            (h.GetState v).toNat < EAutomationGraphNodeState.Finished.toNat
            then EAutomationGraphNodeState.Cancelled else h.GetState v) = h.GetState v :=
          if_neg (fun hx => hlt hx.2)
        rw [hr]
        simp only [if_neg hlt]
        rw [if_neg (fun hx => hlt hx.2)]
    · have : (h.Cancel a).GetState v = h.GetState v := by
        simp [Heap.GetState, Cancel_node_ne h a v hav]
      rw [this]
      simp [hav]

theorem foldl_Cancel_trace {n : Nat} :
    ∀ (L : List (Fin n)) (h : Heap n),
      ∃ ev : List (Call n), (L.foldl Heap.Cancel h).Trace = h.Trace ++ ev ∧
        (∀ c ∈ ev, c.isCancelPart = true) ∧ ∀ v ∈ L, Call.Cancel v ∈ ev := by
  intro L
  induction L with
  | nil => intro h; exact ⟨[], by simp⟩
  | cons a L ih =>
    intro h
    obtain ⟨ev1, h1, h2, h3⟩ := Cancel_trace h a
    obtain ⟨ev2, k1, k2, k3⟩ := ih (h.Cancel a)
    refine ⟨ev1 ++ ev2, ?_, ?_, ?_⟩
    · rw [List.foldl_cons, k1, h1, List.append_assoc]
    · intro c hc
      rcases List.mem_append.mp hc with e | e
      · exact h2 c e
      · exact k2 c e
    · intro v hv
      rcases List.mem_cons.mp hv with e | e
      · exact List.mem_append_left _ (e ▸ h3)
      · exact List.mem_append_right _ (k3 v e)

theorem foldl_Initialize_trace {n : Nat} (w : UWorld) :
    ∀ (L : List (Fin n)) (h : Heap n),
      (L.foldl (fun k v => (UAutomationGraphExecutor.InitializeNode k v w).1) h).Trace =
        h.Trace ++ L.map Call.Initialize := by
  intro L
  induction L with
  | nil => intro h; simp
  | cons a L ih =>
    intro h
    rw [List.foldl_cons, ih]
    simp [UAutomationGraphExecutor.InitializeNode, Initialize_trace]

theorem foldl_Initialize_node_not_mem {n : Nat} (w : UWorld) (v : Fin n) :
    ∀ (L : List (Fin n)) (h : Heap n), v ∉ L →
      (L.foldl (fun k v => (UAutomationGraphExecutor.InitializeNode k v w).1) h).Node v =
        h.Node v := by
  intro L
  induction L with
  | nil => intro h _; rfl
  | cons a L ih =>
    intro h hv
    rw [List.foldl_cons, ih _ (fun e => hv (List.mem_cons_of_mem _ e))]
    exact Initialize_node_ne h a v w (fun e => hv (e ▸ List.mem_cons_self _ _))

theorem foldl_Initialize_members {n : Nat} (w : UWorld) (v : Fin n) :
    ∀ (L : List (Fin n)) (h : Heap n), v ∈ L →
      ∃ m : NodeMembers,
        ((L.foldl (fun k v => (UAutomationGraphExecutor.InitializeNode k v w).1) h).Node
          v).toNodeMembers = ((h.Node v).Class.Initialize m w).1 := by
  intro L
  induction L with
  | nil => intro h hv; simp at hv
  | cons a L ih =>
    intro h hv
    rw [List.foldl_cons]
    by_cases hL : v ∈ L
    · obtain ⟨m, hm⟩ := ih (UAutomationGraphExecutor.InitializeNode h a w).1 hL
      refine ⟨m, ?_⟩
      rw [hm]
      have := (Heap.SameShape.Initialize h a w).cls v
      unfold UAutomationGraphExecutor.InitializeNode
      rw [this]
    · have hva : v = a := by
        rcases List.mem_cons.mp hv with e | e
        · exact e
        · exact absurd e hL
      subst hva
      rw [foldl_Initialize_node_not_mem w v L _ hL]
      exact ⟨_, Initialize_members h v w⟩

/-! ## `Reset` and `StartExecution` -/

theorem Heap.SameShape.getGraph {n : Nat} {h k : Heap n} (a : h.SameShape k) (p : Option Nat) :
    k.GetGraph p = h.GetGraph p := by
  unfold Heap.GetGraph
  rw [a.graph]

theorem Heap.SameShape.triggeredRoots {n : Nat} {h k : Heap n} (a : h.SameShape k)
    (g : UAutomationGraph n) (t : EAutomationGraphNodeTrigger) :
    g.TriggeredRoots k t = g.TriggeredRoots h t := by
  unfold UAutomationGraph.TriggeredRoots
  simp only [a.cls]

theorem Heap.SameShape.edgeCount {n : Nat} {h k : Heap n} (a : h.SameShape k) :
    k.EdgeCount = h.EdgeCount := by
  unfold Heap.EdgeCount
  simp only [a.child]

theorem Heap.SameShape.symm {n : Nat} {h k : Heap n} (a : h.SameShape k) : k.SameShape h :=
  ⟨fun u => (a.child u).symm, fun u => (a.parent u).symm, fun u => (a.cls u).symm,
    a.valid.symm, a.graph.symm⟩

theorem Heap.SameShape.reachableFromRoots {n : Nat} {h k : Heap n} (a : h.SameShape k)
    (g : UAutomationGraph n) (v : Fin n) :
    g.ReachableFromRoots k v ↔ g.ReachableFromRoots h v := by
  unfold UAutomationGraph.ReachableFromRoots
  simp only [a.reaches_iff]

/-- `Reset` cancels the nodes reachable from the roots of the current graph, if
it is live, and clears the run state. -/
theorem Reset_spec {n : Nat} (h : Heap n) (ex : UAutomationGraphExecutor n) :
    (UAutomationGraphExecutor.Reset h ex).2 =
      { ex with TargetGraph := none, ActiveNodes := [], ExecutionTimer := 0 } ∧
    ∃ L : List (Fin n), (UAutomationGraphExecutor.Reset h ex).1 = L.foldl Heap.Cancel h ∧
      L.Nodup ∧
      ∀ g, h.GetGraph ex.TargetGraph = some g → ∀ v, v ∈ L ↔ g.ReachableFromRoots h v := by
  refine ⟨rfl, ?_⟩
  unfold UAutomationGraphExecutor.Reset
  cases hg : h.GetGraph ex.TargetGraph with
  | none => exact ⟨[], rfl, List.nodup_nil, fun g hg2 => by simp at hg2⟩
  | some g =>
    obtain ⟨L, hL, hnd, hmem⟩ := CancelNodes_eq g h
    refine ⟨L, hL, hnd, ?_⟩
    intro g2 hg2
    have : g = g2 := by simpa using hg2
    subst this
    exact hmem

theorem Reset_shape {n : Nat} (h : Heap n) (ex : UAutomationGraphExecutor n) :
    h.SameShape (UAutomationGraphExecutor.Reset h ex).1 := by
  obtain ⟨_, L, hL, _⟩ := Reset_spec h ex
  rw [hL]
  exact Heap.SameShape.foldl Heap.Cancel Heap.SameShape.Cancel L h

theorem Reset_trace {n : Nat} (h : Heap n) (ex : UAutomationGraphExecutor n) :
    ∃ ev : List (Call n), (UAutomationGraphExecutor.Reset h ex).1.Trace = h.Trace ++ ev ∧
      ∀ c ∈ ev, c.isCancelPart = true := by
  obtain ⟨_, L, hL, _⟩ := Reset_spec h ex
  obtain ⟨ev, h1, h2, _⟩ := foldl_Cancel_trace L h
  exact ⟨ev, by rw [hL, h1], h2⟩

/-- The two ways `StartExecution` ends for a task that passes the three checks:
after `Reset` (heap `h1`) it has called `InitializeNode` once on each node of a
duplicate-free list `L` of nodes reachable from the triggered roots; then
either the walk completed, `L` holds every such node and none lies on a cycle,
or a cycle among these nodes was found and `Reset` ran again. -/
theorem StartExecution_cases {n : Nat} (h : Heap n) (ex : UAutomationGraphExecutor n)
    (task : FGraphExecutionTask) (g : UAutomationGraph n) (World : UWorld)
    (hg : h.GetGraph task.TargetGraph = some g) (hw : task.TargetWorld = some World)
    (ht : task.Trigger ≠ .Unknown) :
    ∃ (L : List (Fin n)) (h1 : Heap n) (ex2 : UAutomationGraphExecutor n),
      h1 = (UAutomationGraphExecutor.Reset h ex).1 ∧
      ex2 = { ex with TargetGraph := task.TargetGraph, ExecutionTimer := 0,
                      ActiveNodes := TSet.Append [] (g.TriggeredRoots h task.Trigger) } ∧
      L.Nodup ∧ (∀ u ∈ L, g.ReachableFromTriggered h task.Trigger u) ∧
      ((UAutomationGraphExecutor.StartExecution h ex task =
          ((L.foldl (fun k v => (UAutomationGraphExecutor.InitializeNode k v World).1) h1, ex2),
            .Started) ∧
        ∀ v, g.ReachableFromTriggered h task.Trigger v → v ∈ L ∧ ¬ h.OnCycle v) ∨
       (UAutomationGraphExecutor.StartExecution h ex task =
          (UAutomationGraphExecutor.Reset
            (L.foldl (fun k v => (UAutomationGraphExecutor.InitializeNode k v World).1) h1) ex2,
            .CycleAbort) ∧
        ∃ v, g.ReachableFromTriggered h task.Trigger v ∧ h.OnCycle v)) := by
  have hsh := Reset_shape h ex
  generalize hh1 : (UAutomationGraphExecutor.Reset h ex).1 = h1 at hsh
  have hroots : g.TriggeredRoots h1 task.Trigger = g.TriggeredRoots h task.Trigger :=
    hsh.triggeredRoots g _
  obtain ⟨L, hnd, _, hreach, hres⟩ := StartExecution_walk_fuel World
    ((g.TriggeredRoots h task.Trigger).length + h1.EdgeCount) h1
    (((g.TriggeredRoots h task.Trigger).map (fun x => (x, ([] : List (Fin n))))).reverse) []
    (by rw [UnvisitedEdges_nil]; simp)
  have hreach2 : ∀ u ∈ L, g.ReachableFromTriggered h task.Trigger u := by
    intro u hu
    obtain ⟨e, he, hr⟩ := hreach u hu
    simp only [List.mem_reverse, List.mem_map] at he
    obtain ⟨x, hx, hxe⟩ := he
    refine ⟨x, hx, (hsh.reaches_iff x u).mp ?_⟩
    rw [← hxe] at hr
    exact hr
  obtain ⟨ex2, hex2⟩ : ∃ ex2 : UAutomationGraphExecutor n, ex2 =
      { ex with TargetGraph := task.TargetGraph, ExecutionTimer := 0,
                ActiveNodes := TSet.Append [] (g.TriggeredRoots h task.Trigger) } := ⟨_, rfl⟩
  have hunf : UAutomationGraphExecutor.StartExecution h ex task =
      match UAutomationGraphExecutor.StartExecution.walk World
        ((g.TriggeredRoots h task.Trigger).length + h1.EdgeCount) h1
        (((g.TriggeredRoots h task.Trigger).map (fun x => (x, ([] : List (Fin n))))).reverse)
        [] with
      | .Completed h2 _ => ((h2, ex2), .Started)
      | .CycleFound h2 => (UAutomationGraphExecutor.Reset h2 ex2, .CycleAbort)
      | .OutOfFuel => ((h1, ex2), .OutOfFuel) := by
    unfold UAutomationGraphExecutor.StartExecution
    simp only [hg, hw, ht, if_false, hh1, hroots, hex2]
    rfl
  refine ⟨L, h1, ex2, rfl, hex2, hnd, hreach2, ?_⟩
  rcases hres with hres | hres
  · left
    refine ⟨by rw [hunf, hres], ?_⟩
    intro v ⟨r, hr, hrv⟩
    have := StartExecution_walk_completed World _ h1 _ _ _ hres v
      ⟨r, hr, (hsh.reaches_iff r v).mpr hrv⟩
    refine ⟨by simpa using this.1, ?_⟩
    intro hcyc
    apply this.2
    unfold Heap.OnCycle at hcyc ⊢
    rw [hsh.edge_eq]
    exact hcyc
  · right
    refine ⟨by rw [hunf, hres], ?_⟩
    obtain ⟨v, ⟨s, hs, hsv⟩, hcyc⟩ := StartExecution_walk_cycle_sound World _ h1 _ _ hres
    refine ⟨v, ⟨s, hs, (hsh.reaches_iff s v).mp hsv⟩, ?_⟩
    unfold Heap.OnCycle at hcyc ⊢
    rw [hsh.edge_eq] at hcyc
    exact hcyc

theorem CallsSince_of_trace {n : Nat} {h k : Heap n} {ev : List (Call n)}
    (ht : k.Trace = h.Trace ++ ev) : k.CallsSince h = ev := by
  unfold Heap.CallsSince
  rw [ht]
  exact List.drop_left _ _

theorem count_Initialize_calls {n : Nat} (ev : List (Call n)) (L : List (Fin n)) (v : Fin n)
    (hev : ∀ c ∈ ev, c.isCancelPart = true) (hnd : L.Nodup) :
    (ev ++ L.map Call.Initialize).count (Call.Initialize v) = if v ∈ L then 1 else 0 := by
  have h1 : ev.count (Call.Initialize v) = 0 := by
    apply List.count_eq_zero_of_not_mem
    intro hx
    have := hev _ hx
    simp [Call.isCancelPart] at this
  have h2 : (L.map Call.Initialize).count (Call.Initialize v) = L.count v :=
    List.count_map_of_injective L Call.Initialize (fun a b hab => by
      injection hab) v
  rw [List.count_append, h1, h2, Nat.zero_add]
  by_cases hv : v ∈ L
  · rw [if_pos hv]; exact List.count_eq_one_of_mem hnd hv
  · rw [if_neg hv]; exact List.count_eq_zero_of_not_mem hv

theorem TriggeredRoots_subset {n : Nat} (g : UAutomationGraph n) (h : Heap n)
    (t : EAutomationGraphNodeTrigger) (r : Fin n) (hr : r ∈ g.TriggeredRoots h t) :
    r ∈ g.RootNodes :=
  (List.mem_filter.mp hr).1

/-- C1: for a task that passes the three checks, on a graph in which no node
reachable from a triggered root lies on a cycle, `StartExecution` reaches its
end, calls `Initialize` exactly once on each node reachable from a triggered
root and on no other node, calls `Activate` on no node, and leaves `ActiveNodes`
equal to the set of triggered roots. -/
theorem StartExecution_initializes_reachable_once {n : Nat} (h : Heap n)
    (ex : UAutomationGraphExecutor n) (task : FGraphExecutionTask) (g : UAutomationGraph n)
    (World : UWorld) (hg : h.GetGraph task.TargetGraph = some g)
    (hw : task.TargetWorld = some World) (ht : task.Trigger ≠ .Unknown)
    (hacyc : ∀ v, g.ReachableFromTriggered h task.Trigger v → ¬ h.OnCycle v) :
    (UAutomationGraphExecutor.StartExecution h ex task).2 = .Started ∧
    (∀ v, g.ReachableFromTriggered h task.Trigger v →
      ((UAutomationGraphExecutor.StartExecution h ex task).1.1.CallsSince h).count
        (Call.Initialize v) = 1) ∧
    (∀ v, ¬ g.ReachableFromTriggered h task.Trigger v →
      ((UAutomationGraphExecutor.StartExecution h ex task).1.1.CallsSince h).count
        (Call.Initialize v) = 0) ∧
    (∀ c ∈ (UAutomationGraphExecutor.StartExecution h ex task).1.1.CallsSince h,
      c.isActivate = false) ∧
    (∀ v, v ∈ (UAutomationGraphExecutor.StartExecution h ex task).1.2.ActiveNodes ↔
      v ∈ g.TriggeredRoots h task.Trigger) ∧
    (UAutomationGraphExecutor.StartExecution h ex task).1.2.ActiveNodes.Nodup := by
  obtain ⟨L, h1, ex2, hh1, hex2, hnd, hreach, hcase⟩ :=
    StartExecution_cases h ex task g World hg hw ht
  rcases hcase with ⟨hres, hall⟩ | ⟨_, v, hv, hcyc⟩
  · obtain ⟨ev, hev, hcp⟩ := Reset_trace h ex
    rw [← hh1] at hev
    have htr : (UAutomationGraphExecutor.StartExecution h ex task).1.1.Trace =
        h.Trace ++ (ev ++ L.map Call.Initialize) := by
      rw [hres]
      simp only
      rw [foldl_Initialize_trace, hev, List.append_assoc]
    rw [CallsSince_of_trace htr]
    refine ⟨by rw [hres], ?_, ?_, ?_, ?_, ?_⟩
    · intro v hv
      rw [count_Initialize_calls ev L v hcp hnd, if_pos (hall v hv).1]
    · intro v hv
      rw [count_Initialize_calls ev L v hcp hnd, if_neg (fun hx => hv (hreach v hx))]
    · intro c hc
      rcases List.mem_append.mp hc with e | e
      · have := hcp c e
        cases c <;> simp_all [Call.isCancelPart, Call.isActivate]
      · obtain ⟨x, _, hx⟩ := List.mem_map.mp e
        rw [← hx]
        rfl
    · intro v
      rw [hres, hex2]
      simp [TSet.mem_Append]
    · rw [hres, hex2]
      exact TSet.nodup_Append _ [] List.nodup_nil
  · exact absurd hcyc (hacyc v hv)

theorem no_cycle_of_increasing {n : Nat} (h : Heap n)
    (hinc : ∀ u c : Fin n, c ∈ (h.Node u).ChildNodes → u < c) (v : Fin n) : ¬ h.OnCycle v := by
  intro hc
  have key : ∀ a b, Relation.TransGen h.Edge a b → a < b := by
    intro a b hab
    induction hab with
    | single e => exact hinc _ _ e
    | tail _ e ih => exact lt_trans ih (hinc _ _ e)
  exact lt_irrefl v (key v v hc)

/-- C1, on the diamond. -/
theorem StartExecution_initializes_reachable_once_witness :
    (UAutomationGraphExecutor.StartExecution exDiamond {} exTask).2 = .Started ∧
    (∀ v, v ∈ (UAutomationGraphExecutor.StartExecution exDiamond {} exTask).1.2.ActiveNodes ↔
      v ∈ ({ RootNodes := [0] } : UAutomationGraph 4).TriggeredRoots exDiamond .OnPlay) :=
  have hw := StartExecution_initializes_reachable_once exDiamond {} exTask
    { RootNodes := [0] } 0 rfl rfl (by decide)
    (fun v _ => no_cycle_of_increasing exDiamond (by decide!) v)
  ⟨hw.1, hw.2.2.2.2.1⟩

theorem Execute_of_not_active {n : Nat} (h : Heap n) (ex : UAutomationGraphExecutor n)
    (dt : Rat) (he : ex.ActiveNodes = []) :
    UAutomationGraphExecutor.Execute h ex dt = ((h, ex), false) := by
  unfold UAutomationGraphExecutor.Execute
  simp [he]

/-- C2: for a task that passes the three checks, if some node reachable from a
triggered root lies on a cycle, `StartExecution` returns from inside its loop
(without reaching an iteration bound), with `ActiveNodes` empty and
`TargetGraph` cleared, and the next `Execute` returns `false`; if no such node
lies on a cycle it reaches its end. The walk of `CancelNodes` that `Reset` runs
never reaches its iteration bound either. -/
theorem StartExecution_aborts_iff_cycle {n : Nat} (h : Heap n)
    (ex : UAutomationGraphExecutor n) (task : FGraphExecutionTask) (g : UAutomationGraph n)
    (World : UWorld) (hg : h.GetGraph task.TargetGraph = some g)
    (hw : task.TargetWorld = some World) (ht : task.Trigger ≠ .Unknown) :
    ((∃ v, g.ReachableFromTriggered h task.Trigger v ∧ h.OnCycle v) →
      (UAutomationGraphExecutor.StartExecution h ex task).2 = .CycleAbort ∧
      (UAutomationGraphExecutor.StartExecution h ex task).1.2.ActiveNodes = [] ∧
      (UAutomationGraphExecutor.StartExecution h ex task).1.2.TargetGraph = none ∧
      ∀ dt : Rat, (UAutomationGraphExecutor.Execute
        (UAutomationGraphExecutor.StartExecution h ex task).1.1
        (UAutomationGraphExecutor.StartExecution h ex task).1.2 dt).2 = false) ∧
    ((¬ ∃ v, g.ReachableFromTriggered h task.Trigger v ∧ h.OnCycle v) →
      (UAutomationGraphExecutor.StartExecution h ex task).2 = .Started) ∧
    (∀ (k : Heap n) (g1 : UAutomationGraph n),
      (UAutomationGraph.walkLoop Heap.Cancel (g1.RootNodes.length + k.EdgeCount) k
        g1.RootNodes.reverse []).isSome = true) := by
  obtain ⟨L, h1, ex2, _, _, _, _, hcase⟩ := StartExecution_cases h ex task g World hg hw ht
  refine ⟨?_, ?_, ?_⟩
  · rintro ⟨v, hv, hcyc⟩
    rcases hcase with ⟨_, hall⟩ | ⟨hres, _⟩
    · exact absurd hcyc (hall v hv).2
    · have hex := (Reset_spec
        (L.foldl (fun k v => (UAutomationGraphExecutor.InitializeNode k v World).1) h1) ex2).1
      have hact : (UAutomationGraphExecutor.StartExecution h ex task).1.2.ActiveNodes = [] := by
        rw [hres]; simp only; rw [hex]
      refine ⟨by rw [hres], hact, ?_, ?_⟩
      · rw [hres]; simp only; rw [hex]
      · intro dt
        rw [Execute_of_not_active _ _ dt hact]
  · intro hno
    rcases hcase with ⟨hres, _⟩ | ⟨_, hex⟩
    · rw [hres]
    · exact absurd hex hno
  · intro k g1
    obtain ⟨L1, hL1, _⟩ := walkLoop_roots Heap.Cancel Heap.SameShape.Cancel g1 k
    rw [hL1]
    rfl

/-- C2, on the graph `0 → 1 → 2 → 1`. -/
theorem StartExecution_aborts_iff_cycle_witness :
    (UAutomationGraphExecutor.StartExecution exCycle {} exTask).2 = .CycleAbort ∧
    (UAutomationGraphExecutor.StartExecution exCycle {} exTask).1.2.ActiveNodes = [] ∧
    (UAutomationGraphExecutor.StartExecution exCycle {} exTask).1.2.TargetGraph = none :=
  have hw := (StartExecution_aborts_iff_cycle exCycle {} exTask { RootNodes := [0] } 0 rfl rfl
    (by decide)).1
    ⟨1, ⟨0, by decide,
        Relation.ReflTransGen.single (by decide! : (1 : Fin 3) ∈ (exCycle.Node 0).ChildNodes)⟩,
      Relation.TransGen.tail
        (Relation.TransGen.single (by decide! : (2 : Fin 3) ∈ (exCycle.Node 1).ChildNodes))
        (by decide! : (1 : Fin 3) ∈ (exCycle.Node 2).ChildNodes)⟩
  ⟨hw.1, hw.2.1, hw.2.2.1⟩

theorem StartExecution_not_skipped {n : Nat} (h : Heap n) (ex : UAutomationGraphExecutor n)
    (task : FGraphExecutionTask)
    (hs : (UAutomationGraphExecutor.StartExecution h ex task).2 ≠ .Skipped) :
    ∃ g World, h.GetGraph task.TargetGraph = some g ∧ task.TargetWorld = some World ∧
      task.Trigger ≠ .Unknown := by
  unfold UAutomationGraphExecutor.StartExecution at hs
  cases hg : h.GetGraph task.TargetGraph with
  | none => simp [hg] at hs
  | some g =>
    cases hw : task.TargetWorld with
    | none => simp [hg, hw] at hs
    | some World =>
      by_cases ht : task.Trigger = .Unknown
      · simp [hg, hw, ht] at hs
      · exact ⟨g, World, rfl, rfl, ht⟩

theorem Initialize_base_before_finished (m : NodeMembers) (w : UWorld) :
    (UAutomationGraphNode.Initialize m w).1.NodeState.toNat <
      EAutomationGraphNodeState.Finished.toNat := by
  unfold UAutomationGraphNode.Initialize
  by_cases ha : m.NodeState = .Active
  · simp [ha, EAutomationGraphNodeState.toNat]
  · simp [ha, UAutomationGraphNode.SetState, EAutomationGraphNodeState.toNat]

/-- C3, amended: when `StartExecution` aborts on a cycle, every node it
initialized during the walk has received `Cancel` when it returns and is in none
of `Uninitialized`, `Standby`, `Active`; it is `Cancelled` whenever its
`Initialize` leaves a state before `Finished` (as the base `Initialize` does). -/
theorem StartExecution_cycle_abort_cancels_initialized {n : Nat} (h : Heap n)
    (ex : UAutomationGraphExecutor n) (task : FGraphExecutionTask)
    (habort : (UAutomationGraphExecutor.StartExecution h ex task).2 = .CycleAbort) (v : Fin n)
    (hinit : Call.Initialize v ∈
      (UAutomationGraphExecutor.StartExecution h ex task).1.1.CallsSince h) :
    Call.Cancel v ∈ (UAutomationGraphExecutor.StartExecution h ex task).1.1.CallsSince h ∧
    (UAutomationGraphExecutor.StartExecution h ex task).1.1.GetState v ≠ .Uninitialized ∧
    (UAutomationGraphExecutor.StartExecution h ex task).1.1.GetState v ≠ .Standby ∧
    (UAutomationGraphExecutor.StartExecution h ex task).1.1.GetState v ≠ .Active ∧
    ((∀ m w, ((h.Node v).Class.Initialize m w).1.NodeState.toNat <
        EAutomationGraphNodeState.Finished.toNat) →
      (UAutomationGraphExecutor.StartExecution h ex task).1.1.GetState v = .Cancelled) := by
  obtain ⟨g, World, hg, hw, ht⟩ := StartExecution_not_skipped h ex task (by rw [habort]; decide)
  obtain ⟨L, h1, ex2, hh1, hex2, hnd, hreach, hcase⟩ :=
    StartExecution_cases h ex task g World hg hw ht
  rcases hcase with ⟨hres, _⟩ | ⟨hres, _⟩
  · rw [hres] at habort
    simp at habort
  · obtain ⟨ev1, hev1, hcp1⟩ := Reset_trace h ex
    rw [← hh1] at hev1
    have hsh1 : h.SameShape h1 := hh1 ▸ Reset_shape h ex
    generalize hh2 : L.foldl (fun k v => (UAutomationGraphExecutor.InitializeNode k v World).1) h1
      = h2 at hres
    have hsh2 : h1.SameShape h2 := by
      rw [← hh2]
      exact Heap.SameShape.foldl _ (fun k v => Heap.SameShape.Initialize k v World) L h1
    have htr2 : h2.Trace = h.Trace ++ (ev1 ++ L.map Call.Initialize) := by
      rw [← hh2, foldl_Initialize_trace, hev1, List.append_assoc]
    obtain ⟨_, L2, hL2, _, hmem2⟩ := Reset_spec h2 ex2
    have hg2 : h2.GetGraph ex2.TargetGraph = some g := by
      rw [(hsh1.trans hsh2).getGraph, hex2]
      exact hg
    obtain ⟨ev2, hev2, hcp2, hcan2⟩ := foldl_Cancel_trace L2 h2
    have hfin : (UAutomationGraphExecutor.StartExecution h ex task).1.1 =
        L2.foldl Heap.Cancel h2 := by rw [hres]; exact hL2
    have htr : (L2.foldl Heap.Cancel h2).Trace =
        h.Trace ++ (ev1 ++ L.map Call.Initialize ++ ev2) := by
      rw [hev2, htr2, List.append_assoc]
    rw [hfin, CallsSince_of_trace htr] at hinit ⊢
    have hvL : v ∈ L := by
      rcases List.mem_append.mp hinit with e | e
      · rcases List.mem_append.mp e with e | e
        · have := hcp1 _ e
          simp [Call.isCancelPart] at this
        · obtain ⟨x, hx, hxe⟩ := List.mem_map.mp e
          injection hxe with hxe
          exact hxe ▸ hx
      · have := hcp2 _ e
        simp [Call.isCancelPart] at this
    have hvL2 : v ∈ L2 := by
      rw [hmem2 g hg2 v, (hsh1.trans hsh2).reachableFromRoots]
      obtain ⟨r, hr, hrv⟩ := hreach v hvL
      exact ⟨r, TriggeredRoots_subset g h _ r hr, hrv⟩
    have hstate := foldl_Cancel_state v L2 h2
    have hge : EAutomationGraphNodeState.Finished.toNat ≤
        ((L2.foldl Heap.Cancel h2).GetState v).toNat := by
      rw [hstate]
      split
      · decide
      · rename_i hn
        exact Nat.le_of_not_lt (fun hx => hn ⟨hvL2, hx⟩)
    refine ⟨List.mem_append_right _ (hcan2 v hvL2), ?_, ?_, ?_, ?_⟩
    · intro hx; rw [hx] at hge; exact absurd hge (by decide)
    · intro hx; rw [hx] at hge; exact absurd hge (by decide)
    · intro hx; rw [hx] at hge; exact absurd hge (by decide)
    · intro hcls
      rw [hstate]
      apply if_pos
      refine ⟨hvL2, ?_⟩
      obtain ⟨m, hm⟩ := foldl_Initialize_members World v L h1 hvL
      rw [hh2] at hm
      unfold Heap.GetState
      rw [hm, hsh1.cls]
      exact hcls m World

/-- C3, amended, at node `1` of the graph `0 → 1 → 2 → 1`. -/
theorem StartExecution_cycle_abort_cancels_initialized_witness :
    (UAutomationGraphExecutor.StartExecution exCycle {} exTask).1.1.GetState 1 = .Cancelled :=
  (StartExecution_cycle_abort_cancels_initialized exCycle {} exTask (by decide!) 1
    (by decide!)).2.2.2.2 (fun m w => Initialize_base_before_finished m w)

/-! ## Scheduling pass: loop rules -/

/-- Loop rule for the child loop of the `Finished` case of `Execute`. -/
theorem activateChildren_rule {n : Nat} (dt : Rat)
    (Q : List (Fin n) → Heap n → List (Fin n) → Prop)
    (hyes : ∀ c cs h A, Q (c :: cs) h A → h.CanStartActivation c = true →
      Q cs (h.Activate c dt).1 (TSet.Add A c))
    (hno : ∀ c cs h A, Q (c :: cs) h A → h.CanStartActivation c = false → Q cs h A) :
    ∀ (cs : List (Fin n)) (h : Heap n) (A : List (Fin n)), Q cs h A →
      Q [] (UAutomationGraphExecutor.Execute.activateChildren dt cs h A).1
        (UAutomationGraphExecutor.Execute.activateChildren dt cs h A).2 := by
  intro cs
  induction cs with
  | nil => intro h A hq; exact hq
  | cons c cs ih =>
    intro h A hq
    unfold UAutomationGraphExecutor.Execute.activateChildren
    by_cases hc : h.CanStartActivation c = true
    · rw [if_pos hc]
      exact ih _ _ (hyes c cs h A hq hc)
    · rw [if_neg hc]
      exact ih _ _ (hno c cs h A hq (by simpa using hc))

/-- Loop rule for the loop over `ActiveNodes` of `Execute`. -/
theorem pass_rule {n : Nat} (dt : Rat)
    (P : List (Fin n) → Heap n → List (Fin n) → List (Fin n) → Prop)
    (hSA : ∀ v rest h A R, P (v :: rest) h A R → h.Valid v = true →
      (h.GetState v = .Standby ∨ h.GetState v = .Active) →
      P rest (h.Activate v dt).1 A R)
    (hFin : ∀ v rest h A R, P (v :: rest) h A R → h.Valid v = true →
      h.GetState v = .Finished →
      P rest (UAutomationGraphExecutor.Execute.activateChildren dt (h.Node v).ChildNodes h A).1
        (UAutomationGraphExecutor.Execute.activateChildren dt (h.Node v).ChildNodes h A).2
        (TSet.Add R v))
    (hOther : ∀ v rest h A R, P (v :: rest) h A R → h.Valid v = true →
      h.GetState v ≠ .Standby → h.GetState v ≠ .Active → h.GetState v ≠ .Finished →
      P rest h A (TSet.Add R v)) :
    ∀ (L : List (Fin n)) (h : Heap n) (A R : List (Fin n)), P L h A R →
      match UAutomationGraphExecutor.Execute.pass dt L h A R with
      | .Completed h1 A1 R1 => P [] h1 A1 R1
      | .InvalidNode h1 => ∃ v rest A1 R1, P (v :: rest) h1 A1 R1 ∧ h1.Valid v = false := by
  intro L
  induction L with
  | nil => intro h A R hp; simpa [UAutomationGraphExecutor.Execute.pass] using hp
  | cons v rest ih =>
    intro h A R hp
    unfold UAutomationGraphExecutor.Execute.pass
    by_cases hval : h.Valid v = false
    · rw [if_pos hval]
      exact ⟨v, rest, A, R, hp, hval⟩
    · rw [if_neg hval]
      have hval2 : h.Valid v = true := by simpa using hval
      cases hs : h.GetState v with
      | Standby =>
        simp only
        have hca : UAutomationGraphNode.CanActivate (h.Node v).toNodeMembers = true := by
          have : (h.Node v).NodeState = .Standby := hs
          simp [UAutomationGraphNode.CanActivate, this]
        rw [if_pos hca]
        exact ih _ _ _ (hSA v rest h A R hp hval2 (Or.inl hs))
      | Active =>
        simp only
        have hca : UAutomationGraphNode.CanActivate (h.Node v).toNodeMembers = true := by
          have : (h.Node v).NodeState = .Active := hs
          simp [UAutomationGraphNode.CanActivate, this]
        rw [if_pos hca]
        exact ih _ _ _ (hSA v rest h A R hp hval2 (Or.inr hs))
      | Finished =>
        simp only
        exact ih _ _ _ (hFin v rest h A R hp hval2 hs)
      | Uninitialized =>
        simp only
        exact ih _ _ _ (hOther v rest h A R hp hval2 (by simp [hs]) (by simp [hs]) (by simp [hs]))
      | Expired =>
        simp only
        exact ih _ _ _ (hOther v rest h A R hp hval2 (by simp [hs]) (by simp [hs]) (by simp [hs]))
      | Error =>
        simp only
        exact ih _ _ _ (hOther v rest h A R hp hval2 (by simp [hs]) (by simp [hs]) (by simp [hs]))
      | Cancelled =>
        simp only
        exact ih _ _ _ (hOther v rest h A R hp hval2 (by simp [hs]) (by simp [hs]) (by simp [hs]))

theorem pass_completed_of_valid {n : Nat} (dt : Rat) :
    ∀ (L : List (Fin n)) (h : Heap n) (A R : List (Fin n)),
      (∀ v ∈ L, h.Valid v = true) →
      ∃ h1 A1 R1, UAutomationGraphExecutor.Execute.pass dt L h A R = .Completed h1 A1 R1 := by
  intro L h A R hv
  have hshA : ∀ (cs : List (Fin n)) (k : Heap n) (B : List (Fin n)),
      k.SameShape (UAutomationGraphExecutor.Execute.activateChildren dt cs k B).1 := by
    intro cs k B
    exact activateChildren_rule dt (fun _ k1 _ => k.SameShape k1)
      (fun c cs h1 A1 hq _ => hq.trans (Heap.SameShape.Activate h1 c dt))
      (fun c cs h1 A1 hq _ => hq) cs k B (Heap.SameShape.refl k)
  have hrule := pass_rule dt (fun rest k _ _ => ∀ v ∈ rest, k.Valid v = true)
    (fun v rest k A1 R1 hp _ _ u hu => by
      rw [(Heap.SameShape.Activate k v dt).valid]
      exact hp u (List.mem_cons_of_mem _ hu))
    (fun v rest k A1 R1 hp _ _ u hu => by
      rw [(hshA _ k A1).valid]
      exact hp u (List.mem_cons_of_mem _ hu))
    (fun v rest k A1 R1 hp _ _ _ _ u hu => hp u (List.mem_cons_of_mem _ hu))
    L h A R hv
  cases hres : UAutomationGraphExecutor.Execute.pass dt L h A R with
  | Completed h1 A1 R1 => exact ⟨h1, A1, R1, rfl⟩
  | InvalidNode h1 =>
    rw [hres] at hrule
    obtain ⟨v, rest, _, _, hp, hval⟩ := hrule
    have := hp v (List.mem_cons_self _ _)
    rw [hval] at this
    exact absurd this (by decide)

/-! ## Scheduling pass: parents are `Finished` at every `Activate` -/

theorem Heap.Frozen.frozen_refl {n : Nat} (h : Heap n) : h.Frozen h := fun _ _ _ => rfl

theorem Heap.Frozen.frozen_trans {n : Nat} {h k l : Heap n} (a : h.Frozen k) (b : k.Frozen l) :
    h.Frozen l := by
  intro u h1 h2
  have hk := a u h1 h2
  have e : k.GetState u = h.GetState u := by unfold Heap.GetState; rw [hk]
  rw [b u (e ▸ h1) (e ▸ h2), hk]

theorem Heap.Frozen.frozen_Activate {n : Nat} (h : Heap n) (v : Fin n) (dt : Rat)
    (hs : h.GetState v = .Standby ∨ h.GetState v = .Active) : h.Frozen (h.Activate v dt).1 := by
  intro u h1 h2
  apply Activate_node_ne
  intro e
  subst e
  rcases hs with hs | hs
  · exact h1 hs
  · exact h2 hs

theorem ParentsFinished_mono {n : Nat} {h k : Heap n} (a : h.SameShape k) (b : h.Frozen k)
    (v : Fin n) (hpf : h.ParentsFinished v = true) : k.ParentsFinished v = true := by
  unfold Heap.ParentsFinished at *
  rw [a.parent]
  rw [List.all_eq_true] at hpf ⊢
  intro p hp
  have hfin : h.GetState p = .Finished := by simpa using hpf p hp
  have hnode := b p (by rw [hfin]; decide) (by rw [hfin]; decide)
  simp only [decide_eq_true_eq]
  unfold Heap.GetState at *
  rw [hnode]
  exact hfin

theorem CanStartActivation_standby {n : Nat} (h : Heap n) (c : Fin n)
    (hc : h.CanStartActivation c = true) :
    h.GetState c = .Standby ∧ h.ParentsFinished c = true := by
  unfold Heap.CanStartActivation at hc
  by_cases hs : h.GetState c = .Standby
  · refine ⟨hs, ?_⟩
    simp only [hs, ne_eq, not_true_eq_false, if_false] at hc
    unfold Heap.ParentsFinished
    by_cases he : (h.Node c).ParentNodes.isEmpty = true
    · rw [List.isEmpty_iff.mp he]; rfl
    · simpa [he] using hc
  · simp [hs] at hc

theorem Heap.PassSegment.seg_refl {n : Nat} (h : Heap n) : h.PassSegment h :=
  ⟨Heap.SameShape.refl h, Heap.Frozen.frozen_refl h, [], by simp, by simp⟩

theorem Heap.PassSegment.seg_trans {n : Nat} {h k l : Heap n} (a : h.PassSegment k)
    (b : k.PassSegment l) : h.PassSegment l := by
  obtain ⟨ev1, h1, g1⟩ := a.trace
  obtain ⟨ev2, h2, g2⟩ := b.trace
  refine ⟨a.shape.trans b.shape, Heap.Frozen.frozen_trans a.frozen b.frozen, ev1 ++ ev2, ?_, ?_⟩
  · rw [h2, h1, List.append_assoc]
  · intro e he
    rcases List.mem_append.mp he with x | x
    · exact g1 e x
    · exact g2 e x

theorem Heap.PassSegment.seg_Activate {n : Nat} (h : Heap n) (v : Fin n) (dt : Rat)
    (hs : h.GetState v = .Standby ∨ h.GetState v = .Active)
    (hpf : h.ParentsFinished v = true) : h.PassSegment (h.Activate v dt).1 :=
  ⟨Heap.SameShape.Activate h v dt, Heap.Frozen.frozen_Activate h v dt hs,
    [Call.Activate v dt (h.GetState v) (h.ParentsFinished v)], Activate_trace h v dt,
    by simp [Call.parentsOk, hpf]⟩

theorem Heap.PassSegment.pf {n : Nat} {h k : Heap n} (a : h.PassSegment k) (v : Fin n)
    (hpf : h.ParentsFinished v = true) : k.ParentsFinished v = true :=
  ParentsFinished_mono a.shape a.frozen v hpf

theorem activateChildren_segment {n : Nat} (dt : Rat) (cs : List (Fin n)) (h : Heap n)
    (A : List (Fin n)) (hA : ∀ x ∈ A, h.ParentsFinished x = true) :
    h.PassSegment (UAutomationGraphExecutor.Execute.activateChildren dt cs h A).1 ∧
    ∀ x ∈ (UAutomationGraphExecutor.Execute.activateChildren dt cs h A).2,
      (UAutomationGraphExecutor.Execute.activateChildren dt cs h A).1.ParentsFinished x = true :=
  activateChildren_rule dt
    (fun _ k B => h.PassSegment k ∧ ∀ x ∈ B, k.ParentsFinished x = true)
    (fun c cs k B hq hc => by
      obtain ⟨hs, hpf⟩ := CanStartActivation_standby k c hc
      have seg := Heap.PassSegment.seg_Activate k c dt (Or.inl hs) hpf
      refine ⟨hq.1.seg_trans seg, ?_⟩
      intro x hx
      rcases (TSet.mem_Add B c x).mp hx with e | e
      · exact seg.pf x (hq.2 x e)
      · exact seg.pf x (e ▸ hpf))
    (fun c cs k B hq _ => hq) cs h A ⟨Heap.PassSegment.seg_refl h, hA⟩

theorem pass_segment {n : Nat} (dt : Rat) (L : List (Fin n)) (h : Heap n)
    (hL : ∀ v ∈ L, h.ParentsFinished v = true) :
    match UAutomationGraphExecutor.Execute.pass dt L h [] [] with
    | .Completed h1 A1 _ => h.PassSegment h1 ∧ ∀ x ∈ A1, h1.ParentsFinished x = true
    | .InvalidNode h1 => h.PassSegment h1 := by
  have hrule := pass_rule dt
    (fun rest k A _ => h.PassSegment k ∧ (∀ v ∈ rest, k.ParentsFinished v = true) ∧
      ∀ x ∈ A, k.ParentsFinished x = true)
    (fun v rest k A R hp _ hs => by
      have seg := Heap.PassSegment.seg_Activate k v dt hs (hp.2.1 v (List.mem_cons_self _ _))
      exact ⟨hp.1.seg_trans seg, fun u hu => seg.pf u (hp.2.1 u (List.mem_cons_of_mem _ hu)),
        fun x hx => seg.pf x (hp.2.2 x hx)⟩)
    (fun v rest k A R hp _ _ => by
      obtain ⟨seg, hA⟩ := activateChildren_segment dt (k.Node v).ChildNodes k A hp.2.2
      exact ⟨hp.1.seg_trans seg, fun u hu => seg.pf u (hp.2.1 u (List.mem_cons_of_mem _ hu)), hA⟩)
    (fun v rest k A R hp _ _ _ _ =>
      ⟨hp.1, fun u hu => hp.2.1 u (List.mem_cons_of_mem _ hu), hp.2.2⟩)
    L h [] [] ⟨Heap.PassSegment.seg_refl h, hL, by simp⟩
  cases hres : UAutomationGraphExecutor.Execute.pass dt L h [] [] with
  | Completed h1 A1 R1 =>
    rw [hres] at hrule
    exact ⟨hrule.1, hrule.2.2⟩
  | InvalidNode h1 =>
    rw [hres] at hrule
    obtain ⟨_, _, _, _, hp, _⟩ := hrule
    exact hp.1

theorem removeNodes_spec {n : Nat} :
    ∀ (R : List (Fin n)) (h : Heap n) (act : List (Fin n)),
      (UAutomationGraphExecutor.Execute.removeNodes R h act).1.Node = h.Node ∧
      h.SameShape (UAutomationGraphExecutor.Execute.removeNodes R h act).1 ∧
      (∃ ev : List (Call n),
        (UAutomationGraphExecutor.Execute.removeNodes R h act).1.Trace = h.Trace ++ ev ∧
        ∀ e ∈ ev, ∃ u, e = Call.Cleanup u) ∧
      (∀ x, x ∈ (UAutomationGraphExecutor.Execute.removeNodes R h act).2 ↔ x ∈ act ∧ x ∉ R) ∧
      (act.Nodup → (UAutomationGraphExecutor.Execute.removeNodes R h act).2.Nodup) := by
  intro R
  induction R with
  | nil =>
    intro h act
    exact ⟨rfl, Heap.SameShape.refl h, ⟨[], by simp [UAutomationGraphExecutor.Execute.removeNodes],
      by simp⟩, by simp [UAutomationGraphExecutor.Execute.removeNodes], fun hx => hx⟩
  | cons r R ih =>
    intro h act
    unfold UAutomationGraphExecutor.Execute.removeNodes
    simp only
    by_cases hv : h.Valid r = true
    · rw [if_pos hv]
      obtain ⟨i1, i2, ⟨ev, i3, i4⟩, i5, i6⟩ := ih (h.Cleanup r) (TSet.Remove act r)
      refine ⟨i1, (Heap.SameShape.Cleanup h r).trans i2, ⟨Call.Cleanup r :: ev, ?_, ?_⟩, ?_, ?_⟩
      · rw [i3, Cleanup_trace]; simp
      · intro e he
        rcases List.mem_cons.mp he with x | x
        · exact ⟨r, x⟩
        · exact i4 e x
      · intro x
        rw [i5, TSet.mem_Remove]
        simp only [List.mem_cons, not_or]
        tauto
      · intro hnd
        exact i6 (TSet.nodup_Remove act r hnd)
    · rw [if_neg hv]
      obtain ⟨i1, i2, ⟨ev, i3, i4⟩, i5, i6⟩ := ih h (TSet.Remove act r)
      refine ⟨i1, i2, ⟨ev, i3, i4⟩, ?_, ?_⟩
      · intro x
        rw [i5, TSet.mem_Remove]
        simp only [List.mem_cons, not_or]
        tauto
      · intro hnd
        exact i6 (TSet.nodup_Remove act r hnd)

theorem parentsOk_of_isCancelPart {n : Nat} (c : Call n) (hc : c.isCancelPart = true) :
    c.parentsOk = true := by
  cases c <;> simp_all [Call.isCancelPart, Call.parentsOk]

/-- One `Execute` call: if every tracked node has all its parents `Finished`,
every `Activate` call made finds the parents of its node `Finished`, and the
property of the tracked nodes holds again afterwards. -/
theorem Execute_parentsOk {n : Nat} (h : Heap n) (ex : UAutomationGraphExecutor n) (dt : Rat)
    (hinv : ∀ v ∈ ex.ActiveNodes, h.ParentsFinished v = true) :
    (∃ ev : List (Call n),
      (UAutomationGraphExecutor.Execute h ex dt).1.1.Trace = h.Trace ++ ev ∧
      ∀ e ∈ ev, e.parentsOk = true) ∧
    (∀ v ∈ (UAutomationGraphExecutor.Execute h ex dt).1.2.ActiveNodes,
      (UAutomationGraphExecutor.Execute h ex dt).1.1.ParentsFinished v = true) := by
  unfold UAutomationGraphExecutor.Execute
  by_cases he : ex.ActiveNodes.isEmpty = true
  · rw [if_pos he]
    exact ⟨⟨[], by simp, by simp⟩, hinv⟩
  · rw [if_neg he]
    simp only
    by_cases ht : ex.ExecutionTimer - dt > 0
    · rw [if_pos ht]
      exact ⟨⟨[], by simp, by simp⟩, hinv⟩
    · rw [if_neg ht]
      have hseg := pass_segment dt ex.ActiveNodes h hinv
      cases hres : UAutomationGraphExecutor.Execute.pass dt ex.ActiveNodes h [] [] with
      | InvalidNode h1 =>
        rw [hres] at hseg
        simp only at hseg ⊢
        obtain ⟨ev1, t1, g1⟩ := hseg.trace
        obtain ⟨ev2, t2, g2⟩ := Reset_trace h1
          { ex with ExecutionTimer := ex.TickRateSec }
        refine ⟨⟨ev1 ++ ev2, ?_, ?_⟩, ?_⟩
        · rw [t2, t1, List.append_assoc]
        · intro e hx
          rcases List.mem_append.mp hx with x | x
          · exact g1 e x
          · exact parentsOk_of_isCancelPart e (g2 e x)
        · intro v hv
          rw [(Reset_spec h1 _).1] at hv
          simp at hv
      | Completed h1 A1 R1 =>
        rw [hres] at hseg
        simp only at hseg ⊢
        obtain ⟨seg, hA⟩ := hseg
        obtain ⟨ev1, t1, g1⟩ := seg.trace
        obtain ⟨r1, _, ⟨ev2, t2, g2⟩, r4, _⟩ :=
          removeNodes_spec R1 h1 (TSet.Append ex.ActiveNodes A1)
        refine ⟨⟨ev1 ++ ev2, ?_, ?_⟩, ?_⟩
        · rw [t2, t1, List.append_assoc]
        · intro e hx
          rcases List.mem_append.mp hx with x | x
          · exact g1 e x
          · obtain ⟨u, hu⟩ := g2 e x
            rw [hu]; rfl
        · intro v hv
          have hv2 := ((r4 v).mp hv).1
          have hpf1 : h1.ParentsFinished v = true := by
            rcases (TSet.mem_Append A1 ex.ActiveNodes v).mp hv2 with x | x
            · exact seg.pf v (hinv v x)
            · exact hA v x
          unfold Heap.ParentsFinished Heap.GetState at hpf1 ⊢
          rw [r1]
          exact hpf1

theorem ExecuteAll_parentsOk {n : Nat} (dts : List Rat) :
    ∀ (h : Heap n) (ex : UAutomationGraphExecutor n),
      (∀ v ∈ ex.ActiveNodes, h.ParentsFinished v = true) →
      ∃ ev : List (Call n),
        (UAutomationGraphExecutor.ExecuteAll dts (h, ex)).1.Trace = h.Trace ++ ev ∧
        ∀ e ∈ ev, e.parentsOk = true := by
  induction dts with
  | nil => intro h ex _; exact ⟨[], by simp [UAutomationGraphExecutor.ExecuteAll], by simp⟩
  | cons dt dts ih =>
    intro h ex hinv
    obtain ⟨⟨ev1, t1, g1⟩, hinv2⟩ := Execute_parentsOk h ex dt hinv
    obtain ⟨ev2, t2, g2⟩ := ih _ _ hinv2
    refine ⟨ev1 ++ ev2, ?_, ?_⟩
    · unfold UAutomationGraphExecutor.ExecuteAll
      rw [t2, t1, List.append_assoc]
    · intro e hx
      rcases List.mem_append.mp hx with x | x
      · exact g1 e x
      · exact g2 e x

/-- C4: in a run (a `StartExecution` that reaches its end, then any number of
`Execute` calls) on a graph whose root nodes have no parents, every `Activate`
call that `Execute` makes, in particular every one on a node in `Standby`, finds
every entry of the node's `ParentNodes` `Finished`. In the diamond (with a slow
`C`), after four `Execute` calls only `B` is `Finished` and the fifth call makes
no `Activate` on `D`; after it `B` and `C` are `Finished`, the sixth call starts
`D`, and `D` has been started exactly once when it is `Finished`. -/
theorem Execute_activates_only_when_parents_finished {n : Nat} (h : Heap n)
    (ex : UAutomationGraphExecutor n) (task : FGraphExecutionTask) (g : UAutomationGraph n)
    (hg : h.GetGraph task.TargetGraph = some g)
    (hstart : (UAutomationGraphExecutor.StartExecution h ex task).2 = .Started)
    (hroots : ∀ r ∈ g.RootNodes, (h.Node r).ParentNodes = []) (dts : List Rat) :
    (∀ (v : Fin n) (dt : Rat) (s : EAutomationGraphNodeState) (pf : Bool),
      Call.Activate v dt s pf ∈
        (UAutomationGraphExecutor.ExecuteAll dts
          (UAutomationGraphExecutor.StartExecution h ex task).1).1.CallsSince
          (UAutomationGraphExecutor.StartExecution h ex task).1.1 →
      pf = true) ∧
    ((UAutomationGraphExecutor.ExecuteAll [1, 1, 1, 1]
        (UAutomationGraphExecutor.StartExecution exDiamond {} exTask).1).1.GetState 1 = .Finished ∧
     (UAutomationGraphExecutor.ExecuteAll [1, 1, 1, 1]
        (UAutomationGraphExecutor.StartExecution exDiamond {} exTask).1).1.GetState 2 = .Active ∧
     (UAutomationGraphExecutor.ExecuteAll [1, 1, 1, 1]
        (UAutomationGraphExecutor.StartExecution exDiamond {} exTask).1).1.GetState 3 = .Standby ∧
     ((UAutomationGraphExecutor.ExecuteAll [1, 1, 1, 1, 1]
        (UAutomationGraphExecutor.StartExecution exDiamond {} exTask).1).1.CallsSince
        exDiamond).countP (Call.isActivateOn 3) = 0 ∧
     (UAutomationGraphExecutor.ExecuteAll [1, 1, 1, 1, 1]
        (UAutomationGraphExecutor.StartExecution exDiamond {} exTask).1).1.GetState 2 = .Finished ∧
     ((UAutomationGraphExecutor.ExecuteAll [1, 1, 1, 1, 1, 1]
        (UAutomationGraphExecutor.StartExecution exDiamond {} exTask).1).1.CallsSince
        exDiamond).countP (Call.isStartOn 3) = 1 ∧
     ((UAutomationGraphExecutor.ExecuteAll [1, 1, 1, 1, 1, 1, 1, 1]
        (UAutomationGraphExecutor.StartExecution exDiamond {} exTask).1).1.CallsSince
        exDiamond).countP (Call.isStartOn 3) = 1 ∧
     (UAutomationGraphExecutor.ExecuteAll [1, 1, 1, 1, 1, 1, 1, 1]
        (UAutomationGraphExecutor.StartExecution exDiamond {} exTask).1).1.GetState 3
        = .Finished) := by
  refine ⟨?_, by decide!⟩
  obtain ⟨_, World, _, hw, ht⟩ := StartExecution_not_skipped h ex task (by rw [hstart]; decide)
  obtain ⟨L, h1, ex2, hh1, hex2, _, _, hcase⟩ := StartExecution_cases h ex task g World hg hw ht
  rcases hcase with ⟨hres, _⟩ | ⟨hres, _⟩
  · have hsh : h.SameShape (UAutomationGraphExecutor.StartExecution h ex task).1.1 := by
      rw [hres, hh1]
      exact (Reset_shape h ex).trans
        (Heap.SameShape.foldl _ (fun k v => Heap.SameShape.Initialize k v World) L _)
    have hinv : ∀ v ∈ (UAutomationGraphExecutor.StartExecution h ex task).1.2.ActiveNodes,
        (UAutomationGraphExecutor.StartExecution h ex task).1.1.ParentsFinished v = true := by
      intro v hv
      have hv2 : v ∈ g.TriggeredRoots h task.Trigger := by
        rw [hres, hex2] at hv
        simpa [TSet.mem_Append] using hv
      unfold Heap.ParentsFinished
      rw [hsh.parent, hroots v (TriggeredRoots_subset g h _ v hv2)]
      rfl
    obtain ⟨ev, t, gev⟩ := ExecuteAll_parentsOk dts _ _ hinv
    intro v dt s pf hmem
    rw [CallsSince_of_trace t] at hmem
    simpa [Call.parentsOk] using gev _ hmem
  · rw [hres] at hstart
    simp at hstart

/-- C4, on the diamond with three `Execute` calls: no `Activate` call on `B`
found a parent of `B` unfinished. -/
theorem Execute_activates_only_when_parents_finished_witness :
    Call.Activate (1 : Fin 4) 1 .Standby false ∉
      (UAutomationGraphExecutor.ExecuteAll [1, 1, 1]
        (UAutomationGraphExecutor.StartExecution exDiamond {} exTask).1).1.CallsSince
        (UAutomationGraphExecutor.StartExecution exDiamond {} exTask).1.1 :=
  fun hmem => Bool.noConfusion
    ((Execute_activates_only_when_parents_finished exDiamond {} exTask { RootNodes := [0] } rfl
      (by decide!) (by decide!) [1, 1, 1]).1 1 1 .Standby false hmem)

/-! ## Scheduling pass with node classes of the standard activation pattern -/

theorem Activate_members_ne_standby (cls : NodeClass) (m : NodeMembers) (dt : Rat)
    (hstd : cls.Standard) : (UAutomationGraphNode.Activate cls m dt).1.NodeState ≠ .Standby := by
  unfold UAutomationGraphNode.Activate
  simp only
  generalize (if m.NodeState = EAutomationGraphNodeState.Active then
    ({ m with TimeElapsedSec := m.TimeElapsedSec + dt } : NodeMembers) else m) = m1
  by_cases hge : m1.TimeElapsedSec ≥ m1.NodeTimeoutSec
  · rw [if_pos hge]
    simp [UAutomationGraphNode.SetState]
  · rw [if_neg hge]
    exact hstd.activate_ne_standby _ _

theorem Activate_ne_standby {n : Nat} (h : Heap n) (v : Fin n) (dt : Rat)
    (hstd : (h.Node v).Class.Standard) : (h.Activate v dt).1.GetState v ≠ .Standby := by
  unfold Heap.GetState
  rw [Activate_members]
  exact Activate_members_ne_standby _ _ dt hstd

theorem Activate_state_ne {n : Nat} (h : Heap n) (v u : Fin n) (dt : Rat) (hu : u ≠ v) :
    (h.Activate v dt).1.GetState u = h.GetState u := by
  unfold Heap.GetState
  rw [Activate_node_ne h v u dt hu]

theorem Heap.StdSegment.std_refl {n : Nat} (dt : Rat) (L : List (Fin n)) (h : Heap n) :
    h.StdSegment dt L h :=
  ⟨Heap.SameShape.refl h, Heap.Frozen.frozen_refl h, fun _ hu => hu, [], by simp, by simp⟩

theorem Heap.StdSegment.std_trans {n : Nat} {dt : Rat} {L1 L2 L : List (Fin n)} {h k l : Heap n}
    (a : h.StdSegment dt L1 k) (b : k.StdSegment dt L2 l)
    (h1 : ∀ x ∈ L1, x ∈ L) (h2 : ∀ x ∈ L2, x ∈ L) : h.StdSegment dt L l := by
  obtain ⟨ev1, t1, g1⟩ := a.trace
  obtain ⟨ev2, t2, g2⟩ := b.trace
  refine ⟨a.shape.trans b.shape, Heap.Frozen.frozen_trans a.frozen b.frozen,
    fun u hu => b.keep u (a.keep u hu), ev1 ++ ev2, ?_, ?_⟩
  · rw [t2, t1, List.append_assoc]
  · intro e he
    rcases List.mem_append.mp he with x | x
    · obtain ⟨u, s, pf, he, hk, hor⟩ := g1 e x
      refine ⟨u, s, pf, he, b.keep u hk, ?_⟩
      rcases hor with y | y
      · exact Or.inl (h1 u y)
      · exact Or.inr y
    · obtain ⟨u, s, pf, he, hk, hor⟩ := g2 e x
      refine ⟨u, s, pf, he, hk, ?_⟩
      rcases hor with y | y
      · exact Or.inl (h2 u y)
      · right
        by_contra hne
        exact a.keep u hne y

theorem Heap.StdSegment.std_Activate {n : Nat} (dt : Rat) (L : List (Fin n)) (h : Heap n) (v : Fin n)
    (hstd : (h.Node v).Class.Standard)
    (hs : h.GetState v = .Standby ∨ h.GetState v = .Active)
    (hv : v ∈ L ∨ h.GetState v = .Standby) : h.StdSegment dt L (h.Activate v dt).1 := by
  refine ⟨Heap.SameShape.Activate h v dt, Heap.Frozen.frozen_Activate h v dt hs, ?_,
    [Call.Activate v dt (h.GetState v) (h.ParentsFinished v)], Activate_trace h v dt, ?_⟩
  · intro u hu
    by_cases e : u = v
    · subst e; exact Activate_ne_standby h u dt hstd
    · rw [Activate_state_ne h v u dt e]; exact hu
  · intro e he
    simp only [List.mem_singleton] at he
    exact ⟨v, _, _, he, Activate_ne_standby h v dt hstd, hv⟩

theorem count_isActivateOn_of_trace {n : Nat} (c : Fin n) (ev : List (Call n))
    (hev : ∀ e ∈ ev, ∀ u s pf d, e = Call.Activate u d s pf → u ≠ c) :
    ev.countP (Call.isActivateOn c) = 0 := by
  rw [List.countP_eq_zero]
  intro e he
  cases e with
  | Activate u d s pf =>
    have := hev _ he u s pf d rfl
    simp [Call.isActivateOn, this]
  | _ => simp [Call.isActivateOn]

/-- In a stretch of a pass, a node that is in `Standby` at the end has received
no `Activate`. -/
theorem Heap.StdSegment.count_of_standby {n : Nat} {dt : Rat} {L : List (Fin n)} {h k : Heap n}
    (a : h.StdSegment dt L k) (c : Fin n) (hc : k.GetState c = .Standby) :
    (k.CallsSince h).countP (Call.isActivateOn c) = 0 := by
  obtain ⟨ev, t, g⟩ := a.trace
  rw [CallsSince_of_trace t]
  apply count_isActivateOn_of_trace
  intro e he u s pf d hu huc
  obtain ⟨u2, s2, pf2, he2, hk, _⟩ := g e he
  rw [hu] at he2
  injection he2 with e1 _ _ _
  subst huc
  exact hk (e1 ▸ hc)

/-- In a stretch of a pass, a node that is not tracked and not in `Standby` at
the start receives no `Activate`. -/
theorem Heap.StdSegment.count_of_not_standby {n : Nat} {dt : Rat} {L : List (Fin n)}
    {h k : Heap n} (a : h.StdSegment dt L k) (c : Fin n) (hcL : c ∉ L)
    (hc : h.GetState c ≠ .Standby) :
    (k.CallsSince h).countP (Call.isActivateOn c) = 0 := by
  obtain ⟨ev, t, g⟩ := a.trace
  rw [CallsSince_of_trace t]
  apply count_isActivateOn_of_trace
  intro e he u s pf d hu huc
  obtain ⟨u2, s2, pf2, he2, _, hor⟩ := g e he
  rw [hu] at he2
  injection he2 with e1 _ _ _
  subst huc
  rcases hor with x | x
  · exact hcL (e1 ▸ x)
  · exact hc (e1 ▸ x)

theorem Standard_of_shape {n : Nat} {h k : Heap n} (a : h.SameShape k)
    (hstd : ∀ v, (h.Node v).Class.Standard) : ∀ v, (k.Node v).Class.Standard := by
  intro v
  rw [a.cls]
  exact hstd v

theorem activateChildren_std {n : Nat} (dt : Rat) (cs : List (Fin n)) (h : Heap n)
    (A : List (Fin n)) (hstd : ∀ v, (h.Node v).Class.Standard) :
    h.StdSegment dt [] (UAutomationGraphExecutor.Execute.activateChildren dt cs h A).1 ∧
    (∀ x ∈ A, x ∈ (UAutomationGraphExecutor.Execute.activateChildren dt cs h A).2) ∧
    (∀ x ∈ (UAutomationGraphExecutor.Execute.activateChildren dt cs h A).2, x ∈ A ∨
      (UAutomationGraphExecutor.Execute.activateChildren dt cs h A).1.GetState x ≠ .Standby) :=
  activateChildren_rule dt
    (fun _ k B => h.StdSegment dt [] k ∧ (∀ x ∈ A, x ∈ B) ∧
      ∀ x ∈ B, x ∈ A ∨ k.GetState x ≠ .Standby)
    (fun c cs k B hq hc => by
      have hs := (CanStartActivation_standby k c hc).1
      have seg := Heap.StdSegment.std_Activate dt [] k c (Standard_of_shape hq.1.shape hstd c)
        (Or.inl hs) (Or.inr hs)
      refine ⟨hq.1.std_trans seg (fun _ x => x) (fun _ x => x),
        fun x hx => (TSet.mem_Add B c x).mpr (Or.inl (hq.2.1 x hx)), ?_⟩
      intro x hx
      rcases (TSet.mem_Add B c x).mp hx with e | e
      · rcases hq.2.2 x e with y | y
        · exact Or.inl y
        · exact Or.inr (seg.keep x y)
      · exact Or.inr (e ▸ Activate_ne_standby k c dt (Standard_of_shape hq.1.shape hstd c)))
    (fun c cs k B hq _ => hq) cs h A
    ⟨Heap.StdSegment.std_refl dt [] h, fun _ hx => hx, fun _ hx => Or.inl hx⟩

/-- What a scheduling pass over `L` does, for standard node classes: the calls
are `Activate` calls as in `StdSegment`, the buffers only grow, a node is
buffered for removal only if tracked, and every tracked node is buffered for
removal or not in `Standby` afterwards, as is every node buffered for
addition. -/
theorem pass_std {n : Nat} (dt : Rat) (L : List (Fin n)) (h : Heap n) (A R : List (Fin n))
    (hstd : ∀ v, (h.Node v).Class.Standard) :
    match UAutomationGraphExecutor.Execute.pass dt L h A R with
    | .Completed h1 A1 R1 =>
      h.StdSegment dt L h1 ∧ (∀ x ∈ A, x ∈ A1) ∧
      (∀ x ∈ A1, x ∈ A ∨ h1.GetState x ≠ .Standby) ∧ (∀ x ∈ R, x ∈ R1) ∧
      (∀ x ∈ R1, x ∈ R ∨ x ∈ L) ∧ (∀ v ∈ L, v ∈ R1 ∨ h1.GetState v ≠ .Standby)
    | .InvalidNode h1 => h.StdSegment dt L h1 := by
  have hrule := pass_rule dt
    (fun rest k B S => h.StdSegment dt L k ∧ (∀ x ∈ rest, x ∈ L) ∧ (∀ x ∈ A, x ∈ B) ∧
      (∀ x ∈ B, x ∈ A ∨ k.GetState x ≠ .Standby) ∧ (∀ x ∈ R, x ∈ S) ∧
      (∀ x ∈ S, x ∈ R ∨ x ∈ L) ∧
      (∀ v ∈ L, v ∈ rest ∨ v ∈ S ∨ k.GetState v ≠ .Standby))
    (fun v rest k B S hp _ hs => by
      obtain ⟨seg, hrest, hAB, hB, hRS, hS, hL⟩ := hp
      have hvL := hrest v (List.mem_cons_self _ _)
      have hstdk := Standard_of_shape seg.shape hstd
      have seg2 := Heap.StdSegment.std_Activate dt L k v (hstdk v) hs (Or.inl hvL)
      refine ⟨seg.std_trans seg2 (fun _ x => x) (fun _ x => x),
        fun x hx => hrest x (List.mem_cons_of_mem _ hx), hAB, ?_, hRS, hS, ?_⟩
      · intro x hx
        rcases hB x hx with y | y
        · exact Or.inl y
        · exact Or.inr (seg2.keep x y)
      · intro u hu
        rcases hL u hu with y | y | y
        · rcases List.mem_cons.mp y with e | e
          · exact Or.inr (Or.inr (e ▸ Activate_ne_standby k v dt (hstdk v)))
          · exact Or.inl e
        · exact Or.inr (Or.inl y)
        · exact Or.inr (Or.inr (seg2.keep u y)))
    (fun v rest k B S hp _ _ => by
      obtain ⟨seg, hrest, hAB, hB, hRS, hS, hL⟩ := hp
      have hvL := hrest v (List.mem_cons_self _ _)
      obtain ⟨seg2, hmono, hnew⟩ := activateChildren_std dt (k.Node v).ChildNodes k B
        (Standard_of_shape seg.shape hstd)
      refine ⟨seg.std_trans seg2 (fun _ x => x) (fun _ x => absurd x (List.not_mem_nil _)),
        fun x hx => hrest x (List.mem_cons_of_mem _ hx), fun x hx => hmono x (hAB x hx), ?_,
        fun x hx => (TSet.mem_Add S v x).mpr (Or.inl (hRS x hx)), ?_, ?_⟩
      · intro x hx
        rcases hnew x hx with y | y
        · rcases hB x y with z | z
          · exact Or.inl z
          · exact Or.inr (seg2.keep x z)
        · exact Or.inr y
      · intro x hx
        rcases (TSet.mem_Add S v x).mp hx with y | y
        · exact hS x y
        · exact Or.inr (y ▸ hvL)
      · intro u hu
        rcases hL u hu with y | y | y
        · rcases List.mem_cons.mp y with e | e
          · exact Or.inr (Or.inl ((TSet.mem_Add S v u).mpr (Or.inr e)))
          · exact Or.inl e
        · exact Or.inr (Or.inl ((TSet.mem_Add S v u).mpr (Or.inl y)))
        · exact Or.inr (Or.inr (seg2.keep u y)))
    (fun v rest k B S hp _ _ _ _ => by
      obtain ⟨seg, hrest, hAB, hB, hRS, hS, hL⟩ := hp
      have hvL := hrest v (List.mem_cons_self _ _)
      refine ⟨seg, fun x hx => hrest x (List.mem_cons_of_mem _ hx), hAB, hB,
        fun x hx => (TSet.mem_Add S v x).mpr (Or.inl (hRS x hx)), ?_, ?_⟩
      · intro x hx
        rcases (TSet.mem_Add S v x).mp hx with y | y
        · exact hS x y
        · exact Or.inr (y ▸ hvL)
      · intro u hu
        rcases hL u hu with y | y | y
        · rcases List.mem_cons.mp y with e | e
          · exact Or.inr (Or.inl ((TSet.mem_Add S v u).mpr (Or.inr e)))
          · exact Or.inl e
        · exact Or.inr (Or.inl ((TSet.mem_Add S v u).mpr (Or.inl y)))
        · exact Or.inr (Or.inr y))
    L h A R ⟨Heap.StdSegment.std_refl dt L h, fun _ hx => hx, fun _ hx => hx,
      fun _ hx => Or.inl hx, fun _ hx => hx, fun _ hx => Or.inl hx, fun _ hx => Or.inl hx⟩
  cases hres : UAutomationGraphExecutor.Execute.pass dt L h A R with
  | Completed h1 A1 R1 =>
    rw [hres] at hrule
    obtain ⟨seg, _, hAB, hB, hRS, hS, hL⟩ := hrule
    refine ⟨seg, hAB, hB, hRS, hS, ?_⟩
    intro v hv
    rcases hL v hv with y | y | y
    · simp at y
    · exact Or.inl y
    · exact Or.inr y
  | InvalidNode h1 =>
    rw [hres] at hrule
    obtain ⟨_, _, _, _, hp, _⟩ := hrule
    exact hp.1

theorem Execute_shape {n : Nat} (h : Heap n) (ex : UAutomationGraphExecutor n) (dt : Rat) :
    h.SameShape (UAutomationGraphExecutor.Execute h ex dt).1.1 := by
  unfold UAutomationGraphExecutor.Execute
  by_cases he : ex.ActiveNodes.isEmpty = true
  · rw [if_pos he]; exact Heap.SameShape.refl h
  · rw [if_neg he]
    simp only
    by_cases ht : ex.ExecutionTimer - dt > 0
    · rw [if_pos ht]; exact Heap.SameShape.refl h
    · rw [if_neg ht]
      have hshA : ∀ (cs : List (Fin n)) (k : Heap n) (B : List (Fin n)),
          k.SameShape (UAutomationGraphExecutor.Execute.activateChildren dt cs k B).1 := by
        intro cs k B
        exact activateChildren_rule dt (fun _ k1 _ => k.SameShape k1)
          (fun c cs h1 A1 hq _ => hq.trans (Heap.SameShape.Activate h1 c dt))
          (fun c cs h1 A1 hq _ => hq) cs k B (Heap.SameShape.refl k)
      have hrule := pass_rule dt (fun _ k _ _ => h.SameShape k)
        (fun v rest k A1 R1 hp _ _ => hp.trans (Heap.SameShape.Activate k v dt))
        (fun v rest k A1 R1 hp _ _ => hp.trans (hshA _ k A1))
        (fun v rest k A1 R1 hp _ _ _ _ => hp)
        ex.ActiveNodes h [] [] (Heap.SameShape.refl h)
      cases hres : UAutomationGraphExecutor.Execute.pass dt ex.ActiveNodes h [] [] with
      | InvalidNode h1 =>
        rw [hres] at hrule
        obtain ⟨_, _, _, _, hp, _⟩ := hrule
        exact hp.trans (Reset_shape h1 _)
      | Completed h1 A1 R1 =>
        rw [hres] at hrule
        exact hrule.trans (removeNodes_spec R1 h1 _).2.1

theorem Cancel_executor_shape {n : Nat} (h : Heap n) (ex : UAutomationGraphExecutor n)
    (G : Option Nat) : h.SameShape (UAutomationGraphExecutor.Cancel h ex G).1 := by
  unfold UAutomationGraphExecutor.Cancel
  split
  · split
    · rename_i g _ _
      obtain ⟨L, hL, _⟩ := CancelNodes_eq g h
      simp only
      rw [hL]
      exact Heap.SameShape.foldl Heap.Cancel Heap.SameShape.Cancel L h
    · exact Heap.SameShape.refl h
  · exact Heap.SameShape.refl h

theorem StartExecution_skip_or {n : Nat} (h : Heap n) (ex : UAutomationGraphExecutor n)
    (task : FGraphExecutionTask) :
    UAutomationGraphExecutor.StartExecution h ex task = ((h, ex), .Skipped) ∨
    ∃ g World, h.GetGraph task.TargetGraph = some g ∧ task.TargetWorld = some World ∧
      task.Trigger ≠ .Unknown := by
  unfold UAutomationGraphExecutor.StartExecution
  cases hg : h.GetGraph task.TargetGraph with
  | none => left; rfl
  | some g =>
    cases hw : task.TargetWorld with
    | none => left; rfl
    | some World =>
      by_cases ht : task.Trigger = .Unknown
      · left; simp [ht]
      · right; exact ⟨g, World, rfl, rfl, ht⟩

theorem StartExecution_shape {n : Nat} (h : Heap n) (ex : UAutomationGraphExecutor n)
    (task : FGraphExecutionTask) :
    h.SameShape (UAutomationGraphExecutor.StartExecution h ex task).1.1 := by
  rcases StartExecution_skip_or h ex task with hs | ⟨g, World, hg, hw, ht⟩
  · rw [hs]; exact Heap.SameShape.refl h
  · obtain ⟨L, h1, ex2, hh1, _, _, _, hcase⟩ := StartExecution_cases h ex task g World hg hw ht
    have h12 : h.SameShape
        (L.foldl (fun k v => (UAutomationGraphExecutor.InitializeNode k v World).1) h1) := by
      rw [hh1]
      exact (Reset_shape h ex).trans
        (Heap.SameShape.foldl _ (fun k v => Heap.SameShape.Initialize k v World) L _)
    rcases hcase with ⟨hres, _⟩ | ⟨hres, _⟩
    · rw [hres]; exact h12
    · rw [hres]; exact h12.trans (Reset_shape _ _)

/-! ## The run invariant -/

theorem Execute_eq_of_pass {n : Nat} (h : Heap n) (ex : UAutomationGraphExecutor n) (dt : Rat)
    (hne : ex.ActiveNodes ≠ []) (ht : ex.ExecutionTimer - dt ≤ 0) (h1 : Heap n)
    (A1 R1 : List (Fin n))
    (hres : UAutomationGraphExecutor.Execute.pass dt ex.ActiveNodes h [] [] =
      .Completed h1 A1 R1) :
    (UAutomationGraphExecutor.Execute h ex dt).1.1 =
      (UAutomationGraphExecutor.Execute.removeNodes R1 h1
        (TSet.Append ex.ActiveNodes A1)).1 ∧
    (UAutomationGraphExecutor.Execute h ex dt).1.2.ActiveNodes =
      (UAutomationGraphExecutor.Execute.removeNodes R1 h1
        (TSet.Append ex.ActiveNodes A1)).2 := by
  unfold UAutomationGraphExecutor.Execute
  have he : ¬ (ex.ActiveNodes.isEmpty = true) := fun hx => hne (List.isEmpty_iff.mp hx)
  rw [if_neg he]
  simp only
  rw [if_neg (not_lt.mpr ht), hres]
  exact ⟨rfl, rfl⟩

theorem Execute_RunInv {n : Nat} (h : Heap n) (ex : UAutomationGraphExecutor n) (dt : Rat)
    (hstd : ∀ v, (h.Node v).Class.Standard)
    (hinv : UAutomationGraphExecutor.RunInv h ex) :
    UAutomationGraphExecutor.RunInv (UAutomationGraphExecutor.Execute h ex dt).1.1
      (UAutomationGraphExecutor.Execute h ex dt).1.2 := by
  by_cases he : ex.ActiveNodes = []
  · rw [Execute_of_not_active h ex dt he]
    exact hinv
  · by_cases ht : ex.ExecutionTimer - dt > 0
    · have : UAutomationGraphExecutor.Execute h ex dt =
          ((h, { ex with ExecutionTimer := ex.ExecutionTimer - dt }), true) := by
        unfold UAutomationGraphExecutor.Execute
        have he2 : ¬ (ex.ActiveNodes.isEmpty = true) := fun hx => he (List.isEmpty_iff.mp hx)
        rw [if_neg he2]
        simp only
        rw [if_pos ht]
      rw [this]
      exact hinv
    · have hpass := pass_std dt ex.ActiveNodes h [] [] hstd
      cases hres : UAutomationGraphExecutor.Execute.pass dt ex.ActiveNodes h [] [] with
      | InvalidNode h1 =>
        have : (UAutomationGraphExecutor.Execute h ex dt).1.2.ActiveNodes = [] := by
          unfold UAutomationGraphExecutor.Execute
          have he2 : ¬ (ex.ActiveNodes.isEmpty = true) := fun hx => he (List.isEmpty_iff.mp hx)
          rw [if_neg he2]
          simp only
          rw [if_neg ht, hres]
          simp only
          rw [(Reset_spec h1 _).1]
        unfold UAutomationGraphExecutor.RunInv
        rw [this]
        exact ⟨List.nodup_nil, Or.inl (by simp)⟩
      | Completed h1 A1 R1 =>
        rw [hres] at hpass
        obtain ⟨seg, _, hA, _, _, hL⟩ := hpass
        obtain ⟨e1, e2⟩ := Execute_eq_of_pass h ex dt he (not_lt.mp ht) h1 A1 R1 hres
        obtain ⟨r1, _, _, r4, r5⟩ := removeNodes_spec R1 h1 (TSet.Append ex.ActiveNodes A1)
        unfold UAutomationGraphExecutor.RunInv
        rw [e1, e2]
        refine ⟨r5 (TSet.nodup_Append A1 _ hinv.1), Or.inr ?_⟩
        intro v hv
        obtain ⟨hv1, hv2⟩ := (r4 v).mp hv
        unfold Heap.GetState
        rw [r1]
        rcases (TSet.mem_Append A1 ex.ActiveNodes v).mp hv1 with x | x
        · rcases hL v x with y | y
          · exact absurd y hv2
          · exact y
        · rcases hA v x with y | y
          · simp at y
          · exact y

/-- Every state that the member functions of the executor produce, starting
from a newly constructed executor, satisfies the run invariant (for node classes
of the standard activation pattern). -/
theorem Reachable_RunInv {n : Nat} {h : Heap n} {ex : UAutomationGraphExecutor n}
    (hr : UAutomationGraphExecutor.Reachable h ex) :
    (∀ v, (h.Node v).Class.Standard) → UAutomationGraphExecutor.RunInv h ex := by
  induction hr with
  | fresh h rate =>
    intro _
    exact ⟨List.nodup_nil, Or.inl (by simp)⟩
  | @start h ex task _ ih =>
    intro hstd
    have hstd0 := Standard_of_shape (StartExecution_shape h ex task).symm hstd
    have hinv := ih hstd0
    rcases StartExecution_skip_or h ex task with hs | ⟨g, World, hg, hw, ht⟩
    · rw [hs]; exact hinv
    · obtain ⟨L, h1, ex2, hh1, hex2, _, _, hcase⟩ :=
        StartExecution_cases h ex task g World hg hw ht
      rcases hcase with ⟨hres, hall⟩ | ⟨hres, _⟩
      · rw [hres]
        refine ⟨?_, Or.inl ?_⟩
        · rw [hex2]
          exact TSet.nodup_Append _ [] List.nodup_nil
        · intro v hv
          have hv2 : v ∈ g.TriggeredRoots h task.Trigger := by
            rw [hex2] at hv
            simpa [TSet.mem_Append] using hv
          have hvL := (hall v ⟨v, hv2, Relation.ReflTransGen.refl⟩).1
          obtain ⟨m, hm⟩ := foldl_Initialize_members World v L h1 hvL
          unfold Heap.GetState
          simp only
          rw [hm]
          have hc : (h1.Node v).Class = (h.Node v).Class := by
            rw [hh1]; exact (Reset_shape h ex).cls v
          rw [hc]
          exact (hstd0 v).initialize_ne_finished m World
      · rw [hres]
        unfold UAutomationGraphExecutor.RunInv
        rw [(Reset_spec _ ex2).1]
        exact ⟨List.nodup_nil, Or.inl (by simp)⟩
  | @execute h ex dt _ ih =>
    intro hstd
    have hstd0 := Standard_of_shape (Execute_shape h ex dt).symm hstd
    exact Execute_RunInv h ex dt hstd0 (ih hstd0)
  | @cancel h ex G _ ih =>
    intro hstd
    have hstd0 := Standard_of_shape (Cancel_executor_shape h ex G).symm hstd
    have hinv := ih hstd0
    unfold UAutomationGraphExecutor.Cancel
    split
    · split
      · exact ⟨List.nodup_nil, Or.inl (by simp)⟩
      · exact hinv
    · exact hinv

/-! ## Splitting a scheduling pass -/

theorem pass_append {n : Nat} (dt : Rat) (rest : List (Fin n)) :
    ∀ (pre : List (Fin n)) (h : Heap n) (A R : List (Fin n)) (hm : Heap n)
      (Am Rm : List (Fin n)),
      UAutomationGraphExecutor.Execute.pass dt pre h A R = .Completed hm Am Rm →
      UAutomationGraphExecutor.Execute.pass dt (pre ++ rest) h A R =
        UAutomationGraphExecutor.Execute.pass dt rest hm Am Rm := by
  intro pre
  induction pre with
  | nil =>
    intro h A R hm Am Rm hres
    simp only [UAutomationGraphExecutor.Execute.pass] at hres
    injection hres with e1 e2 e3
    subst e1 e2 e3
    rfl
  | cons v pre ih =>
    intro h A R hm Am Rm hres
    rw [List.cons_append]
    rw [UAutomationGraphExecutor.Execute.pass] at hres ⊢
    by_cases hval : h.Valid v = false
    · rw [if_pos hval] at hres
      exact absurd hres (by simp)
    · rw [if_neg hval] at hres ⊢
      cases hs : h.GetState v <;> rw [hs] at hres <;> simp only at hres ⊢ <;>
        exact ih _ _ _ _ _ _ hres

theorem activateChildren_append {n : Nat} (dt : Rat) (cs : List (Fin n)) :
    ∀ (cpre : List (Fin n)) (h : Heap n) (A : List (Fin n)),
      UAutomationGraphExecutor.Execute.activateChildren dt (cpre ++ cs) h A =
        UAutomationGraphExecutor.Execute.activateChildren dt cs
          (UAutomationGraphExecutor.Execute.activateChildren dt cpre h A).1
          (UAutomationGraphExecutor.Execute.activateChildren dt cpre h A).2 := by
  intro cpre
  induction cpre with
  | nil => intro h A; rfl
  | cons c cpre ih =>
    intro h A
    rw [List.cons_append]
    rw [UAutomationGraphExecutor.Execute.activateChildren]
    conv_rhs => rw [UAutomationGraphExecutor.Execute.activateChildren]
    by_cases hc : h.CanStartActivation c = true
    · simp only [if_pos hc]
      exact ih _ _
    · simp only [if_neg hc]
      exact ih _ _

/-- The child loop touches only nodes that were in `Standby` when it began. -/
theorem activateChildren_untouched {n : Nat} (dt : Rat) (cs : List (Fin n)) (h : Heap n)
    (A : List (Fin n)) :
    ∀ u, h.GetState u ≠ .Standby →
      (UAutomationGraphExecutor.Execute.activateChildren dt cs h A).1.Node u = h.Node u :=
  activateChildren_rule dt (fun _ k _ => ∀ u, h.GetState u ≠ .Standby → k.Node u = h.Node u)
    (fun c cs k B hq hc u hu => by
      have hs := (CanStartActivation_standby k c hc).1
      have hk := hq u hu
      have huc : u ≠ c := by
        intro e
        subst e
        apply hu
        unfold Heap.GetState at hs ⊢
        rw [← hk]
        exact hs
      rw [Activate_node_ne k c u dt huc, hk])
    (fun c cs k B hq _ => hq) cs h A (fun _ _ => rfl)

/-- A pass that begins with no tracked node `Finished` touches only the tracked
nodes, buffers nothing for addition, and buffers for removal only tracked nodes
that were neither `Standby` nor `Active`. -/
theorem pass_none_finished {n : Nat} (dt : Rat) (L : List (Fin n)) (h : Heap n)
    (A R : List (Fin n)) (hL : ∀ v ∈ L, h.GetState v ≠ .Finished) (hnd : L.Nodup)
    (h1 : Heap n) (A1 R1 : List (Fin n))
    (hres : UAutomationGraphExecutor.Execute.pass dt L h A R = .Completed h1 A1 R1) :
    (∀ u, u ∉ L → h1.Node u = h.Node u) ∧ A1 = A ∧
    (∀ x ∈ R1, x ∈ R ∨ (h.GetState x ≠ .Standby ∧ h.GetState x ≠ .Active)) := by
  have hrule := pass_rule dt
    (fun rest k B S => rest.Nodup ∧ (∀ x ∈ rest, x ∈ L) ∧
      (∀ u, u ∈ rest ∨ u ∉ L → k.Node u = h.Node u) ∧ B = A ∧
      (∀ x ∈ S, x ∈ R ∨ (h.GetState x ≠ .Standby ∧ h.GetState x ≠ .Active)))
    (fun v rest k B S hp _ _ => by
      obtain ⟨p1, p2, p3, p4, p5⟩ := hp
      have hv := List.nodup_cons.mp p1
      refine ⟨hv.2, fun x hx => p2 x (List.mem_cons_of_mem _ hx), ?_, p4, p5⟩
      intro u hu
      have huv : u ≠ v := by
        rcases hu with x | x
        · exact fun e => hv.1 (e ▸ x)
        · exact fun e => x (e ▸ p2 v (List.mem_cons_self _ _))
      rw [Activate_node_ne k v u dt huv]
      apply p3
      rcases hu with x | x
      · exact Or.inl (List.mem_cons_of_mem _ x)
      · exact Or.inr x)
    (fun v rest k B S hp _ hs => by
      obtain ⟨_, p2, p3, _, _⟩ := hp
      exfalso
      apply hL v (p2 v (List.mem_cons_self _ _))
      unfold Heap.GetState at hs ⊢
      rw [← p3 v (Or.inl (List.mem_cons_self _ _))]
      exact hs)
    (fun v rest k B S hp _ s1 s2 _ => by
      obtain ⟨p1, p2, p3, p4, p5⟩ := hp
      have hv := List.nodup_cons.mp p1
      refine ⟨hv.2, fun x hx => p2 x (List.mem_cons_of_mem _ hx), ?_, p4, ?_⟩
      · intro u hu
        apply p3
        rcases hu with x | x
        · exact Or.inl (List.mem_cons_of_mem _ x)
        · exact Or.inr x
      · intro x hx
        rcases (TSet.mem_Add S v x).mp hx with y | y
        · exact p5 x y
        · right
          subst y
          have e := p3 x (Or.inl (List.mem_cons_self _ _))
          unfold Heap.GetState at s1 s2 ⊢
          rw [e] at s1 s2
          exact ⟨s1, s2⟩)
    L h A R ⟨hnd, fun _ hx => hx, fun _ _ => rfl, rfl, fun _ hx => Or.inl hx⟩
  rw [hres] at hrule
  obtain ⟨_, _, p3, p4, p5⟩ := hrule
  exact ⟨fun u hu => p3 u (Or.inr hu), p4, p5⟩

theorem count_isActivateOn_cleanup {n : Nat} (c : Fin n) (ev : List (Call n))
    (hev : ∀ e ∈ ev, ∃ u, e = Call.Cleanup u) : ev.countP (Call.isActivateOn c) = 0 := by
  apply count_isActivateOn_of_trace
  intro e he u s pf d hu
  obtain ⟨w, hw⟩ := hev e he
  rw [hu] at hw
  exact absurd hw (by simp)

/-- C7, amended: in a scheduling pass of a run whose node classes follow the
standard activation pattern (the node-specific step of `Activate` never leaves
a node in `Standby`, `Initialize` never leaves it `Finished`), with every
tracked reference live: when the tracked node `F` is observed `Finished` and
its child `c` satisfies `CanStartActivation` when the child loop reaches it,
that pass makes exactly one `Activate` call on `c`, with the delta of the pass,
`c` is in `ActiveNodes` when `Execute` returns and `F` is not. -/
theorem Execute_finished_node_activates_children {n : Nat} (h : Heap n)
    (ex : UAutomationGraphExecutor n) (dt : Rat)
    (hr : UAutomationGraphExecutor.Reachable h ex) (hstd : ∀ v, (h.Node v).Class.Standard)
    (hvalid : ∀ v ∈ ex.ActiveNodes, h.Valid v = true) (htimer : ex.ExecutionTimer - dt ≤ 0)
    (pre post : List (Fin n)) (F : Fin n) (hsplit : ex.ActiveNodes = pre ++ F :: post)
    (hm : Heap n) (Am Rm : List (Fin n))
    (hpre : UAutomationGraphExecutor.Execute.pass dt pre h [] [] = .Completed hm Am Rm)
    (hF : hm.GetState F = .Finished)
    (cpre cpost : List (Fin n)) (c : Fin n) (hch : (h.Node F).ChildNodes = cpre ++ c :: cpost)
    (hc : (UAutomationGraphExecutor.Execute.activateChildren dt cpre hm
      Am).1.CanStartActivation c = true) :
    ((UAutomationGraphExecutor.Execute h ex dt).1.1.CallsSince h).countP
      (Call.isActivateOn c) = 1 ∧
    Call.Activate c dt .Standby true ∈ (UAutomationGraphExecutor.Execute h ex dt).1.1.CallsSince h ∧
    c ∈ (UAutomationGraphExecutor.Execute h ex dt).1.2.ActiveNodes ∧
    F ∉ (UAutomationGraphExecutor.Execute h ex dt).1.2.ActiveNodes := by
  obtain ⟨hnd, hphase⟩ := Reachable_RunInv hr hstd
  have hFact : F ∈ ex.ActiveNodes := by rw [hsplit]; simp
  have hne : ex.ActiveNodes ≠ [] := by rw [hsplit]; simp
  rw [hsplit] at hnd
  have hnd_pre : pre.Nodup := (List.nodup_append.mp hnd).1
  have hnd_post : post.Nodup := (List.nodup_cons.mp (List.nodup_append.mp hnd).2.1).2
  have hFpre : F ∉ pre := fun hx =>
    (List.nodup_append.mp hnd).2.2 hx (List.mem_cons_self _ _)
  have hpre_sub : ∀ x ∈ pre, x ∈ ex.ActiveNodes := by
    intro x hx; rw [hsplit]; exact List.mem_append_left _ hx
  have hpost_sub : ∀ x ∈ post, x ∈ ex.ActiveNodes := by
    intro x hx; rw [hsplit]; exact List.mem_append_right _ (List.mem_cons_of_mem _ hx)
  -- no tracked node is in `Standby` when the pass begins
  have hph : ∀ v ∈ ex.ActiveNodes, h.GetState v ≠ .Standby := by
    rcases hphase with p1 | p2
    · exfalso
      have hnode := (pass_none_finished dt pre h [] [] (fun v hv => p1 v (hpre_sub v hv))
        hnd_pre hm Am Rm hpre).1 F hFpre
      apply p1 F hFact
      unfold Heap.GetState at hF ⊢
      rw [← hnode]
      exact hF
    · exact p2
  -- the stretch before `F` is observed
  have hp := pass_std dt pre h [] [] hstd
  rw [hpre] at hp
  obtain ⟨seg_pre, _, _, _, hRm, _⟩ := hp
  have hstd_m := Standard_of_shape seg_pre.shape hstd
  obtain ⟨seg_cpre, hAm, _⟩ := activateChildren_std dt cpre hm Am hstd_m
  generalize hr0 : UAutomationGraphExecutor.Execute.activateChildren dt cpre hm Am = r0
    at hc seg_cpre hAm
  obtain ⟨hc0, Ac⟩ := r0
  simp only at hc seg_cpre hAm
  obtain ⟨hcs, hcpf⟩ := CanStartActivation_standby hc0 c hc
  have seg0 : h.StdSegment dt pre hc0 :=
    seg_pre.std_trans seg_cpre (fun _ x => x) (fun _ x => absurd x (List.not_mem_nil _))
  have hstd_0 := Standard_of_shape seg0.shape hstd
  have hc_h : h.GetState c = .Standby := by
    by_contra hx
    exact seg0.keep c hx hcs
  have hcact : c ∉ ex.ActiveNodes := fun hx => hph c hx hc_h
  -- the `Activate` call on `c`
  have seg_c := Heap.StdSegment.std_Activate dt [] hc0 c (hstd_0 c) (Or.inl hcs) (Or.inr hcs)
  have hc1 : (hc0.Activate c dt).1.GetState c ≠ .Standby := Activate_ne_standby hc0 c dt (hstd_0 c)
  have hstd_1 := Standard_of_shape seg_c.shape hstd_0
  -- the rest of the child loop
  obtain ⟨seg_cpost, hA1, _⟩ := activateChildren_std dt cpost (hc0.Activate c dt).1
    (TSet.Add Ac c) hstd_1
  have hloop : UAutomationGraphExecutor.Execute.activateChildren dt (hm.Node F).ChildNodes hm Am =
      UAutomationGraphExecutor.Execute.activateChildren dt cpost (hc0.Activate c dt).1
        (TSet.Add Ac c) := by
    rw [seg_pre.shape.child F, hch, activateChildren_append, hr0]
    simp only
    rw [UAutomationGraphExecutor.Execute.activateChildren, if_pos hc]
  generalize hr2 : UAutomationGraphExecutor.Execute.activateChildren dt cpost
    (hc0.Activate c dt).1 (TSet.Add Ac c) = r2 at hloop seg_cpost hA1
  obtain ⟨k2, A2⟩ := r2
  simp only at seg_cpost hA1
  have hstd_2 := Standard_of_shape seg_cpost.shape hstd_1
  -- the stretch after `F`
  have hvalid2 : ∀ v ∈ post, k2.Valid v = true := by
    intro v hv
    rw [seg_cpost.shape.valid, seg_c.shape.valid, seg0.shape.valid]
    exact hvalid v (hpost_sub v hv)
  obtain ⟨k3, A3, R3, hres3⟩ := pass_completed_of_valid dt post k2 A2 (TSet.Add Rm F) hvalid2
  have hp3 := pass_std dt post k2 A2 (TSet.Add Rm F) hstd_2
  rw [hres3] at hp3
  obtain ⟨seg_post, hA2, _, hR2, hR3, _⟩ := hp3
  -- the whole pass
  have hpass : UAutomationGraphExecutor.Execute.pass dt ex.ActiveNodes h [] [] =
      .Completed k3 A3 R3 := by
    rw [hsplit, pass_append dt (F :: post) pre h [] [] hm Am Rm hpre,
      UAutomationGraphExecutor.Execute.pass]
    have hvF : hm.Valid F = true := by rw [seg_pre.shape.valid]; exact hvalid F hFact
    rw [if_neg (by simp [hvF])]
    simp only [hF]
    rw [hloop]
    exact hres3
  obtain ⟨e1, e2⟩ := Execute_eq_of_pass h ex dt hne htimer k3 A3 R3 hpass
  obtain ⟨_, _, ⟨ev4, t4, g4⟩, r4, _⟩ :=
    removeNodes_spec R3 k3 (TSet.Append ex.ActiveNodes A3)
  -- the trace
  obtain ⟨ev0, t0, _⟩ := seg0.trace
  have c0 : ev0.countP (Call.isActivateOn c) = 0 := by
    have := seg0.count_of_standby c hcs
    rwa [CallsSince_of_trace t0] at this
  have seg3 : (hc0.Activate c dt).1.StdSegment dt post k3 :=
    seg_cpost.std_trans seg_post (fun _ x => absurd x (List.not_mem_nil _)) (fun _ x => x)
  obtain ⟨ev3, t3, _⟩ := seg3.trace
  have c3 : ev3.countP (Call.isActivateOn c) = 0 := by
    have := seg3.count_of_not_standby c (fun hx => hcact (hpost_sub c hx)) hc1
    rwa [CallsSince_of_trace t3] at this
  have c4 : ev4.countP (Call.isActivateOn c) = 0 := count_isActivateOn_cleanup c ev4 g4
  have ttotal : (UAutomationGraphExecutor.Execute h ex dt).1.1.Trace =
      h.Trace ++ (ev0 ++ [Call.Activate c dt .Standby true] ++ ev3 ++ ev4) := by
    rw [e1, t4, t3, Activate_trace, t0, hcs, hcpf]
    simp only [List.append_assoc]
  rw [CallsSince_of_trace ttotal, e2]
  refine ⟨?_, ?_, ?_, ?_⟩
  · rw [List.countP_append, List.countP_append, List.countP_append, c0, c3, c4]
    simp [Call.isActivateOn]
  · simp
  · rw [r4]
    refine ⟨(TSet.mem_Append A3 _ c).mpr (Or.inr (hA2 c (hA1 c ?_))), ?_⟩
    · exact (TSet.mem_Add Ac c c).mpr (Or.inr rfl)
    · intro hx
      rcases hR3 c hx with y | y
      · rcases (TSet.mem_Add Rm F c).mp y with z | z
        · rcases hRm c z with w | w
          · simp at w
          · exact hcact (hpre_sub c w)
        · exact hcact (z ▸ hFact)
      · exact hcact (hpost_sub c y)
  · rw [r4]
    exact fun hx => hx.2 (hR2 F ((TSet.mem_Add Rm F F).mpr (Or.inr rfl)))

/-! ## The pass after a node has finished -/

theorem CanStartActivation_of {n : Nat} (h : Heap n) (c : Fin n) (hs : h.GetState c = .Standby)
    (hpf : h.ParentsFinished c = true) : h.CanStartActivation c = true := by
  unfold Heap.CanStartActivation
  unfold Heap.ParentsFinished at hpf
  simp only [hs, ne_eq, not_true_eq_false, if_false]
  by_cases he : (h.Node c).ParentNodes.isEmpty = true
  · rw [if_pos he]
  · rw [if_neg he]; exact hpf

theorem CanStartActivation_mono {n : Nat} {h k : Heap n} (a : h.SameShape k) (b : h.Frozen k)
    (c : Fin n) (hnode : k.GetState c = h.GetState c) (hc : h.CanStartActivation c = true) :
    k.CanStartActivation c = true := by
  obtain ⟨hs, hpf⟩ := CanStartActivation_standby h c hc
  exact CanStartActivation_of k c (hnode ▸ hs) (ParentsFinished_mono a b c hpf)

theorem pass_cons_active {n : Nat} (dt : Rat) (v : Fin n) (rest : List (Fin n)) (h : Heap n)
    (A R : List (Fin n)) (hval : h.Valid v = true)
    (hs : h.GetState v = .Standby ∨ h.GetState v = .Active) :
    UAutomationGraphExecutor.Execute.pass dt (v :: rest) h A R =
      UAutomationGraphExecutor.Execute.pass dt rest (h.Activate v dt).1 A R := by
  rw [UAutomationGraphExecutor.Execute.pass, if_neg (by simp [hval])]
  have hca : UAutomationGraphNode.CanActivate (h.Node v).toNodeMembers = true := by
    unfold Heap.GetState at hs
    rcases hs with x | x <;> simp [UAutomationGraphNode.CanActivate, x]
  rcases hs with x | x <;> simp only [x, if_pos hca]

theorem pass_cons_finished {n : Nat} (dt : Rat) (v : Fin n) (rest : List (Fin n)) (h : Heap n)
    (A R : List (Fin n)) (hval : h.Valid v = true) (hs : h.GetState v = .Finished) :
    UAutomationGraphExecutor.Execute.pass dt (v :: rest) h A R =
      UAutomationGraphExecutor.Execute.pass dt rest
        (UAutomationGraphExecutor.Execute.activateChildren dt (h.Node v).ChildNodes h A).1
        (UAutomationGraphExecutor.Execute.activateChildren dt (h.Node v).ChildNodes h A).2
        (TSet.Add R v) := by
  rw [UAutomationGraphExecutor.Execute.pass, if_neg (by simp [hval])]
  simp only [hs]

theorem pass_cons_other {n : Nat} (dt : Rat) (v : Fin n) (rest : List (Fin n)) (h : Heap n)
    (A R : List (Fin n)) (hval : h.Valid v = true) (h1 : h.GetState v ≠ .Standby)
    (h2 : h.GetState v ≠ .Active) (h3 : h.GetState v ≠ .Finished) :
    UAutomationGraphExecutor.Execute.pass dt (v :: rest) h A R =
      UAutomationGraphExecutor.Execute.pass dt rest h A (TSet.Add R v) := by
  rw [UAutomationGraphExecutor.Execute.pass, if_neg (by simp [hval])]
  cases hs : h.GetState v <;> simp_all

theorem StaticClass_Standard : UAutomationGraphNode.StaticClass.Standard := by
  refine ⟨?_, ?_⟩
  · intro m dt
    show (UAutomationGraphNode.ActivateInternal m dt).1.NodeState ≠ .Standby
    unfold UAutomationGraphNode.ActivateInternal
    by_cases h1 : m.NodeState = .Standby
    · simp [h1, UAutomationGraphNode.SetState]
    · by_cases h2 : m.NodeState = .Active
      · simp [h2, UAutomationGraphNode.SetState]
      · simp [h1, h2]
  · intro m w
    show (UAutomationGraphNode.Initialize m w).1.NodeState ≠ .Finished
    unfold UAutomationGraphNode.Initialize
    by_cases h1 : m.NodeState = .Active
    · simp [h1]
    · simp [h1, UAutomationGraphNode.SetState]

theorem exChainAfter_reachable (k : Nat) :
    UAutomationGraphExecutor.Reachable (exChainAfter k).1 (exChainAfter k).2 := by
  have key : ∀ (k : Nat) (s : Heap 2 × UAutomationGraphExecutor 2),
      UAutomationGraphExecutor.Reachable s.1 s.2 →
      UAutomationGraphExecutor.Reachable
        (UAutomationGraphExecutor.ExecuteAll (List.replicate k 1) s).1
        (UAutomationGraphExecutor.ExecuteAll (List.replicate k 1) s).2 := by
    intro k
    induction k with
    | zero => intro s hs; exact hs
    | succ k ih =>
      intro s hs
      exact ih _ (UAutomationGraphExecutor.Reachable.execute 1 hs)
  exact key k _ (UAutomationGraphExecutor.Reachable.start exTask
    (UAutomationGraphExecutor.Reachable.fresh exChain 0))

theorem exChainAfter_standard (k : Nat) : ∀ v, (((exChainAfter k).1).Node v).Class.Standard := by
  have key : ∀ (k : Nat) (s : Heap 2 × UAutomationGraphExecutor 2),
      (∀ v, (s.1.Node v).Class.Standard) →
      ∀ v, ((UAutomationGraphExecutor.ExecuteAll (List.replicate k 1) s).1.Node v).Class.Standard := by
    intro k
    induction k with
    | zero => intro s hs; exact hs
    | succ k ih =>
      intro s hs
      exact ih _ (Standard_of_shape (Execute_shape s.1 s.2 1) hs)
  apply key k
  apply Standard_of_shape (StartExecution_shape exChain {} exTask)
  intro v
  have : (exChain.Node v).Class = UAutomationGraphNode.StaticClass := by
    fin_cases v <;> rfl
  rw [this]
  exact StaticClass_Standard

/-- C7, in the chain `A → B` when `A` has finished (after two `Execute` calls):
the third `Execute` call activates `B` once, tracks `B` and drops `A`. -/
theorem Execute_finished_node_activates_children_witness :
    ((UAutomationGraphExecutor.Execute (exChainAfter 2).1 (exChainAfter 2).2 1).1.1.CallsSince
      (exChainAfter 2).1).countP (Call.isActivateOn 1) = 1 ∧
    (1 : Fin 2) ∈ (UAutomationGraphExecutor.Execute (exChainAfter 2).1 (exChainAfter 2).2
      1).1.2.ActiveNodes ∧
    (0 : Fin 2) ∉ (UAutomationGraphExecutor.Execute (exChainAfter 2).1 (exChainAfter 2).2
      1).1.2.ActiveNodes :=
  have hw := Execute_finished_node_activates_children (exChainAfter 2).1 (exChainAfter 2).2 1
    (exChainAfter_reachable 2) (exChainAfter_standard 2) (by decide!) (by decide!)
    [] [] 0 (by decide!) (exChainAfter 2).1 [] [] rfl (by decide!) [] [] 1 (by decide!)
    (by decide!)
  ⟨hw.1, hw.2.2.1, hw.2.2.2⟩

/-! ## Task queue -/

theorem GetGraphPtr_eq_some {n : Nat} (h : Heap n) (p : Option Nat) (g : Nat)
    (hg : (h.Graph g).isSome = true) : h.GetGraphPtr p = some g ↔ p = some g := by
  cases p with
  | none => simp [Heap.GetGraphPtr]
  | some q =>
    by_cases hq : (h.Graph q).isSome = true
    · simp [Heap.GetGraphPtr, hq]
    · have hne : q ≠ g := fun e => hq (e ▸ hg)
      simp [Heap.GetGraphPtr, hq, hne]

theorem Enqueue_of_queued {n : Nat} (h : Heap n) (sub : UAutomationGraphSubsystem n) (g : Nat)
    (r : EAutomationGraphNodeTrigger) (hg : (h.Graph g).isSome = true)
    (hq : ∃ t ∈ sub.TaskQueue, t.TargetGraph = some g) :
    UAutomationGraphSubsystem.EnqueueAutomationGraph h sub (some g) r = sub := by
  obtain ⟨t, ht, htg⟩ := hq
  have hany : sub.TaskQueue.any
      (fun GraphTask => decide (h.GetGraphPtr GraphTask.TargetGraph = some g)) = true := by
    rw [List.any_eq_true]
    exact ⟨t, ht, by simpa using (GetGraphPtr_eq_some h _ g hg).mpr htg⟩
  simp only [UAutomationGraphSubsystem.EnqueueAutomationGraph, hany, if_true]

theorem Enqueue_of_not_queued {n : Nat} (h : Heap n) (sub : UAutomationGraphSubsystem n)
    (g : Nat) (r : EAutomationGraphNodeTrigger) (hg : (h.Graph g).isSome = true)
    (hq : ∀ t ∈ sub.TaskQueue, t.TargetGraph ≠ some g) :
    UAutomationGraphSubsystem.EnqueueAutomationGraph h sub (some g) r =
      { sub with TaskQueue := sub.TaskQueue ++
          [{ TargetGraph := some g, TargetWorld := none, Trigger := r }] } := by
  have hany : sub.TaskQueue.any
      (fun GraphTask => decide (h.GetGraphPtr GraphTask.TargetGraph = some g)) = false := by
    rw [List.any_eq_false]
    intro t ht
    simpa using fun e => hq t ht ((GetGraphPtr_eq_some h _ g hg).mp e)
  simp [UAutomationGraphSubsystem.EnqueueAutomationGraph, hany]

theorem PendingFor_pos_iff {n : Nat} (sub : UAutomationGraphSubsystem n) (g : Nat) :
    0 < sub.PendingFor g ↔ ∃ t ∈ sub.TaskQueue, t.TargetGraph = some g := by
  unfold UAutomationGraphSubsystem.PendingFor
  rw [List.countP_pos_iff]
  simp

theorem Enqueue_PendingFor {n : Nat} (h : Heap n) (sub : UAutomationGraphSubsystem n)
    (G : Option Nat) (r : EAutomationGraphNodeTrigger)
    (hG : ∀ g, G = some g → (h.Graph g).isSome = true) (g : Nat)
    (hle : sub.PendingFor g ≤ 1) :
    (UAutomationGraphSubsystem.EnqueueAutomationGraph h sub G r).PendingFor g ≤ 1 := by
  cases G with
  | none => exact hle
  | some g0 =>
    have hg0 := hG g0 rfl
    by_cases hq : ∃ t ∈ sub.TaskQueue, t.TargetGraph = some g0
    · rw [Enqueue_of_queued h sub g0 r hg0 hq]; exact hle
    · have hq2 : ∀ t ∈ sub.TaskQueue, t.TargetGraph ≠ some g0 :=
        fun t ht e => hq ⟨t, ht, e⟩
      rw [Enqueue_of_not_queued h sub g0 r hg0 hq2]
      by_cases e : g0 = g
      · subst e
        have h0 : sub.PendingFor g0 = 0 := by
          rcases Nat.eq_zero_or_pos (sub.PendingFor g0) with z | z
          · exact z
          · exact absurd ((PendingFor_pos_iff sub g0).mp z) hq
        unfold UAutomationGraphSubsystem.PendingFor at h0 ⊢
        simp [List.countP_append, h0]
      · unfold UAutomationGraphSubsystem.PendingFor at hle ⊢
        simp [List.countP_append, e]
        exact hle

theorem drain_spec {n : Nat} :
    ∀ (q : List FGraphExecutionTask) (h : Heap n) (sub : UAutomationGraphSubsystem n),
      (UAutomationGraphSubsystem.Tick.drain q h sub).2.TaskQueue = [] ∧
      h.SameShape (UAutomationGraphSubsystem.Tick.drain q h sub).1 := by
  intro q
  induction q with
  | nil => intro h sub; exact ⟨rfl, Heap.SameShape.refl h⟩
  | cons t rest ih =>
    intro h sub
    unfold UAutomationGraphSubsystem.Tick.drain
    by_cases hv : (h.GetGraph t.TargetGraph).isSome = true
    · simp only [hv, if_true]
      refine ⟨(ih _ _).1, ?_⟩
      refine Heap.SameShape.trans ?_ (ih _ _).2
      exact StartExecution_shape h _ _
    · simp only [hv]
      exact ih _ _

theorem Tick_queue {n : Nat} (h : Heap n) (sub : UAutomationGraphSubsystem n) (dt : Rat) :
    ((UAutomationGraphSubsystem.Tick h sub dt).2.TaskQueue = [] ∨
      (UAutomationGraphSubsystem.Tick h sub dt).2.TaskQueue = sub.TaskQueue) ∧
    h.SameShape (UAutomationGraphSubsystem.Tick h sub dt).1 := by
  unfold UAutomationGraphSubsystem.Tick
  split
  · rename_i executor _
    by_cases hr : (UAutomationGraphExecutor.Execute h executor dt).2 = true
    · simp only [hr, if_true]
      exact ⟨Or.inr trivial, Execute_shape h executor dt⟩
    · simp only [hr]
      exact ⟨Or.inl (drain_spec _ _ _).1,
        Heap.SameShape.trans (Execute_shape h executor dt) (drain_spec _ _ _).2⟩
  · exact ⟨Or.inl (drain_spec _ _ _).1, (drain_spec _ _ _).2⟩

theorem Reachable_PendingFor {n : Nat} {h : Heap n} {sub : UAutomationGraphSubsystem n}
    (hr : UAutomationGraphSubsystem.Reachable h sub) (g : Nat) : sub.PendingFor g ≤ 1 := by
  induction hr with
  | fresh h w c => simp [UAutomationGraphSubsystem.PendingFor]
  | enqueue G r _ hG ih => exact Enqueue_PendingFor _ _ G r hG g ih
  | tick dt _ ih =>
    rcases (Tick_queue _ _ dt).1 with e | e
    · unfold UAutomationGraphSubsystem.PendingFor
      rw [e]; simp
    · unfold UAutomationGraphSubsystem.PendingFor at ih ⊢
      rw [e]; exact ih
  | clear _ ih => simp [UAutomationGraphSubsystem.PendingFor, UAutomationGraphSubsystem.ClearTaskQueue]

/-- C11: `EnqueueAutomationGraph(G, r)` leaves the subsystem unchanged when `G`
is null or when a queued task targets the live graph `G` (whatever `r` is), and
appends the one task `(G, null, r)` at the tail when no queued task targets
`G`; then a second `EnqueueAutomationGraph(G, r2)` changes nothing, so exactly
one task for `G` is pending and it carries the first reason `r`. In every state
that enqueueing, ticking and clearing produce from a new subsystem, no graph has
two queued tasks. -/
theorem EnqueueAutomationGraph_appends_once {n : Nat} (h : Heap n)
    (sub : UAutomationGraphSubsystem n) (r r2 : EAutomationGraphNodeTrigger) :
    UAutomationGraphSubsystem.EnqueueAutomationGraph h sub none r = sub ∧
    (∀ g, (h.Graph g).isSome = true →
      ((∃ t ∈ sub.TaskQueue, t.TargetGraph = some g) →
        UAutomationGraphSubsystem.EnqueueAutomationGraph h sub (some g) r = sub) ∧
      ((∀ t ∈ sub.TaskQueue, t.TargetGraph ≠ some g) →
        UAutomationGraphSubsystem.EnqueueAutomationGraph h sub (some g) r =
          { sub with TaskQueue := sub.TaskQueue ++
              [{ TargetGraph := some g, TargetWorld := none, Trigger := r }] } ∧
        UAutomationGraphSubsystem.EnqueueAutomationGraph h
          (UAutomationGraphSubsystem.EnqueueAutomationGraph h sub (some g) r) (some g) r2 =
          UAutomationGraphSubsystem.EnqueueAutomationGraph h sub (some g) r ∧
        (UAutomationGraphSubsystem.EnqueueAutomationGraph h
          (UAutomationGraphSubsystem.EnqueueAutomationGraph h sub (some g) r)
          (some g) r2).PendingFor g = 1 ∧
        ∀ t ∈ (UAutomationGraphSubsystem.EnqueueAutomationGraph h
          (UAutomationGraphSubsystem.EnqueueAutomationGraph h sub (some g) r)
          (some g) r2).TaskQueue, t.TargetGraph = some g → t.Trigger = r)) ∧
    (UAutomationGraphSubsystem.Reachable h sub → ∀ g, sub.PendingFor g ≤ 1) := by
  refine ⟨rfl, ?_, fun hr g => Reachable_PendingFor hr g⟩
  intro g hg
  refine ⟨Enqueue_of_queued h sub g r hg, ?_⟩
  intro hq
  have e1 := Enqueue_of_not_queued h sub g r hg hq
  have hin : ∃ t ∈ (UAutomationGraphSubsystem.EnqueueAutomationGraph h sub (some g) r).TaskQueue,
      t.TargetGraph = some g := by
    rw [e1]
    exact ⟨{ TargetGraph := some g, TargetWorld := none, Trigger := r }, by simp, rfl⟩
  have e2 := Enqueue_of_queued h _ g r2 hg hin
  refine ⟨e1, e2, ?_, ?_⟩
  · rw [e2, e1]
    have h0 : sub.TaskQueue.countP (fun t => decide (t.TargetGraph = some g)) = 0 := by
      rw [List.countP_eq_zero]
      intro t ht
      simpa using hq t ht
    simp [UAutomationGraphSubsystem.PendingFor, List.countP_append, h0]
  · rw [e2, e1]
    intro t ht htg
    rcases List.mem_append.mp ht with x | x
    · exact absurd htg (hq t x)
    · rw [List.mem_singleton.mp x]

/-- C11 on the heap with the two live graphs `0` and `1`: into the queue that
holds tasks for both, enqueueing graph `0` changes nothing; into the empty
queue, enqueueing graph `0` for `OnPlay` and then for `OnStartup` leaves the
single task for `OnPlay`. -/
theorem EnqueueAutomationGraph_appends_once_witness :
    UAutomationGraphSubsystem.EnqueueAutomationGraph exTwoGraphs exQueued (some 0) .OnStartup =
      exQueued ∧
    (UAutomationGraphSubsystem.EnqueueAutomationGraph exTwoGraphs
      (UAutomationGraphSubsystem.EnqueueAutomationGraph exTwoGraphs {} (some 0) .OnPlay)
      (some 0) .OnStartup).TaskQueue =
      [{ TargetGraph := some 0, TargetWorld := none, Trigger := .OnPlay }] ∧
    (UAutomationGraphSubsystem.EnqueueAutomationGraph exTwoGraphs
      (UAutomationGraphSubsystem.EnqueueAutomationGraph exTwoGraphs {} (some 0) .OnPlay)
      (some 0) .OnStartup).PendingFor 0 = 1 ∧
    (UAutomationGraphSubsystem.EnqueueAutomationGraph exTwoGraphs {} (some 1)
      .OnPlay).PendingFor 1 ≤ 1 :=
  have hq := (EnqueueAutomationGraph_appends_once exTwoGraphs exQueued .OnStartup .OnPlay).2.1 0
    (by decide)
  have he := ((EnqueueAutomationGraph_appends_once exTwoGraphs {} .OnPlay .OnStartup).2.1 0
    (by decide)).2 (by decide)
  have hr := (EnqueueAutomationGraph_appends_once exTwoGraphs
    (UAutomationGraphSubsystem.EnqueueAutomationGraph exTwoGraphs {} (some 1) .OnPlay)
    .OnPlay .OnPlay).2.2
    (UAutomationGraphSubsystem.Reachable.enqueue (some 1) .OnPlay
      (UAutomationGraphSubsystem.Reachable.fresh exTwoGraphs none none)
      (by intro g hg; cases hg; decide)) 1
  ⟨hq.1 ⟨{ TargetGraph := some 0, TargetWorld := none, Trigger := .OnPlay }, by decide, rfl⟩,
    by rw [he.2.1, he.1]; rfl, he.2.2.1, hr⟩

/-! ## Controller lock -/

theorem Lock_granted_iff {n : Nat} (h : Heap n) (sub : UAutomationGraphSubsystem n)
    (N : Option (Fin n)) :
    (UAutomationGraphSubsystem.LockAutomationController h sub N).2 ≠ none ↔
      N ≠ none ∧ sub.AutomationController ≠ none ∧
        (sub.LiveOwner h = none ∨ sub.LiveOwner h = N) := by
  unfold UAutomationGraphSubsystem.LockAutomationController UAutomationGraphSubsystem.LiveOwner
  by_cases h1 : N = none ∨ sub.AutomationController = none
  · rw [if_pos h1]
    constructor
    · intro hx; exact absurd rfl hx
    · rintro ⟨a, b, _⟩
      rcases h1 with x | x
      · exact absurd x a
      · exact absurd x b
  · rw [if_neg h1]
    push_neg at h1
    by_cases h2 : h.GetNodePtr sub.AutomationControllerOwner ≠ none ∧
        N ≠ h.GetNodePtr sub.AutomationControllerOwner
    · dsimp only
      rw [if_pos h2]
      constructor
      · intro hx; exact absurd rfl hx
      · rintro ⟨_, _, c | c⟩
        · exact absurd c h2.1
        · exact absurd c.symm h2.2
    · dsimp only
      rw [if_neg h2]
      refine ⟨fun _ => ⟨h1.1, h1.2, ?_⟩, fun _ => h1.2⟩
      by_cases c : h.GetNodePtr sub.AutomationControllerOwner = none
      · exact Or.inl c
      · right
        by_contra c2
        exact h2 ⟨c, fun e => c2 e.symm⟩

theorem Lock_granted_eq {n : Nat} (h : Heap n) (sub : UAutomationGraphSubsystem n)
    (N : Option (Fin n))
    (hg : (UAutomationGraphSubsystem.LockAutomationController h sub N).2 ≠ none) :
    UAutomationGraphSubsystem.LockAutomationController h sub N =
      ({ sub with AutomationControllerOwner := N }, sub.AutomationController) := by
  unfold UAutomationGraphSubsystem.LockAutomationController at hg ⊢
  by_cases h1 : N = none ∨ sub.AutomationController = none
  · rw [if_pos h1] at hg; exact absurd rfl hg
  · rw [if_neg h1] at hg ⊢
    by_cases h2 : h.GetNodePtr sub.AutomationControllerOwner ≠ none ∧
        N ≠ h.GetNodePtr sub.AutomationControllerOwner
    · dsimp only at hg
      rw [if_pos h2] at hg
      exact absurd rfl hg
    · dsimp only
      rw [if_neg h2]

theorem Lock_refused_eq {n : Nat} (h : Heap n) (sub : UAutomationGraphSubsystem n)
    (N : Option (Fin n))
    (hg : (UAutomationGraphSubsystem.LockAutomationController h sub N).2 = none) :
    UAutomationGraphSubsystem.LockAutomationController h sub N = (sub, none) := by
  unfold UAutomationGraphSubsystem.LockAutomationController at hg ⊢
  by_cases h1 : N = none ∨ sub.AutomationController = none
  · rw [if_pos h1]
  · rw [if_neg h1] at hg ⊢
    by_cases h2 : h.GetNodePtr sub.AutomationControllerOwner ≠ none ∧
        N ≠ h.GetNodePtr sub.AutomationControllerOwner
    · dsimp only
      rw [if_pos h2]
    · dsimp only at hg
      rw [if_neg h2] at hg
      push_neg at h1
      exact absurd hg h1.2

theorem Release_refused {n : Nat} (h : Heap n) (sub : UAutomationGraphSubsystem n)
    (N : Option (Fin n)) (X : Fin n) (hX : sub.LiveOwner h = some X) (hN : N ≠ some X) :
    UAutomationGraphSubsystem.ReleaseAutomationController h sub N = (sub, false) := by
  unfold UAutomationGraphSubsystem.LiveOwner at hX
  unfold UAutomationGraphSubsystem.ReleaseAutomationController
  simp [hX, hN]

theorem Release_done {n : Nat} (h : Heap n) (sub : UAutomationGraphSubsystem n)
    (N : Option (Fin n)) (hX : sub.LiveOwner h = none ∨ sub.LiveOwner h = N) :
    UAutomationGraphSubsystem.ReleaseAutomationController h sub N =
      ({ sub with AutomationControllerOwner := none }, true) := by
  unfold UAutomationGraphSubsystem.LiveOwner at hX
  unfold UAutomationGraphSubsystem.ReleaseAutomationController
  rcases hX with x | x
  · simp [x]
  · simp [x]

theorem GetNodePtr_some {n : Nat} (h : Heap n) (X : Fin n) (hX : h.Valid X = true) :
    h.GetNodePtr (some X) = some X := by
  simp [Heap.GetNodePtr, hX]

theorem GetNodePtr_eq_some {n : Nat} (h : Heap n) (p : Option (Fin n)) (X : Fin n)
    (hp : h.GetNodePtr p = some X) : p = some X ∧ h.Valid X = true := by
  cases p with
  | none => simp [Heap.GetNodePtr] at hp
  | some q =>
    by_cases hq : h.Valid q = true
    · simp [Heap.GetNodePtr, hq] at hp
      subst hp
      exact ⟨rfl, hq⟩
    · simp [Heap.GetNodePtr, hq] at hp

theorem applyLockCall_controller {n : Nat} (h : Heap n) (sub : UAutomationGraphSubsystem n)
    (c : LockCall n) :
    (sub.applyLockCall h c).AutomationController = sub.AutomationController := by
  cases c with
  | Lock N =>
    show (UAutomationGraphSubsystem.LockAutomationController h sub N).1.AutomationController = _
    by_cases hg : (UAutomationGraphSubsystem.LockAutomationController h sub N).2 = none
    · rw [Lock_refused_eq h sub N hg]
    · rw [Lock_granted_eq h sub N hg]
  | Release N =>
    show (UAutomationGraphSubsystem.ReleaseAutomationController h sub N).1.AutomationController = _
    unfold UAutomationGraphSubsystem.ReleaseAutomationController
    dsimp only
    split <;> rfl

theorem applyLockCalls_held {n : Nat} (h : Heap n) (X : Fin n) :
    ∀ (calls : List (LockCall n)) (sub : UAutomationGraphSubsystem n),
      LockCall.Release (some X) ∉ calls → sub.LiveOwner h = some X →
      (UAutomationGraphSubsystem.applyLockCalls h calls sub).LiveOwner h = some X ∧
      (UAutomationGraphSubsystem.applyLockCalls h calls sub).AutomationController =
        sub.AutomationController := by
  intro calls
  induction calls with
  | nil => intro sub _ hX; exact ⟨hX, rfl⟩
  | cons c rest ih =>
    intro sub hnot hX
    have hc : c ≠ LockCall.Release (some X) := fun e => hnot (e ▸ List.mem_cons_self _ _)
    have hrest : LockCall.Release (some X) ∉ rest := fun m => hnot (List.mem_cons_of_mem _ m)
    have hstep : (sub.applyLockCall h c).LiveOwner h = some X := by
      cases c with
      | Lock N =>
        show (UAutomationGraphSubsystem.LockAutomationController h sub N).1.LiveOwner h = _
        by_cases hg : (UAutomationGraphSubsystem.LockAutomationController h sub N).2 = none
        · rw [Lock_refused_eq h sub N hg]; exact hX
        · rw [Lock_granted_eq h sub N hg]
          have hN : some X = N := by
            rcases ((Lock_granted_iff h sub N).mp hg).2.2 with x | x
            · rw [hX] at x; cases x
            · rw [hX] at x; exact x
          subst hN
          exact GetNodePtr_some h X (GetNodePtr_eq_some h _ X hX).2
      | Release N =>
        show (UAutomationGraphSubsystem.ReleaseAutomationController h sub N).1.LiveOwner h = _
        have hN : N ≠ some X := fun e => hc (by rw [e])
        rw [Release_refused h sub N X hX hN]
        exact hX
    obtain ⟨a, b⟩ := ih (sub.applyLockCall h c) hrest hstep
    exact ⟨a, b.trans (applyLockCall_controller h sub c)⟩

theorem applyLockCalls_free {n : Nat} (h : Heap n) :
    ∀ (calls : List (LockCall n)) (sub : UAutomationGraphSubsystem n),
      (∀ c ∈ calls, c.isLockAttempt = false) → sub.LiveOwner h = none →
      (UAutomationGraphSubsystem.applyLockCalls h calls sub).LiveOwner h = none ∧
      (UAutomationGraphSubsystem.applyLockCalls h calls sub).AutomationController =
        sub.AutomationController := by
  intro calls
  induction calls with
  | nil => intro sub _ hX; exact ⟨hX, rfl⟩
  | cons c rest ih =>
    intro sub hall hX
    have hstep : (sub.applyLockCall h c).LiveOwner h = none := by
      have hc := hall c (List.mem_cons_self _ _)
      cases c with
      | Lock N =>
        cases N with
        | none =>
          show (UAutomationGraphSubsystem.LockAutomationController h sub none).1.LiveOwner h = _
          simp only [UAutomationGraphSubsystem.LockAutomationController, true_or, if_true]
          exact hX
        | some Z => simp [LockCall.isLockAttempt] at hc
      | Release N =>
        show (UAutomationGraphSubsystem.ReleaseAutomationController h sub N).1.LiveOwner h = _
        rw [Release_done h sub N (Or.inl hX)]
        rfl
    obtain ⟨a, b⟩ := ih (sub.applyLockCall h c)
      (fun d hd => hall d (List.mem_cons_of_mem _ hd)) hstep
    exact ⟨a, b.trans (applyLockCall_controller h sub c)⟩

/-- C12: `LockAutomationController(N)` returns a valid controller exactly when
`N` is non-null, the controller is valid, and the lock has no live owner or its
live owner is `N`; it then returns the controller and records `N` as owner, and
otherwise returns null and leaves the subsystem as it was. After the lock was
granted to a live node `X`, whatever lock and release calls follow, as long as
none of them is `X` releasing, every lock attempt by another requester is
refused and changes nothing; the release by `X` then succeeds, and the first
lock attempt by a non-null requester after it is granted. -/
theorem LockAutomationController_exclusive {n : Nat} (h : Heap n)
    (sub : UAutomationGraphSubsystem n) (N : Option (Fin n)) :
    ((UAutomationGraphSubsystem.LockAutomationController h sub N).2 ≠ none ↔
      N ≠ none ∧ sub.AutomationController ≠ none ∧
        (sub.LiveOwner h = none ∨ sub.LiveOwner h = N)) ∧
    ((UAutomationGraphSubsystem.LockAutomationController h sub N).2 ≠ none →
      UAutomationGraphSubsystem.LockAutomationController h sub N =
        ({ sub with AutomationControllerOwner := N }, sub.AutomationController)) ∧
    ((UAutomationGraphSubsystem.LockAutomationController h sub N).2 = none →
      UAutomationGraphSubsystem.LockAutomationController h sub N = (sub, none)) ∧
    (∀ X : Fin n, N = some X → h.Valid X = true →
      (UAutomationGraphSubsystem.LockAutomationController h sub N).2 ≠ none →
      ∀ (calls : List (LockCall n)) (s : UAutomationGraphSubsystem n),
        LockCall.Release (some X) ∉ calls →
        s = UAutomationGraphSubsystem.applyLockCalls h calls
          (UAutomationGraphSubsystem.LockAutomationController h sub N).1 →
        s.LiveOwner h = some X ∧
        (∀ Y : Option (Fin n), Y ≠ some X →
          UAutomationGraphSubsystem.LockAutomationController h s Y = (s, none)) ∧
        (UAutomationGraphSubsystem.ReleaseAutomationController h s (some X)).2 = true ∧
        ∀ (calls2 : List (LockCall n)) (s2 : UAutomationGraphSubsystem n),
          (∀ c ∈ calls2, c.isLockAttempt = false) →
          s2 = UAutomationGraphSubsystem.applyLockCalls h calls2
            (UAutomationGraphSubsystem.ReleaseAutomationController h s (some X)).1 →
          ∀ Y : Fin n,
            (UAutomationGraphSubsystem.LockAutomationController h s2 (some Y)).2 ≠ none ∧
            UAutomationGraphSubsystem.LockAutomationController h s2 (some Y) =
              ({ s2 with AutomationControllerOwner := some Y }, sub.AutomationController)) := by
  refine ⟨Lock_granted_iff h sub N, Lock_granted_eq h sub N, Lock_refused_eq h sub N, ?_⟩
  rintro X rfl hv hg calls s hnot rfl
  have hctl : sub.AutomationController ≠ none := ((Lock_granted_iff h sub _).mp hg).2.1
  have h1 : (UAutomationGraphSubsystem.LockAutomationController h sub (some X)).1.LiveOwner h =
      some X := by
    rw [Lock_granted_eq h sub _ hg]
    exact GetNodePtr_some h X hv
  have hc1 : (UAutomationGraphSubsystem.LockAutomationController h sub
      (some X)).1.AutomationController = sub.AutomationController := by
    rw [Lock_granted_eq h sub _ hg]
  obtain ⟨hown, hctl2⟩ := applyLockCalls_held h X calls _ hnot h1
  refine ⟨hown, ?_, ?_, ?_⟩
  · intro Y hY
    apply Lock_refused_eq
    by_contra hgr
    rcases ((Lock_granted_iff h _ Y).mp hgr).2.2 with x | x
    · rw [hown] at x; cases x
    · rw [hown] at x; exact hY x.symm
  · rw [Release_done h _ (some X) (Or.inr hown)]
  · rintro calls2 s2 hall rfl Y
    have hfree : (UAutomationGraphSubsystem.ReleaseAutomationController h
        (UAutomationGraphSubsystem.applyLockCalls h calls
          (UAutomationGraphSubsystem.LockAutomationController h sub (some X)).1)
        (some X)).1.LiveOwner h = none := by
      rw [Release_done h _ (some X) (Or.inr hown)]
      rfl
    have hc3 : (UAutomationGraphSubsystem.ReleaseAutomationController h
        (UAutomationGraphSubsystem.applyLockCalls h calls
          (UAutomationGraphSubsystem.LockAutomationController h sub (some X)).1)
        (some X)).1.AutomationController = sub.AutomationController := by
      rw [Release_done h _ (some X) (Or.inr hown)]
      exact hctl2.trans hc1
    obtain ⟨hown2, hctl4⟩ := applyLockCalls_free h calls2 _ hall hfree
    have hgr : (UAutomationGraphSubsystem.LockAutomationController h
        (UAutomationGraphSubsystem.applyLockCalls h calls2
          (UAutomationGraphSubsystem.ReleaseAutomationController h
            (UAutomationGraphSubsystem.applyLockCalls h calls
              (UAutomationGraphSubsystem.LockAutomationController h sub (some X)).1)
            (some X)).1) (some Y)).2 ≠ none := by
      rw [Lock_granted_iff]
      refine ⟨by simp, ?_, Or.inl hown2⟩
      rw [hctl4, hc3]
      exact hctl
    refine ⟨hgr, ?_⟩
    rw [Lock_granted_eq h _ _ hgr, hctl4, hc3]

/-- C12 on two live nodes `X = 0` and `Y = 1`, controller handle `7`: after the
lock of `X`, through a re-lock by `X`, a release attempt by `Y` and a lock
attempt by `Y`, the lock is still held by `X` and `Y` is refused; after `X`
releases, `Y` is granted the controller. -/
theorem LockAutomationController_exclusive_witness :
    (UAutomationGraphSubsystem.applyLockCalls exTwoNodes
      [.Lock (some 0), .Release (some 1), .Lock (some 1)]
      (UAutomationGraphSubsystem.LockAutomationController exTwoNodes
        { AutomationController := some 7 } (some 0)).1).LiveOwner exTwoNodes = some 0 ∧
    (UAutomationGraphSubsystem.LockAutomationController exTwoNodes
      (UAutomationGraphSubsystem.applyLockCalls exTwoNodes
        [.Lock (some 0), .Release (some 1), .Lock (some 1)]
        (UAutomationGraphSubsystem.LockAutomationController exTwoNodes
          { AutomationController := some 7 } (some 0)).1) (some 1)).2 = none ∧
    (UAutomationGraphSubsystem.LockAutomationController exTwoNodes
      (UAutomationGraphSubsystem.ReleaseAutomationController exTwoNodes
        (UAutomationGraphSubsystem.applyLockCalls exTwoNodes
          [.Lock (some 0), .Release (some 1), .Lock (some 1)]
          (UAutomationGraphSubsystem.LockAutomationController exTwoNodes
            { AutomationController := some 7 } (some 0)).1) (some 0)).1 (some 1)).2 ≠ none :=
  have hw := (LockAutomationController_exclusive exTwoNodes { AutomationController := some 7 }
    (some 0)).2.2.2 0 rfl (by decide) (by decide)
    [.Lock (some 0), .Release (some 1), .Lock (some 1)] _ (by decide) rfl
  ⟨hw.1, congrArg Prod.snd (hw.2.1 (some 1) (by decide)),
    (hw.2.2.2 [] _ (by decide) rfl 1).1⟩

/-- C13: `ReleaseAutomationController(N)` returns false and leaves the
subsystem as it was when the lock has a live owner other than `N`, so that
owner still holds the lock; in every other case (`N` is the live owner, or the
lock has no live owner) it clears the owner and returns true. -/
theorem ReleaseAutomationController_owner_only {n : Nat} (h : Heap n)
    (sub : UAutomationGraphSubsystem n) (N : Option (Fin n)) :
    (∀ X : Fin n, sub.LiveOwner h = some X → N ≠ some X →
      UAutomationGraphSubsystem.ReleaseAutomationController h sub N = (sub, false) ∧
      (UAutomationGraphSubsystem.ReleaseAutomationController h sub N).1.LiveOwner h = some X) ∧
    (sub.LiveOwner h = none ∨ sub.LiveOwner h = N →
      UAutomationGraphSubsystem.ReleaseAutomationController h sub N =
        ({ sub with AutomationControllerOwner := none }, true) ∧
      (UAutomationGraphSubsystem.ReleaseAutomationController h sub N).1.LiveOwner h = none) := by
  refine ⟨?_, ?_⟩
  · intro X hX hN
    have e := Release_refused h sub N X hX hN
    exact ⟨e, by rw [e]; exact hX⟩
  · intro hX
    have e := Release_done h sub N hX
    exact ⟨e, by rw [e]; rfl⟩

/-- C13 on two live nodes: with node `0` holding the lock, a release by node
`1` returns false and node `0` still holds the lock; a release by node `0`
returns true and leaves the lock unowned. -/
theorem ReleaseAutomationController_owner_only_witness :
    (UAutomationGraphSubsystem.ReleaseAutomationController exTwoNodes
      { AutomationController := some 7, AutomationControllerOwner := some 0 } (some 1)).2 =
      false ∧
    (UAutomationGraphSubsystem.ReleaseAutomationController exTwoNodes
      { AutomationController := some 7, AutomationControllerOwner := some 0 }
      (some 1)).1.LiveOwner exTwoNodes = some 0 ∧
    (UAutomationGraphSubsystem.ReleaseAutomationController exTwoNodes
      { AutomationController := some 7, AutomationControllerOwner := some 0 } (some 0)).2 =
      true ∧
    (UAutomationGraphSubsystem.ReleaseAutomationController exTwoNodes
      { AutomationController := some 7, AutomationControllerOwner := some 0 }
      (some 0)).1.LiveOwner exTwoNodes = none :=
  have ha := (ReleaseAutomationController_owner_only exTwoNodes
    { AutomationController := some 7, AutomationControllerOwner := some 0 } (some 1)).1 0
    (by decide) (by decide)
  have hb := (ReleaseAutomationController_owner_only exTwoNodes
    { AutomationController := some 7, AutomationControllerOwner := some 0 } (some 0)).2
    (Or.inr (by decide))
  ⟨congrArg Prod.snd ha.1, ha.2, congrArg Prod.snd hb.1, hb.2⟩

/-! ## Cancel, Initialize and the elapsed time of a node -/

theorem Cancel_unfold_before {n : Nat} (h : Heap n) (v : Fin n)
    (hs : (h.GetState v).toNat < EAutomationGraphNodeState.Finished.toNat) :
    h.Cancel v = ((((h.log (.Cancel v)).log (.CancelInternal v)).setMembers v
      (UAutomationGraphNode.SetState ((h.Node v).Class.CancelInternal (h.Node v).toNodeMembers)
        .Cancelled).1).Cleanup v) := by
  have hs2 : ((h.log (.Cancel v)).GetState v).toNat <
      EAutomationGraphNodeState.Finished.toNat := hs
  have hs3 : (h.Node v).NodeState.toNat < EAutomationGraphNodeState.Finished.toNat := hs
  unfold Heap.Cancel
  simp only [hs2, if_true]
  simp only [UAutomationGraphNode.Cancel, Heap.log, hs3, if_true]

theorem Cancel_unfold_after {n : Nat} (h : Heap n) (v : Fin n)
    (hs : ¬ (h.GetState v).toNat < EAutomationGraphNodeState.Finished.toNat) :
    h.Cancel v = (h.log (.Cancel v)).Cleanup v := by
  have hs2 : ¬ ((h.log (.Cancel v)).GetState v).toNat <
      EAutomationGraphNodeState.Finished.toNat := hs
  unfold Heap.Cancel
  simp only [hs2, if_false]

theorem before_Finished_iff (s : EAutomationGraphNodeState) :
    s.toNat < EAutomationGraphNodeState.Finished.toNat ↔
      (s = .Uninitialized ∨ s = .Standby ∨ s = .Active) := by
  cases s <;> simp [EAutomationGraphNodeState.toNat]

/-- C14: `Cancel` on a node in `Uninitialized`, `Standby` or `Active` makes the
calls `CancelInternal` and then `Cleanup`, once each, and leaves the node with
the members that `SetState(Cancelled)` gives after `CancelInternal`, so in
state `Cancelled`; on a node in `Finished`, `Expired`, `Error` or `Cancelled`
it makes the one call `Cleanup` and leaves the node as it was. In both cases
`Cleanup` is the last call and is made on the node in its final state. -/
theorem Cancel_sets_Cancelled_before_Finished {n : Nat} (h : Heap n) (v : Fin n) :
    (h.Cancel v).CallsSince h =
      (if h.GetState v = .Uninitialized ∨ h.GetState v = .Standby ∨ h.GetState v = .Active
        then [Call.Cancel v, Call.CancelInternal v, Call.Cleanup v]
        else [Call.Cancel v, Call.Cleanup v]) ∧
    (h.Cancel v).GetState v =
      (if h.GetState v = .Uninitialized ∨ h.GetState v = .Standby ∨ h.GetState v = .Active
        then .Cancelled else h.GetState v) ∧
    ((h.Cancel v).Node v).toNodeMembers =
      (if h.GetState v = .Uninitialized ∨ h.GetState v = .Standby ∨ h.GetState v = .Active
        then (UAutomationGraphNode.SetState
          ((h.Node v).Class.CancelInternal (h.Node v).toNodeMembers) .Cancelled).1
        else (h.Node v).toNodeMembers) ∧
    ((h.Cancel v).CallsSince h).count (Call.Cleanup v) = 1 ∧
    ∃ h1 : Heap n, h.Cancel v = h1.Cleanup v ∧ h1.Node = (h.Cancel v).Node := by
  by_cases hs : h.GetState v = .Uninitialized ∨ h.GetState v = .Standby ∨ h.GetState v = .Active
  · have e := Cancel_unfold_before h v ((before_Finished_iff _).mpr hs)
    simp only [hs, if_true]
    rw [e]
    refine ⟨?_, ?_, ?_, ?_, ⟨_, rfl, rfl⟩⟩
    · simp [Heap.CallsSince, Heap.Cleanup, Heap.log, Heap.setMembers]
    · simp [Heap.GetState, Heap.Cleanup, Heap.log, Heap.setMembers,
        UAutomationGraphNode.SetState]
    · simp [Heap.Cleanup, Heap.log, Heap.setMembers]
    · simp [Heap.CallsSince, Heap.Cleanup, Heap.log, Heap.setMembers]
  · have e := Cancel_unfold_after h v (fun x => hs ((before_Finished_iff _).mp x))
    simp only [hs, if_false]
    rw [e]
    refine ⟨?_, ?_, ?_, ?_, ⟨_, rfl, rfl⟩⟩
    · simp [Heap.CallsSince, Heap.Cleanup, Heap.log]
    · simp [Heap.GetState, Heap.Cleanup, Heap.log]
    · simp [Heap.Cleanup, Heap.log]
    · simp [Heap.CallsSince, Heap.Cleanup, Heap.log]

/-- C19: the base `Initialize` on a node in `Active` returns false and leaves
the members as they were; on a node in any other state it returns true and
leaves the state `Standby` and `TimeElapsedSec` zero. -/
theorem Initialize_refuses_only_Active (m : NodeMembers) (World : UWorld) :
    UAutomationGraphNode.Initialize m World =
      (if m.NodeState = .Active then (m, false)
       else ({ m with NodeState := .Standby, TimeElapsedSec := 0 }, true)) ∧
    (∀ s : EAutomationGraphNodeState, s ∈ [EAutomationGraphNodeState.Uninitialized,
        .Standby, .Finished, .Expired, .Error, .Cancelled] → ∀ (t tmax : Rat),
      UAutomationGraphNode.Initialize
        { NodeState := s, TimeElapsedSec := t, NodeTimeoutSec := tmax } World =
        ({ NodeState := .Standby, TimeElapsedSec := 0, NodeTimeoutSec := tmax }, true)) ∧
    (∀ t tmax : Rat,
      UAutomationGraphNode.Initialize
        { NodeState := .Active, TimeElapsedSec := t, NodeTimeoutSec := tmax } World =
        ({ NodeState := .Active, TimeElapsedSec := t, NodeTimeoutSec := tmax }, false)) := by
  refine ⟨?_, ?_, ?_⟩
  · unfold UAutomationGraphNode.Initialize
    by_cases ha : m.NodeState = .Active
    · simp [ha]
    · simp [ha, UAutomationGraphNode.SetState]
  · intro s hs t tmax
    simp only [List.mem_cons, List.mem_singleton, List.not_mem_nil, or_false] at hs
    rcases hs with x | x | x | x | x | x <;> subst x <;>
      simp [UAutomationGraphNode.Initialize, UAutomationGraphNode.SetState]
  · intro t tmax
    simp [UAutomationGraphNode.Initialize]

/-- C19 on a node that expired after five seconds: `Initialize` returns true
and resets it to `Standby` with no elapsed time. -/
theorem Initialize_refuses_only_Active_witness :
    UAutomationGraphNode.Initialize
      { NodeState := .Expired, TimeElapsedSec := 5, NodeTimeoutSec := 5 } 0 =
      ({ NodeState := .Standby, TimeElapsedSec := 0, NodeTimeoutSec := 5 }, true) :=
  (Initialize_refuses_only_Active {} 0).2.1 .Expired (by decide) 5 5

theorem applyCall_idle_zero (m : NodeMembers) (c : NodeCall)
    (hm : m.NodeState = .Uninitialized ∨ m.NodeState = .Standby → m.TimeElapsedSec = 0) :
    (UAutomationGraphNode.applyCall UAutomationGraphNode.StaticClass m c).NodeState =
        .Uninitialized ∨
      (UAutomationGraphNode.applyCall UAutomationGraphNode.StaticClass m c).NodeState =
        .Standby →
    (UAutomationGraphNode.applyCall UAutomationGraphNode.StaticClass m c).TimeElapsedSec = 0 := by
  cases c with
  | Initialize w =>
    simp only [UAutomationGraphNode.applyCall, UAutomationGraphNode.StaticClass]
    unfold UAutomationGraphNode.Initialize
    by_cases ha : m.NodeState = .Active
    · simp [ha]
    · simp [ha, UAutomationGraphNode.SetState]
  | Uninitialize =>
    intro _
    simp [UAutomationGraphNode.applyCall, UAutomationGraphNode.Uninitialize,
      UAutomationGraphNode.SetState]
  | Activate dt =>
    simp only [UAutomationGraphNode.applyCall]
    unfold UAutomationGraphNode.Activate
    by_cases ha : m.NodeState = .Active
    · simp only [ha, if_true]
      split
      · simp [UAutomationGraphNode.SetState]
      · simp [UAutomationGraphNode.StaticClass, UAutomationGraphNode.ActivateInternal, ha,
          UAutomationGraphNode.SetState]
    · simp only [ha, if_false]
      split
      · simp [UAutomationGraphNode.SetState]
      · by_cases hs : m.NodeState = .Standby
        · simp [UAutomationGraphNode.StaticClass, UAutomationGraphNode.ActivateInternal, hs,
            UAutomationGraphNode.SetState]
        · have e : UAutomationGraphNode.ActivateInternal m dt = (m, m.NodeState) := by
            unfold UAutomationGraphNode.ActivateInternal
            rw [if_neg hs, if_neg ha]
          simp only [UAutomationGraphNode.StaticClass]
          rw [e]
          exact hm
  | Cancel =>
    simp only [UAutomationGraphNode.applyCall]
    unfold UAutomationGraphNode.Cancel
    split
    · simp [UAutomationGraphNode.SetState]
    · exact hm

theorem applyCalls_idle_zero :
    ∀ (calls : List NodeCall) (m : NodeMembers),
      (m.NodeState = .Uninitialized ∨ m.NodeState = .Standby → m.TimeElapsedSec = 0) →
      (UAutomationGraphNode.applyCalls UAutomationGraphNode.StaticClass calls m).NodeState =
          .Uninitialized ∨
        (UAutomationGraphNode.applyCalls UAutomationGraphNode.StaticClass calls m).NodeState =
          .Standby →
      (UAutomationGraphNode.applyCalls UAutomationGraphNode.StaticClass calls
        m).TimeElapsedSec = 0 := by
  intro calls
  induction calls with
  | nil => intro m hm; exact hm
  | cons c rest ih => intro m hm; exact ih _ (applyCall_idle_zero m c hm)

theorem Activate_Active_elapsed (cls : NodeClass) (m : NodeMembers) (dt : Rat)
    (ha : m.NodeState = .Active)
    (hcls : ∀ m1 : NodeMembers, (cls.ActivateInternal m1 dt).1.TimeElapsedSec = m1.TimeElapsedSec) :
    (UAutomationGraphNode.Activate cls m dt).1.TimeElapsedSec = m.TimeElapsedSec + dt := by
  unfold UAutomationGraphNode.Activate
  simp only [ha, if_true]
  split
  · simp [UAutomationGraphNode.SetState]
  · rw [hcls]

theorem ActivateInternal_elapsed (m : NodeMembers) (dt : Rat) :
    (UAutomationGraphNode.ActivateInternal m dt).1.TimeElapsedSec = m.TimeElapsedSec := by
  unfold UAutomationGraphNode.ActivateInternal
  by_cases hs : m.NodeState = .Standby
  · simp [hs, UAutomationGraphNode.SetState]
  · by_cases ha : m.NodeState = .Active
    · simp [ha, UAutomationGraphNode.SetState]
    · simp [hs, ha]

/-- C20: after any sequence of `Initialize`, `Uninitialize`, `Activate` (with
any deltas, so also non-negative ones) and `Cancel` calls on a newly
constructed base node,
`TimeElapsedSec` is zero if the state is `Uninitialized` or `Standby`, and an
`Activate` call with a non-negative delta made then in state `Active` adds the
delta to `TimeElapsedSec`, so does not decrease it. -/
theorem TimeElapsedSec_zero_when_idle_and_monotone (calls : List NodeCall) (tmax : Rat) :
    ((UAutomationGraphNode.applyCalls UAutomationGraphNode.StaticClass calls
        { NodeTimeoutSec := tmax }).NodeState = .Uninitialized ∨
      (UAutomationGraphNode.applyCalls UAutomationGraphNode.StaticClass calls
        { NodeTimeoutSec := tmax }).NodeState = .Standby →
      (UAutomationGraphNode.applyCalls UAutomationGraphNode.StaticClass calls
        { NodeTimeoutSec := tmax }).TimeElapsedSec = 0) ∧
    ∀ dt : Rat, 0 ≤ dt →
      (UAutomationGraphNode.applyCalls UAutomationGraphNode.StaticClass calls
        { NodeTimeoutSec := tmax }).NodeState = .Active →
      (UAutomationGraphNode.Activate UAutomationGraphNode.StaticClass
        (UAutomationGraphNode.applyCalls UAutomationGraphNode.StaticClass calls
          { NodeTimeoutSec := tmax }) dt).1.TimeElapsedSec =
        (UAutomationGraphNode.applyCalls UAutomationGraphNode.StaticClass calls
          { NodeTimeoutSec := tmax }).TimeElapsedSec + dt ∧
      (UAutomationGraphNode.applyCalls UAutomationGraphNode.StaticClass calls
          { NodeTimeoutSec := tmax }).TimeElapsedSec ≤
        (UAutomationGraphNode.Activate UAutomationGraphNode.StaticClass
          (UAutomationGraphNode.applyCalls UAutomationGraphNode.StaticClass calls
            { NodeTimeoutSec := tmax }) dt).1.TimeElapsedSec := by
  refine ⟨applyCalls_idle_zero calls _ (fun _ => rfl), ?_⟩
  intro dt hdt ha
  have e := Activate_Active_elapsed UAutomationGraphNode.StaticClass _ dt ha
    (fun m1 => ActivateInternal_elapsed m1 dt)
  refine ⟨e, ?_⟩
  rw [e]
  linarith

/-- C20 on a run of a base node: initialized, activated three times and
initialized again, it is in `Standby` with no elapsed time; initialized and
activated once it is `Active`, and `Activate(1)` then adds one second. -/
theorem TimeElapsedSec_zero_when_idle_and_monotone_witness :
    (UAutomationGraphNode.applyCalls UAutomationGraphNode.StaticClass
      [.Initialize 0, .Activate 1, .Activate 1, .Activate 1, .Initialize 0]
      { NodeTimeoutSec := 300 }).TimeElapsedSec = 0 ∧
    (UAutomationGraphNode.Activate UAutomationGraphNode.StaticClass
      (UAutomationGraphNode.applyCalls UAutomationGraphNode.StaticClass
        [.Initialize 0, .Activate 1] { NodeTimeoutSec := 300 }) 1).1.TimeElapsedSec =
      (UAutomationGraphNode.applyCalls UAutomationGraphNode.StaticClass
        [.Initialize 0, .Activate 1] { NodeTimeoutSec := 300 }).TimeElapsedSec + 1 :=
  ⟨(TimeElapsedSec_zero_when_idle_and_monotone
      [.Initialize 0, .Activate 1, .Activate 1, .Activate 1, .Initialize 0] 300).1
      (Or.inr (by decide!)),
    ((TimeElapsedSec_zero_when_idle_and_monotone [.Initialize 0, .Activate 1] 300).2 1
      (by norm_num) (by decide!)).1⟩

/-! ## The walks of `CancelNodes` and `UninitializeNodes` -/

theorem foldl_count_calls {n : Nat} (op : Heap n → Fin n → Heap n) (mk : Fin n → Call n)
    (hop : ∀ (h : Heap n) (v : Fin n), ∃ ev : List (Call n), (op h v).Trace = h.Trace ++ ev ∧
      ∀ u, ev.count (mk u) = if u = v then 1 else 0) :
    ∀ (L : List (Fin n)) (h : Heap n), ∃ ev : List (Call n),
      (L.foldl op h).Trace = h.Trace ++ ev ∧ ∀ u, ev.count (mk u) = L.count u := by
  intro L
  induction L with
  | nil => intro h; exact ⟨[], by simp, by simp⟩
  | cons v rest ih =>
    intro h
    obtain ⟨ev1, t1, c1⟩ := hop h v
    obtain ⟨ev2, t2, c2⟩ := ih (op h v)
    refine ⟨ev1 ++ ev2, ?_, ?_⟩
    · rw [List.foldl_cons, t2, t1, List.append_assoc]
    · intro u
      rw [List.count_append, c1, c2, List.count_cons]
      by_cases e : u = v
      · subst e; simp; omega
      · have e2 : ¬ v = u := fun x => e x.symm
        simp [e, e2]

theorem Cancel_calls {n : Nat} (h : Heap n) (v : Fin n) :
    ∃ ev : List (Call n), (h.Cancel v).Trace = h.Trace ++ ev ∧
      (∀ u, ev.count (Call.Cancel u) = if u = v then 1 else 0) ∧
      (∀ u, ev.count (Call.Cleanup u) = if u = v then 1 else 0) ∧
      (∀ u, ev.count (Call.Uninitialize u) = 0) := by
  by_cases hs : (h.GetState v).toNat < EAutomationGraphNodeState.Finished.toNat
  · refine ⟨[Call.Cancel v, Call.CancelInternal v, Call.Cleanup v], ?_, ?_, ?_, ?_⟩
    · rw [Cancel_unfold_before h v hs]
      simp [Heap.Cleanup, Heap.log, Heap.setMembers]
    · intro u
      by_cases e : u = v
      · subst e; simp
      · have e2 : ¬ v = u := fun x => e x.symm
        simp [e, e2]
    · intro u
      by_cases e : u = v
      · subst e; simp
      · have e2 : ¬ v = u := fun x => e x.symm
        simp [e, e2]
    · intro u; simp
  · refine ⟨[Call.Cancel v, Call.Cleanup v], ?_, ?_, ?_, ?_⟩
    · rw [Cancel_unfold_after h v hs]
      simp [Heap.Cleanup, Heap.log]
    · intro u
      by_cases e : u = v
      · subst e; simp
      · have e2 : ¬ v = u := fun x => e x.symm
        simp [e, e2]
    · intro u
      by_cases e : u = v
      · subst e; simp
      · have e2 : ¬ v = u := fun x => e x.symm
        simp [e, e2]
    · intro u; simp

theorem Uninit_calls {n : Nat} (h : Heap n) (v : Fin n) :
    ∃ ev : List (Call n), (Heap.Uninitialize h v).Trace = h.Trace ++ ev ∧
      (∀ u, ev.count (Call.Uninitialize u) = if u = v then 1 else 0) ∧
      (∀ u, ev.count (Call.Cancel u) = 0) := by
  refine ⟨[Call.Uninitialize v, Call.Cleanup v], ?_, ?_, ?_⟩
  · simp [Heap.Uninitialize, Heap.Cleanup, Heap.log, Heap.setMembers]
  · intro u
    by_cases e : u = v
    · subst e; simp
    · have e2 : ¬ v = u := fun x => e x.symm
      simp [e, e2]
  · intro u; simp

theorem Uninit_node_ne {n : Nat} (h : Heap n) (v u : Fin n) (hu : u ≠ v) :
    (Heap.Uninitialize h v).Node u = h.Node u := by
  simp [Heap.Uninitialize, Heap.Cleanup, Heap.log, Heap.setMembers, Function.update, hu]

theorem Uninit_members {n : Nat} (h : Heap n) (v : Fin n) :
    ((Heap.Uninitialize h v).Node v).NodeState = .Uninitialized ∧
    ((Heap.Uninitialize h v).Node v).TimeElapsedSec = 0 := by
  simp [Heap.Uninitialize, Heap.Cleanup, Heap.log, Heap.setMembers,
    UAutomationGraphNode.Uninitialize, UAutomationGraphNode.SetState]

theorem foldl_Uninit_node {n : Nat} (v : Fin n) :
    ∀ (L : List (Fin n)) (h : Heap n),
      (v ∉ L → (L.foldl Heap.Uninitialize h).Node v = h.Node v) ∧
      (v ∈ L → ((L.foldl Heap.Uninitialize h).Node v).NodeState = .Uninitialized ∧
        ((L.foldl Heap.Uninitialize h).Node v).TimeElapsedSec = 0) := by
  intro L
  induction L with
  | nil => intro h; exact ⟨fun _ => rfl, fun x => absurd x (List.not_mem_nil _)⟩
  | cons a rest ih =>
    intro h
    rw [List.foldl_cons]
    refine ⟨?_, ?_⟩
    · intro hv
      have ha : v ≠ a := fun e => hv (e ▸ List.mem_cons_self _ _)
      rw [(ih _).1 (fun m => hv (List.mem_cons_of_mem _ m)), Uninit_node_ne h a v ha]
    · intro hv
      by_cases hr : v ∈ rest
      · exact (ih _).2 hr
      · have ha : v = a := by
          rcases List.mem_cons.mp hv with x | x
          · exact x
          · exact absurd x hr
        subst ha
        rw [(ih _).1 hr]
        exact Uninit_members h v

theorem foldl_Cancel_node_not_mem {n : Nat} (v : Fin n) :
    ∀ (L : List (Fin n)) (h : Heap n), v ∉ L → (L.foldl Heap.Cancel h).Node v = h.Node v := by
  intro L
  induction L with
  | nil => intro h _; rfl
  | cons a rest ih =>
    intro h hv
    have ha : v ≠ a := fun e => hv (e ▸ List.mem_cons_self _ _)
    rw [List.foldl_cons, ih _ (fun m => hv (List.mem_cons_of_mem _ m)), Cancel_node_ne h a v ha]

theorem UninitializeNodes_eq {n : Nat} (g : UAutomationGraph n) (h : Heap n) :
    ∃ L : List (Fin n),
      UAutomationGraph.walkLoop Heap.Uninitialize (g.RootNodes.length + h.EdgeCount) h
        g.RootNodes.reverse [] = some (L.foldl Heap.Uninitialize h) ∧
      g.UninitializeNodes h = L.foldl Heap.Uninitialize h ∧
      L.Nodup ∧ ∀ v, v ∈ L ↔ g.ReachableFromRoots h v := by
  obtain ⟨L, hw, hnd, hm⟩ := walkLoop_roots Heap.Uninitialize
    (fun k v => Heap.SameShape.Uninit k v) g h
  refine ⟨L, hw, ?_, hnd, hm⟩
  unfold UAutomationGraph.UninitializeNodes
  rw [hw]
  rfl

theorem CancelNodes_walk {n : Nat} (g : UAutomationGraph n) (h : Heap n) :
    ∃ L : List (Fin n),
      UAutomationGraph.walkLoop Heap.Cancel (g.RootNodes.length + h.EdgeCount) h
        g.RootNodes.reverse [] = some (L.foldl Heap.Cancel h) ∧
      g.CancelNodes h = L.foldl Heap.Cancel h ∧
      L.Nodup ∧ ∀ v, v ∈ L ↔ g.ReachableFromRoots h v := by
  obtain ⟨L, hw, hnd, hm⟩ := walkLoop_roots Heap.Cancel
    (fun k v => Heap.SameShape.Cancel k v) g h
  refine ⟨L, hw, ?_, hnd, hm⟩
  unfold UAutomationGraph.CancelNodes
  rw [hw]
  rfl

/-- C18: on every heap, whatever its child edges, the loops of
`UninitializeNodes` and `CancelNodes` end within their iteration bound;
`UninitializeNodes` calls `Uninitialize`, and `CancelNodes` calls `Cancel`,
exactly once on each node reachable by child edges from `RootNodes` and never
on another node, which they leave as it was; after `UninitializeNodes` every
reachable node is `Uninitialized` with `TimeElapsedSec` zero. -/
theorem walks_visit_reachable_nodes_once {n : Nat} (g : UAutomationGraph n) (h : Heap n) :
    (∃ k : Heap n, UAutomationGraph.walkLoop Heap.Uninitialize
      (g.RootNodes.length + h.EdgeCount) h g.RootNodes.reverse [] = some k ∧
      g.UninitializeNodes h = k) ∧
    (∃ k : Heap n, UAutomationGraph.walkLoop Heap.Cancel
      (g.RootNodes.length + h.EdgeCount) h g.RootNodes.reverse [] = some k ∧
      g.CancelNodes h = k) ∧
    ∀ v : Fin n,
      (g.ReachableFromRoots h v →
        ((g.UninitializeNodes h).CallsSince h).count (Call.Uninitialize v) = 1 ∧
        ((g.CancelNodes h).CallsSince h).count (Call.Cancel v) = 1 ∧
        (g.UninitializeNodes h).GetState v = .Uninitialized ∧
        ((g.UninitializeNodes h).Node v).TimeElapsedSec = 0) ∧
      (¬ g.ReachableFromRoots h v →
        ((g.UninitializeNodes h).CallsSince h).count (Call.Uninitialize v) = 0 ∧
        ((g.CancelNodes h).CallsSince h).count (Call.Cancel v) = 0 ∧
        (g.UninitializeNodes h).Node v = h.Node v ∧
        (g.CancelNodes h).Node v = h.Node v) := by
  obtain ⟨LU, hwU, eU, ndU, mU⟩ := UninitializeNodes_eq g h
  obtain ⟨LC, hwC, eC, ndC, mC⟩ := CancelNodes_walk g h
  obtain ⟨evU, tU, cU⟩ := foldl_count_calls Heap.Uninitialize Call.Uninitialize
    (fun k v => by
      obtain ⟨ev, t, c, _⟩ := Uninit_calls k v
      exact ⟨ev, t, c⟩) LU h
  obtain ⟨evC, tC, cC⟩ := foldl_count_calls Heap.Cancel Call.Cancel
    (fun k v => by
      obtain ⟨ev, t, c, _⟩ := Cancel_calls k v
      exact ⟨ev, t, c⟩) LC h
  refine ⟨⟨_, hwU, eU⟩, ⟨_, hwC, eC⟩, ?_⟩
  intro v
  rw [eU, eC, CallsSince_of_trace tU, CallsSince_of_trace tC, cU, cC]
  refine ⟨?_, ?_⟩
  · intro hr
    have hU := (mU v).mpr hr
    have hC := (mC v).mpr hr
    exact ⟨List.count_eq_one_of_mem ndU hU, List.count_eq_one_of_mem ndC hC,
      ((foldl_Uninit_node v LU h).2 hU).1, ((foldl_Uninit_node v LU h).2 hU).2⟩
  · intro hr
    have hU : v ∉ LU := fun x => hr ((mU v).mp x)
    have hC : v ∉ LC := fun x => hr ((mC v).mp x)
    exact ⟨List.count_eq_zero_of_not_mem hU, List.count_eq_zero_of_not_mem hC,
      (foldl_Uninit_node v LU h).1 hU, foldl_Cancel_node_not_mem v LC h hC⟩

/-- C18 on the graph `0 → 1 → 2 → 1` (a cycle, and node `1` with two
parents): node `2` receives one `Uninitialize` and one `Cancel`; on the heap
with two separate nodes, node `1` is not reachable from the root `0` and
receives neither. -/
theorem walks_visit_reachable_nodes_once_witness :
    (((UAutomationGraph.mk [(0 : Fin 3)]).UninitializeNodes exCycle).CallsSince exCycle).count
      (Call.Uninitialize 2) = 1 ∧
    (((UAutomationGraph.mk [(0 : Fin 3)]).CancelNodes exCycle).CallsSince exCycle).count
      (Call.Cancel 2) = 1 ∧
    (((UAutomationGraph.mk [(0 : Fin 2)]).UninitializeNodes exTwoGraphs).CallsSince
      exTwoGraphs).count (Call.Uninitialize 1) = 0 ∧
    (((UAutomationGraph.mk [(0 : Fin 2)]).CancelNodes exTwoGraphs).CallsSince
      exTwoGraphs).count (Call.Cancel 1) = 0 :=
  have hr : (UAutomationGraph.mk [(0 : Fin 3)]).ReachableFromRoots exCycle 2 :=
    ⟨0, by simp, Relation.ReflTransGen.tail
      (Relation.ReflTransGen.tail Relation.ReflTransGen.refl
        (show (1 : Fin 3) ∈ (exCycle.Node 0).ChildNodes by decide!))
      (show (2 : Fin 3) ∈ (exCycle.Node 1).ChildNodes by decide!)⟩
  have hn : ¬ (UAutomationGraph.mk [(0 : Fin 2)]).ReachableFromRoots exTwoGraphs 1 := by
    rintro ⟨r, hr0, hreach⟩
    have hr1 : r = 0 := by simpa using hr0
    subst hr1
    have := Reaches.mem_of_closed exTwoGraphs (fun u => u = 0)
      (by
        intro u hu c hc
        subst hu
        have he : (exTwoGraphs.Node 0).ChildNodes = [] := rfl
        rw [he] at hc
        exact absurd hc (List.not_mem_nil _)) hreach rfl
    exact absurd this (by decide)
  have h1 := ((walks_visit_reachable_nodes_once (UAutomationGraph.mk [(0 : Fin 3)])
    exCycle).2.2 2).1 hr
  have h2 := ((walks_visit_reachable_nodes_once (UAutomationGraph.mk [(0 : Fin 2)])
    exTwoGraphs).2.2 1).2 hn
  ⟨h1.1, h1.2.1, h2.1, h2.2.1⟩

/-! ## Cancelling a run -/

theorem CancelNodes_spec {n : Nat} (g : UAutomationGraph n) (h : Heap n) :
    ∃ ev : List (Call n), (g.CancelNodes h).Trace = h.Trace ++ ev ∧
      (∀ v, g.ReachableFromRoots h v →
        ev.count (Call.Cancel v) = 1 ∧ ev.count (Call.Cleanup v) = 1 ∧
        (g.CancelNodes h).GetState v =
          (if (h.GetState v).toNat < EAutomationGraphNodeState.Finished.toNat then .Cancelled
           else h.GetState v)) ∧
      (∀ v, ¬ g.ReachableFromRoots h v →
        ev.count (Call.Cancel v) = 0 ∧ ev.count (Call.Cleanup v) = 0 ∧
        (g.CancelNodes h).Node v = h.Node v) := by
  obtain ⟨L, _, e, nd, hm⟩ := CancelNodes_walk g h
  have key : ∀ (K : List (Fin n)) (k : Heap n), ∃ ev : List (Call n),
      (K.foldl Heap.Cancel k).Trace = k.Trace ++ ev ∧
      ∀ u, ev.count (Call.Cancel u) = K.count u ∧ ev.count (Call.Cleanup u) = K.count u := by
    intro K
    induction K with
    | nil => intro k; exact ⟨[], by simp, by simp⟩
    | cons a rest ih =>
      intro k
      obtain ⟨ev1, t1, c1, d1, _⟩ := Cancel_calls k a
      obtain ⟨ev2, t2, c2⟩ := ih (k.Cancel a)
      refine ⟨ev1 ++ ev2, ?_, ?_⟩
      · rw [List.foldl_cons, t2, t1, List.append_assoc]
      · intro u
        rw [List.count_append, List.count_append, c1, d1, (c2 u).1, (c2 u).2, List.count_cons]
        by_cases e : u = a
        · subst e; simp; omega
        · have e2 : ¬ a = u := fun x => e x.symm
          simp [e, e2]
  obtain ⟨ev, t, c⟩ := key L h
  refine ⟨ev, by rw [e, t], ?_, ?_⟩
  · intro v hr
    have hv := (hm v).mpr hr
    refine ⟨by rw [(c v).1]; exact List.count_eq_one_of_mem nd hv,
      by rw [(c v).2]; exact List.count_eq_one_of_mem nd hv, ?_⟩
    rw [e, foldl_Cancel_state v L h]
    simp [hv]
  · intro v hr
    have hv : v ∉ L := fun x => hr ((hm v).mp x)
    refine ⟨by rw [(c v).1]; exact List.count_eq_zero_of_not_mem hv,
      by rw [(c v).2]; exact List.count_eq_zero_of_not_mem hv, ?_⟩
    rw [e]
    exact foldl_Cancel_node_not_mem v L h hv

/-- C15: the executor's `Cancel(Graph)` changes neither the heap nor the
executor when the target graph of the executor is gone or is not `Graph`; when
`Graph` is the live target graph it calls `Cancel` exactly once on every node
reachable by child edges from the graph's `RootNodes` and on no other node,
and empties `ActiveNodes`: every reachable node that was before `Finished` is
then `Cancelled` and the others are as they were, so none is `Uninitialized`,
`Standby` or `Active`, and the next `Execute` returns false. -/
theorem Executor_Cancel_cancels_current_graph {n : Nat} (h : Heap n)
    (ex : UAutomationGraphExecutor n) (Graph : Option Nat) :
    (h.GetGraph ex.TargetGraph = none ∨ Graph ≠ ex.TargetGraph →
      UAutomationGraphExecutor.Cancel h ex Graph = (h, ex)) ∧
    (∀ g : UAutomationGraph n, h.GetGraph ex.TargetGraph = some g → Graph = ex.TargetGraph →
      (UAutomationGraphExecutor.Cancel h ex Graph).2 = { ex with ActiveNodes := [] } ∧
      (∀ v, g.ReachableFromRoots h v →
        ((UAutomationGraphExecutor.Cancel h ex Graph).1.CallsSince h).count (Call.Cancel v) = 1 ∧
        (UAutomationGraphExecutor.Cancel h ex Graph).1.GetState v =
          (if h.GetState v = .Uninitialized ∨ h.GetState v = .Standby ∨ h.GetState v = .Active
            then .Cancelled else h.GetState v) ∧
        (UAutomationGraphExecutor.Cancel h ex Graph).1.GetState v ≠ .Uninitialized ∧
        (UAutomationGraphExecutor.Cancel h ex Graph).1.GetState v ≠ .Standby ∧
        (UAutomationGraphExecutor.Cancel h ex Graph).1.GetState v ≠ .Active) ∧
      (∀ v, ¬ g.ReachableFromRoots h v →
        ((UAutomationGraphExecutor.Cancel h ex Graph).1.CallsSince h).count (Call.Cancel v) = 0 ∧
        (UAutomationGraphExecutor.Cancel h ex Graph).1.Node v = h.Node v) ∧
      ∀ dt : Rat, (UAutomationGraphExecutor.Execute
        (UAutomationGraphExecutor.Cancel h ex Graph).1
        (UAutomationGraphExecutor.Cancel h ex Graph).2 dt).2 = false) := by
  refine ⟨?_, ?_⟩
  · intro hc
    unfold UAutomationGraphExecutor.Cancel
    rcases hc with x | x
    · rw [x]
    · split
      · rw [if_neg x]
      · rfl
  · intro g hg hG
    have e : UAutomationGraphExecutor.Cancel h ex Graph =
        (g.CancelNodes h, { ex with ActiveNodes := [] }) := by
      unfold UAutomationGraphExecutor.Cancel
      rw [hg]
      simp only [hG, if_true]
    obtain ⟨ev, t, hin, hout⟩ := CancelNodes_spec g h
    rw [e]
    refine ⟨rfl, ?_, ?_, ?_⟩
    · intro v hr
      obtain ⟨c1, _, s1⟩ := hin v hr
      have s2 : (g.CancelNodes h).GetState v =
          (if h.GetState v = .Uninitialized ∨ h.GetState v = .Standby ∨ h.GetState v = .Active
            then .Cancelled else h.GetState v) := by
        rw [s1]
        by_cases hb : (h.GetState v).toNat < EAutomationGraphNodeState.Finished.toNat
        · rw [if_pos hb, if_pos ((before_Finished_iff _).mp hb)]
        · rw [if_neg hb, if_neg (fun x => hb ((before_Finished_iff _).mpr x))]
      refine ⟨by rw [CallsSince_of_trace t]; exact c1, s2, ?_⟩
      show (g.CancelNodes h).GetState v ≠ _ ∧ (g.CancelNodes h).GetState v ≠ _ ∧
        (g.CancelNodes h).GetState v ≠ _
      rw [s2]
      by_cases hb : h.GetState v = .Uninitialized ∨ h.GetState v = .Standby ∨
          h.GetState v = .Active
      · rw [if_pos hb]
        exact ⟨by decide, by decide, by decide⟩
      · rw [if_neg hb]
        exact ⟨fun x => hb (Or.inl x), fun x => hb (Or.inr (Or.inl x)),
          fun x => hb (Or.inr (Or.inr x))⟩
    · intro v hr
      obtain ⟨c1, _, s1⟩ := hout v hr
      exact ⟨by rw [CallsSince_of_trace t]; exact c1, s1⟩
    · intro dt
      rw [Execute_of_not_active _ _ dt rfl]

/-- C15 on the chain `A → B` after `StartExecution` and one `Execute` (`A`
is `Active`, `B` in `Standby`): cancelling graph `0` cancels both nodes and
empties `ActiveNodes`; cancelling another graph changes nothing. -/
theorem Executor_Cancel_cancels_current_graph_witness :
    (UAutomationGraphExecutor.Cancel (exChainAfter 1).1 (exChainAfter 1).2 (some 0)).1.GetState 0
      = .Cancelled ∧
    (UAutomationGraphExecutor.Cancel (exChainAfter 1).1 (exChainAfter 1).2 (some 0)).1.GetState 1
      = .Cancelled ∧
    (UAutomationGraphExecutor.Cancel (exChainAfter 1).1 (exChainAfter 1).2
      (some 0)).2.ActiveNodes = [] ∧
    UAutomationGraphExecutor.Cancel (exChainAfter 1).1 (exChainAfter 1).2 (some 1) =
      ((exChainAfter 1).1, (exChainAfter 1).2) :=
  have hg : (exChainAfter 1).1.GetGraph (exChainAfter 1).2.TargetGraph =
      some { RootNodes := [0] } := by
    have ht : (exChainAfter 1).2.TargetGraph = some 0 := by decide!
    have hs : exChain.SameShape (exChainAfter 1).1 :=
      Heap.SameShape.trans (StartExecution_shape exChain {} exTask) (Execute_shape _ _ 1)
    rw [ht]
    show (exChainAfter 1).1.Graph 0 = _
    rw [hs.graph]
    rfl
  have hw := (Executor_Cancel_cancels_current_graph (exChainAfter 1).1 (exChainAfter 1).2
    (some 0)).2 _ hg (by decide!)
  have h0 := (hw.2.1 0 ⟨0, by simp, Relation.ReflTransGen.refl⟩).2.1
  have h1 := (hw.2.1 1 ⟨0, by simp, Relation.ReflTransGen.single
    (show (1 : Fin 2) ∈ ((exChainAfter 1).1.Node 0).ChildNodes by decide!)⟩).2.1
  ⟨by rw [h0]; decide!, by rw [h1]; decide!, by rw [hw.1],
    (Executor_Cancel_cancels_current_graph (exChainAfter 1).1 (exChainAfter 1).2 (some 1)).1
      (Or.inr (by decide!))⟩

/-! ## Cleanup of `UAGN_RunTests` -/

theorem RunTests_Cleanup_cases {n : Nat} (h : Heap n) (this : Fin n) (node : UAGN_RunTests)
    (env : RunTestsEnv n) :
    (UAGN_RunTests.Cleanup h this node env = (node, env) ∧
      (node.AutomationController = none ∨ env.AGSubsystem = none)) ∨
    ((UAGN_RunTests.Cleanup h this node env).1.AutomationController = none ∧
      (UAGN_RunTests.Cleanup h this node env).2.ReleaseCalls = env.ReleaseCalls + 1 ∧
      (UAGN_RunTests.Cleanup h this node env).2.AGSubsystem.isSome = true ∧
      env.AGSubsystem.isSome = true) := by
  unfold UAGN_RunTests.Cleanup
  cases hc : node.AutomationController with
  | none => left; simp
  | some c =>
    cases hs : env.AGSubsystem with
    | none => left; simp
    | some sub => right; simp

theorem RunTests_Cleanup_noop {n : Nat} (h : Heap n) (this : Fin n) (node : UAGN_RunTests)
    (env : RunTestsEnv n) (hc : node.AutomationController = none ∨ env.AGSubsystem = none) :
    UAGN_RunTests.Cleanup h this node env = (node, env) := by
  unfold UAGN_RunTests.Cleanup
  rcases hc with x | x
  · simp [x]
  · rw [x]
    split <;> rfl

/-- C17: for a `UAGN_RunTests` node, a second `Cleanup` right after the
first leaves the node and its surroundings as the first left them and makes no
release call, so the two together make at most one. Whatever happened to the
subsystem between the two calls (it did not come into being in between), the
second call changes nothing, so a lock that another node took in between is
still held by that node. `Cancel` followed by `Uninitialize` makes at most one
release call. -/
theorem RunTests_Cleanup_idempotent {n : Nat} (h : Heap n) (this : Fin n)
    (node : UAGN_RunTests) (env : RunTestsEnv n) :
    UAGN_RunTests.Cleanup h this (UAGN_RunTests.Cleanup h this node env).1
      (UAGN_RunTests.Cleanup h this node env).2 = UAGN_RunTests.Cleanup h this node env ∧
    (UAGN_RunTests.Cleanup h this (UAGN_RunTests.Cleanup h this node env).1
      (UAGN_RunTests.Cleanup h this node env).2).2.ReleaseCalls ≤ env.ReleaseCalls + 1 ∧
    (∀ (h2 : Heap n) (env2 : RunTestsEnv n),
      (env.AGSubsystem = none → env2.AGSubsystem = none) →
      UAGN_RunTests.Cleanup h2 this (UAGN_RunTests.Cleanup h this node env).1 env2 =
        ((UAGN_RunTests.Cleanup h this node env).1, env2) ∧
      (UAGN_RunTests.Cleanup h2 this (UAGN_RunTests.Cleanup h this node env).1 env2).2.LockHolder
        h2 = env2.LockHolder h2) ∧
    ∀ m : NodeMembers,
      ( UAGN_RunTests.Uninitialize h this (UAGN_RunTests.Cancel h this m node env).1
        (UAGN_RunTests.Cancel h this m node env).2.1
        (UAGN_RunTests.Cancel h this m node env).2.2).2.2.ReleaseCalls ≤ env.ReleaseCalls + 1 := by
  have key : ∀ (h2 : Heap n) (env2 : RunTestsEnv n),
      (env.AGSubsystem = none → env2.AGSubsystem = none) →
      UAGN_RunTests.Cleanup h2 this (UAGN_RunTests.Cleanup h this node env).1 env2 =
        ((UAGN_RunTests.Cleanup h this node env).1, env2) := by
    intro h2 env2 henv
    apply RunTests_Cleanup_noop
    rcases RunTests_Cleanup_cases h this node env with ⟨e, x | x⟩ | ⟨a, _, _, _⟩
    · rw [e]; exact Or.inl x
    · exact Or.inr (henv x)
    · exact Or.inl a
  have hsame : env.AGSubsystem = none →
      (UAGN_RunTests.Cleanup h this node env).2.AGSubsystem = none := by
    intro x
    rw [RunTests_Cleanup_noop h this node env (Or.inr x)]
    exact x
  have htwice := key h (UAGN_RunTests.Cleanup h this node env).2 hsame
  have hle : (UAGN_RunTests.Cleanup h this node env).2.ReleaseCalls ≤ env.ReleaseCalls + 1 := by
    rcases RunTests_Cleanup_cases h this node env with ⟨e, _⟩ | ⟨_, b, _, _⟩
    · rw [e]; exact Nat.le_succ _
    · rw [b]
  refine ⟨htwice, ?_, ?_, ?_⟩
  · rw [htwice]; exact hle
  · intro h2 env2 henv
    refine ⟨key h2 env2 henv, ?_⟩
    rw [key h2 env2 henv]
  · intro m
    show (UAGN_RunTests.Cleanup h this (UAGN_RunTests.Cleanup h this node env).1
      (UAGN_RunTests.Cleanup h this node env).2).2.ReleaseCalls ≤ _
    rw [htwice]; exact hle

/-- C17 on two live nodes: node `0` holds the lock and a controller handle;
its first `Cleanup` releases the lock (one release call); node `1` then takes
the lock; the second `Cleanup` of node `0` makes no release call and node `1`
still holds the lock. -/
theorem RunTests_Cleanup_idempotent_witness :
    (UAGN_RunTests.Cleanup exTwoNodes 0 exRunTests exEnvHeld).2.ReleaseCalls = 1 ∧
    (UAGN_RunTests.Cleanup exTwoNodes 0 exRunTests exEnvHeld).2.LockHolder exTwoNodes = none ∧
    (UAGN_RunTests.Cleanup exTwoNodes 0
      (UAGN_RunTests.Cleanup exTwoNodes 0 exRunTests exEnvHeld).1
      exEnvTaken).2.LockHolder exTwoNodes = some 1 ∧
    (UAGN_RunTests.Cleanup exTwoNodes 0
      (UAGN_RunTests.Cleanup exTwoNodes 0 exRunTests exEnvHeld).1
      exEnvTaken).2.ReleaseCalls = 1 :=
  have hw := (RunTests_Cleanup_idempotent exTwoNodes 0 exRunTests exEnvHeld).2.2.1 exTwoNodes
    exEnvTaken (by intro x; cases x)
  ⟨by decide, by decide, by rw [hw.2]; decide, by rw [hw.1]; rfl⟩

/-! ## Cleanup calls of a run -/

theorem Heap.ActSegment.act_refl {n : Nat} (h : Heap n) : h.ActSegment h :=
  ⟨Heap.SameShape.refl h, Heap.Frozen.frozen_refl h, [], by simp, by simp⟩

theorem Heap.ActSegment.act_trans {n : Nat} {h k l : Heap n} (a : h.ActSegment k)
    (b : k.ActSegment l) : h.ActSegment l := by
  obtain ⟨ev1, h1, g1⟩ := a.trace
  obtain ⟨ev2, h2, g2⟩ := b.trace
  refine ⟨a.shape.trans b.shape, Heap.Frozen.frozen_trans a.frozen b.frozen, ev1 ++ ev2, ?_, ?_⟩
  · rw [h2, h1, List.append_assoc]
  · intro e he
    rcases List.mem_append.mp he with x | x
    · exact g1 e x
    · exact g2 e x

theorem Heap.ActSegment.act_Activate {n : Nat} (h : Heap n) (v : Fin n) (dt : Rat)
    (hs : h.GetState v = .Standby ∨ h.GetState v = .Active) : h.ActSegment (h.Activate v dt).1 :=
  ⟨Heap.SameShape.Activate h v dt, Heap.Frozen.frozen_Activate h v dt hs,
    [Call.Activate v dt (h.GetState v) (h.ParentsFinished v)], Activate_trace h v dt,
    by simp [Call.isActivate]⟩

/-- Along a stretch of a pass, a node that is not `Standby` or `Active` at the
start is in the same state at the end. -/
theorem Heap.Frozen.state_eq {n : Nat} {h k : Heap n} (a : h.Frozen k) (u : Fin n)
    (h1 : h.GetState u ≠ .Standby) (h2 : h.GetState u ≠ .Active) :
    k.GetState u = h.GetState u := by
  unfold Heap.GetState
  rw [a u h1 h2]

/-- Along a stretch of a pass, a node that is `Standby` or `Active` at the end
was so at the start. -/
theorem Heap.Frozen.was_live {n : Nat} {h k : Heap n} (a : h.Frozen k) (u : Fin n)
    (hk : k.GetState u = .Standby ∨ k.GetState u = .Active) :
    h.GetState u = .Standby ∨ h.GetState u = .Active := by
  by_contra hc
  push_neg at hc
  rw [a.state_eq u hc.1 hc.2] at hk
  rcases hk with x | x
  · exact hc.1 x
  · exact hc.2 x

theorem activateChildren_act {n : Nat} (dt : Rat) (cs : List (Fin n)) (h : Heap n)
    (A : List (Fin n)) :
    h.ActSegment (UAutomationGraphExecutor.Execute.activateChildren dt cs h A).1 ∧
    ∀ x ∈ (UAutomationGraphExecutor.Execute.activateChildren dt cs h A).2,
      x ∈ A ∨ (x ∈ cs ∧ (h.GetState x = .Standby ∨ h.GetState x = .Active)) :=
  (activateChildren_rule dt
    (fun rest k B => h.ActSegment k ∧ (∀ x ∈ rest, x ∈ cs) ∧
      ∀ x ∈ B, x ∈ A ∨ (x ∈ cs ∧ (h.GetState x = .Standby ∨ h.GetState x = .Active)))
    (fun c rest k B hq hc => by
      obtain ⟨hs, _⟩ := CanStartActivation_standby k c hc
      have seg := Heap.ActSegment.act_Activate k c dt (Or.inl hs)
      refine ⟨hq.1.act_trans seg, fun x hx => hq.2.1 x (List.mem_cons_of_mem _ hx), ?_⟩
      intro x hx
      rcases (TSet.mem_Add B c x).mp hx with e | e
      · exact hq.2.2 x e
      · subst e
        exact Or.inr ⟨hq.2.1 x (List.mem_cons_self _ _), hq.1.frozen.was_live x (Or.inl hs)⟩)
    (fun c rest k B hq _ => ⟨hq.1, fun x hx => hq.2.1 x (List.mem_cons_of_mem _ hx), hq.2.2⟩)
    cs h A ⟨Heap.ActSegment.act_refl h, fun _ hx => hx, fun _ hx => Or.inl hx⟩).imp_right
    And.right

theorem pass_act {n : Nat} (dt : Rat) (L : List (Fin n)) (h : Heap n) (h1 : Heap n)
    (A1 R1 : List (Fin n))
    (hres : UAutomationGraphExecutor.Execute.pass dt L h [] [] = .Completed h1 A1 R1) :
    h.ActSegment h1 ∧
    (∀ x ∈ A1, (h.GetState x = .Standby ∨ h.GetState x = .Active) ∧
      ∃ F ∈ L, x ∈ (h.Node F).ChildNodes) ∧
    R1.Nodup ∧
    ∀ x ∈ R1, x ∈ L ∧ h1.GetState x ≠ .Standby ∧ h1.GetState x ≠ .Active := by
  have hrule := pass_rule dt
    (fun rest k A R => h.ActSegment k ∧ (∀ x ∈ rest, x ∈ L) ∧
      (∀ x ∈ A, (h.GetState x = .Standby ∨ h.GetState x = .Active) ∧
        ∃ F ∈ L, x ∈ (h.Node F).ChildNodes) ∧
      R.Nodup ∧ ∀ x ∈ R, x ∈ L ∧ k.GetState x ≠ .Standby ∧ k.GetState x ≠ .Active)
    (fun v rest k A R hp _ hs => by
      have seg := Heap.ActSegment.act_Activate k v dt hs
      refine ⟨hp.1.act_trans seg, fun x hx => hp.2.1 x (List.mem_cons_of_mem _ hx), hp.2.2.1,
        hp.2.2.2.1, ?_⟩
      intro x hx
      obtain ⟨a, b, c⟩ := hp.2.2.2.2 x hx
      have e := seg.frozen.state_eq x b c
      exact ⟨a, by rw [e]; exact b, by rw [e]; exact c⟩)
    (fun v rest k A R hp _ hs => by
      obtain ⟨seg, hA⟩ := activateChildren_act dt (k.Node v).ChildNodes k A
      refine ⟨hp.1.act_trans seg, fun x hx => hp.2.1 x (List.mem_cons_of_mem _ hx), ?_,
        TSet.nodup_Add R v hp.2.2.2.1, ?_⟩
      · intro x hx
        rcases hA x hx with e | ⟨e1, e2⟩
        · exact hp.2.2.1 x e
        · refine ⟨hp.1.frozen.was_live x e2, v, hp.2.1 v (List.mem_cons_self _ _), ?_⟩
          rw [← hp.1.shape.child]
          exact e1
      · intro x hx
        rcases (TSet.mem_Add R v x).mp hx with e | e
        · obtain ⟨a, b, c⟩ := hp.2.2.2.2 x e
          have e2 := seg.frozen.state_eq x b c
          exact ⟨a, by rw [e2]; exact b, by rw [e2]; exact c⟩
        · subst e
          have e2 := seg.frozen.state_eq x (by rw [hs]; decide) (by rw [hs]; decide)
          exact ⟨hp.2.1 x (List.mem_cons_self _ _), by rw [e2, hs]; decide,
            by rw [e2, hs]; decide⟩)
    (fun v rest k A R hp _ hs ha _ => by
      refine ⟨hp.1, fun x hx => hp.2.1 x (List.mem_cons_of_mem _ hx), hp.2.2.1,
        TSet.nodup_Add R v hp.2.2.2.1, ?_⟩
      intro x hx
      rcases (TSet.mem_Add R v x).mp hx with e | e
      · exact hp.2.2.2.2 x e
      · subst e
        exact ⟨hp.2.1 x (List.mem_cons_self _ _), hs, ha⟩)
    L h [] [] ⟨Heap.ActSegment.act_refl h, fun _ hx => hx, by simp, List.nodup_nil, by simp⟩
  rw [hres] at hrule
  exact ⟨hrule.1, hrule.2.2.1, hrule.2.2.2.1, hrule.2.2.2.2⟩

theorem removeNodes_trace {n : Nat} :
    ∀ (R : List (Fin n)) (h : Heap n) (act : List (Fin n)), (∀ v ∈ R, h.Valid v = true) →
      (UAutomationGraphExecutor.Execute.removeNodes R h act).1.Trace =
        h.Trace ++ R.map Call.Cleanup := by
  intro R
  induction R with
  | nil => intro h act _; simp [UAutomationGraphExecutor.Execute.removeNodes]
  | cons v rest ih =>
    intro h act hv
    unfold UAutomationGraphExecutor.Execute.removeNodes
    have hvv := hv v (List.mem_cons_self _ _)
    simp only [hvv, if_true]
    rw [ih (h.Cleanup v) _ (fun u hu => hv u (List.mem_cons_of_mem _ hu))]
    simp [Heap.Cleanup, Heap.log]

theorem count_map_Cleanup {n : Nat} (v : Fin n) :
    ∀ R : List (Fin n), (R.map Call.Cleanup).count (Call.Cleanup v) = R.count v := by
  intro R
  induction R with
  | nil => rfl
  | cons a rest ih =>
    rw [List.map_cons, List.count_cons, List.count_cons, ih]
    by_cases e : a = v
    · subst e; simp
    · have e2 : ¬ Call.Cleanup a = Call.Cleanup v := fun x => e (by injection x)
      simp [e, e2]

theorem count_Cleanup_of_isActivate {n : Nat} (v : Fin n) (ev : List (Call n))
    (hev : ∀ e ∈ ev, e.isActivate = true) : ev.count (Call.Cleanup v) = 0 := by
  apply List.count_eq_zero_of_not_mem
  intro hm
  have := hev _ hm
  simp [Call.isActivate] at this

theorem Execute_throttled {n : Nat} (h : Heap n) (ex : UAutomationGraphExecutor n) (dt : Rat)
    (hne : ex.ActiveNodes ≠ []) (ht : ¬ ex.ExecutionTimer - dt ≤ 0) :
    UAutomationGraphExecutor.Execute h ex dt =
      ((h, { ex with ExecutionTimer := ex.ExecutionTimer - dt }), true) := by
  unfold UAutomationGraphExecutor.Execute
  have he : ex.ActiveNodes.isEmpty = false := by
    cases hx : ex.ActiveNodes with
    | nil => exact absurd hx hne
    | cons a l => rfl
  have ht2 : ex.ExecutionTimer - dt > 0 := lt_of_not_ge ht
  simp only [he, Bool.false_eq_true, if_false, ht2, if_true]

/-- One `Execute` call on a heap whose nodes are all live: the calls it makes,
and which nodes leave or join `ActiveNodes`. -/
theorem Execute_cleanup_step {n : Nat} (h : Heap n) (ex : UAutomationGraphExecutor n) (dt : Rat)
    (hvalid : ∀ v, h.Valid v = true) :
    ∃ ev : List (Call n),
      (UAutomationGraphExecutor.Execute h ex dt).1.1.Trace = h.Trace ++ ev ∧
      h.Frozen (UAutomationGraphExecutor.Execute h ex dt).1.1 ∧
      (UAutomationGraphExecutor.Execute h ex dt).1.2.TargetGraph = ex.TargetGraph ∧
      ∀ v,
        (v ∈ ex.ActiveNodes → v ∉ (UAutomationGraphExecutor.Execute h ex dt).1.2.ActiveNodes →
          ev.count (Call.Cleanup v) = 1 ∧
          (UAutomationGraphExecutor.Execute h ex dt).1.1.GetState v ≠ .Standby ∧
          (UAutomationGraphExecutor.Execute h ex dt).1.1.GetState v ≠ .Active) ∧
        (ev.count (Call.Cleanup v) ≠ 0 →
          v ∈ ex.ActiveNodes ∧ v ∉ (UAutomationGraphExecutor.Execute h ex dt).1.2.ActiveNodes) ∧
        (v ∈ (UAutomationGraphExecutor.Execute h ex dt).1.2.ActiveNodes →
          v ∈ ex.ActiveNodes ∨ ((h.GetState v = .Standby ∨ h.GetState v = .Active) ∧
            ∃ F ∈ ex.ActiveNodes, v ∈ (h.Node F).ChildNodes)) := by
  by_cases hne : ex.ActiveNodes = []
  · rw [Execute_of_not_active h ex dt hne]
    refine ⟨[], by simp, Heap.Frozen.frozen_refl h, rfl, ?_⟩
    intro v
    exact ⟨fun a b => absurd a b, fun a => absurd rfl a, fun a => Or.inl a⟩
  by_cases ht : ex.ExecutionTimer - dt ≤ 0
  · obtain ⟨h1, A1, R1, hres⟩ := pass_completed_of_valid dt ex.ActiveNodes h [] []
      (fun v _ => hvalid v)
    obtain ⟨seg, hA, hRnd, hR⟩ := pass_act dt ex.ActiveNodes h h1 A1 R1 hres
    obtain ⟨e1, e2⟩ := Execute_eq_of_pass h ex dt hne ht h1 A1 R1 hres
    obtain ⟨r1, _, _, r4, _⟩ := removeNodes_spec R1 h1 (TSet.Append ex.ActiveNodes A1)
    have hv1 : ∀ v ∈ R1, h1.Valid v = true := fun v _ => by rw [seg.shape.valid]; exact hvalid v
    have rt := removeNodes_trace R1 h1 (TSet.Append ex.ActiveNodes A1) hv1
    obtain ⟨ev, t, hev⟩ := seg.trace
    have hstate : ∀ u, (UAutomationGraphExecutor.Execute h ex dt).1.1.GetState u =
        h1.GetState u := by
      intro u; unfold Heap.GetState; rw [e1, r1]
    have hfro : h.Frozen (UAutomationGraphExecutor.Execute h ex dt).1.1 := by
      intro u a b
      rw [e1, r1]
      exact seg.frozen u a b
    have htg : (UAutomationGraphExecutor.Execute h ex dt).1.2.TargetGraph = ex.TargetGraph := by
      unfold UAutomationGraphExecutor.Execute
      have he : ex.ActiveNodes.isEmpty = false := by
        cases hx : ex.ActiveNodes with
        | nil => exact absurd hx hne
        | cons a l => rfl
      have ht2 : ¬ ex.ExecutionTimer - dt > 0 := not_lt.mpr ht
      simp only [he, Bool.false_eq_true, if_false, ht2]
      rw [hres]
    have hcount : ∀ v, (ev ++ R1.map Call.Cleanup).count (Call.Cleanup v) = R1.count v := by
      intro v
      rw [List.count_append, count_Cleanup_of_isActivate v ev hev, count_map_Cleanup, Nat.zero_add]
    refine ⟨ev ++ R1.map Call.Cleanup, ?_, hfro, htg, ?_⟩
    · rw [e1, rt, t, List.append_assoc]
    · intro v
      rw [hcount, e2, r4]
      refine ⟨?_, ?_, ?_⟩
      · intro hin hout
        have hvR : v ∈ R1 := by
          by_contra hc
          exact hout ⟨(TSet.mem_Append A1 _ v).mpr (Or.inl hin), hc⟩
        refine ⟨List.count_eq_one_of_mem hRnd hvR, ?_, ?_⟩
        · rw [hstate]; exact (hR v hvR).2.1
        · rw [hstate]; exact (hR v hvR).2.2
      · intro hc
        have hvR : v ∈ R1 := by
          by_contra hx
          exact hc (List.count_eq_zero_of_not_mem hx)
        exact ⟨(hR v hvR).1, fun x => x.2 hvR⟩
      · intro hx
        rcases (TSet.mem_Append A1 _ v).mp hx.1 with a | a
        · exact Or.inl a
        · exact Or.inr (hA v a)
  · rw [Execute_throttled h ex dt hne ht]
    refine ⟨[], by simp, Heap.Frozen.frozen_refl h, rfl, ?_⟩
    intro v
    exact ⟨fun a b => absurd a b, fun a => absurd rfl a, fun a => Or.inl a⟩

theorem Execute_CleanupInv {n : Nat} (b : Heap n) (s : Heap n × UAutomationGraphExecutor n)
    (dt : Rat) (hinv : UAutomationGraphExecutor.CleanupInv b s) :
    UAutomationGraphExecutor.CleanupInv b (UAutomationGraphExecutor.Execute s.1 s.2 dt).1 ∧
    (∀ v, UAutomationGraphExecutor.HasLeft b s v →
      UAutomationGraphExecutor.HasLeft b (UAutomationGraphExecutor.Execute s.1 s.2 dt).1 v) ∧
    (∀ v, v ∈ s.2.ActiveNodes →
      v ∉ (UAutomationGraphExecutor.Execute s.1 s.2 dt).1.2.ActiveNodes →
      ((UAutomationGraphExecutor.Execute s.1 s.2 dt).1.1.CallsSince s.1).count
        (Call.Cleanup v) = 1 ∧
      UAutomationGraphExecutor.HasLeft b (UAutomationGraphExecutor.Execute s.1 s.2 dt).1 v) := by
  obtain ⟨hvalid, ⟨ev, t⟩, hall⟩ := hinv
  obtain ⟨ev2, t2, hfro, _, hstep⟩ := Execute_cleanup_step s.1 s.2 dt hvalid
  have t3 : (UAutomationGraphExecutor.Execute s.1 s.2 dt).1.1.Trace = b.Trace ++ (ev ++ ev2) := by
    rw [t2, t, List.append_assoc]
  have hc : ∀ v, ((UAutomationGraphExecutor.Execute s.1 s.2 dt).1.1.CallsSince b).count
      (Call.Cleanup v) = (s.1.CallsSince b).count (Call.Cleanup v) + ev2.count (Call.Cleanup v) := by
    intro v
    rw [CallsSince_of_trace t3, CallsSince_of_trace t, List.count_append]
  have hkeep : ∀ v, UAutomationGraphExecutor.HasLeft b s v →
      UAutomationGraphExecutor.HasLeft b (UAutomationGraphExecutor.Execute s.1 s.2 dt).1 v := by
    intro v ⟨c1, c2, c3, c4⟩
    have hz : ev2.count (Call.Cleanup v) = 0 := by
      by_contra hx
      exact c2 ((hstep v).2.1 hx).1
    have e := hfro.state_eq v c3 c4
    refine ⟨by rw [hc, c1, hz], ?_, by rw [e]; exact c3, by rw [e]; exact c4⟩
    intro hx
    rcases (hstep v).2.2 hx with a | ⟨a, _⟩
    · exact c2 a
    · rcases a with a | a
      · exact c3 a
      · exact c4 a
  have hleave : ∀ v, v ∈ s.2.ActiveNodes →
      v ∉ (UAutomationGraphExecutor.Execute s.1 s.2 dt).1.2.ActiveNodes →
      ev2.count (Call.Cleanup v) = 1 ∧
      UAutomationGraphExecutor.HasLeft b (UAutomationGraphExecutor.Execute s.1 s.2 dt).1 v := by
    intro v hin hout
    obtain ⟨c1, c2, c3⟩ := (hstep v).1 hin hout
    have hz : (s.1.CallsSince b).count (Call.Cleanup v) = 0 := by
      rcases hall v with a | a
      · exact a
      · exact absurd hin a.2.1
    exact ⟨c1, by rw [hc, hz, c1], hout, c2, c3⟩
  refine ⟨⟨?_, ⟨_, t3⟩, ?_⟩, hkeep, ?_⟩
  · intro u
    rw [(Execute_shape s.1 s.2 dt).valid]
    exact hvalid u
  · intro v
    by_cases hz : ev2.count (Call.Cleanup v) = 0
    · rcases hall v with a | a
      · left; rw [hc, a, hz]
      · right; exact hkeep v a
    · obtain ⟨hin, hout⟩ := (hstep v).2.1 hz
      right
      exact (hleave v hin hout).2
  · intro v hin hout
    refine ⟨?_, (hleave v hin hout).2⟩
    rw [CallsSince_of_trace t2]
    exact (hleave v hin hout).1

theorem ExecuteAll_CleanupInv {n : Nat} (b : Heap n) :
    ∀ (dts : List Rat) (s : Heap n × UAutomationGraphExecutor n),
      UAutomationGraphExecutor.CleanupInv b s →
      UAutomationGraphExecutor.CleanupInv b (UAutomationGraphExecutor.ExecuteAll dts s) ∧
      ∀ v, UAutomationGraphExecutor.HasLeft b s v →
        UAutomationGraphExecutor.HasLeft b (UAutomationGraphExecutor.ExecuteAll dts s) v := by
  intro dts
  induction dts with
  | nil => intro s hs; exact ⟨hs, fun _ x => x⟩
  | cons d rest ih =>
    intro s hs
    obtain ⟨a, b1, _⟩ := Execute_CleanupInv b s d hs
    obtain ⟨c, d1⟩ := ih _ a
    exact ⟨c, fun v hv => d1 v (b1 v hv)⟩

theorem ExecuteAll_append {n : Nat} :
    ∀ (d1 d2 : List Rat) (s : Heap n × UAutomationGraphExecutor n),
      UAutomationGraphExecutor.ExecuteAll (d1 ++ d2) s =
        UAutomationGraphExecutor.ExecuteAll d2 (UAutomationGraphExecutor.ExecuteAll d1 s) := by
  intro d1
  induction d1 with
  | nil => intro d2 s; rfl
  | cons d rest ih => intro d2 s; exact ih d2 _

theorem Execute_TracksGraph {n : Nat} (g : UAutomationGraph n) (p : Option Nat)
    (s : Heap n × UAutomationGraphExecutor n) (dt : Rat) (hvalid : ∀ u, s.1.Valid u = true)
    (ht : UAutomationGraphExecutor.TracksGraph g p s) :
    UAutomationGraphExecutor.TracksGraph g p (UAutomationGraphExecutor.Execute s.1 s.2 dt).1 := by
  obtain ⟨ev2, _, _, htg, hstep⟩ := Execute_cleanup_step s.1 s.2 dt hvalid
  have hsh := Execute_shape s.1 s.2 dt
  refine ⟨htg.trans ht.1, by rw [hsh.getGraph]; exact ht.2.1, ?_⟩
  intro v hv
  rw [hsh.reachableFromRoots]
  rcases (hstep v).2.2 hv with a | ⟨_, F, hF, hc⟩
  · exact ht.2.2 v a
  · obtain ⟨r, hr, hreach⟩ := ht.2.2 F hF
    exact ⟨r, hr, Relation.ReflTransGen.tail hreach hc⟩

theorem ExecuteAll_TracksGraph {n : Nat} (g : UAutomationGraph n) (p : Option Nat) :
    ∀ (dts : List Rat) (s : Heap n × UAutomationGraphExecutor n), (∀ u, s.1.Valid u = true) →
      UAutomationGraphExecutor.TracksGraph g p s →
      UAutomationGraphExecutor.TracksGraph g p (UAutomationGraphExecutor.ExecuteAll dts s) := by
  intro dts
  induction dts with
  | nil => intro s _ hs; exact hs
  | cons d rest ih =>
    intro s hv hs
    refine ih _ ?_ (Execute_TracksGraph g p s d hv hs)
    intro u
    rw [(Execute_shape s.1 s.2 d).valid]
    exact hv u

theorem ExecuteAll_shape {n : Nat} :
    ∀ (dts : List Rat) (s : Heap n × UAutomationGraphExecutor n),
      s.1.SameShape (UAutomationGraphExecutor.ExecuteAll dts s).1 := by
  intro dts
  induction dts with
  | nil => intro s; exact Heap.SameShape.refl s.1
  | cons d rest ih => intro s; exact Heap.SameShape.trans (Execute_shape s.1 s.2 d) (ih _)

theorem Cancel_eq_of_target {n : Nat} (h : Heap n) (ex : UAutomationGraphExecutor n)
    (g : UAutomationGraph n) (hg : h.GetGraph ex.TargetGraph = some g) :
    UAutomationGraphExecutor.Cancel h ex ex.TargetGraph =
      (g.CancelNodes h, { ex with ActiveNodes := [] }) := by
  unfold UAutomationGraphExecutor.Cancel
  rw [hg]
  simp only [if_true]

theorem StartExecution_started_run {n : Nat} (h : Heap n) (ex : UAutomationGraphExecutor n)
    (task : FGraphExecutionTask)
    (hstart : (UAutomationGraphExecutor.StartExecution h ex task).2 = .Started)
    (hvalid : ∀ v, h.Valid v = true) :
    ∃ g : UAutomationGraph n,
      UAutomationGraphExecutor.CleanupInv (UAutomationGraphExecutor.Reset h ex).1
        (UAutomationGraphExecutor.StartExecution h ex task).1 ∧
      UAutomationGraphExecutor.TracksGraph g task.TargetGraph
        (UAutomationGraphExecutor.StartExecution h ex task).1 := by
  obtain ⟨g, World, hg, hw, ht⟩ := StartExecution_not_skipped h ex task
    (by rw [hstart]; decide)
  obtain ⟨L, h1, ex2, hh1, hex2, _, _, hcase⟩ := StartExecution_cases h ex task g World hg hw ht
  have hsh := StartExecution_shape h ex task
  rcases hcase with ⟨e, _⟩ | ⟨e, _⟩
  · refine ⟨g, ⟨?_, ?_, ?_⟩, ?_, ?_, ?_⟩
    · intro u; rw [hsh.valid]; exact hvalid u
    · rw [e]
      exact ⟨L.map Call.Initialize, by rw [foldl_Initialize_trace, hh1]⟩
    · intro v
      left
      have t : (UAutomationGraphExecutor.StartExecution h ex task).1.1.Trace =
          (UAutomationGraphExecutor.Reset h ex).1.Trace ++ L.map Call.Initialize := by
        rw [e]
        show (L.foldl _ h1).Trace = _
        rw [foldl_Initialize_trace, hh1]
      rw [CallsSince_of_trace t]
      apply List.count_eq_zero_of_not_mem
      intro hm
      obtain ⟨x, _, hx⟩ := List.mem_map.mp hm
      cases hx
    · rw [e, hex2]
    · rw [hsh.getGraph]; exact hg
    · intro v hv
      rw [e, hex2] at hv
      have hv2 : v ∈ g.TriggeredRoots h task.Trigger := by
        rcases (TSet.mem_Append _ _ v).mp hv with a | a
        · exact absurd a (List.not_mem_nil _)
        · exact a
      rw [hsh.reachableFromRoots]
      exact ⟨v, TriggeredRoots_subset g h _ v hv2, Relation.ReflTransGen.refl⟩
  · rw [e] at hstart
    cases hstart

/-- C16, as stated, fails on the chain `A → B`: the run starts, `A` is tracked
after two `Execute` calls and has left after the third, with one `Cleanup`; the
executor's `Cancel` on the running graph then calls `Cleanup` on `A` again, so
`A` has received two `Cleanup` calls in the run attempt. -/
theorem Cancel_repeats_Cleanup_of_left_node :
    (UAutomationGraphExecutor.StartExecution exChain {} exTask).2 = .Started ∧
    (0 : Fin 2) ∈ (UAutomationGraphExecutor.RunAfter exChain {} exTask [1, 1]).2.ActiveNodes ∧
    (0 : Fin 2) ∉ (UAutomationGraphExecutor.RunAfter exChain {} exTask [1, 1, 1]).2.ActiveNodes ∧
    ((UAutomationGraphExecutor.RunAfter exChain {} exTask [1, 1, 1]).1.CallsSince exChain).count
      (Call.Cleanup 0) = 1 ∧
    ((UAutomationGraphExecutor.Cancel
      (UAutomationGraphExecutor.RunAfter exChain {} exTask [1, 1, 1]).1
      (UAutomationGraphExecutor.RunAfter exChain {} exTask [1, 1, 1]).2
      (some 0)).1.CallsSince exChain).count (Call.Cleanup 0) = 2 := by
  decide!

/-- C16, amended: in a run attempt started by a successful `StartExecution`
on a heap whose nodes are all live, counting the calls made after the reset
that begins `StartExecution`: a node that leaves `ActiveNodes` in an `Execute`
call receives exactly one `Cleanup` call in that `Execute` call, and that is
its only one however many `Execute` calls follow; a tracked node has received
none. When the executor's `Cancel` on the running graph ends the run attempt,
it makes one more `Cleanup` call on each of these nodes: a node that had left
before has then received two, a node still tracked one, and `ActiveNodes` is
empty. -/
theorem Execute_cleans_up_leaving_node_once {n : Nat} (h : Heap n)
    (ex : UAutomationGraphExecutor n) (task : FGraphExecutionTask)
    (hstart : (UAutomationGraphExecutor.StartExecution h ex task).2 = .Started)
    (hvalid : ∀ v, h.Valid v = true) :
    (∀ (dts1 : List Rat) (dt : Rat) (dts2 : List Rat) (v : Fin n),
      v ∈ (UAutomationGraphExecutor.RunAfter h ex task dts1).2.ActiveNodes →
      v ∉ (UAutomationGraphExecutor.RunAfter h ex task (dts1 ++ [dt])).2.ActiveNodes →
      ((UAutomationGraphExecutor.RunAfter h ex task (dts1 ++ [dt])).1.CallsSince
        (UAutomationGraphExecutor.RunAfter h ex task dts1).1).count (Call.Cleanup v) = 1 ∧
      ((UAutomationGraphExecutor.RunAfter h ex task (dts1 ++ dt :: dts2)).1.CallsSince
        (UAutomationGraphExecutor.Reset h ex).1).count (Call.Cleanup v) = 1 ∧
      ((UAutomationGraphExecutor.Cancel
        (UAutomationGraphExecutor.RunAfter h ex task (dts1 ++ dt :: dts2)).1
        (UAutomationGraphExecutor.RunAfter h ex task (dts1 ++ dt :: dts2)).2
        task.TargetGraph).1.CallsSince
          (UAutomationGraphExecutor.Reset h ex).1).count (Call.Cleanup v) = 2) ∧
    (∀ (dts : List Rat) (v : Fin n),
      v ∈ (UAutomationGraphExecutor.RunAfter h ex task dts).2.ActiveNodes →
      ((UAutomationGraphExecutor.RunAfter h ex task dts).1.CallsSince
        (UAutomationGraphExecutor.Reset h ex).1).count (Call.Cleanup v) = 0 ∧
      ((UAutomationGraphExecutor.Cancel
        (UAutomationGraphExecutor.RunAfter h ex task dts).1
        (UAutomationGraphExecutor.RunAfter h ex task dts).2
        task.TargetGraph).1.CallsSince
          (UAutomationGraphExecutor.Reset h ex).1).count (Call.Cleanup v) = 1 ∧
      (UAutomationGraphExecutor.Cancel
        (UAutomationGraphExecutor.RunAfter h ex task dts).1
        (UAutomationGraphExecutor.RunAfter h ex task dts).2
        task.TargetGraph).2.ActiveNodes = []) := by
  obtain ⟨g, hinv0, htr0⟩ := StartExecution_started_run h ex task hstart hvalid
  have hinv : ∀ dts, UAutomationGraphExecutor.CleanupInv (UAutomationGraphExecutor.Reset h ex).1
      (UAutomationGraphExecutor.RunAfter h ex task dts) :=
    fun dts => (ExecuteAll_CleanupInv _ dts _ hinv0).1
  have htr : ∀ dts, UAutomationGraphExecutor.TracksGraph g task.TargetGraph
      (UAutomationGraphExecutor.RunAfter h ex task dts) :=
    fun dts => ExecuteAll_TracksGraph g _ dts _ hinv0.1 htr0
  -- the calls since the reset after a `Cancel` on the running graph
  have hcancel : ∀ (dts : List Rat) (v : Fin n),
      g.ReachableFromRoots (UAutomationGraphExecutor.RunAfter h ex task dts).1 v →
      ((UAutomationGraphExecutor.Cancel
        (UAutomationGraphExecutor.RunAfter h ex task dts).1
        (UAutomationGraphExecutor.RunAfter h ex task dts).2
        task.TargetGraph).1.CallsSince
          (UAutomationGraphExecutor.Reset h ex).1).count (Call.Cleanup v) =
        ((UAutomationGraphExecutor.RunAfter h ex task dts).1.CallsSince
          (UAutomationGraphExecutor.Reset h ex).1).count (Call.Cleanup v) + 1 ∧
      (UAutomationGraphExecutor.Cancel
        (UAutomationGraphExecutor.RunAfter h ex task dts).1
        (UAutomationGraphExecutor.RunAfter h ex task dts).2
        task.TargetGraph).2.ActiveNodes = [] := by
    intro dts v hreach
    obtain ⟨e1, e2, _⟩ := htr dts
    obtain ⟨_, ⟨ev, t⟩, _⟩ := hinv dts
    have hc := Cancel_eq_of_target (UAutomationGraphExecutor.RunAfter h ex task dts).1
      (UAutomationGraphExecutor.RunAfter h ex task dts).2 g (by rw [e1]; exact e2)
    rw [e1] at hc
    rw [hc]
    obtain ⟨evc, tc, hin, _⟩ := CancelNodes_spec g
      (UAutomationGraphExecutor.RunAfter h ex task dts).1
    have t2 : (g.CancelNodes (UAutomationGraphExecutor.RunAfter h ex task dts).1).Trace =
        (UAutomationGraphExecutor.Reset h ex).1.Trace ++ (ev ++ evc) := by
      rw [tc, t, List.append_assoc]
    refine ⟨?_, rfl⟩
    show ((g.CancelNodes _).CallsSince _).count _ = _
    rw [CallsSince_of_trace t2, CallsSince_of_trace t, List.count_append, (hin v hreach).2.1]
  refine ⟨?_, ?_⟩
  · intro dts1 dt dts2 v hin hout
    have e2 : UAutomationGraphExecutor.RunAfter h ex task (dts1 ++ [dt]) =
        (UAutomationGraphExecutor.Execute (UAutomationGraphExecutor.RunAfter h ex task dts1).1
          (UAutomationGraphExecutor.RunAfter h ex task dts1).2 dt).1 := by
      unfold UAutomationGraphExecutor.RunAfter
      rw [ExecuteAll_append]
      rfl
    have e3 : UAutomationGraphExecutor.RunAfter h ex task (dts1 ++ dt :: dts2) =
        UAutomationGraphExecutor.ExecuteAll dts2
          (UAutomationGraphExecutor.RunAfter h ex task (dts1 ++ [dt])) := by
      unfold UAutomationGraphExecutor.RunAfter
      rw [← ExecuteAll_append, List.append_assoc]
      rfl
    rw [e2] at hout
    obtain ⟨c1, hleft⟩ := (Execute_CleanupInv _ _ dt (hinv dts1)).2.2 v hin hout
    rw [← e2] at c1 hleft
    have hleft3 := (ExecuteAll_CleanupInv _ dts2 _ (hinv (dts1 ++ [dt]))).2 v hleft
    rw [← e3] at hleft3
    have hreach : g.ReachableFromRoots
        (UAutomationGraphExecutor.RunAfter h ex task (dts1 ++ dt :: dts2)).1 v := by
      have hsh : (UAutomationGraphExecutor.RunAfter h ex task dts1).1.SameShape
          (UAutomationGraphExecutor.RunAfter h ex task (dts1 ++ dt :: dts2)).1 := by
        unfold UAutomationGraphExecutor.RunAfter
        rw [ExecuteAll_append]
        exact ExecuteAll_shape _ _
      rw [hsh.reachableFromRoots]
      exact (htr dts1).2.2 v hin
    refine ⟨c1, hleft3.1, ?_⟩
    rw [(hcancel _ v hreach).1, hleft3.1]
  · intro dts v hin
    have hz : ((UAutomationGraphExecutor.RunAfter h ex task dts).1.CallsSince
        (UAutomationGraphExecutor.Reset h ex).1).count (Call.Cleanup v) = 0 := by
      rcases (hinv dts).2.2 v with a | a
      · exact a
      · exact absurd hin a.2.1
    have hc := hcancel dts v ((htr dts).2.2 v hin)
    exact ⟨hz, by rw [hc.1, hz], hc.2⟩

/-- C16, amended, on the chain `A → B`: `A` leaves `ActiveNodes` in the third
`Execute` call with one `Cleanup`, still its only one after a fourth call; a
`Cancel` on the running graph then brings it to two. -/
theorem Execute_cleans_up_leaving_node_once_witness :
    ((UAutomationGraphExecutor.RunAfter exChain {} exTask ([1, 1] ++ [1])).1.CallsSince
      (UAutomationGraphExecutor.RunAfter exChain {} exTask [1, 1]).1).count
      (Call.Cleanup 0) = 1 ∧
    ((UAutomationGraphExecutor.RunAfter exChain {} exTask ([1, 1] ++ 1 :: [1])).1.CallsSince
      (UAutomationGraphExecutor.Reset exChain {}).1).count (Call.Cleanup 0) = 1 ∧
    ((UAutomationGraphExecutor.Cancel
      (UAutomationGraphExecutor.RunAfter exChain {} exTask ([1, 1] ++ 1 :: [1])).1
      (UAutomationGraphExecutor.RunAfter exChain {} exTask ([1, 1] ++ 1 :: [1])).2
      exTask.TargetGraph).1.CallsSince
        (UAutomationGraphExecutor.Reset exChain {}).1).count (Call.Cleanup 0) = 2 :=
  (Execute_cleans_up_leaving_node_once exChain {} exTask (by decide!) (fun _ => rfl)).1
    [1, 1] 1 [1] 0 (by decide!) (by decide!)

/-! ## StartExecution with a task that is not valid -/

/-- C25: `StartExecution` with a task whose graph reference does not resolve,
whose world reference does not resolve, or whose trigger is `Unknown` returns
at once: the heap (so every node) and the executor (`TargetGraph`,
`ActiveNodes`, `ExecutionTimer`) are as before the call, whatever the state of
the executor. -/
theorem StartExecution_invalid_task_changes_nothing {n : Nat} (h : Heap n)
    (ex : UAutomationGraphExecutor n) (task : FGraphExecutionTask)
    (hbad : h.GetGraph task.TargetGraph = none ∨ task.TargetWorld = none ∨
      task.Trigger = .Unknown) :
    UAutomationGraphExecutor.StartExecution h ex task = ((h, ex), .Skipped) := by
  unfold UAutomationGraphExecutor.StartExecution
  cases hg : h.GetGraph task.TargetGraph with
  | none => rfl
  | some g =>
    cases hw : task.TargetWorld with
    | none => rfl
    | some w =>
      rcases hbad with x | x | x
      · rw [hg] at x; cases x
      · rw [hw] at x; cases x
      · simp only [x, if_true]

/-- C25 on the chain `A → B` while its run is in progress (`A` is `Active`):
a task with trigger `Unknown`, a task for a graph that does not exist and a
task without world leave the heap and the executor as they are. -/
theorem StartExecution_invalid_task_changes_nothing_witness :
    UAutomationGraphExecutor.StartExecution (exChainAfter 1).1 (exChainAfter 1).2
      { TargetGraph := some 0, TargetWorld := some 0, Trigger := .Unknown } =
      (((exChainAfter 1).1, (exChainAfter 1).2), .Skipped) ∧
    UAutomationGraphExecutor.StartExecution (exChainAfter 1).1 (exChainAfter 1).2
      { TargetGraph := some 5, TargetWorld := some 0, Trigger := .OnPlay } =
      (((exChainAfter 1).1, (exChainAfter 1).2), .Skipped) ∧
    UAutomationGraphExecutor.StartExecution (exChainAfter 1).1 (exChainAfter 1).2
      { TargetGraph := some 0, TargetWorld := none, Trigger := .OnPlay } =
      (((exChainAfter 1).1, (exChainAfter 1).2), .Skipped) ∧
    (exChainAfter 1).2.ActiveNodes = [0] ∧ (exChainAfter 1).1.GetState 0 = .Active :=
  ⟨StartExecution_invalid_task_changes_nothing _ _ _ (Or.inr (Or.inr rfl)),
    StartExecution_invalid_task_changes_nothing _ _ _ (Or.inl (by
      have hs : exChain.SameShape (exChainAfter 1).1 :=
        Heap.SameShape.trans (StartExecution_shape exChain {} exTask) (Execute_shape _ _ 1)
      show (exChainAfter 1).1.Graph 5 = none
      rw [hs.graph]
      rfl)),
    StartExecution_invalid_task_changes_nothing _ _ _ (Or.inr (Or.inl rfl)),
    by decide!, by decide!⟩

/-! ## The first two activations of a base node -/

/-- C29: after a successful base `Initialize`, the first `Activate(dt)` leaves
`TimeElapsedSec` zero whatever `dt` is, and does not return `Finished`. With
`NodeTimeoutSec > 0` it leaves the node `Active`, and the next `Activate(dt2)`
leaves `TimeElapsedSec = dt2` and the node `Finished` when
`dt2 < NodeTimeoutSec`, `Expired` when `dt2 ≥ NodeTimeoutSec`. -/
theorem Activate_in_Standby_counts_no_time (m : NodeMembers) (World : UWorld) (dt dt2 : Rat)
    (hinit : (UAutomationGraphNode.Initialize m World).2 = true) :
    (UAutomationGraphNode.Activate UAutomationGraphNode.StaticClass
      (UAutomationGraphNode.Initialize m World).1 dt).1.TimeElapsedSec = 0 ∧
    (UAutomationGraphNode.Activate UAutomationGraphNode.StaticClass
      (UAutomationGraphNode.Initialize m World).1 dt).2 ≠ .Finished ∧
    (0 < m.NodeTimeoutSec →
      UAutomationGraphNode.Activate UAutomationGraphNode.StaticClass
        (UAutomationGraphNode.Initialize m World).1 dt =
        ({ NodeState := .Active, TimeElapsedSec := 0, NodeTimeoutSec := m.NodeTimeoutSec },
          .Active) ∧
      (dt2 < m.NodeTimeoutSec →
        UAutomationGraphNode.Activate UAutomationGraphNode.StaticClass
          (UAutomationGraphNode.Activate UAutomationGraphNode.StaticClass
            (UAutomationGraphNode.Initialize m World).1 dt).1 dt2 =
          ({ NodeState := .Finished, TimeElapsedSec := dt2,
             NodeTimeoutSec := m.NodeTimeoutSec }, .Finished)) ∧
      (m.NodeTimeoutSec ≤ dt2 →
        UAutomationGraphNode.Activate UAutomationGraphNode.StaticClass
          (UAutomationGraphNode.Activate UAutomationGraphNode.StaticClass
            (UAutomationGraphNode.Initialize m World).1 dt).1 dt2 =
          ({ NodeState := .Expired, TimeElapsedSec := dt2,
             NodeTimeoutSec := m.NodeTimeoutSec }, .Expired))) := by
  have hna : m.NodeState ≠ .Active := by
    intro ha
    simp [UAutomationGraphNode.Initialize, ha] at hinit
  have e0 : (UAutomationGraphNode.Initialize m World).1 =
      { NodeState := .Standby, TimeElapsedSec := 0, NodeTimeoutSec := m.NodeTimeoutSec } := by
    simp [UAutomationGraphNode.Initialize, hna, UAutomationGraphNode.SetState]
  rw [e0]
  by_cases ht : 0 < m.NodeTimeoutSec
  · have ht2 : ¬ (0 : Rat) ≥ m.NodeTimeoutSec := not_le.mpr ht
    have e1 : UAutomationGraphNode.Activate UAutomationGraphNode.StaticClass
        { NodeState := .Standby, TimeElapsedSec := 0, NodeTimeoutSec := m.NodeTimeoutSec } dt =
        ({ NodeState := .Active, TimeElapsedSec := 0, NodeTimeoutSec := m.NodeTimeoutSec },
          .Active) := by
      simp [UAutomationGraphNode.Activate, UAutomationGraphNode.StaticClass,
        UAutomationGraphNode.ActivateInternal, UAutomationGraphNode.SetState, ht2]
    rw [e1]
    refine ⟨rfl, ?_, fun _ => ⟨rfl, ?_, ?_⟩⟩
    · simp
    · intro hlt
      have hlt2 : ¬ dt2 ≥ m.NodeTimeoutSec := not_le.mpr hlt
      simp [UAutomationGraphNode.Activate, UAutomationGraphNode.StaticClass,
        UAutomationGraphNode.ActivateInternal, UAutomationGraphNode.SetState, hlt2]
    · intro hge
      simp [UAutomationGraphNode.Activate, UAutomationGraphNode.SetState, hge]
  · have ht2 : (0 : Rat) ≥ m.NodeTimeoutSec := not_lt.mp ht
    have e1 : UAutomationGraphNode.Activate UAutomationGraphNode.StaticClass
        { NodeState := .Standby, TimeElapsedSec := 0, NodeTimeoutSec := m.NodeTimeoutSec } dt =
        ({ NodeState := .Expired, TimeElapsedSec := 0, NodeTimeoutSec := m.NodeTimeoutSec },
          .Expired) := by
      simp [UAutomationGraphNode.Activate, UAutomationGraphNode.SetState, ht2]
    rw [e1]
    refine ⟨rfl, ?_, fun x => absurd x ht⟩
    simp

/-- C29 on a new base node with the default timeout of 300 seconds:
`Activate(5)` after `Initialize` leaves it `Active` with no elapsed time,
`Activate(7)` then leaves it `Finished` with seven seconds, and `Activate(300)`
instead leaves it `Expired`. -/
theorem Activate_in_Standby_counts_no_time_witness :
    UAutomationGraphNode.Activate UAutomationGraphNode.StaticClass
      (UAutomationGraphNode.Initialize {} 0).1 5 =
      ({ NodeState := .Active, TimeElapsedSec := 0, NodeTimeoutSec := 300 }, .Active) ∧
    UAutomationGraphNode.Activate UAutomationGraphNode.StaticClass
      (UAutomationGraphNode.Activate UAutomationGraphNode.StaticClass
        (UAutomationGraphNode.Initialize {} 0).1 5).1 7 =
      ({ NodeState := .Finished, TimeElapsedSec := 7, NodeTimeoutSec := 300 }, .Finished) ∧
    UAutomationGraphNode.Activate UAutomationGraphNode.StaticClass
      (UAutomationGraphNode.Activate UAutomationGraphNode.StaticClass
        (UAutomationGraphNode.Initialize {} 0).1 5).1 300 =
      ({ NodeState := .Expired, TimeElapsedSec := 300, NodeTimeoutSec := 300 }, .Expired) :=
  have hw := (Activate_in_Standby_counts_no_time {} 0 5 7 rfl).2.2 (by norm_num)
  have hx := (Activate_in_Standby_counts_no_time {} 0 5 300 rfl).2.2 (by norm_num)
  ⟨hw.1, hw.2.1 (by norm_num), hx.2.2 (by norm_num)⟩

/-! ## Scheduling pass: which nodes are touched -/

theorem Heap.OnlyActivated.only_refl {n : Nat} (dt : Rat) (h : Heap n) :
    h.OnlyActivated dt h :=
  ⟨[], by simp, by simp, fun _ _ => rfl⟩

theorem Heap.OnlyActivated.only_trans {n : Nat} {dt : Rat} {h k l : Heap n}
    (a : h.OnlyActivated dt k) (b : k.OnlyActivated dt l) : h.OnlyActivated dt l := by
  obtain ⟨ev1, t1, g1, u1⟩ := a
  obtain ⟨ev2, t2, g2, u2⟩ := b
  refine ⟨ev1 ++ ev2, by rw [t2, t1, List.append_assoc], ?_, ?_⟩
  · intro e he
    rcases List.mem_append.mp he with x | x
    · exact g1 e x
    · exact g2 e x
  · intro v hv
    rw [List.countP_append] at hv
    rw [u2 v (by omega), u1 v (by omega)]

theorem Heap.OnlyActivated.only_Activate {n : Nat} (dt : Rat) (h : Heap n) (v : Fin n) :
    h.OnlyActivated dt (h.Activate v dt).1 := by
  refine ⟨[Call.Activate v dt (h.GetState v) (h.ParentsFinished v)], Activate_trace h v dt,
    ?_, ?_⟩
  · intro e he
    rw [List.mem_singleton.mp he]
    exact ⟨_, _, _, rfl⟩
  · intro u hu
    apply Activate_node_ne
    intro e
    subst e
    simp [Call.isActivateOn] at hu

theorem activateChildren_only {n : Nat} (dt : Rat) (cs : List (Fin n)) (h : Heap n)
    (A : List (Fin n)) :
    h.OnlyActivated dt (UAutomationGraphExecutor.Execute.activateChildren dt cs h A).1 :=
  activateChildren_rule dt (fun _ k _ => h.OnlyActivated dt k)
    (fun c _ k _ hq _ => hq.only_trans (Heap.OnlyActivated.only_Activate dt k c))
    (fun _ _ _ _ hq _ => hq) cs h A (Heap.OnlyActivated.only_refl dt h)

theorem pass_only {n : Nat} (dt : Rat) (L : List (Fin n)) (h : Heap n) (A R : List (Fin n)) :
    match UAutomationGraphExecutor.Execute.pass dt L h A R with
    | .Completed h1 _ _ => h.OnlyActivated dt h1
    | .InvalidNode h1 => h.OnlyActivated dt h1 := by
  have hrule := pass_rule dt (fun _ k _ _ => h.OnlyActivated dt k)
    (fun v _ k _ _ hp _ _ => hp.only_trans (Heap.OnlyActivated.only_Activate dt k v))
    (fun v _ k B _ hp _ _ => hp.only_trans (activateChildren_only dt _ k B))
    (fun _ _ _ _ _ hp _ _ _ _ => hp) L h A R (Heap.OnlyActivated.only_refl dt h)
  cases hres : UAutomationGraphExecutor.Execute.pass dt L h A R with
  | Completed h1 A1 R1 =>
    rw [hres] at hrule
    exact hrule
  | InvalidNode h1 =>
    rw [hres] at hrule
    obtain ⟨_, _, _, _, hp, _⟩ := hrule
    exact hp

theorem pass_shape {n : Nat} (dt : Rat) (L : List (Fin n)) (h : Heap n) (A R : List (Fin n)) :
    match UAutomationGraphExecutor.Execute.pass dt L h A R with
    | .Completed h1 _ _ => h.SameShape h1
    | .InvalidNode h1 => h.SameShape h1 := by
  have hshA : ∀ (cs : List (Fin n)) (k : Heap n) (B : List (Fin n)),
      k.SameShape (UAutomationGraphExecutor.Execute.activateChildren dt cs k B).1 :=
    fun cs k B => activateChildren_rule dt (fun _ k2 _ => k.SameShape k2)
      (fun c _ k2 _ hq _ => hq.trans (Heap.SameShape.Activate k2 c dt))
      (fun _ _ _ _ hq _ => hq) cs k B (Heap.SameShape.refl k)
  have hrule := pass_rule dt (fun _ k _ _ => h.SameShape k)
    (fun v _ k _ _ hp _ _ => hp.trans (Heap.SameShape.Activate k v dt))
    (fun v _ k B _ hp _ _ => hp.trans (hshA _ k B))
    (fun _ _ _ _ _ hp _ _ _ _ => hp) L h A R (Heap.SameShape.refl h)
  cases hres : UAutomationGraphExecutor.Execute.pass dt L h A R with
  | Completed h1 A1 R1 =>
    rw [hres] at hrule
    exact hrule
  | InvalidNode h1 =>
    rw [hres] at hrule
    obtain ⟨_, _, _, _, hp, _⟩ := hrule
    exact hp

/-- A pass over a list that holds a reference to a node that is gone stops at
an invalid node. -/
theorem pass_invalid {n : Nat} (dt : Rat) :
    ∀ (L : List (Fin n)) (h : Heap n) (A R : List (Fin n)),
      (∃ v ∈ L, h.Valid v = false) →
      ∃ h1, UAutomationGraphExecutor.Execute.pass dt L h A R = .InvalidNode h1 := by
  intro L
  induction L with
  | nil => intro h A R ⟨v, hv, _⟩; exact absurd hv (List.not_mem_nil _)
  | cons a rest ih =>
    intro h A R ⟨v, hv, hval⟩
    by_cases ha : h.Valid a = false
    · exact ⟨h, by unfold UAutomationGraphExecutor.Execute.pass; rw [if_pos ha]⟩
    · have ha2 : h.Valid a = true := by simpa using ha
      have hvr : v ∈ rest := by
        rcases List.mem_cons.mp hv with e | e
        · subst e; rw [ha2] at hval; cases hval
        · exact e
      have hshA : ∀ (cs : List (Fin n)) (k : Heap n) (B : List (Fin n)),
          k.SameShape (UAutomationGraphExecutor.Execute.activateChildren dt cs k B).1 :=
        fun cs k B => activateChildren_rule dt (fun _ k2 _ => k.SameShape k2)
          (fun c _ k2 _ hq _ => hq.trans (Heap.SameShape.Activate k2 c dt))
          (fun _ _ _ _ hq _ => hq) cs k B (Heap.SameShape.refl k)
      by_cases hsa : h.GetState a = .Standby ∨ h.GetState a = .Active
      · rw [pass_cons_active dt a rest h A R ha2 hsa]
        exact ih _ _ _ ⟨v, hvr, by rw [(Heap.SameShape.Activate h a dt).valid]; exact hval⟩
      · push_neg at hsa
        by_cases hf : h.GetState a = .Finished
        · rw [pass_cons_finished dt a rest h A R ha2 hf]
          exact ih _ _ _ ⟨v, hvr, by rw [(hshA _ h A).valid]; exact hval⟩
        · rw [pass_cons_other dt a rest h A R ha2 hsa.1 hsa.2 hf]
          exact ih _ _ _ ⟨v, hvr, hval⟩

/-! ## A stale node reference in a pass -/

theorem Execute_eq_of_invalid {n : Nat} (h : Heap n) (ex : UAutomationGraphExecutor n)
    (dt : Rat) (hne : ex.ActiveNodes ≠ []) (ht : ex.ExecutionTimer - dt ≤ 0) (h1 : Heap n)
    (hres : UAutomationGraphExecutor.Execute.pass dt ex.ActiveNodes h [] [] = .InvalidNode h1) :
    UAutomationGraphExecutor.Execute h ex dt =
      (UAutomationGraphExecutor.Reset h1 { ex with ExecutionTimer := ex.TickRateSec }, false) := by
  unfold UAutomationGraphExecutor.Execute
  have he : ex.ActiveNodes.isEmpty = false := by
    cases hx : ex.ActiveNodes with
    | nil => exact absurd hx hne
    | cons a l => rfl
  have ht2 : ¬ ex.ExecutionTimer - dt > 0 := not_lt.mpr ht
  simp only [he, Bool.false_eq_true, if_false, ht2]
  rw [hres]

theorem count_Cancel_of_activates {n : Nat} (dt : Rat) (v : Fin n) (ev : List (Call n))
    (hev : ∀ e ∈ ev, ∃ u s pf, e = Call.Activate u dt s pf) :
    ev.count (Call.Cancel v) = 0 ∧ ev.count (Call.Cleanup v) = 0 := by
  refine ⟨?_, ?_⟩
  · apply List.count_eq_zero_of_not_mem
    intro hm
    obtain ⟨u, s, pf, e⟩ := hev _ hm
    cases e
  · apply List.count_eq_zero_of_not_mem
    intro hm
    obtain ⟨u, s, pf, e⟩ := hev _ hm
    cases e

/-- C23: when a scheduling pass takes place and `ActiveNodes` holds a
reference to a node that is gone, `Execute` returns false and leaves
`ActiveNodes` empty, `TargetGraph` null and `ExecutionTimer` zero; if the
target graph is still alive, every node reachable by child edges from its
roots has received exactly one `Cancel` call in this `Execute` call and is
afterwards neither `Uninitialized`, `Standby` nor `Active`. -/
theorem Execute_stale_reference_resets_run {n : Nat} (h : Heap n)
    (ex : UAutomationGraphExecutor n) (dt : Rat) (ht : ex.ExecutionTimer - dt ≤ 0)
    (hstale : ∃ v ∈ ex.ActiveNodes, h.Valid v = false) :
    (UAutomationGraphExecutor.Execute h ex dt).2 = false ∧
    (UAutomationGraphExecutor.Execute h ex dt).1.2 =
      { ex with TargetGraph := none, ActiveNodes := [], ExecutionTimer := 0 } ∧
    ∀ g : UAutomationGraph n, h.GetGraph ex.TargetGraph = some g →
      ∀ v, g.ReachableFromRoots h v →
        ((UAutomationGraphExecutor.Execute h ex dt).1.1.CallsSince h).count (Call.Cancel v) = 1 ∧
        (UAutomationGraphExecutor.Execute h ex dt).1.1.GetState v ≠ .Uninitialized ∧
        (UAutomationGraphExecutor.Execute h ex dt).1.1.GetState v ≠ .Standby ∧
        (UAutomationGraphExecutor.Execute h ex dt).1.1.GetState v ≠ .Active := by
  obtain ⟨h1, hres⟩ := pass_invalid dt ex.ActiveNodes h [] [] hstale
  have hne : ex.ActiveNodes ≠ [] := by
    obtain ⟨v, hv, _⟩ := hstale
    exact List.ne_nil_of_mem hv
  rw [Execute_eq_of_invalid h ex dt hne ht h1 hres]
  have hsh : h.SameShape h1 := by
    have := pass_shape dt ex.ActiveNodes h [] []
    rw [hres] at this
    exact this
  have honly : h.OnlyActivated dt h1 := by
    have := pass_only dt ex.ActiveNodes h [] []
    rw [hres] at this
    exact this
  refine ⟨rfl, rfl, ?_⟩
  intro g hg v hreach
  have hg1 : h1.GetGraph ex.TargetGraph = some g := by rw [hsh.getGraph]; exact hg
  have e : (UAutomationGraphExecutor.Reset h1 { ex with ExecutionTimer := ex.TickRateSec }).1 =
      g.CancelNodes h1 := by
    unfold UAutomationGraphExecutor.Reset
    simp only [hg1]
  obtain ⟨ev, t, hev, _⟩ := honly
  obtain ⟨evc, tc, hin, _⟩ := CancelNodes_spec g h1
  obtain ⟨c1, _, s1⟩ := hin v ((hsh.reachableFromRoots g v).mpr hreach)
  have t2 : (g.CancelNodes h1).Trace = h.Trace ++ (ev ++ evc) := by
    rw [tc, t, List.append_assoc]
  show ((UAutomationGraphExecutor.Reset h1 _).1.CallsSince h).count _ = 1 ∧
    (UAutomationGraphExecutor.Reset h1 _).1.GetState v ≠ _ ∧
    (UAutomationGraphExecutor.Reset h1 _).1.GetState v ≠ _ ∧
    (UAutomationGraphExecutor.Reset h1 _).1.GetState v ≠ _
  rw [e, CallsSince_of_trace t2, List.count_append, (count_Cancel_of_activates dt v ev hev).1,
    c1, s1]
  refine ⟨rfl, ?_⟩
  by_cases hb : (h1.GetState v).toNat < EAutomationGraphNodeState.Finished.toNat
  · rw [if_pos hb]
    exact ⟨by decide, by decide, by decide⟩
  · rw [if_neg hb]
    have hb2 := fun x => hb ((before_Finished_iff _).mpr x)
    exact ⟨fun x => hb2 (Or.inl x), fun x => hb2 (Or.inr (Or.inl x)),
      fun x => hb2 (Or.inr (Or.inr x))⟩

/-- C23 on the chain `A → B` whose node `B` was destroyed while tracked: the
pass activates `A`, which finishes, then meets the stale reference; `Execute`
returns false, the executor is reset, `A` is `Finished` and `B` `Cancelled`. -/
theorem Execute_stale_reference_resets_run_witness :
    (UAutomationGraphExecutor.Execute exStale exStaleExecutor 1).2 = false ∧
    (UAutomationGraphExecutor.Execute exStale exStaleExecutor 1).1.2.ActiveNodes = [] ∧
    (UAutomationGraphExecutor.Execute exStale exStaleExecutor 1).1.2.TargetGraph = none ∧
    ((UAutomationGraphExecutor.Execute exStale exStaleExecutor 1).1.1.CallsSince exStale).count
      (Call.Cancel 1) = 1 ∧
    (UAutomationGraphExecutor.Execute exStale exStaleExecutor 1).1.1.GetState 0 = .Finished ∧
    (UAutomationGraphExecutor.Execute exStale exStaleExecutor 1).1.1.GetState 1 = .Cancelled :=
  have hw := Execute_stale_reference_resets_run exStale exStaleExecutor 1 (by decide!)
    ⟨1, by decide, by decide⟩
  ⟨hw.1, by rw [hw.2.1], by rw [hw.2.1],
    (hw.2.2 { RootNodes := [0] } rfl 1 ⟨0, by simp, Relation.ReflTransGen.single
      (show (1 : Fin 2) ∈ (exStale.Node 0).ChildNodes by decide)⟩).1,
    by decide!, by decide!⟩

/-! ## Throttling and the single pass of `Execute` -/

theorem Execute_eq_of_completed {n : Nat} (h : Heap n) (ex : UAutomationGraphExecutor n)
    (dt : Rat) (hne : ex.ActiveNodes ≠ []) (ht : ex.ExecutionTimer - dt ≤ 0) (h1 : Heap n)
    (A1 R1 : List (Fin n))
    (hres : UAutomationGraphExecutor.Execute.pass dt ex.ActiveNodes h [] [] =
      .Completed h1 A1 R1) :
    UAutomationGraphExecutor.Execute h ex dt =
      (((UAutomationGraphExecutor.Execute.removeNodes R1 h1
          (TSet.Append ex.ActiveNodes A1)).1,
        { ex with
          ExecutionTimer := ex.TickRateSec,
          ActiveNodes := (UAutomationGraphExecutor.Execute.removeNodes R1 h1
            (TSet.Append ex.ActiveNodes A1)).2 }),
        !(UAutomationGraphExecutor.Execute.removeNodes R1 h1
          (TSet.Append ex.ActiveNodes A1)).2.isEmpty) := by
  unfold UAutomationGraphExecutor.Execute
  have he : ex.ActiveNodes.isEmpty = false := by
    cases hx : ex.ActiveNodes with
    | nil => exact absurd hx hne
    | cons a l => rfl
  have ht2 : ¬ ex.ExecutionTimer - dt > 0 := not_lt.mpr ht
  simp only [he, Bool.false_eq_true, if_false, ht2]
  rw [hres]

theorem pass_active_once {n : Nat} (dt : Rat) (pre post : List (Fin n)) (v : Fin n)
    (h : Heap n) (hstd : ∀ u, (h.Node u).Class.Standard)
    (hvalid : ∀ u ∈ pre ++ v :: post, h.Valid u = true) (hpre : v ∉ pre) (hpost : v ∉ post)
    (hs : h.GetState v = .Active) :
    ∃ (h1 : Heap n) (A1 R1 : List (Fin n)) (ev : List (Call n)),
      UAutomationGraphExecutor.Execute.pass dt (pre ++ v :: post) h [] [] =
        .Completed h1 A1 R1 ∧
      h1.Trace = h.Trace ++ ev ∧ ev.countP (Call.isActivateOn v) = 1 ∧
      ∃ pf, Call.Activate v dt .Active pf ∈ ev := by
  obtain ⟨hm, Am, Rm, hp⟩ := pass_completed_of_valid dt pre h [] []
    (fun u hu => hvalid u (List.mem_append_left _ hu))
  have std1 := pass_std dt pre h [] [] hstd
  rw [hp] at std1
  have only1 := pass_only dt pre h [] []
  rw [hp] at only1
  obtain ⟨ev1, t1, _, u1⟩ := only1
  have c1 : ev1.countP (Call.isActivateOn v) = 0 := by
    have := std1.1.count_of_not_standby v hpre (by rw [hs]; decide)
    rwa [CallsSince_of_trace t1] at this
  have hsm : hm.GetState v = .Active := by
    unfold Heap.GetState
    rw [u1 v c1]
    exact hs
  have hshm := std1.1.shape
  have hvm : hm.Valid v = true := by
    rw [hshm.valid]
    exact hvalid v (List.mem_append_right _ (List.mem_cons_self _ _))
  have e1 := pass_append dt (v :: post) pre h [] [] hm Am Rm hp
  rw [pass_cons_active dt v post hm Am Rm hvm (Or.inr hsm)] at e1
  have hsh2 : h.SameShape (hm.Activate v dt).1 :=
    hshm.trans (Heap.SameShape.Activate hm v dt)
  obtain ⟨h1, A1, R1, hq⟩ := pass_completed_of_valid dt post (hm.Activate v dt).1 Am Rm
    (fun u hu => by
      rw [hsh2.valid]
      exact hvalid u (List.mem_append_right _ (List.mem_cons_of_mem _ hu)))
  have hstd2 := Standard_of_shape hsh2 hstd
  have std2 := pass_std dt post (hm.Activate v dt).1 Am Rm hstd2
  rw [hq] at std2
  obtain ⟨ev3, t3, _⟩ := std2.1.trace
  have c3 : ev3.countP (Call.isActivateOn v) = 0 := by
    have := std2.1.count_of_not_standby v hpost
      (Activate_ne_standby hm v dt (Standard_of_shape hshm hstd v))
    rwa [CallsSince_of_trace t3] at this
  refine ⟨h1, A1, R1,
    ev1 ++ [Call.Activate v dt (hm.GetState v) (hm.ParentsFinished v)] ++ ev3, ?_, ?_, ?_, ?_⟩
  · rw [e1, hq]
  · rw [t3, Activate_trace, t1]
    simp [List.append_assoc]
  · rw [List.countP_append, List.countP_append, c1, c3]
    simp [Call.isActivateOn]
  · refine ⟨hm.ParentsFinished v, ?_⟩
    rw [hsm]
    simp

theorem Execute_timer_default {n : Nat} (h : Heap n) (ex : UAutomationGraphExecutor n)
    (dt : Rat) (hrate : ex.TickRateSec = 0) (htimer : ex.ExecutionTimer ≤ 0) (hdt : 0 ≤ dt) :
    (UAutomationGraphExecutor.Execute h ex dt).1.2.TickRateSec = 0 ∧
    (UAutomationGraphExecutor.Execute h ex dt).1.2.ExecutionTimer ≤ 0 := by
  by_cases hne : ex.ActiveNodes = []
  · rw [Execute_of_not_active h ex dt hne]
    exact ⟨hrate, htimer⟩
  have ht : ex.ExecutionTimer - dt ≤ 0 := by linarith
  cases hres : UAutomationGraphExecutor.Execute.pass dt ex.ActiveNodes h [] [] with
  | Completed h1 A1 R1 =>
    rw [Execute_eq_of_completed h ex dt hne ht h1 A1 R1 hres]
    exact ⟨hrate, le_of_eq hrate⟩
  | InvalidNode h1 =>
    rw [Execute_eq_of_invalid h ex dt hne ht h1 hres]
    exact ⟨hrate, le_refl _⟩

theorem ExecuteAll_timer_default {n : Nat} :
    ∀ (dts : List Rat) (s : Heap n × UAutomationGraphExecutor n),
      (∀ d ∈ dts, 0 ≤ d) → s.2.TickRateSec = 0 → s.2.ExecutionTimer ≤ 0 →
      (UAutomationGraphExecutor.ExecuteAll dts s).2.TickRateSec = 0 ∧
      (UAutomationGraphExecutor.ExecuteAll dts s).2.ExecutionTimer ≤ 0 := by
  intro dts
  induction dts with
  | nil => intro s _ a b; exact ⟨a, b⟩
  | cons d rest ih =>
    intro s hd a b
    obtain ⟨a2, b2⟩ := Execute_timer_default s.1 s.2 d a b (hd d (List.mem_cons_self _ _))
    exact ih _ (fun x hx => hd x (List.mem_cons_of_mem _ hx)) a2 b2

theorem StartExecution_timer_default {n : Nat} (h : Heap n) (ex : UAutomationGraphExecutor n)
    (task : FGraphExecutionTask) (hrate : ex.TickRateSec = 0) (htimer : ex.ExecutionTimer ≤ 0) :
    (UAutomationGraphExecutor.StartExecution h ex task).1.2.TickRateSec = 0 ∧
    (UAutomationGraphExecutor.StartExecution h ex task).1.2.ExecutionTimer ≤ 0 := by
  rcases StartExecution_skip_or h ex task with e | ⟨g, World, hg, hw, ht⟩
  · rw [e]; exact ⟨hrate, htimer⟩
  · obtain ⟨L, h1, ex2, _, hex2, _, _, hcase⟩ := StartExecution_cases h ex task g World hg hw ht
    rcases hcase with ⟨e, _⟩ | ⟨e, _⟩
    · rw [e, hex2]; exact ⟨hrate, le_refl _⟩
    · rw [e, (Reset_spec _ ex2).1, hex2]; exact ⟨hrate, le_refl _⟩

/-- C26: with `ActiveNodes` non-empty, when `ExecutionTimer - DeltaSeconds > 0`
`Execute` returns true, stores the decreased timer and changes nothing else;
when `ExecutionTimer - DeltaSeconds ≤ 0` (and no tracked reference is stale) it
makes the one pass over `ActiveNodes` followed by the removals, and leaves
`ExecutionTimer` equal to `TickRateSec`: in a run with standard node classes a
tracked node that is `Active` on entry receives exactly one `Activate` call,
with that delta. With `TickRateSec = 0` and a timer that is not positive, as
for a new executor, no `Execute` call with a non-negative delta is throttled,
however many calls were made before. -/
theorem Execute_throttles_or_makes_one_pass {n : Nat} (h : Heap n)
    (ex : UAutomationGraphExecutor n) (dt : Rat) (hne : ex.ActiveNodes ≠ []) :
    (ex.ExecutionTimer - dt > 0 →
      UAutomationGraphExecutor.Execute h ex dt =
        ((h, { ex with ExecutionTimer := ex.ExecutionTimer - dt }), true)) ∧
    (ex.ExecutionTimer - dt ≤ 0 → (∀ v ∈ ex.ActiveNodes, h.Valid v = true) →
      (∃ (h1 : Heap n) (A1 R1 : List (Fin n)),
        UAutomationGraphExecutor.Execute.pass dt ex.ActiveNodes h [] [] = .Completed h1 A1 R1 ∧
        UAutomationGraphExecutor.Execute h ex dt =
          (((UAutomationGraphExecutor.Execute.removeNodes R1 h1
              (TSet.Append ex.ActiveNodes A1)).1,
            { ex with
              ExecutionTimer := ex.TickRateSec,
              ActiveNodes := (UAutomationGraphExecutor.Execute.removeNodes R1 h1
                (TSet.Append ex.ActiveNodes A1)).2 }),
            !(UAutomationGraphExecutor.Execute.removeNodes R1 h1
              (TSet.Append ex.ActiveNodes A1)).2.isEmpty)) ∧
      (UAutomationGraphExecutor.Execute h ex dt).1.2.ExecutionTimer = ex.TickRateSec ∧
      (ex.ActiveNodes.Nodup → (∀ u, (h.Node u).Class.Standard) →
        ∀ v ∈ ex.ActiveNodes, h.GetState v = .Active →
          ((UAutomationGraphExecutor.Execute h ex dt).1.1.CallsSince h).countP
            (Call.isActivateOn v) = 1 ∧
          ∃ pf, Call.Activate v dt .Active pf ∈
            (UAutomationGraphExecutor.Execute h ex dt).1.1.CallsSince h)) ∧
    (ex.TickRateSec = 0 → ex.ExecutionTimer ≤ 0 →
      ∀ (task : FGraphExecutionTask) (dts : List Rat) (d : Rat),
        (∀ x ∈ dts, 0 ≤ x) → 0 ≤ d →
        (UAutomationGraphExecutor.RunAfter h ex task dts).2.ExecutionTimer - d ≤ 0) := by
  refine ⟨fun ht => Execute_throttled h ex dt hne (not_le.mpr ht), ?_, ?_⟩
  · intro ht hvalid
    obtain ⟨h1, A1, R1, hres⟩ := pass_completed_of_valid dt ex.ActiveNodes h [] [] hvalid
    have e := Execute_eq_of_completed h ex dt hne ht h1 A1 R1 hres
    refine ⟨⟨h1, A1, R1, hres, e⟩, by rw [e], ?_⟩
    intro hnd hstd v hv hs
    obtain ⟨pre, post, hsplit⟩ := List.append_of_mem hv
    have hnd2 : (pre ++ v :: post).Nodup := hsplit ▸ hnd
    have hvpre : v ∉ pre := fun x =>
      (List.nodup_append.mp hnd2).2.2 x (List.mem_cons_self _ _)
    have hvpost : v ∉ post :=
      (List.nodup_cons.mp (List.nodup_append.mp hnd2).2.1).1
    obtain ⟨k1, B1, S1, ev, hres2, t, cnt, hmem⟩ := pass_active_once dt pre post v h hstd
      (hsplit ▸ hvalid) hvpre hvpost hs
    rw [← hsplit, hres] at hres2
    injection hres2 with e1 e2 e3
    subst e1
    obtain ⟨_, _, ⟨ev4, t4, g4⟩, _, _⟩ :=
      removeNodes_spec R1 h1 (TSet.Append ex.ActiveNodes A1)
    have ttotal : (UAutomationGraphExecutor.Execute h ex dt).1.1.Trace =
        h.Trace ++ (ev ++ ev4) := by
      rw [e, t4, t, List.append_assoc]
    rw [CallsSince_of_trace ttotal]
    refine ⟨?_, ?_⟩
    · rw [List.countP_append, cnt, count_isActivateOn_cleanup v ev4 g4]
    · obtain ⟨pf, hpf⟩ := hmem
      exact ⟨pf, List.mem_append_left _ hpf⟩
  · intro hrate htimer task dts d hdts hd
    obtain ⟨a, b⟩ := StartExecution_timer_default h ex task hrate htimer
    obtain ⟨_, c⟩ := ExecuteAll_timer_default dts _ hdts a b
    unfold UAutomationGraphExecutor.RunAfter
    linarith

/-- C26 on the chain `A → B` with `A` tracked and `Active`: with three
seconds left on the timer, `Execute(1)` returns true, leaves two seconds and
`A` as it was; with the timer at zero, `Execute(1)` activates `A` once. -/
theorem Execute_throttles_or_makes_one_pass_witness :
    UAutomationGraphExecutor.Execute (exChainAfter 1).1
      { (exChainAfter 1).2 with ExecutionTimer := 3 } 1 =
      (((exChainAfter 1).1, { (exChainAfter 1).2 with ExecutionTimer := 3 - 1 }), true) ∧
    ((UAutomationGraphExecutor.Execute (exChainAfter 1).1 (exChainAfter 1).2 1).1.1.CallsSince
      (exChainAfter 1).1).countP (Call.isActivateOn 0) = 1 ∧
    (UAutomationGraphExecutor.Execute (exChainAfter 1).1 (exChainAfter 1).2 1).1.1.GetState 0 =
      .Finished :=
  ⟨(Execute_throttles_or_makes_one_pass (exChainAfter 1).1
      { (exChainAfter 1).2 with ExecutionTimer := 3 } 1 (by decide!)).1 (by decide!),
    (((Execute_throttles_or_makes_one_pass (exChainAfter 1).1 (exChainAfter 1).2 1
      (by decide!)).2.1 (by decide!) (by decide!)).2.2 (by decide!) (exChainAfter_standard 1)
      0 (by decide!) (by decide!)).1,
    by decide!⟩

/-! ## Children of a failed node -/

theorem Heap.ActivatedPF.pf_refl {n : Nat} (h : Heap n) : h.ActivatedPF h :=
  ⟨[], by simp, fun v hv => absurd rfl hv⟩

theorem Heap.ActivatedPF.pf_trans {n : Nat} {h k l : Heap n} (a : h.ActivatedPF k)
    (seg : k.PassSegment l) (b : k.ActivatedPF l) : h.ActivatedPF l := by
  obtain ⟨ev1, t1, g1⟩ := a
  obtain ⟨ev2, t2, g2⟩ := b
  refine ⟨ev1 ++ ev2, by rw [t2, t1, List.append_assoc], ?_⟩
  intro v hv
  rw [List.countP_append] at hv
  by_cases h2 : ev2.countP (Call.isActivateOn v) = 0
  · exact seg.pf v (g1 v (by omega))
  · exact g2 v h2

theorem Heap.ActivatedPF.pf_Activate {n : Nat} (h : Heap n) (v : Fin n) (dt : Rat)
    (hs : h.GetState v = .Standby ∨ h.GetState v = .Active)
    (hpf : h.ParentsFinished v = true) :
    h.PassSegment (h.Activate v dt).1 ∧ h.ActivatedPF (h.Activate v dt).1 := by
  have seg := Heap.PassSegment.seg_Activate h v dt hs hpf
  refine ⟨seg, [Call.Activate v dt (h.GetState v) (h.ParentsFinished v)], Activate_trace h v dt,
    ?_⟩
  intro u hu
  have e : u = v := by
    by_contra hne
    have hne2 : ¬ v = u := fun x => hne x.symm
    simp [Call.isActivateOn, hne2] at hu
  subst e
  exact seg.pf u hpf

theorem activateChildren_pf {n : Nat} (dt : Rat) (cs : List (Fin n)) (h : Heap n)
    (A : List (Fin n)) (hA : ∀ x ∈ A, h.ParentsFinished x = true) :
    h.PassSegment (UAutomationGraphExecutor.Execute.activateChildren dt cs h A).1 ∧
    h.ActivatedPF (UAutomationGraphExecutor.Execute.activateChildren dt cs h A).1 ∧
    ∀ x ∈ (UAutomationGraphExecutor.Execute.activateChildren dt cs h A).2,
      (UAutomationGraphExecutor.Execute.activateChildren dt cs h A).1.ParentsFinished x = true :=
  activateChildren_rule dt
    (fun _ k B => h.PassSegment k ∧ h.ActivatedPF k ∧ ∀ x ∈ B, k.ParentsFinished x = true)
    (fun c _ k B hq hc => by
      obtain ⟨hs, hpf⟩ := CanStartActivation_standby k c hc
      obtain ⟨seg, apf⟩ := Heap.ActivatedPF.pf_Activate k c dt (Or.inl hs) hpf
      refine ⟨hq.1.seg_trans seg, hq.2.1.pf_trans seg apf, ?_⟩
      intro x hx
      rcases (TSet.mem_Add B c x).mp hx with e | e
      · exact seg.pf x (hq.2.2 x e)
      · exact seg.pf x (e ▸ hpf))
    (fun _ _ _ _ hq _ => hq) cs h A
    ⟨Heap.PassSegment.seg_refl h, Heap.ActivatedPF.pf_refl h, hA⟩

theorem pass_pf {n : Nat} (dt : Rat) (L : List (Fin n)) (h : Heap n)
    (hL : ∀ v ∈ L, h.ParentsFinished v = true) (h1 : Heap n) (A1 R1 : List (Fin n))
    (hres : UAutomationGraphExecutor.Execute.pass dt L h [] [] = .Completed h1 A1 R1) :
    h.PassSegment h1 ∧ h.ActivatedPF h1 ∧ ∀ x ∈ A1, h1.ParentsFinished x = true := by
  have hrule := pass_rule dt
    (fun rest k A _ => h.PassSegment k ∧ h.ActivatedPF k ∧
      (∀ v ∈ rest, k.ParentsFinished v = true) ∧ ∀ x ∈ A, k.ParentsFinished x = true)
    (fun v rest k A R hp _ hs => by
      obtain ⟨seg, apf⟩ := Heap.ActivatedPF.pf_Activate k v dt hs
        (hp.2.2.1 v (List.mem_cons_self _ _))
      exact ⟨hp.1.seg_trans seg, hp.2.1.pf_trans seg apf,
        fun u hu => seg.pf u (hp.2.2.1 u (List.mem_cons_of_mem _ hu)),
        fun x hx => seg.pf x (hp.2.2.2 x hx)⟩)
    (fun v rest k A R hp _ _ => by
      obtain ⟨seg, apf, hA⟩ := activateChildren_pf dt (k.Node v).ChildNodes k A hp.2.2.2
      exact ⟨hp.1.seg_trans seg, hp.2.1.pf_trans seg apf,
        fun u hu => seg.pf u (hp.2.2.1 u (List.mem_cons_of_mem _ hu)), hA⟩)
    (fun v rest k A R hp _ _ _ _ =>
      ⟨hp.1, hp.2.1, fun u hu => hp.2.2.1 u (List.mem_cons_of_mem _ hu), hp.2.2.2⟩)
    L h [] [] ⟨Heap.PassSegment.seg_refl h, Heap.ActivatedPF.pf_refl h, hL, by simp⟩
  rw [hres] at hrule
  exact ⟨hrule.1, hrule.2.1, hrule.2.2.2⟩

theorem ParentsFinished_of_node_eq {n : Nat} {h k : Heap n} (e : k.Node = h.Node) (v : Fin n) :
    k.ParentsFinished v = h.ParentsFinished v := by
  unfold Heap.ParentsFinished Heap.GetState
  rw [e]

theorem Execute_ChildInv {n : Nat} (b : Heap n) (s : Heap n × UAutomationGraphExecutor n)
    (dt : Rat) (hinv : UAutomationGraphExecutor.ChildInv b s) :
    UAutomationGraphExecutor.ChildInv b (UAutomationGraphExecutor.Execute s.1 s.2 dt).1 ∧
    s.1.Frozen (UAutomationGraphExecutor.Execute s.1 s.2 dt).1.1 := by
  obtain ⟨hvalid, ⟨ev0, t0⟩, htr, hall⟩ := hinv
  by_cases hne : s.2.ActiveNodes = []
  · rw [Execute_of_not_active s.1 s.2 dt hne]
    exact ⟨⟨hvalid, ⟨ev0, t0⟩, htr, hall⟩, Heap.Frozen.frozen_refl _⟩
  by_cases ht : s.2.ExecutionTimer - dt ≤ 0
  · obtain ⟨h1, A1, R1, hres⟩ := pass_completed_of_valid dt s.2.ActiveNodes s.1 [] []
      (fun v _ => hvalid v)
    obtain ⟨seg, ⟨ev, t, hpf⟩, hA1⟩ := pass_pf dt s.2.ActiveNodes s.1 htr h1 A1 R1 hres
    have only1 := pass_only dt s.2.ActiveNodes s.1 [] []
    rw [hres] at only1
    obtain ⟨ev', t', hact, hunt⟩ := only1
    have eev : ev' = ev := List.append_cancel_left (t'.symm.trans t)
    subst eev
    obtain ⟨_, _, _, hR⟩ := pass_act dt s.2.ActiveNodes s.1 h1 A1 R1 hres
    have e := Execute_eq_of_completed s.1 s.2 dt hne ht h1 A1 R1 hres
    obtain ⟨r1, r2, _, r4, _⟩ := removeNodes_spec R1 h1 (TSet.Append s.2.ActiveNodes A1)
    have rt := removeNodes_trace R1 h1 (TSet.Append s.2.ActiveNodes A1)
      (fun v _ => by rw [seg.shape.valid]; exact hvalid v)
    rw [e]
    have hpfeq : ∀ v, (UAutomationGraphExecutor.Execute.removeNodes R1 h1
        (TSet.Append s.2.ActiveNodes A1)).1.ParentsFinished v = h1.ParentsFinished v :=
      fun v => ParentsFinished_of_node_eq r1 v
    have ttotal : (UAutomationGraphExecutor.Execute.removeNodes R1 h1
        (TSet.Append s.2.ActiveNodes A1)).1.Trace =
        b.Trace ++ (ev0 ++ (ev' ++ R1.map Call.Cleanup)) := by
      rw [rt, t', t0]
      simp [List.append_assoc]
    refine ⟨⟨?_, ⟨_, ttotal⟩, ?_, ?_⟩, ?_⟩
    · intro u
      show (UAutomationGraphExecutor.Execute.removeNodes R1 h1 _).1.Valid u = true
      rw [r2.valid, seg.shape.valid]
      exact hvalid u
    · intro v hv
      rw [hpfeq]
      have hv2 := ((r4 v).mp hv).1
      rcases (TSet.mem_Append A1 _ v).mp hv2 with a | a
      · exact seg.pf v (htr v a)
      · exact hA1 v a
    · intro v
      rcases hall v with ⟨u1, u2, u3, u4⟩ | a
      · by_cases hc : ev'.countP (Call.isActivateOn v) = 0
        · by_cases hvA : v ∈ A1
          · right; rw [hpfeq]; exact hA1 v hvA
          · left
            have hvR : v ∉ R1 := fun x => u1 (hR v x).1
            refine ⟨?_, ?_, ?_, ?_⟩
            · intro hx
              rcases (TSet.mem_Append A1 _ v).mp ((r4 v).mp hx).1 with a | a
              · exact u1 a
              · exact hvA a
            · show (UAutomationGraphExecutor.Execute.removeNodes R1 h1 _).1.Node v = _
              rw [r1, hunt v hc, u2]
            · rw [CallsSince_of_trace t0] at u3
              rw [CallsSince_of_trace ttotal, List.countP_append, List.countP_append, u3, hc,
                count_isActivateOn_cleanup v (R1.map Call.Cleanup)
                  (fun e he => by
                    obtain ⟨x, _, hx⟩ := List.mem_map.mp he
                    exact ⟨x, hx.symm⟩)]
            · rw [CallsSince_of_trace t0] at u4
              rw [CallsSince_of_trace ttotal, List.count_append, List.count_append, u4,
                (count_Cancel_of_activates dt v ev' hact).2, count_map_Cleanup,
                List.count_eq_zero_of_not_mem hvR]
        · right; rw [hpfeq]; exact hpf v hc
      · right; rw [hpfeq]; exact seg.pf v a
    · intro u a c
      show (UAutomationGraphExecutor.Execute.removeNodes R1 h1 _).1.Node u = _
      rw [r1]
      exact seg.frozen u a c
  · rw [Execute_throttled s.1 s.2 dt hne ht]
    exact ⟨⟨hvalid, ⟨ev0, t0⟩, htr, hall⟩, Heap.Frozen.frozen_refl _⟩

theorem ExecuteAll_ChildInv {n : Nat} (b : Heap n) :
    ∀ (dts : List Rat) (s : Heap n × UAutomationGraphExecutor n),
      UAutomationGraphExecutor.ChildInv b s →
      UAutomationGraphExecutor.ChildInv b (UAutomationGraphExecutor.ExecuteAll dts s) ∧
      s.1.Frozen (UAutomationGraphExecutor.ExecuteAll dts s).1 := by
  intro dts
  induction dts with
  | nil => intro s hs; exact ⟨hs, Heap.Frozen.frozen_refl _⟩
  | cons d rest ih =>
    intro s hs
    obtain ⟨a, f1⟩ := Execute_ChildInv b s d hs
    obtain ⟨c, f2⟩ := ih _ a
    exact ⟨c, Heap.Frozen.frozen_trans f1 f2⟩

theorem StartExecution_ChildInv {n : Nat} (h : Heap n) (ex : UAutomationGraphExecutor n)
    (task : FGraphExecutionTask) (g : UAutomationGraph n)
    (hg : h.GetGraph task.TargetGraph = some g)
    (hstart : (UAutomationGraphExecutor.StartExecution h ex task).2 = .Started)
    (hroots : ∀ r ∈ g.RootNodes, (h.Node r).ParentNodes = [])
    (hvalid : ∀ v, h.Valid v = true) :
    UAutomationGraphExecutor.ChildInv (UAutomationGraphExecutor.StartExecution h ex task).1.1
      (UAutomationGraphExecutor.StartExecution h ex task).1 := by
  obtain ⟨g2, _, htr⟩ := StartExecution_started_run h ex task hstart hvalid
  have hsh := StartExecution_shape h ex task
  have hgg : g2 = g := by
    have := htr.2.1
    rw [hsh.getGraph, hg] at this
    injection this with e
    exact e.symm
  subst hgg
  obtain ⟨World, hw, ht⟩ : ∃ World, task.TargetWorld = some World ∧ task.Trigger ≠ .Unknown := by
    obtain ⟨g3, World, _, hw, ht⟩ := StartExecution_not_skipped h ex task
      (by rw [hstart]; decide)
    exact ⟨World, hw, ht⟩
  obtain ⟨L, h1, ex2, _, hex2, _, _, hcase⟩ := StartExecution_cases h ex task g2 World hg hw ht
  have hact : ∀ v ∈ (UAutomationGraphExecutor.StartExecution h ex task).1.2.ActiveNodes,
      v ∈ g2.RootNodes := by
    intro v hv
    rcases hcase with ⟨e, _⟩ | ⟨e, _⟩
    · rw [e, hex2] at hv
      rcases (TSet.mem_Append _ _ v).mp hv with a | a
      · exact absurd a (List.not_mem_nil _)
      · exact TriggeredRoots_subset g2 h _ v a
    · rw [e] at hstart
      cases hstart
  have hpf : ∀ v ∈ (UAutomationGraphExecutor.StartExecution h ex task).1.2.ActiveNodes,
      (UAutomationGraphExecutor.StartExecution h ex task).1.1.ParentsFinished v = true := by
    intro v hv
    unfold Heap.ParentsFinished
    rw [hsh.parent, hroots v (hact v hv)]
    rfl
  refine ⟨fun u => by rw [hsh.valid]; exact hvalid u, ⟨[], by simp⟩, hpf, ?_⟩
  intro v
  by_cases hv : v ∈ (UAutomationGraphExecutor.StartExecution h ex task).1.2.ActiveNodes
  · exact Or.inr (hpf v hv)
  · exact Or.inl ⟨hv, rfl, by simp [Heap.CallsSince], by simp [Heap.CallsSince]⟩

/-- C28: in a run on a graph whose roots have no parents (as the editor builds
it) and whose nodes are all live, if after some `Execute` calls a node `P` is
in `Error`, `Expired` or `Cancelled`, then a node `c` that has `P` among its
`ParentNodes` is, after any further `Execute` calls, not tracked and exactly as
`StartExecution` left it, and it has received no `Activate` and no `Cleanup`
call since `StartExecution` returned. -/
theorem failed_parent_keeps_child_untouched {n : Nat} (h : Heap n)
    (ex : UAutomationGraphExecutor n) (task : FGraphExecutionTask) (g : UAutomationGraph n)
    (hg : h.GetGraph task.TargetGraph = some g)
    (hstart : (UAutomationGraphExecutor.StartExecution h ex task).2 = .Started)
    (hroots : ∀ r ∈ g.RootNodes, (h.Node r).ParentNodes = [])
    (hvalid : ∀ v, h.Valid v = true) (dts1 : List Rat) (P c : Fin n)
    (hP : P ∈ (h.Node c).ParentNodes)
    (hfail : (UAutomationGraphExecutor.RunAfter h ex task dts1).1.GetState P = .Error ∨
      (UAutomationGraphExecutor.RunAfter h ex task dts1).1.GetState P = .Expired ∨
      (UAutomationGraphExecutor.RunAfter h ex task dts1).1.GetState P = .Cancelled)
    (dts2 : List Rat) :
    c ∉ (UAutomationGraphExecutor.RunAfter h ex task (dts1 ++ dts2)).2.ActiveNodes ∧
    (UAutomationGraphExecutor.RunAfter h ex task (dts1 ++ dts2)).1.Node c =
      (UAutomationGraphExecutor.StartExecution h ex task).1.1.Node c ∧
    ((UAutomationGraphExecutor.RunAfter h ex task (dts1 ++ dts2)).1.CallsSince
      (UAutomationGraphExecutor.StartExecution h ex task).1.1).countP
        (Call.isActivateOn c) = 0 ∧
    ((UAutomationGraphExecutor.RunAfter h ex task (dts1 ++ dts2)).1.CallsSince
      (UAutomationGraphExecutor.StartExecution h ex task).1.1).count (Call.Cleanup c) = 0 := by
  have inv0 := StartExecution_ChildInv h ex task g hg hstart hroots hvalid
  have inv1 : UAutomationGraphExecutor.ChildInv
      (UAutomationGraphExecutor.StartExecution h ex task).1.1
      (UAutomationGraphExecutor.RunAfter h ex task dts1) := (ExecuteAll_ChildInv _ dts1 _ inv0).1
  have h2 := ExecuteAll_ChildInv _ dts2 (UAutomationGraphExecutor.RunAfter h ex task dts1) inv1
  have e2 : UAutomationGraphExecutor.RunAfter h ex task (dts1 ++ dts2) =
      UAutomationGraphExecutor.ExecuteAll dts2
        (UAutomationGraphExecutor.RunAfter h ex task dts1) := by
    unfold UAutomationGraphExecutor.RunAfter
    rw [ExecuteAll_append]
  rw [← e2] at h2
  have hns : (UAutomationGraphExecutor.RunAfter h ex task dts1).1.GetState P ≠ .Standby ∧
      (UAutomationGraphExecutor.RunAfter h ex task dts1).1.GetState P ≠ .Active ∧
      (UAutomationGraphExecutor.RunAfter h ex task dts1).1.GetState P ≠ .Finished := by
    rcases hfail with x | x | x <;> rw [x] <;> exact ⟨by decide, by decide, by decide⟩
  have hsh : h.SameShape (UAutomationGraphExecutor.RunAfter h ex task (dts1 ++ dts2)).1 :=
    (StartExecution_shape h ex task).trans (ExecuteAll_shape _ _)
  have hnpf : (UAutomationGraphExecutor.RunAfter h ex task (dts1 ++ dts2)).1.ParentsFinished c ≠
      true := by
    intro hpf
    unfold Heap.ParentsFinished at hpf
    rw [hsh.parent, List.all_eq_true] at hpf
    have hfin := hpf P hP
    simp only [decide_eq_true_eq] at hfin
    rw [h2.2.state_eq P hns.1 hns.2.1] at hfin
    exact hns.2.2 hfin
  rcases h2.1.2.2.2 c with u | u
  · exact u
  · exact absurd u hnpf

/-- C28 on the chain `A → B` where `A` times out after one second: after two
`Execute` calls `A` is `Expired`; after four more, `B` is still in `Standby`,
untracked, and has received no `Activate` call. -/
theorem failed_parent_keeps_child_untouched_witness :
    (UAutomationGraphExecutor.RunAfter exExpiring {} exTask [1, 1]).1.GetState 0 = .Expired ∧
    (1 : Fin 2) ∉
      (UAutomationGraphExecutor.RunAfter exExpiring {} exTask
        ([1, 1] ++ [1, 1, 1, 1])).2.ActiveNodes ∧
    (UAutomationGraphExecutor.RunAfter exExpiring {} exTask
      ([1, 1] ++ [1, 1, 1, 1])).1.GetState 1 = .Standby ∧
    ((UAutomationGraphExecutor.RunAfter exExpiring {} exTask
      ([1, 1] ++ [1, 1, 1, 1])).1.CallsSince
        (UAutomationGraphExecutor.StartExecution exExpiring {} exTask).1.1).countP
        (Call.isActivateOn 1) = 0 :=
  have hw := failed_parent_keeps_child_untouched exExpiring {} exTask { RootNodes := [0] } rfl
    (by decide!) (by intro r hr; rw [List.mem_singleton.mp hr]; rfl) (fun _ => rfl) [1, 1] 0 1
    (by decide) (Or.inr (Or.inl (by decide!))) [1, 1, 1, 1]
  ⟨by decide!, hw.1, by decide!, hw.2.2.1⟩

/-! ## A failed node in a pass -/

theorem TSet.Add_insert {α : Type} [DecidableEq α] (Ra Rb : List α) (X v : α) (hv : v ≠ X) :
    ∃ Rb2 : List α, TSet.Add (Ra ++ Rb) v = Ra ++ Rb2 ∧
      TSet.Add (Ra ++ X :: Rb) v = Ra ++ X :: Rb2 := by
  unfold TSet.Add
  by_cases hm : v ∈ Ra ++ Rb
  · refine ⟨Rb, by rw [if_pos hm], ?_⟩
    have hm2 : v ∈ Ra ++ X :: Rb := by
      rcases List.mem_append.mp hm with a | a
      · exact List.mem_append_left _ a
      · exact List.mem_append_right _ (List.mem_cons_of_mem _ a)
    rw [if_pos hm2]
  · refine ⟨Rb ++ [v], by rw [if_neg hm, List.append_assoc], ?_⟩
    have hm2 : v ∉ Ra ++ X :: Rb := by
      intro x
      rcases List.mem_append.mp x with a | a
      · exact hm (List.mem_append_left _ a)
      · rcases List.mem_cons.mp a with b | b
        · exact hv b
        · exact hm (List.mem_append_right _ b)
    rw [if_neg hm2]
    simp [List.append_assoc]

/-- The loop over the tracked nodes does the same to the heap and to `ToAdd`
whether or not `ToRemove` holds a node `X` that is not among the nodes still to
be visited. -/
theorem pass_insert_removed {n : Nat} (dt : Rat) (X : Fin n) (Ra : List (Fin n)) :
    ∀ (post : List (Fin n)) (k : Heap n) (A Rb : List (Fin n)), X ∉ post →
      match UAutomationGraphExecutor.Execute.pass dt post k A (Ra ++ Rb) with
      | .Completed h1 A1 R1 => ∃ Rb2, R1 = Ra ++ Rb2 ∧
          UAutomationGraphExecutor.Execute.pass dt post k A (Ra ++ X :: Rb) =
            .Completed h1 A1 (Ra ++ X :: Rb2)
      | .InvalidNode h1 =>
          UAutomationGraphExecutor.Execute.pass dt post k A (Ra ++ X :: Rb) =
            .InvalidNode h1 := by
  intro post
  induction post with
  | nil =>
    intro k A Rb _
    simp only [UAutomationGraphExecutor.Execute.pass]
    exact ⟨Rb, rfl, rfl⟩
  | cons v rest ih =>
    intro k A Rb hX
    have hv : v ≠ X := fun e => hX (e ▸ List.mem_cons_self _ _)
    have hrest : X ∉ rest := fun m => hX (List.mem_cons_of_mem _ m)
    by_cases hval : k.Valid v = false
    · have e1 : ∀ R, UAutomationGraphExecutor.Execute.pass dt (v :: rest) k A R =
          .InvalidNode k := by
        intro R
        unfold UAutomationGraphExecutor.Execute.pass
        rw [if_pos hval]
      rw [e1, e1]
    · have hval2 : k.Valid v = true := by simpa using hval
      by_cases hsa : k.GetState v = .Standby ∨ k.GetState v = .Active
      · rw [pass_cons_active dt v rest k A _ hval2 hsa,
          pass_cons_active dt v rest k A _ hval2 hsa]
        exact ih _ A Rb hrest
      · push_neg at hsa
        obtain ⟨Rb2, a1, a2⟩ := TSet.Add_insert Ra Rb X v hv
        by_cases hf : k.GetState v = .Finished
        · rw [pass_cons_finished dt v rest k A _ hval2 hf,
            pass_cons_finished dt v rest k A _ hval2 hf, a1, a2]
          exact ih _ _ Rb2 hrest
        · rw [pass_cons_other dt v rest k A _ hval2 hsa.1 hsa.2 hf,
            pass_cons_other dt v rest k A _ hval2 hsa.1 hsa.2 hf, a1, a2]
          exact ih _ A Rb2 hrest

theorem Execute_pass_summary {n : Nat} (h : Heap n) (ex : UAutomationGraphExecutor n) (dt : Rat)
    (hvalid : ∀ v ∈ ex.ActiveNodes, h.Valid v = true) (ht : ex.ExecutionTimer - dt ≤ 0) :
    ∃ (h1 : Heap n) (A1 R1 : List (Fin n)),
      UAutomationGraphExecutor.Execute.pass dt ex.ActiveNodes h [] [] = .Completed h1 A1 R1 ∧
      (UAutomationGraphExecutor.Execute h ex dt).1.1.Node = h1.Node ∧
      (UAutomationGraphExecutor.Execute h ex dt).1.1.Trace = h1.Trace ++ R1.map Call.Cleanup ∧
      (∀ v, v ∈ (UAutomationGraphExecutor.Execute h ex dt).1.2.ActiveNodes ↔
        (v ∈ ex.ActiveNodes ∨ v ∈ A1) ∧ v ∉ R1) ∧
      (UAutomationGraphExecutor.Execute h ex dt).1.2.TargetGraph = ex.TargetGraph := by
  by_cases hne : ex.ActiveNodes = []
  · refine ⟨h, [], [], by rw [hne]; rfl, ?_, ?_, ?_, ?_⟩
    · rw [Execute_of_not_active h ex dt hne]
    · rw [Execute_of_not_active h ex dt hne]; simp
    · intro v
      rw [Execute_of_not_active h ex dt hne, hne]
      simp
    · rw [Execute_of_not_active h ex dt hne]
  · obtain ⟨h1, A1, R1, hres⟩ := pass_completed_of_valid dt ex.ActiveNodes h [] [] hvalid
    obtain ⟨seg, _, _, hR⟩ := pass_act dt ex.ActiveNodes h h1 A1 R1 hres
    obtain ⟨r1, _, _, r4, _⟩ := removeNodes_spec R1 h1 (TSet.Append ex.ActiveNodes A1)
    have rt := removeNodes_trace R1 h1 (TSet.Append ex.ActiveNodes A1)
      (fun v hv => by rw [seg.shape.valid]; exact hvalid v (hR v hv).1)
    refine ⟨h1, A1, R1, hres, ?_, ?_, ?_, ?_⟩
    · rw [Execute_eq_of_completed h ex dt hne ht h1 A1 R1 hres]; exact r1
    · rw [Execute_eq_of_completed h ex dt hne ht h1 A1 R1 hres]; exact rt
    · intro v
      rw [Execute_eq_of_completed h ex dt hne ht h1 A1 R1 hres]
      show v ∈ (UAutomationGraphExecutor.Execute.removeNodes R1 h1 _).2 ↔ _
      rw [r4, TSet.mem_Append]
    · rw [Execute_eq_of_completed h ex dt hne ht h1 A1 R1 hres]

/-- C24: in a scheduling pass (no tracked reference is stale), let `X` be a
tracked node that the loop finds in `Error`, `Expired` or `Cancelled` when it
comes to it. Compared with the same `Execute` call on the executor that tracks
the other nodes only: the run is not reset, every node object ends the same,
the same nodes other than `X` are tracked afterwards and `X` is not, and the
calls made are the same except for one additional `Cleanup` call on `X`; so no
`Activate` call is made on account of `X`. -/
theorem failed_node_is_only_removed {n : Nat} (h : Heap n) (ex : UAutomationGraphExecutor n)
    (dt : Rat) (pre post : List (Fin n)) (X : Fin n)
    (hsplit : ex.ActiveNodes = pre ++ X :: post) (hXpre : X ∉ pre) (hXpost : X ∉ post)
    (hvalid : ∀ v ∈ ex.ActiveNodes, h.Valid v = true) (htimer : ex.ExecutionTimer - dt ≤ 0)
    (hm : Heap n) (Am Rm : List (Fin n))
    (hpre : UAutomationGraphExecutor.Execute.pass dt pre h [] [] = .Completed hm Am Rm)
    (hX : hm.GetState X = .Error ∨ hm.GetState X = .Expired ∨ hm.GetState X = .Cancelled) :
    (UAutomationGraphExecutor.Execute h ex dt).1.2.TargetGraph = ex.TargetGraph ∧
    (UAutomationGraphExecutor.Execute h ex dt).1.1.Node =
      (UAutomationGraphExecutor.Execute h { ex with ActiveNodes := pre ++ post } dt).1.1.Node ∧
    (∀ v, v ∈ (UAutomationGraphExecutor.Execute h ex dt).1.2.ActiveNodes ↔
      v ∈ (UAutomationGraphExecutor.Execute h
        { ex with ActiveNodes := pre ++ post } dt).1.2.ActiveNodes ∧ v ≠ X) ∧
    (∀ c : Call n,
      ((UAutomationGraphExecutor.Execute h ex dt).1.1.CallsSince h).count c =
        ((UAutomationGraphExecutor.Execute h
          { ex with ActiveNodes := pre ++ post } dt).1.1.CallsSince h).count c +
        (if c = Call.Cleanup X then 1 else 0)) ∧
    ∀ c ∈ (h.Node X).ChildNodes,
      ((UAutomationGraphExecutor.Execute h ex dt).1.1.CallsSince h).countP
        (Call.isActivateOn c) =
      ((UAutomationGraphExecutor.Execute h
        { ex with ActiveNodes := pre ++ post } dt).1.1.CallsSince h).countP
        (Call.isActivateOn c) := by
  have hvalid' : ∀ v ∈ pre ++ post, h.Valid v = true := by
    intro v hv
    apply hvalid v
    rw [hsplit]
    rcases List.mem_append.mp hv with a | a
    · exact List.mem_append_left _ a
    · exact List.mem_append_right _ (List.mem_cons_of_mem _ a)
  obtain ⟨k1, B1, S1, hres, n1, t1, m1, g1⟩ := Execute_pass_summary h ex dt hvalid htimer
  obtain ⟨k2, B2, S2, hres', n2, t2, m2, _⟩ := Execute_pass_summary h
    { ex with ActiveNodes := pre ++ post } dt hvalid' htimer
  -- the two passes agree up to the entry of `X` in `ToRemove`
  have e' := pass_append dt post pre h [] [] hm Am Rm hpre
  have hres2 : UAutomationGraphExecutor.Execute.pass dt post hm Am Rm = .Completed k2 B2 S2 := by
    rw [← e']; exact hres'
  obtain ⟨segm, _, _, hRm⟩ := pass_act dt pre h hm Am Rm hpre
  have hXRm : X ∉ Rm := fun x => hXpre (hRm X x).1
  have hXvalid : hm.Valid X = true := by
    rw [segm.shape.valid]
    apply hvalid X
    rw [hsplit]
    exact List.mem_append_right _ (List.mem_cons_self _ _)
  have hns : hm.GetState X ≠ .Standby ∧ hm.GetState X ≠ .Active ∧ hm.GetState X ≠ .Finished := by
    rcases hX with x | x | x <;> rw [x] <;> exact ⟨by decide, by decide, by decide⟩
  have e := pass_append dt (X :: post) pre h [] [] hm Am Rm hpre
  rw [pass_cons_other dt X post hm Am Rm hXvalid hns.1 hns.2.1 hns.2.2] at e
  have hadd : TSet.Add Rm X = Rm ++ X :: [] := by
    unfold TSet.Add
    rw [if_neg hXRm]
  have hins := pass_insert_removed dt X Rm post hm Am [] hXpost
  rw [List.append_nil, hres2] at hins
  obtain ⟨Rb2, hS2, hwith⟩ := hins
  rw [hadd, hwith, ← hsplit, hres] at e
  injection e with ek eB eS
  subst ek
  subst eB
  subst eS
  subst hS2
  obtain ⟨ev, t, _, _⟩ : h.OnlyActivated dt k1 := by
    have := pass_only dt ex.ActiveNodes h [] []
    rw [hres] at this
    exact this
  have tw : (UAutomationGraphExecutor.Execute h ex dt).1.1.Trace =
      h.Trace ++ (ev ++ (Rm ++ X :: Rb2).map Call.Cleanup) := by
    rw [t1, t, List.append_assoc]
  have two : (UAutomationGraphExecutor.Execute h
      { ex with ActiveNodes := pre ++ post } dt).1.1.Trace =
      h.Trace ++ (ev ++ (Rm ++ Rb2).map Call.Cleanup) := by
    rw [t2, t, List.append_assoc]
  have hcount : ∀ c : Call n,
      ((UAutomationGraphExecutor.Execute h ex dt).1.1.CallsSince h).count c =
        ((UAutomationGraphExecutor.Execute h
          { ex with ActiveNodes := pre ++ post } dt).1.1.CallsSince h).count c +
        (if c = Call.Cleanup X then 1 else 0) := by
    intro c
    rw [CallsSince_of_trace tw, CallsSince_of_trace two]
    simp only [List.count_append, List.map_append, List.map_cons, List.count_cons]
    by_cases hc : c = Call.Cleanup X
    · subst hc; simp; omega
    · have hc2 : ¬ Call.Cleanup X = c := fun x => hc x.symm
      simp [hc, hc2]
  refine ⟨g1, by rw [n1, n2], ?_, hcount, ?_⟩
  · intro v
    rw [m1, m2, hsplit]
    simp only [List.mem_append, List.mem_cons]
    constructor
    · rintro ⟨a, b⟩
      have hvX : v ≠ X := fun x => b (Or.inr (Or.inl x))
      refine ⟨⟨?_, fun x => b (x.elim Or.inl (fun y => Or.inr (Or.inr y)))⟩, hvX⟩
      rcases a with (a | a | a) | a
      · exact Or.inl (Or.inl a)
      · exact absurd a hvX
      · exact Or.inl (Or.inr a)
      · exact Or.inr a
    · rintro ⟨⟨a, b⟩, hvX⟩
      refine ⟨?_, ?_⟩
      · rcases a with (a | a) | a
        · exact Or.inl (Or.inl a)
        · exact Or.inl (Or.inr (Or.inr a))
        · exact Or.inr a
      · intro x
        rcases x with x | x | x
        · exact b (Or.inl x)
        · exact hvX x
        · exact b (Or.inr x)
  · intro c _
    rw [CallsSince_of_trace tw, CallsSince_of_trace two]
    simp only [List.countP_append, List.map_append, List.map_cons, List.countP_cons]
    simp [Call.isActivateOn]

/-- C24 on three nodes, the tracked root `0` being in `Error`: `Execute`
leaves the node objects as the same call without node `0` in `ActiveNodes`
does, keeps the target graph, makes one `Cleanup` call on node `0`, and makes
as many `Activate` calls on its child `2` as that other call does, namely
none. -/
theorem failed_node_is_only_removed_witness :
    (UAutomationGraphExecutor.Execute exFailed exFailedExecutor 1).1.2.TargetGraph = some 0 ∧
    (UAutomationGraphExecutor.Execute exFailed exFailedExecutor 1).1.1.Node =
      (UAutomationGraphExecutor.Execute exFailed
        { exFailedExecutor with ActiveNodes := [] ++ [1] } 1).1.1.Node ∧
    ((UAutomationGraphExecutor.Execute exFailed exFailedExecutor 1).1.1.CallsSince
      exFailed).count (Call.Cleanup 0) =
      ((UAutomationGraphExecutor.Execute exFailed
        { exFailedExecutor with ActiveNodes := [] ++ [1] } 1).1.1.CallsSince
        exFailed).count (Call.Cleanup 0) + (if Call.Cleanup (0 : Fin 3) = Call.Cleanup 0
          then 1 else 0) ∧
    ((UAutomationGraphExecutor.Execute exFailed exFailedExecutor 1).1.1.CallsSince
      exFailed).countP (Call.isActivateOn 2) =
      ((UAutomationGraphExecutor.Execute exFailed
        { exFailedExecutor with ActiveNodes := [] ++ [1] } 1).1.1.CallsSince
        exFailed).countP (Call.isActivateOn 2) ∧
    ((UAutomationGraphExecutor.Execute exFailed exFailedExecutor 1).1.1.CallsSince
      exFailed).countP (Call.isActivateOn 2) = 0 ∧
    (UAutomationGraphExecutor.Execute exFailed exFailedExecutor 1).1.2.ActiveNodes = [1] :=
  have hw := failed_node_is_only_removed exFailed exFailedExecutor 1 [] [1] 0 rfl
    (by decide) (by decide) (fun _ _ => rfl) (by decide!) exFailed [] [] rfl
    (Or.inl (by decide))
  ⟨hw.1, hw.2.1, hw.2.2.2.1 (Call.Cleanup 0), hw.2.2.2.2 2 (by decide), by decide!, by decide!⟩

/-! ## The node `UAGN_ClearLandscapeLayers` -/

theorem clearLayers_all (PaintLayers : List FName) (names : List FName) :
    ∀ (EditLayers : List FName) (l : ALandscape), (∀ e ∈ EditLayers, e ∈ l.EditLayers) →
      l.EditLayers = names →
      UAGN_ClearLandscapeLayers.clearLayers PaintLayers EditLayers l =
        ({ l with Cleared := l.Cleared ++ EditLayers.flatMap (fun e =>
            PaintLayers.map (fun p => (names.indexOf e, p))) }, true) := by
  intro EditLayers
  induction EditLayers with
  | nil => intro l _ _; simp [UAGN_ClearLandscapeLayers.clearLayers]
  | cons e rest ih =>
    intro l hall hn
    have he : e ∈ l.EditLayers := hall e (List.mem_cons_self _ _)
    have he2 : e ∈ names := hn ▸ he
    have hi : l.GetLayerIndex e = some (names.indexOf e) := by
      simp [ALandscape.GetLayerIndex, he2, hn]
    rw [UAGN_ClearLandscapeLayers.clearLayers, hi]
    dsimp only
    have h := ih { l with Cleared := l.Cleared ++ PaintLayers.map (fun p => (names.indexOf e, p)) }
      (fun x hx => hall x (List.mem_cons_of_mem _ hx)) hn
    rw [h]
    simp [List.flatMap_cons, List.append_assoc]

/-- Claim C21, counterexample: the node `exClearNode` is in Standby with a valid
configuration (a live landscape, one edit layer and two paint layers, all of
which exist on the landscape), yet a single `Activate` call returns `Active`,
not `Finished`, and clears nothing. -/
theorem ClearLandscapeLayers_first_Activate_not_Finished :
    exClearNode.TargetLandscape.bind exWorld =
        some { LandscapeInfo := some ["Grass", "Rock"], EditLayers := ["Base", "Procedural"] } ∧
      exClearNode.EditLayers = ["Procedural"] ∧ exClearNode.PaintLayers = ["Grass", "Rock"] ∧
      (UAGN_ClearLandscapeLayers.Activate { NodeState := .Standby } exClearNode exWorld 1).2 =
        .Active ∧
      (UAGN_ClearLandscapeLayers.Activate { NodeState := .Standby } exClearNode exWorld 1).2 ≠
        .Finished ∧
      (UAGN_ClearLandscapeLayers.Activate { NodeState := .Standby } exClearNode exWorld 1).1.2 0 =
        exWorld 0 := by
  refine ⟨by decide, rfl, rfl, by decide!, by decide!, by decide!⟩

/-- Claim C21, amended: for a `UAGN_ClearLandscapeLayers` node in Standby with no
time elapsed and a positive timeout, a single `Activate` call returns `Error`
when the configuration is invalid (no valid landscape, or `EditLayers` or
`PaintLayers` empty). Otherwise that call only makes the node `Active` and
leaves the world as it is; the next `Activate` call, made before the timeout,
when the landscape info and every named paint and edit layer exist, clears each
paint layer on each edit layer, in order, and returns `Finished`. -/
theorem ClearLandscapeLayers_Activate_clears_on_second_call (m : NodeMembers)
    (node : UAGN_ClearLandscapeLayers) (world : LandscapeWorld) (dt1 dt2 : Rat)
    (hs : m.NodeState = .Standby) (h0 : m.TimeElapsedSec = 0) (hpos : 0 < m.NodeTimeoutSec) :
    ((node.TargetLandscape.bind world = none ∨ node.EditLayers = [] ∨ node.PaintLayers = []) →
      (UAGN_ClearLandscapeLayers.Activate m node world dt1).2 = .Error ∧
      (UAGN_ClearLandscapeLayers.Activate m node world dt1).1.1.NodeState = .Error ∧
      (UAGN_ClearLandscapeLayers.Activate m node world dt1).1.2 = world) ∧
    (∀ (id : Nat) (L : ALandscape), node.TargetLandscape = some id → world id = some L →
      node.EditLayers ≠ [] → node.PaintLayers ≠ [] →
      (UAGN_ClearLandscapeLayers.Activate m node world dt1).2 = .Active ∧
      (UAGN_ClearLandscapeLayers.Activate m node world dt1).1.1.NodeState = .Active ∧
      (UAGN_ClearLandscapeLayers.Activate m node world dt1).1.2 = world ∧
      (∀ info : List FName, L.LandscapeInfo = some info →
        (∀ p ∈ node.PaintLayers, p ∈ info) → (∀ e ∈ node.EditLayers, e ∈ L.EditLayers) →
        dt2 < m.NodeTimeoutSec →
        (UAGN_ClearLandscapeLayers.Activate
          (UAGN_ClearLandscapeLayers.Activate m node world dt1).1.1 node
          (UAGN_ClearLandscapeLayers.Activate m node world dt1).1.2 dt2).2 = .Finished ∧
        (UAGN_ClearLandscapeLayers.Activate
          (UAGN_ClearLandscapeLayers.Activate m node world dt1).1.1 node
          (UAGN_ClearLandscapeLayers.Activate m node world dt1).1.2 dt2).1.1.NodeState =
            .Finished ∧
        (UAGN_ClearLandscapeLayers.Activate
          (UAGN_ClearLandscapeLayers.Activate m node world dt1).1.1 node
          (UAGN_ClearLandscapeLayers.Activate m node world dt1).1.2 dt2).1.2 id =
            some { L with Cleared := L.Cleared ++ node.EditLayers.flatMap (fun e =>
              node.PaintLayers.map (fun p => (L.EditLayers.indexOf e, p))) })) := by
  have hlt : ¬ (m.TimeElapsedSec ≥ m.NodeTimeoutSec) := by rw [h0]; exact not_le.mpr hpos
  have hA : UAGN_ClearLandscapeLayers.Activate m node world dt1 =
      UAGN_ClearLandscapeLayers.ActivateInternal m node world dt1 := by
    simp only [UAGN_ClearLandscapeLayers.Activate, hs]
    simp only [reduceCtorEq, if_false]
    rw [if_neg hlt]
  refine ⟨?_, ?_⟩
  · intro hbad
    rw [hA]
    unfold UAGN_ClearLandscapeLayers.ActivateInternal
    split
    · rename_i id L ht hb
      rcases hbad with hn | he | hp
      · rw [hn] at hb; cases hb
      · simp [he, UAutomationGraphNode.SetState]
      · simp [hp, UAutomationGraphNode.SetState]
    · simp [UAutomationGraphNode.SetState]
  · intro id L ht hw he hp
    have he2 : node.EditLayers.isEmpty = false := by
      cases h : node.EditLayers with
      | nil => exact absurd h he
      | cons _ _ => rfl
    have hp2 : node.PaintLayers.isEmpty = false := by
      cases h : node.PaintLayers with
      | nil => exact absurd h hp
      | cons _ _ => rfl
    have h1 : UAGN_ClearLandscapeLayers.Activate m node world dt1 =
        (((UAutomationGraphNode.SetState m .Active).1, world), .Active) := by
      rw [hA]
      unfold UAGN_ClearLandscapeLayers.ActivateInternal
      simp [ht, hw, he2, hp2, hs]
    rw [h1]
    refine ⟨rfl, rfl, rfl, ?_⟩
    intro info hinfo hpaint hedit hdt
    have hlt2 : ¬ (m.TimeElapsedSec + dt2 ≥ m.NodeTimeoutSec) := by
      rw [h0, zero_add]; exact not_le.mpr hdt
    have hall : node.PaintLayers.all (fun PaintLayerName => decide (PaintLayerName ∈ info)) =
        true := by
      rw [List.all_eq_true]
      intro p hpm
      simpa using hpaint p hpm
    have h2 : UAGN_ClearLandscapeLayers.Activate (UAutomationGraphNode.SetState m .Active).1
        node world dt2 =
        (((UAutomationGraphNode.SetState
            { (UAutomationGraphNode.SetState m .Active).1 with
              TimeElapsedSec := m.TimeElapsedSec + dt2 } .Finished).1,
          Function.update world id (some { L with Cleared := (L.Cleared ++
            node.EditLayers.flatMap (fun e =>
              node.PaintLayers.map (fun p => (L.EditLayers.indexOf e, p)))) })), .Finished) := by
      simp only [UAGN_ClearLandscapeLayers.Activate, UAutomationGraphNode.SetState, if_true]
      rw [if_neg hlt2]
      unfold UAGN_ClearLandscapeLayers.ActivateInternal
      simp only [ht, Option.some_bind, hw, he2, hp2, Bool.or_self, Bool.false_eq_true, if_false,
        reduceCtorEq, ne_eq, not_true_eq_false, hinfo, hall, if_true,
        clearLayers_all node.PaintLayers L.EditLayers node.EditLayers L hedit rfl,
        UAutomationGraphNode.SetState]
    rw [h2]
    refine ⟨rfl, rfl, ?_⟩
    simp

/-- Witness for C21: the node `exClearNode` on `exWorld`, two calls. -/
theorem ClearLandscapeLayers_Activate_clears_on_second_call_witness :
    (UAGN_ClearLandscapeLayers.Activate
      (UAGN_ClearLandscapeLayers.Activate { NodeState := .Standby } exClearNode exWorld 1).1.1
      exClearNode
      (UAGN_ClearLandscapeLayers.Activate { NodeState := .Standby } exClearNode exWorld 1).1.2
      1).2 = .Finished ∧
    (UAGN_ClearLandscapeLayers.Activate
      (UAGN_ClearLandscapeLayers.Activate { NodeState := .Standby } exClearNode exWorld 1).1.1
      exClearNode
      (UAGN_ClearLandscapeLayers.Activate { NodeState := .Standby } exClearNode exWorld 1).1.2
      1).1.2 0 =
      some { LandscapeInfo := some ["Grass", "Rock"], EditLayers := ["Base", "Procedural"],
             Cleared := [(1, "Grass"), (1, "Rock")] } := by
  have h := (ClearLandscapeLayers_Activate_clears_on_second_call { NodeState := .Standby }
    exClearNode exWorld 1 1 rfl rfl (by decide!)).2 0
    { LandscapeInfo := some ["Grass", "Rock"], EditLayers := ["Base", "Procedural"] }
    rfl rfl (by decide) (by decide)
  have h2 := h.2.2.2 ["Grass", "Rock"] rfl (by decide) (by decide) (by decide!)
  exact ⟨h2.1, h2.2.2⟩

/-! ## The editor's connection check -/

theorem UnvisitedParentEdges_nil {n : Nat} (h : Heap n) :
    h.UnvisitedParentEdges [] = h.ParentEdgeCount := by
  simp [Heap.UnvisitedParentEdges, Heap.ParentEdgeCount]

theorem UnvisitedParentEdges_visit {n : Nat} (h : Heap n) (V : List (Fin n)) (v : Fin n)
    (hv : v ∉ V) :
    h.UnvisitedParentEdges (TSet.Add V v) + (h.Node v).ParentNodes.length =
      h.UnvisitedParentEdges V := by
  unfold Heap.UnvisitedParentEdges
  have hmem : v ∈ List.finRange n := List.mem_finRange v
  have hnd : (List.finRange n).Nodup := List.nodup_finRange n
  generalize List.finRange n = l at hmem hnd
  induction l with
  | nil => simp at hmem
  | cons a l ih =>
    simp only [List.map_cons, List.sum_cons]
    rw [List.nodup_cons] at hnd
    by_cases hav : a = v
    · subst hav
      have hrest : (l.map (fun u => if u ∈ TSet.Add V a then 0
            else (h.Node u).ParentNodes.length))
          = l.map (fun u => if u ∈ V then 0 else (h.Node u).ParentNodes.length) := by
        apply List.map_congr_left
        intro u hu
        have : u ≠ a := fun e => hnd.1 (e ▸ hu)
        simp [TSet.mem_Add, this]
      rw [hrest]
      simp [TSet.mem_Add, hv]
      omega
    · have hvl : v ∈ l := by
        rcases List.mem_cons.mp hmem with e | e
        · exact absurd e.symm hav
        · exact e
      have := ih hvl hnd.2
      have ha : (a ∈ TSet.Add V v) ↔ a ∈ V := by simp [TSet.mem_Add, hav]
      simp only [ha]
      omega

/-- The ancestor walk never reaches its iteration bound. Its result contains the
nodes visited before and the stack, is closed under parents at every newly
visited node, and every newly visited node is reachable by parent edges from
the stack. -/
theorem ancestorLoop_spec {n : Nat} (h : Heap n) :
    ∀ (fuel : Nat) (stack V : List (Fin n)),
      stack.length + h.UnvisitedParentEdges V ≤ fuel →
      ∃ R : List (Fin n),
        UEdGraphSchema_AutomationGraph.ancestorLoop h fuel stack V = some R ∧
        (∀ x ∈ V, x ∈ R) ∧ (∀ x ∈ stack, x ∈ R) ∧
        (∀ u ∈ R, u ∈ V ∨ ∀ p ∈ (h.Node u).ParentNodes, p ∈ R) ∧
        (∀ u ∈ R, u ∈ V ∨ ∃ s ∈ stack, Relation.ReflTransGen h.ParentEdge s u) := by
  intro fuel
  induction fuel with
  | zero =>
    intro stack V hf
    cases stack with
    | nil =>
      exact ⟨V, by simp [UEdGraphSchema_AutomationGraph.ancestorLoop], fun _ hx => hx,
        by simp, fun _ hu => Or.inl hu, fun _ hu => Or.inl hu⟩
    | cons a s => simp at hf
  | succ fuel ih =>
    intro stack V hf
    cases stack with
    | nil =>
      exact ⟨V, by simp [UEdGraphSchema_AutomationGraph.ancestorLoop], fun _ hx => hx,
        by simp, fun _ hu => Or.inl hu, fun _ hu => Or.inl hu⟩
    | cons v rest =>
      by_cases hv : v ∈ V
      · obtain ⟨R, hR, hV, hstack, hclos, hreach⟩ := ih rest V (by simp at hf; omega)
        refine ⟨R, ?_, hV, ?_, hclos, ?_⟩
        · simp [UEdGraphSchema_AutomationGraph.ancestorLoop, hv, hR]
        · intro x hx
          rcases List.mem_cons.mp hx with e | e
          · subst e; exact hV _ hv
          · exact hstack x e
        · intro u hu
          rcases hreach u hu with hm | ⟨s, hs, hr⟩
          · exact Or.inl hm
          · exact Or.inr ⟨s, List.mem_cons_of_mem _ hs, hr⟩
      · have hpot := UnvisitedParentEdges_visit h V v hv
        obtain ⟨R, hR, hV, hstack, hclos, hreach⟩ :=
          ih ((h.Node v).ParentNodes.reverse ++ rest) (TSet.Add V v) (by
            simp at hf ⊢
            omega)
        have hvR : v ∈ R := hV v (by simp [TSet.mem_Add])
        refine ⟨R, ?_, ?_, ?_, ?_, ?_⟩
        · simp [UEdGraphSchema_AutomationGraph.ancestorLoop, hv, hR]
        · exact fun x hx => hV x (by simp [TSet.mem_Add, hx])
        · intro x hx
          rcases List.mem_cons.mp hx with e | e
          · subst e; exact hvR
          · exact hstack x (List.mem_append_right _ e)
        · intro u hu
          rcases hclos u hu with hm | hm
          · rcases (TSet.mem_Add V v u).mp hm with hm | hm
            · exact Or.inl hm
            · subst hm
              exact Or.inr (fun p hp =>
                hstack p (List.mem_append_left _ (List.mem_reverse.mpr hp)))
          · exact Or.inr hm
        · intro u hu
          rcases hreach u hu with hm | ⟨s, hs, hr⟩
          · rcases (TSet.mem_Add V v u).mp hm with hm | hm
            · exact Or.inl hm
            · subst hm
              exact Or.inr ⟨u, List.mem_cons_self _ _, Relation.ReflTransGen.refl⟩
          · rcases List.mem_append.mp hs with hs | hs
            · exact Or.inr ⟨v, List.mem_cons_self _ _,
                Relation.ReflTransGen.head (List.mem_reverse.mp hs) hr⟩
            · exact Or.inr ⟨s, List.mem_cons_of_mem _ hs, hr⟩

/-- The set `Visited` that `CanCreateConnection` computes for `FromNode` is the set of
proper ancestors of `FromNode`: the nodes reachable by one or more parent
edges. -/
theorem ancestorLoop_ancestors {n : Nat} (h : Heap n) (FromNode : Fin n) :
    ∃ R : List (Fin n),
      UEdGraphSchema_AutomationGraph.ancestorLoop h
        ((h.Node FromNode).ParentNodes.length + h.ParentEdgeCount)
        (h.Node FromNode).ParentNodes.reverse [] = some R ∧
      ∀ v, v ∈ R ↔ Relation.TransGen h.ParentEdge FromNode v := by
  obtain ⟨R, hR, _, hstack, hclos, hreach⟩ := ancestorLoop_spec h
    ((h.Node FromNode).ParentNodes.length + h.ParentEdgeCount)
    (h.Node FromNode).ParentNodes.reverse [] (by rw [UnvisitedParentEdges_nil]; simp)
  refine ⟨R, hR, fun v => ⟨fun hv => ?_, fun hv => ?_⟩⟩
  · rcases hreach v hv with hm | ⟨s, hs, hr⟩
    · simp at hm
    · exact Relation.TransGen.head' (List.mem_reverse.mp hs) hr
  · obtain ⟨b, hb, hbv⟩ := Relation.TransGen.head'_iff.mp hv
    have hbR : b ∈ R := hstack b (List.mem_reverse.mpr hb)
    clear hv
    induction hbv with
    | refl => exact hbR
    | tail _ e ih =>
      rcases hclos _ ih with hm | hm
      · simp at hm
      · exact hm _ e

/-- A path in the graph with one connection added is a path of the old graph, or
passes through the new connection. -/
theorem AddsConnection_path {n : Nat} {h k : Heap n} {From To : Fin n}
    (hc : h.AddsConnection k From To) {a b : Fin n} (hab : Relation.TransGen k.Edge a b) :
    Relation.TransGen h.Edge a b ∨
      (Relation.ReflTransGen h.Edge a From ∧ Relation.ReflTransGen h.Edge To b) := by
  induction hab with
  | single e =>
    rcases (hc.child _ _).mp e with e | ⟨e1, e2⟩
    · exact Or.inl (Relation.TransGen.single e)
    · subst e1; subst e2
      exact Or.inr ⟨Relation.ReflTransGen.refl, Relation.ReflTransGen.refl⟩
  | tail _ e ih =>
    rcases (hc.child _ _).mp e with e | ⟨e1, e2⟩
    · rcases ih with ih | ⟨i1, i2⟩
      · exact Or.inl (Relation.TransGen.tail ih e)
      · exact Or.inr ⟨i1, Relation.ReflTransGen.tail i2 e⟩
    · subst e1; subst e2
      rcases ih with ih | ⟨i1, _⟩
      · exact Or.inr ⟨ih.to_reflTransGen, Relation.ReflTransGen.refl⟩
      · exact Or.inr ⟨i1, Relation.ReflTransGen.refl⟩

/-- With inverse lists, a child-edge path is a parent-edge path backwards. -/
theorem InverseLists_path {n : Nat} {h : Heap n} (hinv : h.InverseLists) {a b : Fin n}
    (hab : Relation.TransGen h.Edge a b) : Relation.TransGen h.ParentEdge b a := by
  induction hab with
  | single e => exact Relation.TransGen.single ((hinv _ _).mp e)
  | tail _ e ih => exact Relation.TransGen.head ((hinv _ _).mp e) ih

/-- Claim C27: the check answers "disallow" exactly when `From = To`, or the
pair is already connected in either direction, or `To` is reachable from `From`
by parent edges. For an acyclic graph with inverse `ParentNodes` and
`ChildNodes` lists, if the check allows the connection `From → To`, then any
graph obtained by adding `To` to the children of `From` and `From` to the
parents of `To` is acyclic, with inverse lists. -/
theorem CanCreateConnection_keeps_graph_acyclic {n : Nat} (h k : Heap n) (From To : Fin n) :
    ((UEdGraphSchema_AutomationGraph.CanCreateConnection h (some From) (some To)).Response =
        .CONNECT_RESPONSE_DISALLOW ↔
      (From = To ∨ To ∈ (h.Node From).ChildNodes ∨ From ∈ (h.Node To).ChildNodes ∨
        Relation.TransGen h.ParentEdge From To)) ∧
    (h.Acyclic → h.InverseLists →
      (UEdGraphSchema_AutomationGraph.CanCreateConnection h (some From) (some To)).Response =
        .CONNECT_RESPONSE_MAKE_WITH_CONVERSION_NODE →
      h.AddsConnection k From To → k.Acyclic ∧ k.InverseLists) := by
  obtain ⟨R, hR, hmem⟩ := ancestorLoop_ancestors h From
  have hiff : (UEdGraphSchema_AutomationGraph.CanCreateConnection h (some From)
        (some To)).Response = .CONNECT_RESPONSE_DISALLOW ↔
      (From = To ∨ To ∈ (h.Node From).ChildNodes ∨ From ∈ (h.Node To).ChildNodes ∨
        Relation.TransGen h.ParentEdge From To) := by
    unfold UEdGraphSchema_AutomationGraph.CanCreateConnection
    dsimp only
    by_cases h1 : From = To
    · simp [h1]
    · rw [if_neg h1]
      by_cases h2 : To ∈ (h.Node From).ChildNodes ∨ From ∈ (h.Node To).ChildNodes
      · rw [if_pos h2]
        rcases h2 with h2 | h2
        · simp [h2]
        · simp [h2]
      · rw [if_neg h2, hR]
        simp only [Option.getD_some]
        have h2a : To ∉ (h.Node From).ChildNodes := fun x => h2 (Or.inl x)
        have h2b : From ∉ (h.Node To).ChildNodes := fun x => h2 (Or.inr x)
        by_cases h3 : To ∈ R
        · rw [if_pos h3]
          simp [(hmem To).mp h3]
        · rw [if_neg h3]
          have : ¬ Relation.TransGen h.ParentEdge From To := fun x => h3 ((hmem To).mpr x)
          simp [h1, h2a, h2b, this]
  refine ⟨hiff, ?_⟩
  intro hacyc hinv hallow hc
  have hnot : ¬ (From = To ∨ To ∈ (h.Node From).ChildNodes ∨ From ∈ (h.Node To).ChildNodes ∨
      Relation.TransGen h.ParentEdge From To) := by
    intro hx
    have := hiff.mpr hx
    rw [hallow] at this
    cases this
  refine ⟨?_, ?_⟩
  · intro v hv
    rcases AddsConnection_path hc hv with hold | ⟨p1, p2⟩
    · exact hacyc v hold
    · have hp : Relation.ReflTransGen h.Edge To From := p2.trans p1
      rcases Relation.reflTransGen_iff_eq_or_transGen.mp hp with e | t
      · exact hnot (Or.inl e)
      · exact hnot (Or.inr (Or.inr (Or.inr (InverseLists_path hinv t))))
  · intro u c
    rw [hc.child, hc.parent, hinv u c]
    constructor
    · rintro (hx | ⟨e1, e2⟩)
      · exact Or.inl hx
      · exact Or.inr ⟨e2, e1⟩
    · rintro (hx | ⟨e1, e2⟩)
      · exact Or.inl hx
      · exact Or.inr ⟨e2, e1⟩

/-- Witness for C27: on the diamond the connection `B → C` is allowed, and the
diamond with that connection added is acyclic. -/
theorem CanCreateConnection_keeps_graph_acyclic_witness :
    (UEdGraphSchema_AutomationGraph.CanCreateConnection exDiamond (some 1) (some 2)).Response =
        .CONNECT_RESPONSE_MAKE_WITH_CONVERSION_NODE ∧
      (UEdGraphSchema_AutomationGraph.CanCreateConnection exDiamond (some 3) (some 0)).Response =
        .CONNECT_RESPONSE_DISALLOW ∧
      exDiamondConnected.Acyclic ∧ exDiamondConnected.InverseLists :=
  ⟨by decide!, by decide!,
    (CanCreateConnection_keeps_graph_acyclic exDiamond exDiamondConnected 1 2).2
      (fun v => no_cycle_of_increasing exDiamond (by decide!) v)
      (by unfold Heap.InverseLists; decide!) (by decide!) ⟨by decide!, by decide!⟩⟩

/-! ## The node `UAGN_RunTests`: worker requests -/

theorem RunTests_finish_state {n : Nat} (m : NodeMembers) (node : UAGN_RunTests)
    (env : RunTestsEnv n) (st : EAutomationGraphNodeState) :
    (UAGN_RunTests.ActivateInternal.finish m node env st).1.1.NodeState = st := by
  unfold UAGN_RunTests.ActivateInternal.finish
  by_cases hst : st = m.NodeState
  · simp [hst]
  · simp only [ne_eq, hst, not_false_eq_true, if_true]
    cases st <;> rfl

theorem Release_not_owner {n : Nat} (h : Heap n) (sub : UAutomationGraphSubsystem n)
    (this : Fin n) (hv : h.Valid this = true) :
    (UAutomationGraphSubsystem.ReleaseAutomationController h sub
      (some this)).1.AutomationControllerOwner ≠ some this := by
  unfold UAutomationGraphSubsystem.ReleaseAutomationController
  dsimp only
  split
  · rename_i hc
    intro e
    apply hc.2
    show some this = h.GetNodePtr sub.AutomationControllerOwner
    rw [e, GetNodePtr_some h this hv]
  · intro e
    cases e

theorem Lock_owner_of_other {n : Nat} (h : Heap n) (sub : UAutomationGraphSubsystem n)
    (this : Fin n) (c : LockCall n) (s : RunTestsState n)
    (hc : (RunTestsCall.Other c).Allowed this s = true)
    (ho : (UAutomationGraphSubsystem.applyLockCall h sub c).AutomationControllerOwner =
      some this) :
    sub.AutomationControllerOwner = some this := by
  cases c with
  | Lock Y =>
    have hY : Y ≠ some this := by simpa [RunTestsCall.Allowed] using hc
    unfold UAutomationGraphSubsystem.applyLockCall
      UAutomationGraphSubsystem.LockAutomationController at ho
    dsimp only at ho
    split at ho
    · exact ho
    · split at ho
      · exact ho
      · exact absurd ho hY
  | Release Y =>
    unfold UAutomationGraphSubsystem.applyLockCall
      UAutomationGraphSubsystem.ReleaseAutomationController at ho
    dsimp only at ho
    split at ho
    · exact ho
    · cases ho

/-- `Cleanup` keeps the lock invariant, whatever happens to the node members. -/
theorem RunTests_Cleanup_LockInv {n : Nat} (h : Heap n) (this : Fin n)
    (hv : h.Valid this = true) (m k : NodeMembers) (node : UAGN_RunTests) (env : RunTestsEnv n)
    (inv : UAGN_RunTests.LockInv this (m, node, env)) :
    UAGN_RunTests.LockInv this
      (k, (UAGN_RunTests.Cleanup h this node env).1, (UAGN_RunTests.Cleanup h this node env).2) := by
  unfold UAGN_RunTests.Cleanup
  by_cases hc : node.AutomationController.isSome = true
  · rw [if_pos hc]
    cases hsub : env.AGSubsystem with
    | none => exact ⟨inv.owner, inv.early⟩
    | some sub =>
      refine ⟨?_, fun _ => rfl⟩
      intro ho
      exact absurd (by simpa [RunTestsEnv.RecordedOwner] using ho)
        (Release_not_owner h sub this hv)
  · rw [if_neg hc]
    exact ⟨inv.owner, inv.early⟩

theorem RunTests_bound_env {n : Nat} (this : Fin n) (env : RunTestsEnv n) :
    (if this ∈ env.OnTestsRefreshed then env
      else { env with OnTestsRefreshed := env.OnTestsRefreshed ++ [this] }).RecordedOwner =
      env.RecordedOwner := by
  by_cases hb : this ∈ env.OnTestsRefreshed
  · rw [if_pos hb]
  · rw [if_neg hb]
    rfl

/-- `ActivateInternal` keeps the lock invariant. -/
theorem RunTests_ActivateInternal_LockInv {n : Nat} (h : Heap n) (this : Fin n)
    (m : NodeMembers) (node : UAGN_RunTests) (env : RunTestsEnv n) (dt : Rat) (running : Bool)
    (x : RunTestsState n × EAutomationGraphNodeState)
    (inv : UAGN_RunTests.LockInv this (m, node, env))
    (hx : UAGN_RunTests.ActivateInternal h this m node env dt running = some x) :
    UAGN_RunTests.LockInv this x.1 := by
  have iown : env.RecordedOwner = some this → node.AutomationController ≠ none := inv.owner
  have iearly : node.TestState = .Idle ∨ node.TestState = .WaitForController →
      node.AutomationController = none := inv.early
  unfold UAGN_RunTests.ActivateInternal at hx
  by_cases hS : m.NodeState = .Standby
  · rw [if_pos hS] at hx
    cases hx
    exact ⟨iown, iearly⟩
  rw [if_neg hS] at hx
  by_cases hA : m.NodeState ≠ .Active
  · rw [if_pos hA] at hx
    cases hx
    exact ⟨iown, iearly⟩
  rw [if_neg hA] at hx
  cases hT : node.TestState with
  | Idle =>
    have hnone := iearly (Or.inl hT)
    simp only [hT] at hx
    by_cases hE : node.Tests.isEmpty = true
    · rw [if_pos hE] at hx
      cases hx
      exact ⟨iown, fun _ => hnone⟩
    · rw [if_neg hE] at hx
      cases hx
      exact ⟨iown, fun _ => hnone⟩
  | WaitForController =>
    have hnone := iearly (Or.inr hT)
    simp only [hT] at hx
    cases hsub : env.AGSubsystem with
    | none =>
      simp only [hsub, hnone, Option.isSome_none, Bool.false_eq_true, if_false] at hx
      cases hx
      exact ⟨iown, fun _ => hnone⟩
    | some sub =>
      simp only [hsub] at hx
      by_cases hl : (UAutomationGraphSubsystem.LockAutomationController h sub
          (some this)).2.isSome = true
      · rw [if_pos hl] at hx
        cases hx
        have hsome : (UAutomationGraphSubsystem.LockAutomationController h sub
            (some this)).2 ≠ none := by
          intro e
          rw [e] at hl
          cases hl
        exact ⟨fun _ => hsome, fun e => e.elim (fun y => nomatch y) (fun y => nomatch y)⟩
      · rw [if_neg hl] at hx
        cases hx
        have hnone2 : (UAutomationGraphSubsystem.LockAutomationController h sub
            (some this)).2 = none := by
          cases hy : (UAutomationGraphSubsystem.LockAutomationController h sub (some this)).2 with
          | none => rfl
          | some c => rw [hy] at hl; exact absurd rfl hl
        have hsame := Lock_refused_eq h sub (some this) hnone2
        refine ⟨?_, fun _ => hnone2⟩
        intro ho
        have ho2 : (UAutomationGraphSubsystem.LockAutomationController h sub
            (some this)).1.AutomationControllerOwner = some this := ho
        rw [hsame] at ho2
        have ho3 : sub.AutomationControllerOwner = some this := ho2
        have : env.RecordedOwner = some this := by
          simp [RunTestsEnv.RecordedOwner, hsub, ho3]
        exact absurd hnone (iown this)
  | WaitForTestsReady =>
    simp only [hT] at hx
    cases hc : node.AutomationController with
    | none => simp only [hc] at hx; cases hx
    | some c =>
      simp only [hc] at hx
      have vE : ∀ {P : Prop}, ETestState.WaitForTestsReady = .Idle ∨
          ETestState.WaitForTestsReady = .WaitForController → P :=
        fun e => e.elim (fun y => nomatch y) (fun y => nomatch y)
      split at hx
      · split at hx
        · cases hx
          exact ⟨fun _ => Option.some_ne_none c, fun e => vE e⟩
        · cases hx
          exact ⟨fun _ => Option.some_ne_none c, fun e => vE e⟩
      · cases hx
        exact ⟨fun _ => Option.some_ne_none c, fun e => vE e⟩
  | RunningTests =>
    simp only [hT] at hx
    cases hc : node.AutomationController with
    | none => simp only [hc] at hx; cases hx
    | some c =>
      simp only [hc] at hx
      split at hx
      · cases hx
        exact ⟨fun _ => Option.some_ne_none c,
          fun e => e.elim (fun y => nomatch y) (fun y => nomatch y)⟩
      · cases hx
        refine ⟨fun _ => ?_, fun e => ?_⟩
        · show node.AutomationController ≠ none
          rw [hc]
          exact Option.some_ne_none c
        · have e2 : node.TestState = .Idle ∨ node.TestState = .WaitForController := e
          rw [hT] at e2
          exact e2.elim (fun y => nomatch y) (fun y => nomatch y)
  | Complete =>
    simp only [hT] at hx
    cases hx
    refine ⟨iown, ?_⟩
    intro e
    have e2 : node.TestState = .Idle ∨ node.TestState = .WaitForController := e
    exact iearly e2

/-- An `Activate` call keeps the lock invariant. -/
theorem RunTests_Activate_LockInv {n : Nat} (h : Heap n) (this : Fin n)
    (m : NodeMembers) (node : UAGN_RunTests) (env : RunTestsEnv n) (dt : Rat) (running : Bool)
    (x : RunTestsState n × EAutomationGraphNodeState)
    (inv : UAGN_RunTests.LockInv this (m, node, env))
    (hx : UAGN_RunTests.Activate h this m node env dt running = some x) :
    UAGN_RunTests.LockInv this x.1 := by
  have key : ∀ m1 : NodeMembers,
      (if m1.TimeElapsedSec ≥ m1.NodeTimeoutSec then
          some (((UAutomationGraphNode.SetState m1 .Expired).1, node, env),
            EAutomationGraphNodeState.Expired)
        else UAGN_RunTests.ActivateInternal h this m1 node env dt running) = some x →
      UAGN_RunTests.LockInv this x.1 := by
    intro m1 hx1
    by_cases ht : m1.TimeElapsedSec ≥ m1.NodeTimeoutSec
    · rw [if_pos ht] at hx1
      cases hx1
      exact ⟨inv.owner, inv.early⟩
    · rw [if_neg ht] at hx1
      exact RunTests_ActivateInternal_LockInv h this m1 node env dt running x
        ⟨inv.owner, inv.early⟩ hx1
  unfold UAGN_RunTests.Activate at hx
  exact key _ hx

/-- An allowed call keeps the lock invariant. -/
theorem RunTests_call_LockInv {n : Nat} (h : Heap n) (this : Fin n)
    (hv : h.Valid this = true) (s s1 : RunTestsState n) (c : RunTestsCall n)
    (inv : UAGN_RunTests.LockInv this s) (hal : c.Allowed this s = true)
    (hs : UAGN_RunTests.applyCall h this s c = some s1) :
    UAGN_RunTests.LockInv this s1 := by
  obtain ⟨m, node, env⟩ := s
  have iown : env.RecordedOwner = some this → node.AutomationController ≠ none := inv.owner
  have iearly : node.TestState = .Idle ∨ node.TestState = .WaitForController →
      node.AutomationController = none := inv.early
  cases c with
  | Initialize World =>
    simp only [UAGN_RunTests.applyCall, Option.some.injEq] at hs
    subst hs
    unfold UAGN_RunTests.Initialize UAutomationGraphNode.Initialize
    by_cases hA : m.NodeState = .Active
    · simp only [hA, if_true]
      exact ⟨iown, iearly⟩
    · have hnone : node.AutomationController = none := by
        simp only [RunTestsCall.Allowed, Bool.or_eq_true, decide_eq_true_eq] at hal
        rcases hal with y | y
        · cases hc : node.AutomationController with
          | none => rfl
          | some c => rw [hc] at y; cases y
        · exact absurd y hA
      simp only [hA, if_false]
      exact ⟨fun ho => absurd hnone (iown ho), fun _ => rfl⟩
  | Activate dt running =>
    simp only [UAGN_RunTests.applyCall] at hs
    cases hx : UAGN_RunTests.Activate h this m node env dt running with
    | none => rw [hx] at hs; cases hs
    | some x =>
      rw [hx] at hs
      simp only [Option.map_some', Option.some.injEq] at hs
      subst hs
      exact RunTests_Activate_LockInv h this m node env dt running x inv hx
  | Cancel =>
    simp only [UAGN_RunTests.applyCall, Option.some.injEq] at hs
    subst hs
    exact RunTests_Cleanup_LockInv h this hv m _ node env inv
  | Cleanup =>
    simp only [UAGN_RunTests.applyCall, Option.some.injEq] at hs
    subst hs
    exact RunTests_Cleanup_LockInv h this hv m m node env inv
  | Uninitialize =>
    simp only [UAGN_RunTests.applyCall, Option.some.injEq] at hs
    subst hs
    exact RunTests_Cleanup_LockInv h this hv m _ node env inv
  | TestsRefreshed k names =>
    simp only [UAGN_RunTests.applyCall] at hs
    by_cases hb : this ∈ env.OnTestsRefreshed
    · rw [if_pos hb] at hs
      unfold UAGN_RunTests.TestsReady at hs
      cases hc : node.AutomationController with
      | none => simp only [hc, Option.map_none'] at hs; cases hs
      | some c =>
        simp only [hc] at hs
        have hcn : node.AutomationController ≠ none := by rw [hc]; exact Option.some_ne_none c
        split at hs
        · simp only [Option.map_some', Option.some.injEq] at hs
          subst hs
          exact ⟨iown, iearly⟩
        · split at hs
          · simp only [Option.map_some', Option.some.injEq] at hs
            subst hs
            exact ⟨fun _ => Option.some_ne_none c,
              fun e => e.elim (fun y => nomatch y) (fun y => nomatch y)⟩
          · simp only [Option.map_some', Option.some.injEq] at hs
            subst hs
            exact ⟨fun _ => Option.some_ne_none c,
              fun e => e.elim (fun y => nomatch y) (fun y => nomatch y)⟩
    · rw [if_neg hb] at hs
      simp only [Option.some.injEq] at hs
      subst hs
      exact ⟨iown, iearly⟩
  | Other c =>
    simp only [UAGN_RunTests.applyCall, Option.some.injEq] at hs
    subst hs
    refine ⟨?_, iearly⟩
    intro ho
    apply iown
    cases hsub : env.AGSubsystem with
    | none =>
      dsimp only [RunTestsEnv.RecordedOwner] at ho
      rw [hsub] at ho
      cases ho
    | some sub =>
      dsimp only [RunTestsEnv.RecordedOwner] at ho
      rw [hsub] at ho
      have ho2 : (UAutomationGraphSubsystem.applyLockCall h sub c).AutomationControllerOwner =
          some this := ho
      have ho3 := Lock_owner_of_other h sub this c (m, node, env) hal ho2
      show env.AGSubsystem.bind (fun sub => sub.AutomationControllerOwner) = some this
      rw [hsub]
      exact ho3

/-- An admissible sequence of calls keeps the lock invariant. -/
theorem RunTests_calls_LockInv {n : Nat} (h : Heap n) (this : Fin n)
    (hv : h.Valid this = true) :
    ∀ (calls : List (RunTestsCall n)) (s s1 : RunTestsState n),
      UAGN_RunTests.LockInv this s → UAGN_RunTests.Admissible h this calls s = true →
      UAGN_RunTests.applyCalls h this calls s = some s1 → UAGN_RunTests.LockInv this s1 := by
  intro calls
  induction calls with
  | nil =>
    intro s s1 inv _ hs
    simp only [UAGN_RunTests.applyCalls, Option.some.injEq] at hs
    subst hs
    exact inv
  | cons c rest ih =>
    intro s s1 inv hadm hs
    simp only [UAGN_RunTests.Admissible, Bool.and_eq_true] at hadm
    simp only [UAGN_RunTests.applyCalls] at hs
    cases hx : UAGN_RunTests.applyCall h this s c with
    | none => rw [hx] at hs; cases hs
    | some s2 =>
      rw [hx] at hs
      have hadm2 := hadm.2
      rw [hx] at hadm2
      exact ih s2 s1 (RunTests_call_LockInv h this hv s s2 c inv hadm.1 hx) hadm2 hs

/-- Claim C30, counterexample: node `0` is initialised, locks the controller
(third `Activate`), expires by its node timeout, and is initialised again
without a `Cleanup` in between. The subsystem then still records node `0` as
the owner of the lock, the node holds no controller, and its next `Cleanup`
leaves the lock with node `0`. -/
theorem RunTests_Initialize_drops_controller_of_owner :
    (UAGN_RunTests.applyCalls exTwoNodes 0
      [ .Initialize 0, .Activate 1 false, .Activate 1 false, .Activate 1 false,
        .Activate 300 false, .Initialize 0]
      ({}, exRunTestsFresh, exEnvFree)).map
      (fun s => (s.2.2.RecordedOwner, s.2.1.AutomationController,
        (UAGN_RunTests.Cleanup exTwoNodes 0 s.2.1 s.2.2).2.RecordedOwner)) =
      some (some 0, none, some 0) := by
  decide!

/-- Claim C30, amended: take a live `UAGN_RunTests` node that holds no
controller and is not recorded as owner of the lock, and any sequence of
`Initialize`, `Activate`, `Cancel`, `Cleanup`, `Uninitialize` calls on it,
broadcasts of `OnTestsRefreshed`, and lock and release calls by other
requesters, in which `Initialize` is never called while the node holds a
controller in a state other than `Active`. Whenever the subsystem then records
the node as the owner of the lock, the node holds a controller, and its next
`Cleanup` makes one release call after which the node holds no controller and
nobody is recorded as owner. -/
theorem RunTests_owner_holds_controller {n : Nat} (h : Heap n) (this : Fin n)
    (calls : List (RunTestsCall n)) (s0 s : RunTestsState n)
    (hv : h.Valid this = true)
    (h0 : s0.2.1.AutomationController = none) (h1 : s0.2.2.RecordedOwner ≠ some this)
    (hadm : UAGN_RunTests.Admissible h this calls s0 = true)
    (hs : UAGN_RunTests.applyCalls h this calls s0 = some s)
    (ho : s.2.2.RecordedOwner = some this) :
    s.2.1.AutomationController ≠ none ∧
      (UAGN_RunTests.Cleanup h this s.2.1 s.2.2).1.AutomationController = none ∧
      (UAGN_RunTests.Cleanup h this s.2.1 s.2.2).2.RecordedOwner = none ∧
      (UAGN_RunTests.Cleanup h this s.2.1 s.2.2).2.ReleaseCalls = s.2.2.ReleaseCalls + 1 := by
  have inv0 : UAGN_RunTests.LockInv this s0 := ⟨fun e => absurd e h1, fun _ => h0⟩
  have inv := RunTests_calls_LockInv h this hv calls s0 s inv0 hadm hs
  have hheld := inv.owner ho
  refine ⟨hheld, ?_⟩
  obtain ⟨m, node, env⟩ := s
  have hheld2 : node.AutomationController.isSome = true := by
    cases hc : node.AutomationController with
    | none => exact absurd hc hheld
    | some c => rfl
  cases hsub : env.AGSubsystem with
  | none =>
    have ho2 : env.AGSubsystem.bind (fun sub => sub.AutomationControllerOwner) = some this := ho
    rw [hsub] at ho2
    cases ho2
  | some sub =>
    have ho2 : env.AGSubsystem.bind (fun sub => sub.AutomationControllerOwner) = some this := ho
    rw [hsub] at ho2
    have ho3 : sub.AutomationControllerOwner = some this := ho2
    have hlive : sub.LiveOwner h = some this := by
      unfold UAutomationGraphSubsystem.LiveOwner
      rw [ho3]
      exact GetNodePtr_some h this hv
    have hrel := Release_done h sub (some this) (Or.inr hlive)
    show (UAGN_RunTests.Cleanup h this node env).1.AutomationController = none ∧
      (UAGN_RunTests.Cleanup h this node env).2.RecordedOwner = none ∧
      (UAGN_RunTests.Cleanup h this node env).2.ReleaseCalls = env.ReleaseCalls + 1
    have hcl : UAGN_RunTests.Cleanup h this node env =
        ({ node with AutomationController := none },
          { env with
            AGSubsystem := some (UAutomationGraphSubsystem.ReleaseAutomationController h sub
              (some this)).1,
            OnTestsRefreshed := env.OnTestsRefreshed.filter (fun o => decide (o ≠ this)),
            ReleaseCalls := env.ReleaseCalls + 1 }) := by
      unfold UAGN_RunTests.Cleanup
      rw [if_pos hheld2, hsub]
    rw [hcl]
    refine ⟨rfl, ?_, rfl⟩
    show (UAutomationGraphSubsystem.ReleaseAutomationController h sub
      (some this)).1.AutomationControllerOwner = none
    rw [hrel]

/-- Witness for C30: node `0` after `Initialize` and three `Activate` calls is
the recorded owner and holds the controller `7`; its `Cleanup` frees the lock. -/
theorem RunTests_owner_holds_controller_witness :
    ∃ s, UAGN_RunTests.applyCalls exTwoNodes 0
        [ .Initialize 0, .Activate 1 false, .Activate 1 false, .Activate 1 false]
        ({}, exRunTestsFresh, exEnvFree) = some s ∧
      s.2.2.RecordedOwner = some 0 ∧ s.2.1.AutomationController ≠ none ∧
      (UAGN_RunTests.Cleanup exTwoNodes 0 s.2.1 s.2.2).2.RecordedOwner = none := by
  have hmap : (UAGN_RunTests.applyCalls exTwoNodes 0
      [ .Initialize 0, .Activate 1 false, .Activate 1 false, .Activate 1 false]
      ({}, exRunTestsFresh, exEnvFree)).map (fun s => s.2.2.RecordedOwner) =
      some (some 0) := by decide!
  cases hx : UAGN_RunTests.applyCalls exTwoNodes 0
      [ .Initialize 0, .Activate 1 false, .Activate 1 false, .Activate 1 false]
      ({}, exRunTestsFresh, exEnvFree) with
  | none => rw [hx] at hmap; cases hmap
  | some s =>
    rw [hx] at hmap
    have ho : s.2.2.RecordedOwner = some 0 := by
      simpa using hmap
    have hw := RunTests_owner_holds_controller exTwoNodes 0
      [ .Initialize 0, .Activate 1 false, .Activate 1 false, .Activate 1 false]
      ({}, exRunTestsFresh, exEnvFree) s rfl rfl (by decide) (by decide!) hx ho
    exact ⟨s, rfl, ho, hw.1, hw.2.2.1⟩

/-- C7, counterexample: in the diamond whose node `D` is of a class that stays in
`Standby` when activated, the fifth `Execute` observes the tracked nodes `B`
and `C` as `Finished`, every tracked reference is live, and `D` satisfies
`CanStartActivation` when the child loop of `B` reaches it and again when the
child loop of `C` reaches it: `D` receives two `Activate` calls in that pass,
not exactly one. -/
theorem Execute_child_in_Standby_activated_twice :
    (UAutomationGraphExecutor.ExecuteAll [1, 1, 1, 1]
      (UAutomationGraphExecutor.StartExecution exIdleDiamond {} exTask).1).2.ActiveNodes =
        [1, 2] ∧
    (UAutomationGraphExecutor.ExecuteAll [1, 1, 1, 1]
      (UAutomationGraphExecutor.StartExecution exIdleDiamond {} exTask).1).1.GetState 1 =
        .Finished ∧
    (UAutomationGraphExecutor.ExecuteAll [1, 1, 1, 1]
      (UAutomationGraphExecutor.StartExecution exIdleDiamond {} exTask).1).1.GetState 2 =
        .Finished ∧
    (UAutomationGraphExecutor.ExecuteAll [1, 1, 1, 1]
      (UAutomationGraphExecutor.StartExecution exIdleDiamond {} exTask).1).1.CanStartActivation 3 =
        true ∧
    (UAutomationGraphExecutor.ExecuteAll [1, 1, 1, 1, 1]
      (UAutomationGraphExecutor.StartExecution exIdleDiamond {} exTask).1).1.CallsSince
        (UAutomationGraphExecutor.ExecuteAll [1, 1, 1, 1]
          (UAutomationGraphExecutor.StartExecution exIdleDiamond {} exTask).1).1 =
      [.Activate 3 1 .Standby true, .Activate 3 1 .Standby true, .Cleanup 1, .Cleanup 2] ∧
    ((UAutomationGraphExecutor.ExecuteAll [1, 1, 1, 1, 1]
      (UAutomationGraphExecutor.StartExecution exIdleDiamond {} exTask).1).1.CallsSince
        (UAutomationGraphExecutor.ExecuteAll [1, 1, 1, 1]
          (UAutomationGraphExecutor.StartExecution exIdleDiamond {} exTask).1).1).countP
        (Call.isActivateOn 3) = 2 := by
  decide!

/-! ## The node `UAGN_RunTests`: the requests of a run -/

/-- The set `ActiveNodes` of a run has no duplicates, whatever the node classes
are. -/
theorem Reachable_nodup {n : Nat} {h : Heap n} {ex : UAutomationGraphExecutor n}
    (hr : UAutomationGraphExecutor.Reachable h ex) : ex.ActiveNodes.Nodup := by
  induction hr with
  | fresh h rate => exact List.nodup_nil
  | @start h ex task _ ih =>
    rcases StartExecution_skip_or h ex task with hs | ⟨g, World, hg, hw, ht⟩
    · rw [hs]; exact ih
    · obtain ⟨L, h1, ex2, hh1, hex2, _, _, hcase⟩ :=
        StartExecution_cases h ex task g World hg hw ht
      rcases hcase with ⟨hres, _⟩ | ⟨hres, _⟩
      · rw [hres]
        show ex2.ActiveNodes.Nodup
        rw [hex2]
        exact TSet.nodup_Append _ [] List.nodup_nil
      · rw [hres, (Reset_spec _ ex2).1]
        exact List.nodup_nil
  | @execute h ex dt _ ih =>
    by_cases he : ex.ActiveNodes = []
    · rw [Execute_of_not_active h ex dt he]
      exact ih
    · by_cases ht : ex.ExecutionTimer - dt > 0
      · have : UAutomationGraphExecutor.Execute h ex dt =
            ((h, { ex with ExecutionTimer := ex.ExecutionTimer - dt }), true) := by
          unfold UAutomationGraphExecutor.Execute
          have he2 : ¬ (ex.ActiveNodes.isEmpty = true) := fun hx => he (List.isEmpty_iff.mp hx)
          rw [if_neg he2]
          simp only
          rw [if_pos ht]
        rw [this]
        exact ih
      · cases hres : UAutomationGraphExecutor.Execute.pass dt ex.ActiveNodes h [] [] with
        | InvalidNode h1 =>
          have : (UAutomationGraphExecutor.Execute h ex dt).1.2.ActiveNodes = [] := by
            unfold UAutomationGraphExecutor.Execute
            have he2 : ¬ (ex.ActiveNodes.isEmpty = true) :=
              fun hx => he (List.isEmpty_iff.mp hx)
            rw [if_neg he2]
            simp only
            rw [if_neg ht, hres]
            simp only
            rw [(Reset_spec h1 _).1]
          rw [this]
          exact List.nodup_nil
        | Completed h1 A1 R1 =>
          obtain ⟨_, e2⟩ := Execute_eq_of_pass h ex dt he (not_lt.mp ht) h1 A1 R1 hres
          obtain ⟨_, _, _, _, r5⟩ := removeNodes_spec R1 h1 (TSet.Append ex.ActiveNodes A1)
          rw [e2]
          exact r5 (TSet.nodup_Append A1 _ ih)
  | @cancel h ex G _ ih =>
    unfold UAutomationGraphExecutor.Cancel
    split
    · split
      · exact List.nodup_nil
      · exact ih
    · exact ih

/-- The child loop makes `Activate` calls on members of the child list only, and
leaves the nodes that are not in `Standby` as they are. -/
theorem activateChildren_targets {n : Nat} (dt : Rat) :
    ∀ (cs : List (Fin n)) (k : Heap n) (A : List (Fin n)),
      ∃ ev : List (Call n),
        (UAutomationGraphExecutor.Execute.activateChildren dt cs k A).1.Trace = k.Trace ++ ev ∧
        ∀ e ∈ ev, ∀ c, Call.isActivateOn c e = true → c ∈ cs := by
  intro cs
  induction cs with
  | nil => intro k A; exact ⟨[], by simp [UAutomationGraphExecutor.Execute.activateChildren]⟩
  | cons c0 cs ih =>
    intro k A
    unfold UAutomationGraphExecutor.Execute.activateChildren
    by_cases hc : k.CanStartActivation c0 = true
    · rw [if_pos hc]
      obtain ⟨ev, hev, hall⟩ := ih (k.Activate c0 dt).1 (TSet.Add A c0)
      refine ⟨Call.Activate c0 dt (k.GetState c0) (k.ParentsFinished c0) :: ev, ?_, ?_⟩
      · rw [hev, Activate_trace]
        simp
      · intro e he c hce
        rcases List.mem_cons.mp he with y | y
        · subst y
          have : c0 = c := by simpa [Call.isActivateOn] using hce
          subst this
          exact List.mem_cons_self _ _
        · exact List.mem_cons_of_mem _ (hall e y c hce)
    · rw [if_neg hc]
      obtain ⟨ev, hev, hall⟩ := ih k A
      exact ⟨ev, hev, fun e he c hce => List.mem_cons_of_mem _ (hall e he c hce)⟩

/-- Every `Activate` call of a scheduling pass is made on a tracked node or on a
child of a tracked node that the pass observed `Finished` and put into the set
of nodes to remove. -/
theorem pass_activate_cause {n : Nat} (dt : Rat) (L : List (Fin n)) (h : Heap n)
    (h1 : Heap n) (A1 R1 : List (Fin n))
    (hres : UAutomationGraphExecutor.Execute.pass dt L h [] [] = .Completed h1 A1 R1) :
    ∃ ev : List (Call n), h1.Trace = h.Trace ++ ev ∧
      ∀ e ∈ ev, ∀ c, Call.isActivateOn c e = true →
        c ∈ L ∨ ∃ F ∈ R1, h1.GetState F = .Finished ∧ c ∈ (h.Node F).ChildNodes := by
  have key := pass_rule dt
    (fun rest k A R => h.SameShape k ∧ (∀ x ∈ rest, x ∈ L) ∧
      ∃ ev : List (Call n), k.Trace = h.Trace ++ ev ∧
        ∀ e ∈ ev, ∀ c, Call.isActivateOn c e = true →
          c ∈ L ∨ ∃ F ∈ R, k.GetState F = .Finished ∧ c ∈ (h.Node F).ChildNodes)
    (by
      intro v rest k A R ⟨hs, hsub, ev, hev, hall⟩ _ hv
      refine ⟨hs.trans (Heap.SameShape.Activate k v dt),
        fun x hx => hsub x (List.mem_cons_of_mem _ hx),
        ev ++ [Call.Activate v dt (k.GetState v) (k.ParentsFinished v)], ?_, ?_⟩
      · rw [Activate_trace, hev, List.append_assoc]
      · intro e he c hce
        rcases List.mem_append.mp he with y | y
        · rcases hall e y c hce with z | ⟨F, hF, hFs, hFc⟩
          · exact Or.inl z
          · refine Or.inr ⟨F, hF, ?_, hFc⟩
            have hne : F ≠ v := by
              intro e2
              rw [e2] at hFs
              rcases hv with w | w
              · rw [w] at hFs; cases hFs
              · rw [w] at hFs; cases hFs
            unfold Heap.GetState at hFs ⊢
            rw [Activate_node_ne k v F dt hne]
            exact hFs
        · simp only [List.mem_singleton] at y
          subst y
          have : v = c := by simpa [Call.isActivateOn] using hce
          subst this
          exact Or.inl (hsub _ (List.mem_cons_self _ _)))
    (by
      intro v rest k A R ⟨hs, hsub, ev, hev, hall⟩ _ hv
      obtain ⟨seg, _⟩ := activateChildren_act dt (k.Node v).ChildNodes k A
      obtain ⟨ev2, hev2, hall2⟩ := activateChildren_targets dt (k.Node v).ChildNodes k A
      have hfz : ∀ F, k.GetState F = .Finished →
          (UAutomationGraphExecutor.Execute.activateChildren dt (k.Node v).ChildNodes k
            A).1.GetState F = .Finished := by
        intro F hF
        rw [seg.frozen.state_eq F (by rw [hF]; decide) (by rw [hF]; decide)]
        exact hF
      refine ⟨hs.trans seg.shape, fun x hx => hsub x (List.mem_cons_of_mem _ hx),
        ev ++ ev2, ?_, ?_⟩
      · rw [hev2, hev, List.append_assoc]
      · intro e he c hce
        rcases List.mem_append.mp he with y | y
        · rcases hall e y c hce with z | ⟨F, hF, hFs, hFc⟩
          · exact Or.inl z
          · exact Or.inr ⟨F, (TSet.mem_Add R v F).mpr (Or.inl hF), hfz F hFs, hFc⟩
        · refine Or.inr ⟨v, (TSet.mem_Add R v v).mpr (Or.inr rfl), hfz v hv, ?_⟩
          rw [← hs.child v]
          exact hall2 e y c hce)
    (by
      intro v rest k A R ⟨hs, hsub, ev, hev, hall⟩ _ _ _ _
      refine ⟨hs, fun x hx => hsub x (List.mem_cons_of_mem _ hx), ev, hev, ?_⟩
      intro e he c hce
      rcases hall e he c hce with z | ⟨F, hF, hFs, hFc⟩
      · exact Or.inl z
      · exact Or.inr ⟨F, (TSet.mem_Add R v F).mpr (Or.inl hF), hFs, hFc⟩)
    L h [] [] ⟨Heap.SameShape.refl h, fun _ hx => hx, [], by simp, by simp⟩
  rw [hres] at key
  exact key.2.2

/-- A scheduling pass puts into the set of nodes to remove only nodes that it
visits. -/
theorem pass_removed_visited {n : Nat} (dt : Rat) (L : List (Fin n)) (k : Heap n)
    (A R : List (Fin n)) (k1 : Heap n) (A1 R1 : List (Fin n))
    (hres : UAutomationGraphExecutor.Execute.pass dt L k A R = .Completed k1 A1 R1) :
    ∀ x ∈ R1, x ∈ R ∨ x ∈ L := by
  have key := pass_rule dt
    (fun rest _ _ R2 => (∀ x ∈ rest, x ∈ L) ∧ ∀ x ∈ R2, x ∈ R ∨ x ∈ L)
    (by
      intro v rest k2 A2 R2 ⟨hsub, hall⟩ _ _
      exact ⟨fun x hx => hsub x (List.mem_cons_of_mem _ hx), hall⟩)
    (by
      intro v rest k2 A2 R2 ⟨hsub, hall⟩ _ _
      refine ⟨fun x hx => hsub x (List.mem_cons_of_mem _ hx), ?_⟩
      intro x hx
      rcases (TSet.mem_Add R2 v x).mp hx with y | y
      · exact hall x y
      · exact Or.inr (y ▸ hsub v (List.mem_cons_self _ _)))
    (by
      intro v rest k2 A2 R2 ⟨hsub, hall⟩ _ _ _ _
      refine ⟨fun x hx => hsub x (List.mem_cons_of_mem _ hx), ?_⟩
      intro x hx
      rcases (TSet.mem_Add R2 v x).mp hx with y | y
      · exact hall x y
      · exact Or.inr (y ▸ hsub v (List.mem_cons_self _ _)))
    L k A R ⟨fun _ hx => hx, fun x hx => Or.inl hx⟩
  rw [hres] at key
  exact key.2

/-- A node that satisfies `CanStartActivation` when the child loop starts
receives an `Activate` call in the loop if it is in the child list, and
otherwise either receives one or still satisfies `CanStartActivation`
afterwards. -/
theorem activateChildren_reaches {n : Nat} (dt : Rat) (c : Fin n) :
    ∀ (cs : List (Fin n)) (k : Heap n) (A : List (Fin n)), k.CanStartActivation c = true →
      ∃ ev : List (Call n),
        (UAutomationGraphExecutor.Execute.activateChildren dt cs k A).1.Trace = k.Trace ++ ev ∧
        (0 < ev.countP (Call.isActivateOn c) ∨
          (c ∉ cs ∧
            (UAutomationGraphExecutor.Execute.activateChildren dt cs k A).1.CanStartActivation c =
              true)) := by
  intro cs
  induction cs with
  | nil =>
    intro k A hc
    exact ⟨[], by simp [UAutomationGraphExecutor.Execute.activateChildren],
      Or.inr ⟨List.not_mem_nil _, hc⟩⟩
  | cons c0 cs ih =>
    intro k A hc
    unfold UAutomationGraphExecutor.Execute.activateChildren
    by_cases hc0 : k.CanStartActivation c0 = true
    · rw [if_pos hc0]
      by_cases e : c0 = c
      · obtain ⟨ev2, hev2, _⟩ := activateChildren_targets dt cs (k.Activate c0 dt).1
          (TSet.Add A c0)
        refine ⟨Call.Activate c0 dt (k.GetState c0) (k.ParentsFinished c0) :: ev2, ?_,
          Or.inl ?_⟩
        · rw [hev2, Activate_trace]
          simp
        · rw [List.countP_cons]
          simp [Call.isActivateOn, e]
      · have hs0 := (CanStartActivation_standby k c0 hc0).1
        have hc2 : (k.Activate c0 dt).1.CanStartActivation c = true := by
          apply CanStartActivation_mono (Heap.SameShape.Activate k c0 dt)
            (Heap.Frozen.frozen_Activate k c0 dt (Or.inl hs0)) c _ hc
          unfold Heap.GetState
          rw [Activate_node_ne k c0 c dt (fun x => e x.symm)]
        obtain ⟨ev2, hev2, hdis⟩ := ih (k.Activate c0 dt).1 (TSet.Add A c0) hc2
        refine ⟨Call.Activate c0 dt (k.GetState c0) (k.ParentsFinished c0) :: ev2, ?_, ?_⟩
        · rw [hev2, Activate_trace]
          simp
        · rcases hdis with y | ⟨y1, y2⟩
          · left
            rw [List.countP_cons]
            omega
          · right
            refine ⟨?_, y2⟩
            intro hx
            rcases List.mem_cons.mp hx with z | z
            · exact e z.symm
            · exact y1 z
    · rw [if_neg hc0]
      have e : c0 ≠ c := fun x => hc0 (x ▸ hc)
      obtain ⟨ev2, hev2, hdis⟩ := ih k A hc
      refine ⟨ev2, hev2, ?_⟩
      rcases hdis with y | ⟨y1, y2⟩
      · exact Or.inl y
      · right
        refine ⟨?_, y2⟩
        intro hx
        rcases List.mem_cons.mp hx with z | z
        · exact e z.symm
        · exact y1 z

/-- A scheduling pass that visits the `Finished` node `X` makes an `Activate`
call on each child of `X` that satisfies `CanStartActivation` when the pass
begins, and puts `X` into the set of nodes to remove. -/
theorem pass_reaches_child {n : Nat} (dt : Rat) (L : List (Fin n)) (k : Heap n)
    (k1 : Heap n) (A1 R1 : List (Fin n))
    (hres : UAutomationGraphExecutor.Execute.pass dt L k [] [] = .Completed k1 A1 R1)
    (X c : Fin n) (hX : X ∈ L) (hXs : k.GetState X = .Finished)
    (hc : c ∈ (k.Node X).ChildNodes) (hcan : k.CanStartActivation c = true) :
    ∃ ev : List (Call n), k1.Trace = k.Trace ++ ev ∧
      0 < ev.countP (Call.isActivateOn c) ∧ X ∈ R1 := by
  have hXk : ∀ k2 : Heap n, k.Frozen k2 → k2.GetState X = .Finished := by
    intro k2 hf
    rw [hf.state_eq X (by rw [hXs]; decide) (by rw [hXs]; decide)]
    exact hXs
  have key := pass_rule dt
    (fun rest k2 _ R => k.SameShape k2 ∧ k.Frozen k2 ∧ (X ∈ rest ∨ X ∈ R) ∧
      ∃ ev : List (Call n), k2.Trace = k.Trace ++ ev ∧
        (0 < ev.countP (Call.isActivateOn c) ∨
          (X ∈ rest ∧ k2.CanStartActivation c = true)))
    (by
      intro v rest k2 A R ⟨hs, hf, hXin, ev, hev, hdis⟩ _ hv
      have hne : X ≠ v := by
        intro e
        have := hXk k2 hf
        rw [e] at this
        rcases hv with w | w
        · rw [w] at this; cases this
        · rw [w] at this; cases this
      refine ⟨hs.trans (Heap.SameShape.Activate k2 v dt),
        hf.frozen_trans (Heap.Frozen.frozen_Activate k2 v dt hv), ?_,
        ev ++ [Call.Activate v dt (k2.GetState v) (k2.ParentsFinished v)], ?_, ?_⟩
      · rcases hXin with y | y
        · rcases List.mem_cons.mp y with z | z
          · exact absurd z hne
          · exact Or.inl z
        · exact Or.inr y
      · rw [Activate_trace, hev, List.append_assoc]
      · rcases hdis with y | ⟨y1, y2⟩
        · left
          rw [List.countP_append]
          omega
        · by_cases e : v = c
          · left
            rw [List.countP_append]
            simp [List.countP_cons, Call.isActivateOn, e]
          · right
            refine ⟨?_, ?_⟩
            · rcases List.mem_cons.mp y1 with z | z
              · exact absurd z hne
              · exact z
            · apply CanStartActivation_mono (Heap.SameShape.Activate k2 v dt)
                (Heap.Frozen.frozen_Activate k2 v dt hv) c _ y2
              unfold Heap.GetState
              rw [Activate_node_ne k2 v c dt (fun x => e x.symm)])
    (by
      intro v rest k2 A R ⟨hs, hf, hXin, ev, hev, hdis⟩ _ hv
      obtain ⟨seg, _⟩ := activateChildren_act dt (k2.Node v).ChildNodes k2 A
      refine ⟨hs.trans seg.shape, hf.frozen_trans seg.frozen, ?_, ?_⟩
      · by_cases e : X = v
        · exact Or.inr ((TSet.mem_Add R v X).mpr (Or.inr e))
        · rcases hXin with y | y
          · rcases List.mem_cons.mp y with z | z
            · exact absurd z e
            · exact Or.inl z
          · exact Or.inr ((TSet.mem_Add R v X).mpr (Or.inl y))
      · rcases hdis with y | ⟨y1, y2⟩
        · obtain ⟨ev2, hev2, _⟩ := activateChildren_targets dt (k2.Node v).ChildNodes k2 A
          refine ⟨ev ++ ev2, ?_, Or.inl ?_⟩
          · rw [hev2, hev, List.append_assoc]
          · rw [List.countP_append]
            omega
        · obtain ⟨ev2, hev2, hd2⟩ := activateChildren_reaches dt c (k2.Node v).ChildNodes k2 A y2
          refine ⟨ev ++ ev2, ?_, ?_⟩
          · rw [hev2, hev, List.append_assoc]
          · rcases hd2 with z | ⟨z1, z2⟩
            · left
              rw [List.countP_append]
              omega
            · right
              refine ⟨?_, z2⟩
              rcases List.mem_cons.mp y1 with w | w
              · exfalso
                apply z1
                rw [← w, hs.child X]
                exact hc
              · exact w)
    (by
      intro v rest k2 A R ⟨hs, hf, hXin, ev, hev, hdis⟩ _ _ _ hv3
      have hne : X ≠ v := by
        intro e
        exact hv3 (e ▸ hXk k2 hf)
      refine ⟨hs, hf, ?_, ev, hev, ?_⟩
      · rcases hXin with y | y
        · rcases List.mem_cons.mp y with z | z
          · exact absurd z hne
          · exact Or.inl z
        · exact Or.inr ((TSet.mem_Add R v X).mpr (Or.inl y))
      · rcases hdis with y | ⟨y1, y2⟩
        · exact Or.inl y
        · right
          refine ⟨?_, y2⟩
          rcases List.mem_cons.mp y1 with z | z
          · exact absurd z hne
          · exact z)
    L k [] [] ⟨Heap.SameShape.refl k, Heap.Frozen.frozen_refl k, Or.inl hX, [], by simp,
      Or.inr ⟨hX, hcan⟩⟩
  rw [hres] at key
  obtain ⟨_, _, hXin, ev, hev, hdis⟩ := key
  refine ⟨ev, hev, ?_, ?_⟩
  · rcases hdis with y | ⟨y1, _⟩
    · exact y
    · exact absurd y1 (List.not_mem_nil _)
  · rcases hXin with y | y
    · exact absurd y (List.not_mem_nil _)
    · exact y

/-- A scheduling pass leaves every node untouched that was neither `Standby`
nor `Active` when it began, whatever the buffers it starts with. -/
theorem pass_frozen {n : Nat} (dt : Rat) (L : List (Fin n)) (k : Heap n) (A R : List (Fin n))
    (k1 : Heap n) (A1 R1 : List (Fin n))
    (hres : UAutomationGraphExecutor.Execute.pass dt L k A R = .Completed k1 A1 R1) :
    k.Frozen k1 := by
  have key := pass_rule dt (fun _ k2 _ _ => k.Frozen k2)
    (fun v _ k2 _ _ hp _ hv => hp.frozen_trans (Heap.Frozen.frozen_Activate k2 v dt hv))
    (fun v _ k2 B _ hp _ _ =>
      hp.frozen_trans (activateChildren_act dt (k2.Node v).ChildNodes k2 B).1.frozen)
    (fun _ _ _ _ _ hp _ _ _ _ => hp) L k A R (Heap.Frozen.frozen_refl k)
  rw [hres] at key
  exact key

/-- A scheduling pass puts every tracked node that is `Finished` when the pass
begins into the set of nodes to remove. -/
theorem pass_removes_finished {n : Nat} (dt : Rat) (L : List (Fin n)) (k : Heap n)
    (A R : List (Fin n)) (k1 : Heap n) (A1 R1 : List (Fin n))
    (hres : UAutomationGraphExecutor.Execute.pass dt L k A R = .Completed k1 A1 R1)
    (X : Fin n) (hX : X ∈ L) (hXs : k.GetState X = .Finished) : X ∈ R1 := by
  have hXk : ∀ k2 : Heap n, k.Frozen k2 → k2.GetState X = .Finished := by
    intro k2 hf
    rw [hf.state_eq X (by rw [hXs]; decide) (by rw [hXs]; decide)]
    exact hXs
  have key := pass_rule dt (fun rest k2 _ R2 => k.Frozen k2 ∧ (X ∈ rest ∨ X ∈ R2))
    (by
      intro v rest k2 A2 R2 ⟨hf, hXin⟩ _ hv
      have hne : X ≠ v := by
        intro e
        have := hXk k2 hf
        rw [e] at this
        rcases hv with w | w
        · rw [w] at this; cases this
        · rw [w] at this; cases this
      refine ⟨hf.frozen_trans (Heap.Frozen.frozen_Activate k2 v dt hv), ?_⟩
      rcases hXin with y | y
      · rcases List.mem_cons.mp y with z | z
        · exact absurd z hne
        · exact Or.inl z
      · exact Or.inr y)
    (by
      intro v rest k2 A2 R2 ⟨hf, hXin⟩ _ _
      refine ⟨hf.frozen_trans (activateChildren_act dt (k2.Node v).ChildNodes k2 A2).1.frozen,
        ?_⟩
      rcases hXin with y | y
      · rcases List.mem_cons.mp y with z | z
        · exact Or.inr ((TSet.mem_Add R2 v X).mpr (Or.inr z))
        · exact Or.inl z
      · exact Or.inr ((TSet.mem_Add R2 v X).mpr (Or.inl y)))
    (by
      intro v rest k2 A2 R2 ⟨hf, hXin⟩ _ _ _ hv3
      have hne : X ≠ v := fun e => hv3 (e ▸ hXk k2 hf)
      refine ⟨hf, ?_⟩
      rcases hXin with y | y
      · rcases List.mem_cons.mp y with z | z
        · exact absurd z hne
        · exact Or.inl z
      · exact Or.inr ((TSet.mem_Add R2 v X).mpr (Or.inl y)))
    L k A R ⟨Heap.Frozen.frozen_refl k, Or.inl hX⟩
  rw [hres] at key
  rcases key.2 with y | y
  · exact absurd y (List.not_mem_nil _)
  · exact y

/-- A node that satisfies `CanStartActivation` at some point of a scheduling
pass receives an `Activate` call in the rest of the pass or still satisfies
`CanStartActivation` when the loop ends. -/
theorem pass_activates_or_keeps {n : Nat} (dt : Rat) (c : Fin n) (L : List (Fin n))
    (k : Heap n) (A R : List (Fin n)) (k1 : Heap n) (A1 R1 : List (Fin n))
    (hres : UAutomationGraphExecutor.Execute.pass dt L k A R = .Completed k1 A1 R1)
    (hcan : k.CanStartActivation c = true) :
    ∃ ev : List (Call n), k1.Trace = k.Trace ++ ev ∧
      (0 < ev.countP (Call.isActivateOn c) ∨ k1.CanStartActivation c = true) := by
  have key := pass_rule dt
    (fun _ k2 _ _ => ∃ ev : List (Call n), k2.Trace = k.Trace ++ ev ∧
      (0 < ev.countP (Call.isActivateOn c) ∨ k2.CanStartActivation c = true))
    (by
      intro v rest k2 A2 R2 ⟨ev, hev, hdis⟩ _ hv
      refine ⟨ev ++ [Call.Activate v dt (k2.GetState v) (k2.ParentsFinished v)], ?_, ?_⟩
      · rw [Activate_trace, hev, List.append_assoc]
      · rcases hdis with y | y
        · left
          rw [List.countP_append]
          omega
        · by_cases e : v = c
          · left
            rw [List.countP_append]
            simp [List.countP_cons, Call.isActivateOn, e]
          · right
            apply CanStartActivation_mono (Heap.SameShape.Activate k2 v dt)
              (Heap.Frozen.frozen_Activate k2 v dt hv) c _ y
            unfold Heap.GetState
            rw [Activate_node_ne k2 v c dt (fun x => e x.symm)])
    (by
      intro v rest k2 A2 R2 ⟨ev, hev, hdis⟩ _ _
      rcases hdis with y | y
      · obtain ⟨ev2, hev2, _⟩ := activateChildren_targets dt (k2.Node v).ChildNodes k2 A2
        refine ⟨ev ++ ev2, ?_, Or.inl ?_⟩
        · rw [hev2, hev, List.append_assoc]
        · rw [List.countP_append]
          omega
      · obtain ⟨ev2, hev2, hd2⟩ := activateChildren_reaches dt c (k2.Node v).ChildNodes k2 A2 y
        refine ⟨ev ++ ev2, ?_, ?_⟩
        · rw [hev2, hev, List.append_assoc]
        · rcases hd2 with z | ⟨_, z2⟩
          · left
            rw [List.countP_append]
            omega
          · exact Or.inr z2)
    (fun _ _ _ _ _ hp _ _ _ _ => hp) L k A R ⟨[], by simp, Or.inr hcan⟩
  rw [hres] at key
  exact key

theorem CanStartActivation_of_node_eq {n : Nat} {h k : Heap n} (e : k.Node = h.Node)
    (c : Fin n) : k.CanStartActivation c = h.CanStartActivation c := by
  unfold Heap.CanStartActivation Heap.GetState
  rw [e]

/-- C8, amended: in a scheduling pass of a run (every tracked reference live),
let the `Activate` call that the loop makes on a tracked node `X`, found in
`Standby` or `Active` at its turn, leave `X` `Finished`. Then `X` is still
tracked, and `Finished`, when `Execute` returns, and the child loop of `X` has
not been run: a node `c` on which that `Execute` call made an `Activate` call
is itself tracked, or is a child of another tracked node, which the pass found
`Finished` and removed. A node that is eligible when the `Activate` call on `X`
returns receives an `Activate` call later in that `Execute` call or is still
eligible when it returns. The next scheduling pass (every tracked reference
live) removes `X` and makes an `Activate` call on every child of `X` that is
eligible when that pass begins. -/
theorem Execute_children_activated_in_next_pass {n : Nat} (h : Heap n)
    (ex : UAutomationGraphExecutor n) (dt : Rat)
    (hr : UAutomationGraphExecutor.Reachable h ex)
    (hvalid : ∀ v ∈ ex.ActiveNodes, h.Valid v = true) (htimer : ex.ExecutionTimer - dt ≤ 0)
    (pre post : List (Fin n)) (X : Fin n) (hsplit : ex.ActiveNodes = pre ++ X :: post)
    (hm : Heap n) (Am Rm : List (Fin n))
    (hpre : UAutomationGraphExecutor.Execute.pass dt pre h [] [] = .Completed hm Am Rm)
    (hXs : hm.GetState X = .Standby ∨ hm.GetState X = .Active)
    (hfin : (hm.Activate X dt).1.GetState X = .Finished) :
    (X ∈ (UAutomationGraphExecutor.Execute h ex dt).1.2.ActiveNodes ∧
      (UAutomationGraphExecutor.Execute h ex dt).1.1.GetState X = .Finished) ∧
    (∀ c : Fin n,
      ((UAutomationGraphExecutor.Execute h ex dt).1.1.CallsSince h).countP
        (Call.isActivateOn c) ≠ 0 →
      c ∈ ex.ActiveNodes ∨
      ∃ F ∈ ex.ActiveNodes, F ≠ X ∧
        (UAutomationGraphExecutor.Execute h ex dt).1.1.GetState F = .Finished ∧
        F ∉ (UAutomationGraphExecutor.Execute h ex dt).1.2.ActiveNodes ∧
        c ∈ (h.Node F).ChildNodes) ∧
    (∀ c : Fin n, (hm.Activate X dt).1.CanStartActivation c = true →
      0 < ((UAutomationGraphExecutor.Execute h ex dt).1.1.CallsSince
        (hm.Activate X dt).1).countP (Call.isActivateOn c) ∨
      (UAutomationGraphExecutor.Execute h ex dt).1.1.CanStartActivation c = true) ∧
    ∀ dt2 : Rat, (UAutomationGraphExecutor.Execute h ex dt).1.2.ExecutionTimer - dt2 ≤ 0 →
      (∀ v ∈ (UAutomationGraphExecutor.Execute h ex dt).1.2.ActiveNodes,
        (UAutomationGraphExecutor.Execute h ex dt).1.1.Valid v = true) →
      X ∉ (UAutomationGraphExecutor.Execute (UAutomationGraphExecutor.Execute h ex dt).1.1
          (UAutomationGraphExecutor.Execute h ex dt).1.2 dt2).1.2.ActiveNodes ∧
      ∀ c ∈ (h.Node X).ChildNodes,
        (UAutomationGraphExecutor.Execute h ex dt).1.1.CanStartActivation c = true →
        0 < ((UAutomationGraphExecutor.Execute (UAutomationGraphExecutor.Execute h ex dt).1.1
            (UAutomationGraphExecutor.Execute h ex dt).1.2 dt2).1.1.CallsSince
          (UAutomationGraphExecutor.Execute h ex dt).1.1).countP (Call.isActivateOn c) := by
  have hnd := Reachable_nodup hr
  rw [hsplit] at hnd
  have hXpre : X ∉ pre := fun hx =>
    (List.nodup_append.mp hnd).2.2 hx (List.mem_cons_self _ _)
  have hXpost : X ∉ post := (List.nodup_cons.mp (List.nodup_append.mp hnd).2.1).1
  have hXL : X ∈ ex.ActiveNodes := by
    rw [hsplit]
    exact List.mem_append_right _ (List.mem_cons_self _ _)
  obtain ⟨segpre, _, _, _⟩ := pass_act dt pre h hm Am Rm hpre
  have hvalidX : hm.Valid X = true := by
    rw [segpre.shape.valid]
    exact hvalid X hXL
  obtain ⟨h1, A1, R1, hres, hnode, htr, hmem, _⟩ := Execute_pass_summary h ex dt hvalid htimer
  obtain ⟨seg, _, _, hR⟩ := pass_act dt ex.ActiveNodes h h1 A1 R1 hres
  have hres2 : UAutomationGraphExecutor.Execute.pass dt post (hm.Activate X dt).1 Am Rm =
      .Completed h1 A1 R1 := by
    rw [← hres, hsplit, pass_append dt (X :: post) pre h [] [] hm Am Rm hpre,
      pass_cons_active dt X post hm Am Rm hvalidX hXs]
  have hXR : X ∉ R1 := by
    intro hx
    rcases pass_removed_visited dt post _ Am Rm h1 A1 R1 hres2 X hx with y | y
    · rcases pass_removed_visited dt pre h [] [] hm Am Rm hpre X y with z | z
      · exact absurd z (List.not_mem_nil _)
      · exact hXpre z
    · exact hXpost y
  have hX1 : h1.GetState X = .Finished := by
    rw [(pass_frozen dt post _ Am Rm h1 A1 R1 hres2).state_eq X (by rw [hfin]; decide)
      (by rw [hfin]; decide)]
    exact hfin
  have hshape := seg.shape
  generalize UAutomationGraphExecutor.Execute h ex dt = s1 at hnode htr hmem ⊢
  have hstate : ∀ u, s1.1.1.GetState u = h1.GetState u := by
    intro u
    unfold Heap.GetState
    rw [hnode]
  have hXin : X ∈ s1.1.2.ActiveNodes := (hmem X).mpr ⟨Or.inl hXL, hXR⟩
  have hXfin : s1.1.1.GetState X = .Finished := by rw [hstate]; exact hX1
  refine ⟨⟨hXin, hXfin⟩, ?_, ?_, ?_⟩
  · intro c hcnt
    obtain ⟨ev, hev, hcause⟩ := pass_activate_cause dt ex.ActiveNodes h h1 A1 R1 hres
    have ttotal : s1.1.1.Trace = h.Trace ++ (ev ++ R1.map Call.Cleanup) := by
      rw [htr, hev, List.append_assoc]
    rw [CallsSince_of_trace ttotal] at hcnt
    obtain ⟨e, he, hp⟩ := List.countP_pos_iff.mp (Nat.pos_of_ne_zero hcnt)
    rcases List.mem_append.mp he with y | y
    · rcases hcause e y c hp with z | ⟨F, hF, hFs, hFc⟩
      · exact Or.inl z
      · refine Or.inr ⟨F, (hR F hF).1, fun x => hXR (x ▸ hF), by rw [hstate]; exact hFs, ?_, hFc⟩
        intro hx
        exact ((hmem F).mp hx).2 hF
    · obtain ⟨u, _, hu⟩ := List.mem_map.mp y
      rw [← hu] at hp
      simp [Call.isActivateOn] at hp
  · intro c hcan
    obtain ⟨ev2, hev2, hdis⟩ := pass_activates_or_keeps dt c post _ Am Rm h1 A1 R1 hres2 hcan
    have ttotal : s1.1.1.Trace = (hm.Activate X dt).1.Trace ++ (ev2 ++ R1.map Call.Cleanup) := by
      rw [htr, hev2, List.append_assoc]
    rcases hdis with y | y
    · left
      rw [CallsSince_of_trace ttotal, List.countP_append]
      omega
    · right
      rw [CanStartActivation_of_node_eq hnode c]
      exact y
  · intro dt2 ht2 hv2
    obtain ⟨k1, B1, S1, hres3, _, htr3, hmem3, _⟩ :=
      Execute_pass_summary s1.1.1 s1.1.2 dt2 hv2 ht2
    refine ⟨?_, ?_⟩
    · intro hx
      exact ((hmem3 X).mp hx).2
        (pass_removes_finished dt2 _ s1.1.1 [] [] k1 B1 S1 hres3 X hXin hXfin)
    · intro c hc hcan
      have hc1 : c ∈ (s1.1.1.Node X).ChildNodes := by
        rw [hnode, hshape.child]
        exact hc
      obtain ⟨ev, hev, hcnt, _⟩ :=
        pass_reaches_child dt2 _ s1.1.1 k1 B1 S1 hres3 X c hXin hXfin hc1 hcan
      have ttotal : (UAutomationGraphExecutor.Execute s1.1.1 s1.1.2 dt2).1.1.Trace =
          s1.1.1.Trace ++ (ev ++ S1.map Call.Cleanup) := by
        rw [htr3, hev, List.append_assoc]
      rw [CallsSince_of_trace ttotal, List.countP_append]
      omega

theorem ExecuteAll_reachable {n : Nat} (ds : List Rat) :
    ∀ s : Heap n × UAutomationGraphExecutor n, UAutomationGraphExecutor.Reachable s.1 s.2 →
      UAutomationGraphExecutor.Reachable (UAutomationGraphExecutor.ExecuteAll ds s).1
        (UAutomationGraphExecutor.ExecuteAll ds s).2 := by
  induction ds with
  | nil => intro s hs; exact hs
  | cons d ds ih =>
    intro s hs
    exact ih _ (UAutomationGraphExecutor.Reachable.execute d hs)

theorem exDiamondSlowBAfter4_reachable :
    UAutomationGraphExecutor.Reachable exDiamondSlowBAfter4.1 exDiamondSlowBAfter4.2 :=
  ExecuteAll_reachable [1, 1, 1, 1] _
    (UAutomationGraphExecutor.Reachable.start exTask
      (UAutomationGraphExecutor.Reachable.fresh exDiamondSlowB 0))

/-- The diamond with `B` slow: the fifth `Execute` call finds `B` `Active` and
`C` `Finished`; its `Activate` call on `B` leaves `B` `Finished`, and then the
child loop of `C` makes an `Activate` call on `D`, within the same call. -/
theorem Execute_child_activated_through_other_parent :
    exDiamondSlowBAfter4.2.ActiveNodes = [1, 2] ∧
    exDiamondSlowBAfter4.1.GetState 1 = .Active ∧
    exDiamondSlowBAfter4.1.GetState 2 = .Finished ∧
    (UAutomationGraphExecutor.Execute exDiamondSlowBAfter4.1 exDiamondSlowBAfter4.2
      1).1.1.GetState 1 = .Finished ∧
    (UAutomationGraphExecutor.Execute exDiamondSlowBAfter4.1 exDiamondSlowBAfter4.2
      1).1.1.CallsSince exDiamondSlowBAfter4.1 =
      [.Activate 1 1 .Active true, .Activate 3 1 .Standby true, .Cleanup 2] ∧
    (UAutomationGraphExecutor.Execute exDiamondSlowBAfter4.1 exDiamondSlowBAfter4.2
      1).1.2.ActiveNodes = [1, 3] := by
  decide!

/-- C8, amended, at two inputs. In the chain `A → B` the second `Execute` call
is the one in which `A` finishes: `A` is tracked and `Finished` when it returns
and `B` is eligible then; the third `Execute` call removes `A` and makes an
`Activate` call on `B`. In the diamond with `B` slow the fifth `Execute` call
is the one in which `B` finishes: `B` is tracked and `Finished` when it
returns, and `D`, which that call has activated, is a child of another tracked
node found `Finished` and removed. -/
theorem Execute_children_activated_in_next_pass_witness :
    (((0 : Fin 2) ∈ (UAutomationGraphExecutor.Execute (exChainAfter 1).1 (exChainAfter 1).2
        1).1.2.ActiveNodes ∧
      (UAutomationGraphExecutor.Execute (exChainAfter 1).1 (exChainAfter 1).2
        1).1.1.GetState 0 = .Finished) ∧
     (UAutomationGraphExecutor.Execute (exChainAfter 1).1 (exChainAfter 1).2
        1).1.1.CanStartActivation 1 = true ∧
     (0 : Fin 2) ∉ (UAutomationGraphExecutor.Execute
        (UAutomationGraphExecutor.Execute (exChainAfter 1).1 (exChainAfter 1).2 1).1.1
        (UAutomationGraphExecutor.Execute (exChainAfter 1).1 (exChainAfter 1).2 1).1.2
        1).1.2.ActiveNodes ∧
     0 < ((UAutomationGraphExecutor.Execute
        (UAutomationGraphExecutor.Execute (exChainAfter 1).1 (exChainAfter 1).2 1).1.1
        (UAutomationGraphExecutor.Execute (exChainAfter 1).1 (exChainAfter 1).2 1).1.2
        1).1.1.CallsSince
      (UAutomationGraphExecutor.Execute (exChainAfter 1).1 (exChainAfter 1).2 1).1.1).countP
      (Call.isActivateOn 1)) ∧
    (((1 : Fin 4) ∈ (UAutomationGraphExecutor.Execute exDiamondSlowBAfter4.1
        exDiamondSlowBAfter4.2 1).1.2.ActiveNodes ∧
      (UAutomationGraphExecutor.Execute exDiamondSlowBAfter4.1 exDiamondSlowBAfter4.2
        1).1.1.GetState 1 = .Finished) ∧
     ((3 : Fin 4) ∈ exDiamondSlowBAfter4.2.ActiveNodes ∨
      ∃ F ∈ exDiamondSlowBAfter4.2.ActiveNodes, F ≠ 1 ∧
        (UAutomationGraphExecutor.Execute exDiamondSlowBAfter4.1 exDiamondSlowBAfter4.2
          1).1.1.GetState F = .Finished ∧
        F ∉ (UAutomationGraphExecutor.Execute exDiamondSlowBAfter4.1 exDiamondSlowBAfter4.2
          1).1.2.ActiveNodes ∧
        (3 : Fin 4) ∈ (exDiamondSlowBAfter4.1.Node F).ChildNodes)) :=
  have hw := Execute_children_activated_in_next_pass (exChainAfter 1).1 (exChainAfter 1).2 1
    (exChainAfter_reachable 1) (by decide!) (by decide!) [] [] 0 (by decide!)
    (exChainAfter 1).1 [] [] rfl (by decide!) (by decide!)
  have hn := hw.2.2.2 1 (by decide!) (by decide!)
  have hd := Execute_children_activated_in_next_pass exDiamondSlowBAfter4.1
    exDiamondSlowBAfter4.2 1 exDiamondSlowBAfter4_reachable (by decide!) (by decide!)
    [] [2] 1 (by decide!) exDiamondSlowBAfter4.1 [] [] rfl (by decide!) (by decide!)
  ⟨⟨hw.1, by decide!, hn.1, hn.2 1 (by decide!) (by decide!)⟩,
    ⟨hd.1, hd.2.1 3 (by decide!)⟩⟩

end AutomationGraph
